import Mathlib

/-!
# fplsol: the FP(Ł) satisfiability solver

A shallow embedding of the formula trees (`formula.cpp`), the LP facade
(`linear_program.cpp`) and the encoder and feasibility engine (`solver.cpp`),
followed by theorems about them.

Conventions of the embedding.
* `double` data stored in the LP (coefficients, bounds, right-hand sides) are exact
  rationals; `±infinity` is `none`.
* The arithmetic that the program itself performs on the answers of the LP solver, the
  accumulation of the reduced cost in the exhaustive pricing, is the binary64 arithmetic of
  `DoubleValue`: every result is rounded to the nearest `double`, ties to even. The values
  of `evaluateCPL` are 0 and 1, on which its `double` arithmetic is exact.
* An assignment of values to the LP variables is a function `Nat → α` from variable
  indices into an arbitrary linearly ordered field `α` (so the theorems hold for the
  rationals and for the reals alike).
* `std::unordered_map<std::string,int>` is an association list, newest binding first.
* Formula trees are the well-formed ones: a `VAR` node carries a name, a `NOT` node has a
  left child, a binary node has both children, a `P_ATOM` node has its CPL formula.
-/

namespace FPLSol

/-! ## formula.h / formula.cpp -/

/-- The enum `CPLConnective`. -/
inductive CPLConnective
  | VAR | NOT | AND | OR | IMPLIES | IFF
  deriving DecidableEq, Repr

/-- The enum `ModalConnective`. -/
inductive ModalConnective
  | P_ATOM | NOT | AND | OR | IMPLIES | IFF | OPLUS | ODOT
  deriving DecidableEq, Repr

/-- The connectives of `CPLConnective` that label a node with two children. -/
inductive CPLBinary
  | AND | OR | IMPLIES | IFF
  deriving DecidableEq, Repr

/-- The connectives of `ModalConnective` that label a node with two children. -/
inductive ModalBinary
  | AND | OR | IMPLIES | IFF | OPLUS | ODOT
  deriving DecidableEq, Repr

/-- Well-formed `CPLFormula` trees, built by `CPLFormula::variable`,
`CPLFormula::unary(NOT, ·)` and `CPLFormula::binary`. -/
inductive CPLFormula
  | var (name : String)
  | not (operand : CPLFormula)
  | binary (op : CPLBinary) (lhs rhs : CPLFormula)
  deriving DecidableEq, Repr

/-- Well-formed `ModalFormula` trees, built by `ModalFormula::patom`,
`ModalFormula::unary(NOT, ·)` and `ModalFormula::binary`. -/
inductive ModalFormula
  | patom (phi : CPLFormula)
  | not (operand : ModalFormula)
  | binary (op : ModalBinary) (lhs rhs : ModalFormula)
  deriving DecidableEq, Repr

/-- The field `op` of a `CPLFormula` node. -/
def CPLBinary.toConnective : CPLBinary → CPLConnective
  | .AND => .AND
  | .OR => .OR
  | .IMPLIES => .IMPLIES
  | .IFF => .IFF

/-- The field `op` of a binary `ModalFormula` node. -/
def ModalBinary.toConnective : ModalBinary → ModalConnective
  | .AND => .AND
  | .OR => .OR
  | .IMPLIES => .IMPLIES
  | .IFF => .IFF
  | .OPLUS => .OPLUS
  | .ODOT => .ODOT

/-- The infix text `CPLFormula::toString` puts between the two children. -/
def CPLBinary.infixText : CPLBinary → String
  | .AND => " ∧ "
  | .OR => " ∨ "
  | .IMPLIES => " → "
  | .IFF => " ↔ "

/-- The infix text `ModalFormula::toString` puts between the two children. -/
def ModalBinary.infixText : ModalBinary → String
  | .AND => " ∧ "
  | .OR => " ∨ "
  | .IMPLIES => " → "
  | .IFF => " ↔ "
  | .OPLUS => " ⊕ "
  | .ODOT => " ⊙ "

/-- `CPLFormula::toString` (the cache does not change the returned value). -/
def CPLFormula.toString : CPLFormula → String
  | .var name => name
  | .not l => "¬(" ++ l.toString ++ ")"
  | .binary op l r => "(" ++ l.toString ++ op.infixText ++ r.toString ++ ")"

/-- `ModalFormula::toString` (the cache does not change the returned value). -/
def ModalFormula.toString : ModalFormula → String
  | .patom phi => "P(" ++ phi.toString ++ ")"
  | .not l => "¬(" ++ l.toString ++ ")"
  | .binary op l r => "(" ++ l.toString ++ op.infixText ++ r.toString ++ ")"

/-- The character between the blanks of `CPLBinary.infixText`. -/
def CPLBinary.infixChar : CPLBinary → Char
  | .AND => '∧'
  | .OR => '∨'
  | .IMPLIES => '→'
  | .IFF => '↔'

/-- The character between the blanks of `ModalBinary.infixText`. -/
def ModalBinary.infixChar : ModalBinary → Char
  | .AND => '∧'
  | .OR => '∨'
  | .IMPLIES => '→'
  | .IFF => '↔'
  | .OPLUS => '⊕'
  | .ODOT => '⊙'

/-- The test `std::isalpha(c) || c == '_'` that starts an identifier in
`CPLParser::parsePrimary`. -/
def isIdentStart (c : Char) : Bool := c.isAlpha || c == '_'

/-- The test `std::isalnum(c) || c == '_'` that continues an identifier in
`CPLParser::parsePrimary`. -/
def isIdentChar (c : Char) : Bool := c.isAlphanum || c == '_'

/-- The name matches `[A-Za-z_][A-Za-z0-9_]*`. -/
def isIdentifier (s : String) : Bool :=
  match s.data with
  | [] => false
  | c :: cs => isIdentStart c && cs.all isIdentChar

/-- Every variable name of the CPL formula is an identifier. -/
def CPLFormula.wellFormed : CPLFormula → Bool
  | .var name => isIdentifier name
  | .not l => l.wellFormed
  | .binary _ l r => l.wellFormed && r.wellFormed

/-- Every variable name below the modal formula is an identifier. -/
def ModalFormula.wellFormed : ModalFormula → Bool
  | .patom phi => phi.wellFormed
  | .not l => l.wellFormed
  | .binary _ l r => l.wellFormed && r.wellFormed

/-- The subformulas of a modal formula, the formula itself first. -/
def ModalFormula.subformulas : ModalFormula → List ModalFormula
  | .patom phi => [.patom phi]
  | .not l => .not l :: l.subformulas
  | .binary op l r => .binary op l r :: (l.subformulas ++ r.subformulas)

/-- The rest of the text after a CPL formula does not continue an identifier. -/
def StopsIdent (r : List Char) : Prop := ∀ c ∈ r.head?, isIdentChar c = false

/-! ## `std::unordered_map<std::string,int>` -/

/-- An `unordered_map<string,int>` as an association list, newest binding first. -/
abbrev StrMap := List (String × Nat)

/-- The lookup `m.find(k)`. -/
def StrMap.find : StrMap → String → Option Nat
  | [], _ => none
  | (k', i) :: m, k => if k' = k then some i else StrMap.find m k

/-- The test `m.count(k)`. -/
def StrMap.count (m : StrMap) (k : String) : Bool := (m.find k).isSome

/-- The assignment `m[k] = i` for a key that is not yet bound. -/
def StrMap.insert (m : StrMap) (k : String) (i : Nat) : StrMap := (k, i) :: m

/-- The read `m[k]`: an unbound key is bound to `0` first. -/
def StrMap.index (m : StrMap) (k : String) : Nat × StrMap :=
  match m.find k with
  | some i => (i, m)
  | none => (0, (k, 0) :: m)

/-! ## linear_program.h / linear_program.cpp -/

/-- The constants `LinearProgram::LE`, `GE`, `EQ`. -/
inductive Sense
  | LE | GE | EQ
  deriving DecidableEq, Repr

/-- A row `LPRow(lhs, rowVec, rhs)`; `none` is `-infinity` for `lhs`, `+infinity` for `rhs`. -/
structure LPRow where
  lhs : Option ℚ
  rowVec : List (Nat × ℚ)
  rhs : Option ℚ
  deriving DecidableEq

/-- A column `LPCol(obj, colVec, upper, lower)`; the column vector lives in the rows. -/
structure LPCol where
  obj : ℚ
  upper : Option ℚ
  lower : Option ℚ
  deriving DecidableEq

/-- The class `LinearProgram`: the solver's columns and rows, and the name tables. -/
structure LinearProgram where
  cols : List LPCol
  rows : List LPRow
  varNames : List String
  nameToIndex : StrMap
  deriving DecidableEq

/-- The constructor `LinearProgram::LinearProgram()`. -/
def LinearProgram.empty : LinearProgram := ⟨[], [], [], []⟩

/-- The row that `LinearProgram::addConstraint(terms, sense, rhs)` hands to the solver. -/
def LPRow.ofConstraint (terms : List (Nat × ℚ)) (sense : Sense) (rhs : ℚ) : LPRow :=
  match sense with
  | .LE => ⟨none, terms, some rhs⟩
  | .GE => ⟨some rhs, terms, none⟩
  | .EQ => ⟨some rhs, terms, some rhs⟩

namespace LinearProgram

/-- `LinearProgram::addVariable`: returns the program and the new index. -/
def addVariable (lp : LinearProgram) (name : String) (lb ub : Option ℚ) :
    LinearProgram × Nat :=
  ({ lp with
      cols := lp.cols ++ [⟨0, ub, lb⟩]
      varNames := lp.varNames ++ [name]
      nameToIndex := (name, lp.varNames.length) :: lp.nameToIndex },
   lp.varNames.length)

/-- `LinearProgram::addConstraint`. -/
def addConstraint (lp : LinearProgram) (terms : List (Nat × ℚ)) (sense : Sense) (rhs : ℚ) :
    LinearProgram :=
  { lp with rows := lp.rows ++ [LPRow.ofConstraint terms sense rhs] }

/-- `LinearProgram::numRows`. -/
def numRows (lp : LinearProgram) : Nat := lp.rows.length

end LinearProgram

/-- Apply `f` to the entry at position `i` of a list (no change when `i` is out of range). -/
def modifyAt {β : Type} (f : β → β) : Nat → List β → List β
  | _, [] => []
  | 0, b :: bs => f b :: bs
  | i + 1, b :: bs => b :: modifyAt f i bs

namespace LinearProgram

/-- `LinearProgram::addCoefficientToRow`: the row is read, the entry is appended, and the
row is written back with its bounds unchanged. -/
def addCoefficientToRow (lp : LinearProgram) (row varIdx : Nat) (value : ℚ) : LinearProgram :=
  { lp with rows := modifyAt (fun r => { r with rowVec := r.rowVec ++ [(varIdx, value)] }) row lp.rows }

/-- `LinearProgram::setObjectiveCoefficient`. -/
def setObjectiveCoefficient (lp : LinearProgram) (varIdx : Nat) (coeff : ℚ) : LinearProgram :=
  { lp with cols := modifyAt (fun c => { c with obj := coeff }) varIdx lp.cols }

/-- `LinearProgram::getVarIndex` (`none` when the name is unknown and the code throws). -/
def getVarIndex (lp : LinearProgram) (name : String) : Option Nat := lp.nameToIndex.find name

end LinearProgram

/-! ## Assignments and what it means to satisfy a row -/

section Semantics

variable {α : Type} [LinearOrderedField α]

/-- The value of the linear form of a row under an assignment. -/
def LPRow.value (v : Nat → α) (r : LPRow) : α :=
  (r.rowVec.map fun t => (t.2 : α) * v t.1).sum

/-- The row bounds hold: `lhs ≤ value ≤ rhs`. -/
def LPRow.sat (v : Nat → α) (r : LPRow) : Prop :=
  (match r.lhs with
    | none => True
    | some l => (l : α) ≤ r.value v) ∧
  (match r.rhs with
    | none => True
    | some u => r.value v ≤ (u : α))

instance LPRow.decidableSat (v : Nat → α) (r : LPRow) : Decidable (r.sat v) := by
  unfold LPRow.sat
  cases r.lhs <;> cases r.rhs <;> infer_instance

/-- The column bounds hold for the value `a`. -/
def LPCol.inBounds (c : LPCol) (a : α) : Prop :=
  (match c.lower with
    | none => True
    | some l => (l : α) ≤ a) ∧
  (match c.upper with
    | none => True
    | some u => a ≤ (u : α))

instance LPCol.decidableInBounds (c : LPCol) (a : α) : Decidable (c.inBounds a) := by
  unfold LPCol.inBounds
  cases c.lower <;> cases c.upper <;> infer_instance

end Semantics

/-! ## solver.cpp: the modal encoder -/

/-- An argument triple of `addConstraint`. -/
abbrev Constraint := List (Nat × ℚ) × Sense × ℚ

/-- The row added by the `case M::NOT` of `encodeModalFormula`. -/
def notConstraints (leftX xIdx : Nat) : List Constraint :=
  [([(leftX, -1), (xIdx, 1)], .EQ, 1)]

/-- The four rows added by the binary cases of the `switch` in `encodeModalFormula`. -/
def binaryConstraints (op : ModalBinary) (leftX rightX xIdx bIdx : Nat) : List Constraint :=
  match op with
  | .OPLUS =>
    [([(bIdx, 1), (xIdx, -1)], .LE, 0),
     ([(xIdx, 1)], .LE, 1),
     ([(leftX, 1), (rightX, 1), (bIdx, -1), (xIdx, -1)], .LE, 0),
     ([(leftX, -1), (rightX, -1), (xIdx, 1)], .LE, 0)]
  | .ODOT =>
    [([(xIdx, 1)], .GE, 0),
     ([(xIdx, 1), (bIdx, -1)], .LE, 0),
     ([(leftX, 1), (rightX, 1), (xIdx, -1)], .GE, 1),
     ([(leftX, 1), (rightX, 1), (bIdx, -1), (xIdx, -1)], .LE, 0)]
  | .AND =>
    [([(leftX, 1), (bIdx, -1), (xIdx, -1)], .LE, 0),
     ([(leftX, -1), (xIdx, 1)], .LE, 0),
     ([(rightX, 1), (bIdx, 1), (xIdx, -1)], .LE, 1),
     ([(rightX, -1), (xIdx, 1)], .LE, 0)]
  | .OR =>
    [([(leftX, 1), (xIdx, -1)], .LE, 0),
     ([(leftX, -1), (xIdx, 1), (bIdx, -1)], .LE, 0),
     ([(rightX, 1), (xIdx, -1)], .LE, 0),
     ([(rightX, -1), (xIdx, 1), (bIdx, 1)], .LE, 1)]
  | .IMPLIES =>
    [([(bIdx, 1), (xIdx, -1)], .LE, 0),
     ([(xIdx, 1)], .LE, 1),
     ([(leftX, 1), (rightX, -1), (bIdx, 1), (xIdx, 1)], .GE, 1),
     ([(leftX, 1), (rightX, -1), (xIdx, 1)], .LE, 1)]
  | .IFF =>
    [([(leftX, 1), (rightX, -1), (bIdx, 2), (xIdx, 1)], .GE, 1),
     ([(leftX, 1), (rightX, -1), (xIdx, 1)], .LE, 1),
     ([(leftX, 1), (rightX, -1), (bIdx, 2), (xIdx, -1)], .LE, 1),
     ([(leftX, -1), (rightX, 1), (xIdx, 1)], .LE, 1)]

/-- The row of a constraint triple. -/
def Constraint.row (c : Constraint) : LPRow := LPRow.ofConstraint c.1 c.2.1 c.2.2

/-- Successive calls of `addConstraint`. -/
def LinearProgram.addConstraints (lp : LinearProgram) (cs : List Constraint) : LinearProgram :=
  cs.foldl (fun lp c => lp.addConstraint c.1 c.2.1 c.2.2) lp

/-- The maps and the program that `encodeModalFormula` updates. -/
structure EncState where
  lp : LinearProgram
  xVars : StrMap
  bVars : StrMap
  deriving DecidableEq

/-- `FPSolver::encodeModalFormula`. -/
def encodeModalFormula (f : ModalFormula) (st : EncState) : EncState :=
  if st.xVars.count f.toString then st
  else
    match f with
    | .patom _ =>
      let a := st.lp.addVariable ("x(" ++ f.toString ++ ")") (some 0) (some 1)
      { st with lp := a.1, xVars := st.xVars.insert f.toString a.2 }
    | .not l =>
      let st1 := encodeModalFormula l st
      let lx := st1.xVars.index l.toString
      let a := st1.lp.addVariable ("x(" ++ f.toString ++ ")") (some 0) (some 1)
      { lp := a.1.addConstraints (notConstraints lx.1 a.2)
        xVars := StrMap.insert lx.2 f.toString a.2
        bVars := st1.bVars }
    | .binary op l r =>
      let st1 := encodeModalFormula l st
      let lx := st1.xVars.index l.toString
      let st2 := encodeModalFormula r { st1 with xVars := lx.2 }
      let rx := st2.xVars.index r.toString
      let a := st2.lp.addVariable ("x(" ++ f.toString ++ ")") (some 0) (some 1)
      let b := a.1.addVariable ("b(" ++ f.toString ++ ")") (some 0) (some 1)
      { lp := b.1.addConstraints (binaryConstraints op lx.1 rx.1 a.2 b.2)
        xVars := StrMap.insert rx.2 f.toString a.2
        bVars := st2.bVars.insert f.toString b.2 }

/-! ## solver.cpp: the head of `FPSolver::solve` -/

/-- The first loop of `FPSolver::solve`: every input formula is encoded. -/
def encodeAll (formulas : List ModalFormula) (st : EncState) : EncState :=
  formulas.foldl (fun st f => encodeModalFormula f st) st

/-- The second loop of `FPSolver::solve`: the assertion row `x(f) = 1` of every input
formula; `none` when the code throws "formula not translated". -/
def addAssertions : List ModalFormula → StrMap → LinearProgram → Option LinearProgram
  | [], _, lp => some lp
  | f :: fs, xVars, lp =>
    match xVars.find f.toString with
    | none => none
    | some i => addAssertions fs xVars (lp.addConstraint [(i, 1)] .EQ 1)

/-- The state of `FPSolver::solve` after its first two loops, from an empty program. -/
def encodeAndAssert (formulas : List ModalFormula) : Option EncState :=
  let st := encodeAll formulas ⟨LinearProgram.empty, [], []⟩
  (addAssertions formulas st.xVars st.lp).map fun lp => { st with lp := lp }

/-- The static function `collectPatoms`: the formulas `φ` of the atoms `Pφ`, one entry per
occurrence, in traversal order. -/
def collectPatoms : ModalFormula → List CPLFormula → List CPLFormula
  | .patom phi, out => out ++ [phi]
  | .not l, out => collectPatoms l out
  | .binary _ l r, out => collectPatoms r (collectPatoms l out)

/-- The third loop of `FPSolver::solve`: `psiList`. -/
def collectAllPatoms (formulas : List ModalFormula) : List CPLFormula :=
  formulas.foldl (fun out f => collectPatoms f out) []

/-- The fourth loop of `FPSolver::solve`: the seed row `−x(Pψ) = 0` of every entry of
`psiList`, and the list `probConstraintRows`; `none` when the code throws "Variable not
found". -/
def addSeedRows : List CPLFormula → StrMap → LinearProgram × List Nat →
    Option (LinearProgram × List Nat)
  | [], _, acc => some acc
  | psi :: rest, xVars, acc =>
    match xVars.find (ModalFormula.patom psi).toString with
    | none => none
    | some xIdx =>
      addSeedRows rest xVars
        (acc.1.addConstraint [(xIdx, -1)] .EQ 0,
         acc.2 ++ [(acc.1.addConstraint [(xIdx, -1)] .EQ 0).numRows - 1])

/-- The body of the slack loop of `FPSolver::solve` for the row `row`. -/
def addSlack (lp : LinearProgram) (row : Nat) : LinearProgram :=
  ((lp.addVariable ("i(" ++ toString row ++ ")") (some 0) none).1.addCoefficientToRow row
      lp.varNames.length 1).setObjectiveCoefficient lp.varNames.length 1

/-- The slack loop of `FPSolver::solve` over the rows `0 .. numInitialRows − 1`. -/
def addSlacks (lp : LinearProgram) (numInitialRows : Nat) : LinearProgram :=
  (List.range numInitialRows).foldl addSlack lp

/-- What `FPSolver::solve` has built when it first calls `isFeasible`. -/
structure RootLP where
  lp : LinearProgram
  xVars : StrMap
  bVars : StrMap
  psiList : List CPLFormula
  probConstraintRows : List Nat
  sumProbRow : Nat
  deriving DecidableEq

/-- The part of `FPSolver::solve` after the assertion rows: seed rows, normalization row and
slack variables. -/
def finishRootLP (formulas : List ModalFormula) (st : EncState) : Option RootLP :=
  match addSeedRows (collectAllPatoms formulas) st.xVars (st.lp, []) with
  | none => none
  | some acc =>
    some
      { lp := addSlacks (acc.1.addConstraint [] .EQ 1) (acc.1.addConstraint [] .EQ 1).numRows
        xVars := st.xVars
        bVars := st.bVars
        psiList := collectAllPatoms formulas
        probConstraintRows := acc.2
        sumProbRow := (acc.1.addConstraint [] .EQ 1).numRows - 1 }

/-- The root program of `FPSolver::solve`; `none` when the code throws. -/
def buildRootLP (formulas : List ModalFormula) : Option RootLP :=
  match encodeAndAssert formulas with
  | none => none
  | some st => finishRootLP formulas st

/-! ## solver.cpp: preprocessing and classical evaluation -/

/-- `CPLFormula::collectPropVars`. -/
def CPLFormula.collectPropVars : CPLFormula → StrMap → StrMap
  | .var name, m => if m.count name then m else m.insert name m.length
  | .not l, m => l.collectPropVars m
  | .binary _ l r, m => r.collectPropVars (l.collectPropVars m)

/-- `ModalFormula::collectPropVars`. -/
def ModalFormula.collectPropVars : ModalFormula → StrMap → StrMap
  | .patom phi, m => phi.collectPropVars m
  | .not l, m => l.collectPropVars m
  | .binary _ l r, m => r.collectPropVars (l.collectPropVars m)

/-- The table `propVarToId` after `FPSolver::preprocess`. -/
def propVarTable (formulas : List ModalFormula) : StrMap :=
  formulas.foldl (fun m f => f.collectPropVars m) []

/-- The vector `varList` after `FPSolver::preprocess`: resized to the size of the table, then
`varList[id] = v` for every binding. -/
def varListOf (m : StrMap) : List String :=
  m.foldl (fun vl e => vl.set e.2 e.1) (List.replicate m.length "")

/-- A `std::unordered_map<std::string,bool>`, newest binding first. -/
abbrev BoolMap := List (String × Bool)

/-- The lookup `val.at(k)`; `none` when it throws. -/
def BoolMap.at : BoolMap → String → Option Bool
  | [], _ => none
  | (k', b) :: m, k => if k' = k then some b else BoolMap.at m k

/-- The map built by `evaluateCPL(f, varList, valuation)`: `val[varList[i]] = valuation[i]`. -/
def valuationMap (varList : List String) (valuation : List Bool) : BoolMap :=
  (varList.zip valuation).reverse

/-- `FPSolver::evaluateCPL(f, val)`; `none` when a variable is not in the map. -/
def evaluateCPL : CPLFormula → BoolMap → Option ℚ
  | .var name, val => (val.at name).map fun b => if b then 1 else 0
  | .not l, val => (evaluateCPL l val).map fun a => 1 - a
  | .binary op l r, val =>
    match evaluateCPL l val, evaluateCPL r val with
    | some a, some b =>
      some (match op with
        | .AND => min a b
        | .OR => max a b
        | .IMPLIES => max (1 - a) b
        | .IFF => if a = b then 1 else 0)
    | _, _ => none

/-! ## solver.cpp: the columns of the feasibility engine -/

/-- The entries `(row, ψᵢ(w))` of the column of the valuation `w` in the coherence rows, kept
when `abs(val) > 1e-8`; `none` when `evaluateCPL` throws. -/
def columnEntries : List (CPLFormula × Nat) → List String → List Bool →
    Option (List (Nat × ℚ))
  | [], _, _ => some []
  | e :: rest, varList, w =>
    match evaluateCPL e.1 (valuationMap varList w), columnEntries rest varList w with
    | some val, some es => some (if |val| > 1 / 100000000 then (e.2, val) :: es else es)
    | _, _ => none

/-- The vector `column` of `addNewProbabilisticCoherenceConstraint`: the entries in the
coherence rows followed by the entry 1 in the normalization row. -/
def newColumn (root : RootLP) (varList : List String) (w : List Bool) :
    Option (List (Nat × ℚ)) :=
  (columnEntries (root.psiList.zip root.probConstraintRows) varList w).map
    fun es => es ++ [(root.sumProbRow, 1)]

/-- A new variable `p(·)` with bounds `[0,1]` and its entries, added with
`addCoefficientToRow`. -/
def addColumn (lp : LinearProgram) (name : String) (column : List (Nat × ℚ)) : LinearProgram :=
  column.foldl (fun q e => q.addCoefficientToRow e.1 lp.varNames.length e.2)
    (lp.addVariable name (some 0) (some 1)).1

/-- The program after the feasibility engine has added the columns of the given valuations
under the given names, in this order; `none` when `evaluateCPL` throws. -/
def addColumns (root : RootLP) (varList : List String) :
    LinearProgram → List (String × List Bool) → Option LinearProgram
  | lp, [] => some lp
  | lp, c :: rest =>
    match newColumn root varList c.2 with
    | none => none
    | some column => addColumns root varList (addColumn lp c.1 column) rest

/-- The vector `zeroValuation` of `isFeasible`. -/
def zeroValuation (varList : List String) : List Bool := List.replicate varList.length false

/-- The valuation with bitmask `w` built by the exhaustive search of
`addNewProbabilisticCoherenceConstraint`: `valuation[i] = (w >> i) & 1`. -/
def valuationOfMask (n w : Nat) : List Bool :=
  (List.range n).map fun i => decide ((w >>> i) % 2 = 1)

/-- The name `"p(" + to_string(w) + ")"` of the column of the bitmask `w`. -/
def columnName (w : Nat) : String := "p(" ++ toString w ++ ")"

/-- The columns of all `2ⁿ` valuations, in the order of the exhaustive search. -/
def allColumns (n : Nat) : List (String × List Bool) :=
  (List.range (2 ^ n)).map fun w => (columnName w, valuationOfMask n w)

/-- The complete system of `FPSolver::solve`: the root program with the column `p(w)` of every
classical valuation `w` of the variables of the input; `none` when the code throws. -/
def fullSystem (formulas : List ModalFormula) : Option LinearProgram :=
  match buildRootLP formulas with
  | none => none
  | some root =>
    addColumns root (varListOf (propVarTable formulas)) root.lp
      (allColumns (varListOf (propVarTable formulas)).length)

/-- The name of a slack variable begins with `i(`. -/
def isSlackName (name : String) : Bool := "i(".data.isPrefixOf name.data

/-- The test `name.rfind("b(", 0) == 0` of `LinearProgram::getBinaryVariableNames`. -/
def isBinaryName (name : String) : Bool := "b(".data.isPrefixOf name.data

/-! ## Łukasiewicz semantics and satisfaction of constraints -/

section SemanticsDefs

variable {α : Type} [LinearOrderedField α]

/-- All rows of a list of constraints hold under `v`. -/
def constraintsSat (v : Nat → α) (cs : List Constraint) : Prop :=
  ∀ c ∈ cs, c.row.sat v

/-- Łukasiewicz negation `¬a = 1 − a`. -/
def lukNot (a : α) : α := 1 - a

/-- The Łukasiewicz truth functions of the binary connectives: `∧` is min, `∨` is max,
`→` is `min(1, 1 − a + b)`, `↔` is `1 − |a − b|`, `⊕` is `min(1, a + b)` and
`⊙` is `max(0, a + b − 1)`. -/
def ModalBinary.luk (op : ModalBinary) (a b : α) : α :=
  match op with
  | .AND => min a b
  | .OR => max a b
  | .IMPLIES => min 1 (1 - a + b)
  | .IFF => 1 - |a - b|
  | .OPLUS => min 1 (a + b)
  | .ODOT => max 0 (a + b - 1)

/-- The Łukasiewicz value of a modal formula when the atom `Pψ` has the value `pv ψ`. -/
def ModalFormula.lukEval (pv : CPLFormula → α) : ModalFormula → α
  | .patom phi => pv phi
  | .not l => lukNot (l.lukEval pv)
  | .binary op l r => op.luk (l.lukEval pv) (r.lukEval pv)

/-- The assignment giving the values `L`, `R`, `X` to the indices 0, 1, 2 and `B` to every
other index. -/
def assign4 (L R X B : α) : Nat → α
  | 0 => L
  | 1 => R
  | 2 => X
  | _ => B

/-- The assignment respects the bounds of every column and satisfies every row. -/
def LinearProgram.Feasible (lp : LinearProgram) (v : Nat → α) : Prop :=
  (∀ (i : Nat) (c : LPCol), lp.cols[i]? = some c → c.inBounds (v i)) ∧ ∀ r ∈ lp.rows, r.sat v

/-- Every variable whose name begins with `b(` has the value 0 or 1. -/
def LinearProgram.Integral (lp : LinearProgram) (v : Nat → α) : Prop :=
  ∀ (i : Nat) (name : String), lp.varNames[i]? = some name → isBinaryName name = true → v i = 0 ∨ v i = 1

/-- The atom values read off the assignment: `Pψ` has the value of the variable `x(Pψ)`. -/
def atomValues (xVars : StrMap) (v : Nat → α) (psi : CPLFormula) : α :=
  v ((xVars.find (ModalFormula.patom psi).toString).getD 0)

/-- The function `pv` gives every atom bound in `xs` the value of its variable. -/
def Agree (xs : StrMap) (v : Nat → α) (pv : CPLFormula → α) : Prop :=
  ∀ psi j, xs.find (ModalFormula.patom psi).toString = some j → pv psi = v j

/-- The variable `i` stands for the formula `g` in the state `st`: the subformulas of `g`
are bound, and feasible integral assignments give `i` the Łukasiewicz value of `g`. -/
def Good (α : Type) [LinearOrderedField α] (st : EncState) (g : ModalFormula) (i : Nat) :
    Prop :=
  (∀ h ∈ g.subformulas, (st.xVars.find h.toString).isSome = true) ∧
  ∀ v : Nat → α, st.lp.Feasible v → st.lp.Integral v →
    (0 ≤ v i ∧ v i ≤ 1) ∧ ∀ pv, Agree st.xVars v pv → v i = g.lukEval pv

/-- The invariant of the encoder: every bound well-formed formula is well represented. -/
def EncInv (α : Type) [LinearOrderedField α] (st : EncState) : Prop :=
  st.lp.cols.length = st.lp.varNames.length ∧
  ∀ g : ModalFormula, g.wellFormed = true → ∀ i, st.xVars.find g.toString = some i →
    Good α st g i

/-- The state `st2` extends `st1`: bound keys stay bound, atoms keep their variable, and the
columns, names and rows of `st1` are a prefix of those of `st2`. -/
def EncState.Ext (st1 st2 : EncState) : Prop :=
  (∀ k, (st1.xVars.find k).isSome = true → (st2.xVars.find k).isSome = true) ∧
  (∀ psi j, st1.xVars.find (ModalFormula.patom psi).toString = some j →
    st2.xVars.find (ModalFormula.patom psi).toString = some j) ∧
  st1.lp.cols <+: st2.lp.cols ∧ st1.lp.varNames <+: st2.lp.varNames ∧
  st1.lp.rows <+: st2.lp.rows

/-- The sum `Σₖ cₖ · v(n + k)` over a list of coefficients. -/
def weightedSum (v : Nat → α) : Nat → List ℚ → α
  | _, [] => 0
  | n, c :: cs => (c : α) * v n + weightedSum v (n + 1) cs

/-- The objective `Σᵢ objᵢ · v(i + k)` over a list of columns. -/
def objectiveFrom (v : Nat → α) : Nat → List LPCol → α
  | _, [] => 0
  | n, c :: cs => (c.obj : α) * v n + objectiveFrom v (n + 1) cs

/-- The objective value of an assignment. -/
def LinearProgram.objective (lp : LinearProgram) (v : Nat → α) : α :=
  objectiveFrom v 0 lp.cols

/-- The row `r` of the program has the bounds `lo`, `hi` and the linear form `F`. -/
def RowIs (lp : LinearProgram) (r : Nat) (lo hi : Option ℚ) (F : (Nat → α) → α) : Prop :=
  ∃ row, lp.rows[r]? = some row ∧ row.lhs = lo ∧ row.rhs = hi ∧
    ∀ v : Nat → α, row.value v = F v

/-- The name and column tables are in step, every column has the lower bound 0 and a
nonnegative objective coefficient. -/
def LinearProgram.ColsOK (lp : LinearProgram) : Prop :=
  lp.cols.length = lp.varNames.length ∧ ∀ c ∈ lp.cols, c.lower = some 0 ∧ 0 ≤ c.obj

/-- The coefficient that a list of column entries puts into the row `r`. -/
def coefAt (col : List (Nat × ℚ)) (r : Nat) : ℚ :=
  (col.map fun e => if e.1 = r then e.2 else 0).sum

/-- The classical value `ψ(w)` as the engine computes it (0 when `evaluateCPL` throws). -/
def cplValue (varList : List String) (psi : CPLFormula) (w : List Bool) : ℚ :=
  (evaluateCPL psi (valuationMap varList w)).getD 0

/-- The coefficient of the column of the valuation `w` in the row `r` (0 when
`evaluateCPL` throws). -/
def colCoef (root : RootLP) (varList : List String) (w : List Bool) (r : Nat) : ℚ :=
  ((newColumn root varList w).map fun col => coefAt col r).getD 0

/-- The name `"i(" + to_string(row) + ")"` of a slack variable. -/
def slackName (row : Nat) : String := "i(" ++ toString row ++ ")"

/-- Every slack variable has the value 0. -/
def LinearProgram.SlackFree (lp : LinearProgram) (v : Nat → α) : Prop :=
  ∀ (i : Nat) (name : String), lp.varNames[i]? = some name → isSlackName name = true → v i = 0

/-- A solution of the mixed-integer system: within the bounds, all rows satisfied, every
`b(·)` at 0 or 1 and every slack at 0. -/
def LinearProgram.Solution (lp : LinearProgram) (v : Nat → α) : Prop :=
  lp.Feasible v ∧ lp.Integral v ∧ lp.SlackFree v

/-- The probability of `psi` under the weights `mu` of the valuations `ws`. -/
def probability (varList : List String) (ws : List (List Bool)) (mu : List α)
    (psi : CPLFormula) : α :=
  ((ws.zip mu).map fun e => e.2 * (cplValue varList psi e.1 : α)).sum

/-- Satisfiability in FP(Ł): some probability distribution over the classical valuations of
the variables of the input makes every input formula evaluate to 1 under Łukasiewicz
semantics, each atom `Pψ` having as value the probability of `ψ`. -/
def FPSatisfiable (α : Type) [LinearOrderedField α] (formulas : List ModalFormula) : Prop :=
  ∃ mu : List α,
    mu.length = 2 ^ (varListOf (propVarTable formulas)).length ∧
    (∀ p ∈ mu, 0 ≤ p) ∧ mu.sum = 1 ∧
    ∀ f ∈ formulas,
      f.lukEval (probability (varListOf (propVarTable formulas))
        ((allColumns (varListOf (propVarTable formulas)).length).map fun c => c.2) mu) = 1

/-- The input line `¬¬P(p)`. -/
def doubleNegation : List ModalFormula := [.not (.not (.patom (.var "p")))]

/-- The input lines `P(p) ⊕ P(q)` and `P(p ∧ q) → P(p)`. -/
def exampleFormulas : List ModalFormula :=
  [.binary .OPLUS (.patom (.var "p")) (.patom (.var "q")),
   .binary .IMPLIES (.patom (.binary .AND (.var "p") (.var "q"))) (.patom (.var "p"))]

/-- The input line `¬P(p)`. -/
def negatedAtom : List ModalFormula := [.not (.patom (.var "p"))]

/-- The root program of `negatedAtom`. -/
def exampleRoot : RootLP :=
  (buildRootLP negatedAtom).getD ⟨LinearProgram.empty, [], [], [], [], 0⟩

/-- The program of `negatedAtom` after the engine has added the columns of the valuations
`p = 0` and `p = 1`. -/
def exampleEngineLP : LinearProgram :=
  (addColumns exampleRoot ["p"] (exampleRoot.lp.addConstraints [])
    [("p(0)", zeroValuation ["p"]), ("p(1)", [true])]).getD LinearProgram.empty

/-- The formulas `φ` of the atoms `Pφ` of a modal formula, one entry per occurrence, from
left to right. -/
def ModalFormula.atoms : ModalFormula → List CPLFormula
  | .patom phi => [phi]
  | .not l => l.atoms
  | .binary _ l r => l.atoms ++ r.atoms

/-- The distinct formulas `φ` of the atoms `Pφ` of the input. -/
def distinctAtoms (formulas : List ModalFormula) : List CPLFormula :=
  (collectAllPatoms formulas).dedup

/-- The seed row `−x(Pψ) = 0` that `solve` appends for the entry `psi` of `psiList`. -/
def seedRow (xVars : StrMap) (psi : CPLFormula) : LPRow :=
  LPRow.ofConstraint [((xVars.find (ModalFormula.patom psi).toString).getD 0, -1)] .EQ 0

/-- The input line `P(p) ⊕ P(p)`. -/
def repeatedAtom : List ModalFormula :=
  [.binary .OPLUS (.patom (.var "p")) (.patom (.var "p"))]

/-- The formulas of the atoms of all input formulas, one entry per occurrence, in input
order. -/
def allAtoms : List ModalFormula → List CPLFormula
  | [] => []
  | f :: fs => f.atoms ++ allAtoms fs

/-- A recursion budget that suffices to parse the canonical string of a CPL formula. -/
def CPLFormula.need : CPLFormula → Nat
  | .var _ => 2
  | .not l => l.need + 4
  | .binary _ l r => l.need + r.need + 3

/-- A recursion budget that suffices to parse the canonical string of a modal formula. -/
def ModalFormula.need : ModalFormula → Nat
  | .patom _ => 2
  | .not l => l.need + 4
  | .binary _ l r => l.need + r.need + 3

/-- The input line `A o1 B o2 C` for three atoms. -/
def threeAtomLine (o1 o2 : ModalBinary) (a b c : CPLFormula) : String :=
  (ModalFormula.patom a).toString ++ o1.infixText ++ (ModalFormula.patom b).toString ++
    o2.infixText ++ (ModalFormula.patom c).toString

/-- The input line `A o1 (B o2 C)` for three atoms. -/
def rightNestedLine (o1 o2 : ModalBinary) (a b c : CPLFormula) : String :=
  (ModalFormula.patom a).toString ++ o1.infixText ++
    (ModalFormula.binary o2 (.patom b) (.patom c)).toString

/-! ## formula.cpp: the string cache and `clone` -/

/-- A `CPLFormula` node with its cache fields: `cache` is `some s` when `cached` is set and
`cachedString` is `s`, and `none` while `cached` is false. -/
inductive CPLNode
  | var (cache : Option String) (name : String)
  | not (cache : Option String) (left : CPLNode)
  | binary (cache : Option String) (op : CPLBinary) (left right : CPLNode)
  deriving DecidableEq, Repr

/-- A `ModalFormula` node with its cache fields. -/
inductive ModalNode
  | patom (cache : Option String) (atom : CPLNode)
  | not (cache : Option String) (left : ModalNode)
  | binary (cache : Option String) (op : ModalBinary) (left right : ModalNode)
  deriving DecidableEq, Repr

/-- The tree of a node: its connective, name and children, without the cache fields. -/
def CPLNode.tree : CPLNode → CPLFormula
  | .var _ name => .var name
  | .not _ l => .not l.tree
  | .binary _ op l r => .binary op l.tree r.tree

/-- The tree of a node: its connective, atom and children, without the cache fields. -/
def ModalNode.tree : ModalNode → ModalFormula
  | .patom _ a => .patom a.tree
  | .not _ l => .not l.tree
  | .binary _ op l r => .binary op l.tree r.tree

/-- The cache fields of a node. -/
def CPLNode.cache : CPLNode → Option String
  | .var c _ => c
  | .not c _ => c
  | .binary c _ _ _ => c

/-- The cache fields of a node. -/
def ModalNode.cache : ModalNode → Option String
  | .patom c _ => c
  | .not c _ => c
  | .binary c _ _ _ => c

/-- `CPLFormula::toString` with its effect on the `mutable` cache fields: the returned
string and the node after the call. -/
def CPLNode.toString : CPLNode → String × CPLNode
  | .var (some s) name => (s, .var (some s) name)
  | .var none name => (name, .var (some name) name)
  | .not (some s) l => (s, .not (some s) l)
  | .not none l =>
    ("¬(" ++ l.toString.1 ++ ")", .not (some ("¬(" ++ l.toString.1 ++ ")")) l.toString.2)
  | .binary (some s) op l r => (s, .binary (some s) op l r)
  | .binary none op l r =>
    ("(" ++ l.toString.1 ++ op.infixText ++ r.toString.1 ++ ")",
      .binary (some ("(" ++ l.toString.1 ++ op.infixText ++ r.toString.1 ++ ")")) op
        l.toString.2 r.toString.2)

/-- `ModalFormula::toString` with its effect on the `mutable` cache fields. -/
def ModalNode.toString : ModalNode → String × ModalNode
  | .patom (some s) a => (s, .patom (some s) a)
  | .patom none a =>
    ("P(" ++ a.toString.1 ++ ")", .patom (some ("P(" ++ a.toString.1 ++ ")")) a.toString.2)
  | .not (some s) l => (s, .not (some s) l)
  | .not none l =>
    ("¬(" ++ l.toString.1 ++ ")", .not (some ("¬(" ++ l.toString.1 ++ ")")) l.toString.2)
  | .binary (some s) op l r => (s, .binary (some s) op l r)
  | .binary none op l r =>
    ("(" ++ l.toString.1 ++ op.infixText ++ r.toString.1 ++ ")",
      .binary (some ("(" ++ l.toString.1 ++ op.infixText ++ r.toString.1 ++ ")")) op
        l.toString.2 r.toString.2)

/-- `CPLFormula::clone`: a new node with `op`, `var` and cloned children; the cache fields
keep their default `cached = false`. -/
def CPLNode.clone : CPLNode → CPLNode
  | .var _ name => .var none name
  | .not _ l => .not none l.clone
  | .binary _ op l r => .binary none op l.clone r.clone

/-- `ModalFormula::clone`. -/
def ModalNode.clone : ModalNode → ModalNode
  | .patom _ a => .patom none a.clone
  | .not _ l => .not none l.clone
  | .binary _ op l r => .binary none op l.clone r.clone

/-- The cache `c` is empty or holds the string `s`. -/
def cacheHolds (c : Option String) (s : String) : Bool :=
  match c with
  | none => true
  | some s' => s' == s

/-- Every cache below the node that is set holds the canonical string of its node: the
states that the constructors and calls of `toString` and `clone` produce. -/
def CPLNode.consistent : CPLNode → Bool
  | .var c name => cacheHolds c name
  | .not c l => cacheHolds c (CPLFormula.not l.tree).toString && l.consistent
  | .binary c op l r =>
    cacheHolds c (CPLFormula.binary op l.tree r.tree).toString && l.consistent && r.consistent

/-- Every cache below the node that is set holds the canonical string of its node. -/
def ModalNode.consistent : ModalNode → Bool
  | .patom c a => cacheHolds c (ModalFormula.patom a.tree).toString && a.consistent
  | .not c l => cacheHolds c (ModalFormula.not l.tree).toString && l.consistent
  | .binary c op l r =>
    cacheHolds c (ModalFormula.binary op l.tree r.tree).toString && l.consistent &&
      r.consistent

/-- The node of a tree as `CPLFormula::variable`, `unary` and `binary` build it. -/
def CPLNode.ofTree : CPLFormula → CPLNode
  | .var name => .var none name
  | .not l => .not none (CPLNode.ofTree l)
  | .binary op l r => .binary none op (CPLNode.ofTree l) (CPLNode.ofTree r)

/-- The node of a tree as `ModalFormula::patom`, `unary` and `binary` build it. -/
def ModalNode.ofTree : ModalFormula → ModalNode
  | .patom phi => .patom none (CPLNode.ofTree phi).clone
  | .not l => .not none (ModalNode.ofTree l)
  | .binary op l r => .binary none op (ModalNode.ofTree l) (ModalNode.ofTree r)

/-! ## solver.cpp: the variable table -/

/-- The variable names of a CPL formula, one entry per occurrence, in the order in which
`collectPropVars` visits them. -/
def CPLFormula.vars : CPLFormula → List String
  | .var name => [name]
  | .not l => l.vars
  | .binary _ l r => l.vars ++ r.vars

/-- The variable names below a modal formula, one entry per occurrence, left to right. -/
def ModalFormula.vars : ModalFormula → List String
  | .patom phi => phi.vars
  | .not l => l.vars
  | .binary _ l r => l.vars ++ r.vars

/-- The variable names of the input, formulas in input order. -/
def allVars : List ModalFormula → List String
  | [] => []
  | f :: fs => f.vars ++ allVars fs

/-- The `VAR` case of `CPLFormula::collectPropVars`. -/
def StrMap.visit (m : StrMap) (name : String) : StrMap :=
  if m.count name then m else m.insert name m.length

/-- The table `m` after the names `seen` were visited: the ids are `0..n−1` in insertion
order, no key is bound twice, the keys are the names seen, and the ids follow the first
occurrences. -/
def TableInv (m : StrMap) (seen : List String) : Prop :=
  (m.map Prod.snd).reverse = List.range m.length ∧ (m.map Prod.fst).Nodup ∧
  (∀ v, v ∈ m.map Prod.fst ↔ v ∈ seen) ∧
  ∀ v w i j, m.find v = some i → m.find w = some j →
    (i < j ↔ seen.indexOf v < seen.indexOf w)

/-! ## solver.cpp: the variables of the encoder -/

/-- The connective of the formula is neither `NOT` nor `P_ATOM`. -/
def ModalFormula.isBinary : ModalFormula → Bool
  | .binary _ _ _ => true
  | _ => false

/-- The state of `FPSolver::solve` after its first loop, from an empty program. -/
def encodedState (formulas : List ModalFormula) : EncState :=
  encodeAll formulas ⟨LinearProgram.empty, [], []⟩

/-- The name tables of the encoder are in step: the names are pairwise distinct, every
column has the bounds `[0,1]`, `nameToIndex` is the inverse of `varNames`, a key bound in
`xVars` (`bVars`) points at the variable `x(key)` (`b(key)`), and every variable is one of
these. -/
def NamesInv (st : EncState) : Prop :=
  st.lp.varNames.Nodup ∧
  st.lp.cols.length = st.lp.varNames.length ∧
  (∀ c ∈ st.lp.cols, c = (⟨0, some 1, some 0⟩ : LPCol)) ∧
  (∀ (name : String) (i : Nat),
    st.lp.nameToIndex.find name = some i ↔ st.lp.varNames[i]? = some name) ∧
  (∀ (k : String) (i : Nat),
    st.xVars.find k = some i → st.lp.varNames[i]? = some ("x(" ++ k ++ ")")) ∧
  (∀ (k : String) (i : Nat),
    st.bVars.find k = some i → st.lp.varNames[i]? = some ("b(" ++ k ++ ")")) ∧
  ∀ name ∈ st.lp.varNames,
    (∃ k, st.xVars.count k = true ∧ name = "x(" ++ k ++ ")") ∨
    (∃ k, st.bVars.count k = true ∧ name = "b(" ++ k ++ ")")

/-- The keys of `xVars` are the canonical strings of the formulas in `T`, the keys of
`bVars` those of the binary formulas in `T`. -/
def KeysAre (st : EncState) (T : ModalFormula → Prop) : Prop :=
  (∀ k, st.xVars.count k = true ↔ ∃ g, T g ∧ k = g.toString) ∧
  (∀ k, st.bVars.count k = true ↔ ∃ g, T g ∧ g.isBinary = true ∧ k = g.toString)

/-- The formulas in `T` are well-formed and `T` holds their subformulas. -/
def SubClosed (T : ModalFormula → Prop) : Prop :=
  ∀ g, T g → g.wellFormed = true ∧ ∀ h ∈ g.subformulas, T h

/-! ## solver.cpp: `writeOPBFile` -/

/-- A line `c₁*x(k₁) c₂*x(k₂) … >= rhs` that `writeOPBFile` writes: the terms in the order
written, a variable `"x" + to_string(k)` given by `k`, and whether the line ends with the
terminator `;`. -/
structure PBConstraint where
  terms : List (Int × Nat)
  rhs : Int
  terminated : Bool
  deriving DecidableEq, Repr

/-- The value of the left-hand side of a line under a 0/1 assignment. -/
def pbSum (x : Nat → Bool) : List (Int × Nat) → Int
  | [] => 0
  | t :: ts => t.1 * (if x t.2 then 1 else 0) + pbSum x ts

/-- The assignment satisfies the line. -/
def PBConstraint.holds (c : PBConstraint) (x : Nat → Bool) : Prop := c.rhs ≤ pbSum x c.terms

/-- The inner loop of the `Used valuations` part of `writeOPBFile`: the term `-1*x(num)`
and `rhs -= 1` for a true entry, the term `+1*x(num)` for a false one. -/
def exclusionLoop : List Bool → Nat → Int → List (Int × Nat) × Int
  | [], _, rhs => ([], rhs)
  | v :: vs, num, rhs =>
    ((if v then -1 else 1, num) :: (exclusionLoop vs (num + 1) (if v then rhs - 1 else rhs)).1,
      (exclusionLoop vs (num + 1) (if v then rhs - 1 else rhs)).2)

/-- The line that `writeOPBFile` writes for the used valuation `valuation`. -/
def exclusionConstraint (valuation : List Bool) : PBConstraint :=
  { terms := (exclusionLoop valuation 0 1).1
    rhs := (exclusionLoop valuation 0 1).2
    terminated := true }

/-- The number of positions `j` of `vs` with `x (num + j) ≠ vs[j]`. -/
def diffCount (x : Nat → Bool) : List Bool → Nat → Nat
  | [], _ => 0
  | v :: vs, num => (if x num = v then 0 else 1) + diffCount x vs (num + 1)

/-! ## solver.cpp: the names of the files -/

/-- `std::string::find_last_of(c)`: the position of the last `c`, `none` for `npos`. -/
def findLastOf (c : Char) : List Char → Option Nat
  | [] => none
  | d :: ds =>
    match findLastOf c ds with
    | some i => some (i + 1)
    | none => if d = c then some 0 else none

/-- The name `outName` of `FPSolver::saveOutputToFile`:
`inputFilename.substr(0, inputFilename.find_last_of('.')) + ".out"`. -/
def outName (inputFilename : String) : String :=
  match findLastOf '.' inputFilename.data with
  | none => inputFilename ++ ".out"
  | some i => String.mk (inputFilename.data.take i) ++ ".out"

/-- A list of characters without the separators `/` at its end. -/
def dropTrailingSlashes (cs : List Char) : List Char :=
  (cs.reverse.dropWhile (fun c => c == '/')).reverse

/-- `std::filesystem::path::parent_path` of a POSIX path, as findValuationPB calls it: the
part before the last `/` without separators at its end, `/` itself for a file name in the
root directory, and the empty path when there is no `/`. -/
def parentPath (path : String) : String :=
  match findLastOf '/' path.data with
  | none => ""
  | some i =>
    if dropTrailingSlashes (path.data.take i) = [] then "/"
    else String.mk (dropTrailingSlashes (path.data.take i))

/-- `std::filesystem::path::filename` of a POSIX path: the part after the last `/`. -/
def fileName (path : String) : String :=
  match findLastOf '/' path.data with
  | none => path
  | some i => String.mk (path.data.drop (i + 1))

/-- `std::filesystem::path::stem`: the file name without its final extension; the file names
`.` and `..` and a file name whose only period is its first character have no extension. -/
def stem (path : String) : String :=
  match findLastOf '.' (fileName path).data with
  | none => fileName path
  | some i =>
    if i = 0 ∨ fileName path = ".." then fileName path
    else String.mk ((fileName path).data.take i)

/-- The path `parent / name` of `std::filesystem::path::operator/` for a relative `name`. -/
def pathJoin (parent name : String) : String :=
  if parent = "" then name
  else if parent.data.getLast? = some '/' then parent ++ name
  else parent ++ "/" ++ name

/-- The sibling file `parent_path / (stem + ".out")` of the input path, with the parent
directory and the stem that `findValuationPB` derives. -/
def siblingOut (inputFilename : String) : String :=
  pathJoin (parentPath inputFilename) (stem inputFilename ++ ".out")

/-! ## The arithmetic of `double` -/

/-- A value of the type `double` (IEEE 754 binary64): a finite number, an infinity or a NaN.
The sign of a zero is not recorded: no operation of the program tells the two zeros apart. -/
inductive DoubleValue
  | finite (value : ℚ)
  | infinite (negative : Bool)
  | nan
  deriving DecidableEq

/-- The power `2ᵏ` for an integer exponent `k`. -/
def twoPow (k : Int) : ℚ :=
  if 0 ≤ k then ((2 ^ k.toNat : Nat) : ℚ) else 1 / ((2 ^ (-k).toNat : Nat) : ℚ)

/-- The number of binary digits of `n` minus one (0 for `n ≤ 1`), found in at most `fuel`
halvings. -/
def log2Floor : Nat → Nat → Nat
  | 0, _ => 0
  | fuel + 1, n => if n < 2 then 0 else log2Floor fuel (n / 2) + 1

/-- The binary exponent `⌊log₂ q⌋` of a positive rational `q`. -/
def binaryExponent (q : ℚ) : Int :=
  if q < twoPow ((log2Floor q.num.natAbs q.num.natAbs : Int) - (log2Floor q.den q.den : Int))
  then (log2Floor q.num.natAbs q.num.natAbs : Int) - (log2Floor q.den q.den : Int) - 1
  else (log2Floor q.num.natAbs q.num.natAbs : Int) - (log2Floor q.den q.den : Int)

/-- The integer nearest to `q ≥ 0`, the even one of the two when `q` is half-way. -/
def roundHalfEven (q : ℚ) : Int :=
  if q - ⌊q⌋ < 1 / 2 then ⌊q⌋
  else if 1 / 2 < q - ⌊q⌋ then ⌊q⌋ + 1
  else if ⌊q⌋ % 2 = 0 then ⌊q⌋ else ⌊q⌋ + 1

/-- The unit in the last place of the doubles around `q ≠ 0`: 53 significant bits, and
`2⁻¹⁰⁷⁴` in the subnormal range. -/
def lastPlace (q : ℚ) : ℚ := twoPow (max (binaryExponent |q| - 52) (-1074))

/-- The `double` that an arithmetic operation with the exact result `q` returns in the
default rounding mode: `q` rounded to the nearest multiple of its unit in the last place,
ties to even, and an infinity when the rounded magnitude reaches `2¹⁰²⁴`, that is, when its
binary exponent reaches 1024. -/
def roundToDouble (q : ℚ) : DoubleValue :=
  if q = 0 then .finite 0
  else if 1024 ≤ binaryExponent (roundHalfEven (|q| / lastPlace q) * lastPlace q) then
    .infinite (decide (q < 0))
  else if q < 0 then .finite (-(roundHalfEven (|q| / lastPlace q) * lastPlace q))
  else .finite (roundHalfEven (|q| / lastPlace q) * lastPlace q)

/-- The difference `a - b` of two doubles. -/
def DoubleValue.sub : DoubleValue → DoubleValue → DoubleValue
  | .finite a, .finite b => roundToDouble (a - b)
  | .finite _, .infinite s => .infinite (!s)
  | .infinite s, .finite _ => .infinite s
  | .infinite s, .infinite t => if s = t then .nan else .infinite s
  | .nan, _ => .nan
  | _, .nan => .nan

/-- The comparison `a < 0` of a double. -/
def DoubleValue.isNegative : DoubleValue → Bool
  | .finite a => decide (a < 0)
  | .infinite s => s
  | .nan => false

/-- The value of `1 << n` on the 32-bit `int` for a shift count `n < 32`: `2ⁿ` wrapped into
the range of `int`, which is `−2³¹` for `n = 31`. -/
def shiftLeftOne (n : Nat) : Int := (2 ^ n + 2 ^ 31) % 2 ^ 32 - 2 ^ 31

/-! ## solver.cpp: the feasibility engine and its pricing oracle -/

/-- What the LP solver answers when `lp->solve()` is `true`: `getObjectiveValue()` and
`getDuals()` (the dual of the row `r` is `duals r`). -/
structure LPAnswer where
  obj : ℚ
  duals : Nat → ℚ

/-- The variables that the loop of `isFeasible` updates. The field `priced` is not in the
code: it logs the valuations whose reduced cost the exhaustive search has computed. -/
structure EngineState where
  lp : LinearProgram
  usedValuations : List (List Bool)
  lastValuationsLocal : List (List Bool)
  priced : List (List Bool)
  deriving DecidableEq

/-- `usedValuations.insert(v)` on the `std::set`. -/
def insertValuation (v : List Bool) (used : List (List Bool)) : List (List Bool) :=
  if v ∈ used then used else used ++ [v]

/-- The variable `reducedCost` of the exhaustive search: from `0.0`, `reducedCost -=
duals[rowIdx] * coeff` over the entries of the column in their order, every product and
every difference a `double`. -/
def reducedCost (duals : Nat → ℚ) (column : List (Nat × ℚ)) : DoubleValue :=
  column.foldl (fun rc e => rc.sub (roundToDouble (duals e.1 * e.2))) (.finite 0)

/-- The `for` loop of the exhaustive search of `addNewProbabilisticCoherenceConstraint` over
the bitmasks `ws`: the result of the function and the state after it; `none` when
`evaluateCPL` throws. -/
def exhaustiveSearch (root : RootLP) (varList : List String) (duals : Nat → ℚ) :
    List Nat → EngineState → Option (Bool × EngineState)
  | [], st => some (false, st)
  | w :: ws, st =>
    if valuationOfMask varList.length w ∈ st.usedValuations then
      exhaustiveSearch root varList duals ws st
    else
      match newColumn root varList (valuationOfMask varList.length w) with
      | none => none
      | some column =>
        if (reducedCost duals column).isNegative then
          some (true,
            { lp := addColumn st.lp (columnName w) column
              usedValuations :=
                insertValuation (valuationOfMask varList.length w) st.usedValuations
              lastValuationsLocal :=
                st.lastValuationsLocal ++ [valuationOfMask varList.length w]
              priced := st.priced ++ [valuationOfMask varList.length w] })
        else
          exhaustiveSearch root varList duals ws
            { st with
              usedValuations :=
                insertValuation (valuationOfMask varList.length w) st.usedValuations
              priced := st.priced ++ [valuationOfMask varList.length w] }

/-- The vector `weights` of `addNewProbabilisticCoherenceConstraint`. -/
def pricingWeights (root : RootLP) (duals : Nat → ℚ) : List ℚ :=
  (List.range root.psiList.length).map (fun i => duals (root.probConstraintRows.getD i 0))
    ++ [duals root.sumProbRow]

/-- `FPSolver::addNewProbabilisticCoherenceConstraint`. The argument `findValuationPB` is
`some` of the answers of the external solver when `usePB` is set and `none` for the
exhaustive search; the result is `none` when `evaluateCPL` throws and when the shift
`1 << n` is undefined (`n ≥ 32`). For `n = 31` the variable `total` is negative and the loop
`for (int w = 0; w < total; ++w)` is not entered. -/
def addNewProbabilisticCoherenceConstraint (root : RootLP) (varList : List String)
    (findValuationPB : Option (List ℚ → List (List Bool) → Option (List Bool)))
    (duals : Nat → ℚ) (st : EngineState) : Option (Bool × EngineState) :=
  if 32 ≤ varList.length then none
  else
    match findValuationPB with
    | some oracle =>
      match oracle (pricingWeights root duals) st.usedValuations with
      | none => some (false, st)
      | some valuation =>
        match newColumn root varList valuation with
        | none => none
        | some column =>
          some (true,
            { lp := addColumn st.lp
                ("p(" ++ toString ((insertValuation valuation st.usedValuations).length - 1)
                  ++ ")") column
              usedValuations := insertValuation valuation st.usedValuations
              lastValuationsLocal := st.lastValuationsLocal ++ [valuation]
              priced := st.priced })
    | none =>
      exhaustiveSearch root varList duals (List.range (shiftLeftOne varList.length).toNat) st

/-- How a call of `isFeasible` ends: it throws, the model runs out of fuel, or it returns
`value`; `st` is the state at that moment and `pricingCalls` the number of calls of
`addNewProbabilisticCoherenceConstraint` it has made. -/
inductive EngineResult
  | threw
  | outOfFuel
  | returned (value : Bool) (st : EngineState) (pricingCalls : Nat)

/-- The `while (true)` loop of `FPSolver::isFeasible`, at most `fuel` iterations of it. The
argument `solver iter lp` is the answer of `lp->solve()` in the iteration `iter` (`none`
when `solve()` is `false`). -/
def feasibilityLoop (root : RootLP) (varList : List String)
    (findValuationPB : Option (List ℚ → List (List Bool) → Option (List Bool)))
    (solver : Nat → LinearProgram → Option LPAnswer) :
    Nat → Nat → Nat → EngineState → EngineResult
  | 0, _, _, _ => .outOfFuel
  | fuel + 1, iter, calls, st =>
    match solver iter st.lp with
    | none => .returned false st calls
    | some ans =>
      if ans.obj ≤ 0 then .returned true st calls
      else
        match addNewProbabilisticCoherenceConstraint root varList findValuationPB
            ans.duals st with
        | none => .threw
        | some (false, st') => .returned false st' (calls + 1)
        | some (true, st') =>
          feasibilityLoop root varList findValuationPB solver fuel (iter + 1) (calls + 1) st'

/-- The state of `isFeasible` when it enters its loop: the column `p(0)` of the all-false
valuation is added and the valuation is marked as used; `none` when `evaluateCPL` throws. -/
def engineStart (root : RootLP) (varList : List String) (lp : LinearProgram) :
    Option EngineState :=
  (newColumn root varList (zeroValuation varList)).map fun column =>
    { lp := addColumn lp "p(0)" column
      usedValuations := insertValuation (zeroValuation varList) []
      lastValuationsLocal := [zeroValuation varList]
      priced := [] }

/-- `FPSolver::isFeasible` on the program `lp`, with at most `fuel` iterations of its loop. -/
def isFeasible (root : RootLP) (varList : List String)
    (findValuationPB : Option (List ℚ → List (List Bool) → Option (List Bool)))
    (solver : Nat → LinearProgram → Option LPAnswer) (fuel : Nat) (lp : LinearProgram) :
    EngineResult :=
  match engineStart root varList lp with
  | none => .threw
  | some st => feasibilityLoop root varList findValuationPB solver fuel 1 0 st

/-- The reduced cost `−(Σᵢ dᵢ·ψᵢ(w) + d_Σ)` of the column of the bitmask `w` in exact
arithmetic, with `dᵢ` the dual of the row `probConstraintRows[i]` and `d_Σ` the dual of the
row `sumProbRow`. -/
def columnCost (root : RootLP) (varList : List String) (duals : Nat → ℚ) (w : Nat) : ℚ :=
  -(((root.psiList.zip root.probConstraintRows).map fun e =>
      duals e.2 * cplValue varList e.1 (valuationOfMask varList.length w)).sum
    + duals root.sumProbRow)

/-- The reduced cost of the column of the bitmask `w` as `double` arithmetic accumulates it:
from `0.0`, the duals `dᵢ` of the rows `probConstraintRows[i]` with `ψᵢ(w) = 1` are
subtracted in the order of `psiList`, then the dual `d_Σ` of the row `sumProbRow`, every
difference rounded to a `double`. -/
def accumulatedCost (root : RootLP) (varList : List String) (duals : Nat → ℚ) (w : Nat) :
    DoubleValue :=
  ((((root.psiList.zip root.probConstraintRows).filter fun e =>
        decide (cplValue varList e.1 (valuationOfMask varList.length w) ≠ 0)).map
      fun e => duals e.2) ++ [duals root.sumProbRow]).foldl
    (fun rc d => rc.sub (roundToDouble d)) (.finite 0)

/-- The bitmask `w` is a candidate of the exhaustive search: it is below `2ⁿ`, its valuation
is not in `used`, and its reduced cost, accumulated in `double` arithmetic, is negative. -/
def Candidate (root : RootLP) (varList : List String) (duals : Nat → ℚ)
    (used : List (List Bool)) (w : Nat) : Prop :=
  w < 2 ^ varList.length ∧ valuationOfMask varList.length w ∉ used ∧
    (accumulatedCost root varList duals w).isNegative = true

/-- The root program of `repeatedAtom`. -/
def repeatedRoot : RootLP :=
  (buildRootLP repeatedAtom).getD ⟨LinearProgram.empty, [], [], [], [], 0⟩

/-- The dual values 1, `2⁻⁶⁰` and −1 of the rows 5, 6 and 7, and 0 of every other row. -/
def roundingDuals (r : Nat) : ℚ :=
  if r = 5 then 1 else if r = 6 then 1 / 2 ^ 60 else if r = 7 then -1 else 0

/-- The invariant of the loop of `isFeasible` with the exhaustive search: the used
valuations are the all-false valuation and the priced ones, no valuation is listed twice,
and every used valuation is the valuation of a bitmask below `2ⁿ`. -/
def EngineInv (varList : List String) (st : EngineState) : Prop :=
  st.usedValuations = zeroValuation varList :: st.priced ∧ st.usedValuations.Nodup ∧
  st.usedValuations ⊆ (List.range (2 ^ varList.length)).map (valuationOfMask varList.length)

/-! ## The rows without the slack variables -/

/-- The variable `i` is a slack variable: its name begins with `i(`. -/
def LinearProgram.isSlackIndex (lp : LinearProgram) (i : Nat) : Bool :=
  match lp.varNames[i]? with
  | some name => isSlackName name
  | none => false

/-- The same rows without the slack variables: the entries of the slack variables are
removed from every row; columns and bounds stay. -/
def LinearProgram.withoutSlacks (lp : LinearProgram) : LinearProgram :=
  { lp with
    rows := lp.rows.map fun r =>
      { r with rowVec := r.rowVec.filter fun e => !lp.isSlackIndex e.1 } }

/-- The columns of a program of `solve`: a slack variable has the objective coefficient 1
and the bounds `[0, +∞)`, every other variable the objective coefficient 0 and the lower
bound 0. -/
def LinearProgram.SlackShape (lp : LinearProgram) : Prop :=
  lp.cols.length = lp.varNames.length ∧
  ∀ (i : Nat) (c : LPCol), lp.cols[i]? = some c →
    (lp.isSlackIndex i = true → c = ⟨1, none, some 0⟩) ∧
    (lp.isSlackIndex i = false → c.obj = 0 ∧ c.lower = some 0)

/-- The assignment `u` with the slack variables set to 0. -/
def LinearProgram.zeroSlacks (lp : LinearProgram) (u : Nat → α) : Nat → α :=
  fun i => if lp.isSlackIndex i then 0 else u i

/-- The column `c` fits the variable name: a slack variable has the objective coefficient 1
and the bounds `[0, +∞)`, every other variable the objective coefficient 0 and the lower
bound 0. -/
def slackRel (name : String) (c : LPCol) : Prop :=
  (isSlackName name = true → c = ⟨1, none, some 0⟩) ∧
  (isSlackName name = false → c.obj = 0 ∧ c.lower = some 0)

/-- The sum of the values of the slack variables. -/
def LinearProgram.slackSum (lp : LinearProgram) (v : Nat → α) : α :=
  ((List.range lp.cols.length).map fun i => if lp.isSlackIndex i then v i else 0).sum

/-! ## solver.cpp: the branch-and-bound loop of `solve` -/

/-- `binaries.insert(name)` on the `std::set<std::string>`, kept in increasing order: the
order of `std::string` compares the bytes lexicographically, which for UTF-8 text is the
lexicographic order of the characters. -/
def insertName (name : String) : List String → List String
  | [] => [name]
  | x :: xs =>
    if name.data < x.data then name :: x :: xs
    else if name = x then x :: xs
    else x :: insertName name xs

/-- `LinearProgram::getBinaryVariableNames`: the set of the names in `nameToIndex` that
begin with `b(`, in the increasing order in which `solve` takes them out. -/
def LinearProgram.getBinaryVariableNames (lp : LinearProgram) : List String :=
  lp.nameToIndex.foldr (fun e acc => if isBinaryName e.1 then insertName e.1 acc else acc) []

/-- The program `newLP` of the loop of `solve`: the clone of the program of the branch with
the row `b = val`; `none` when `getVarIndex` throws. -/
def fixBinary (lp : LinearProgram) (b : String) (val : Bool) : Option LinearProgram :=
  (lp.getVarIndex b).map fun i => lp.addConstraint [(i, 1)] .EQ (if val then 1 else 0)

/-- The program with the rows `b = val` of the given fixings, added in this order. -/
def fixBinaries : LinearProgram → List (String × Bool) → Option LinearProgram
  | lp, [] => some lp
  | lp, e :: rest =>
    match fixBinary lp e.1 e.2 with
    | none => none
    | some lp' => fixBinaries lp' rest

/-- The struct `Branch`. -/
structure Branch where
  lp : LinearProgram
  fixedBinaries : List (String × Bool)
  deriving DecidableEq

/-- The two inner `for` loops of `solve` for one branch: the children with `b = 0` and
`b = 1` that the engine accepts. -/
def branchChildren (engine : LinearProgram → Bool) (b : String) (br : Branch) :
    Option (List Branch) :=
  match fixBinary br.lp b false, fixBinary br.lp b true with
  | some lp0, some lp1 =>
    some ((if engine lp0 then [⟨lp0, br.fixedBinaries ++ [(b, false)]⟩] else []) ++
      (if engine lp1 then [⟨lp1, br.fixedBinaries ++ [(b, true)]⟩] else []))
  | _, _ => none

/-- The vector `next` of one iteration of the `while` loop of `solve`. -/
def nextBranches (engine : LinearProgram → Bool) (b : String) :
    List Branch → Option (List Branch)
  | [] => some []
  | br :: brs =>
    match branchChildren engine b br, nextBranches engine b brs with
    | some cs, some rest => some (cs ++ rest)
    | _, _ => none

/-- The loop `while (!branches.empty() && !binaries.empty())` of `solve`: the branches left
when it ends; `none` when `getVarIndex` throws. -/
def branchLoop (engine : LinearProgram → Bool) :
    List String → List Branch → Option (List Branch)
  | [], branches => some branches
  | b :: binaries, branches =>
    if branches = [] then some []
    else
      match nextBranches engine b branches with
      | none => none
      | some next => branchLoop engine binaries next

/-- The part of `FPSolver::solve` after the root program is built: `engine lp` is the value
that `isFeasible` returns on a clone of `lp`. The result is `true` for SAT and `false` for
UNSAT. -/
def solveFrom (engine : LinearProgram → Bool) (lp : LinearProgram) : Option Bool :=
  if engine lp then
    (branchLoop engine lp.getBinaryVariableNames [⟨lp, []⟩]).map fun branches =>
      !branches.isEmpty
  else some false

/-- `FPSolver::solve`; `none` when it throws. -/
def solve (engine : LinearProgram → Bool) (formulas : List ModalFormula) : Option Bool :=
  match buildRootLP formulas with
  | none => none
  | some root => solveFrom engine root.lp

/-- The root program of the single input line `P(ψ)`, as `buildRootLP` computes it: the
variable `x(Pψ)`, the rows `x + i(0) = 1`, `−x + i(1) = 0` and `i(2) = 1`, and the three
slack variables. -/
def atomRoot (psi : CPLFormula) : RootLP :=
  { lp :=
      { cols := [⟨0, some 1, some 0⟩, ⟨1, none, some 0⟩, ⟨1, none, some 0⟩,
          ⟨1, none, some 0⟩]
        rows := [⟨some 1, [(0, 1), (1, 1)], some 1⟩, ⟨some 0, [(0, -1), (2, 1)], some 0⟩,
          ⟨some 1, [(3, 1)], some 1⟩]
        varNames := ["x(" ++ (ModalFormula.patom psi).toString ++ ")", "i(0)", "i(1)",
          "i(2)"]
        nameToIndex := [("i(2)", 3), ("i(1)", 2), ("i(0)", 1),
          ("x(" ++ (ModalFormula.patom psi).toString ++ ")", 0)] }
    xVars := [((ModalFormula.patom psi).toString, 0)]
    bVars := []
    psiList := [psi]
    probConstraintRows := [1]
    sumProbRow := 2 }

/-! ## solver.cpp: the lambda `encodeFormula` of `writeOPBFile` -/

/-- The two lines written for `NOT` with the operand variable `l` and the fresh variable
`y`: `+1*l +1*y >= 1;` and `-1*l -1*y >= -1;`. -/
def notLines (l y : Nat) : List PBConstraint :=
  [⟨[(1, l), (1, y)], 1, true⟩, ⟨[(-1, l), (-1, y)], -1, true⟩]

/-- The lines written for a binary connective with the operand variables `l`, `r` and the
fresh variable `y`. The four lines of `IFF` are written without the terminator `;`. -/
def binaryLines (op : CPLBinary) (l r y : Nat) : List PBConstraint :=
  match op with
  | .AND =>
    [⟨[(1, l), (-1, y)], 0, true⟩, ⟨[(1, r), (-1, y)], 0, true⟩,
     ⟨[(-1, l), (-1, r), (1, y)], -1, true⟩]
  | .OR =>
    [⟨[(-1, l), (1, y)], 0, true⟩, ⟨[(-1, r), (1, y)], 0, true⟩,
     ⟨[(1, l), (1, r), (-1, y)], 0, true⟩]
  | .IMPLIES =>
    [⟨[(-1, r), (1, y)], 0, true⟩, ⟨[(1, l), (1, y)], 1, true⟩,
     ⟨[(-1, l), (1, r), (-1, y)], -1, true⟩]
  | .IFF =>
    [⟨[(-1, y), (-1, l), (1, r)], -1, false⟩, ⟨[(-1, y), (1, l), (-1, r)], -1, false⟩,
     ⟨[(-1, l), (-1, r), (1, y)], -1, false⟩, ⟨[(1, l), (1, r), (1, y)], 1, false⟩]

/-- The classical truth function of a binary connective. -/
def CPLBinary.truth (op : CPLBinary) (x y : Bool) : Bool :=
  match op with
  | .AND => x && y
  | .OR => x || y
  | .IMPLIES => !x || y
  | .IFF => x == y

/-- What a call of `encodeFormula` leaves: the variable `outVar`, the value of
`auxVarCounter` after the call, and the lines written, in this order. -/
structure Encoded where
  outVar : Nat
  counter : Nat
  lines : List PBConstraint
  deriving DecidableEq, Repr

/-- The lambda `encodeFormula` of `writeOPBFile`, called with `auxVarCounter = c`: a `VAR`
node returns `"x" + to_string(distance(varList.begin(), find(…)))`; every other node takes
the fresh variable `y = newVar()` first, encodes its children, and writes its lines. -/
def encodeFormula (varList : List String) : CPLFormula → Nat → Encoded
  | .var name, c => ⟨varList.indexOf name, c, []⟩
  | .not l, c =>
    ⟨c, (encodeFormula varList l (c + 1)).counter,
      (encodeFormula varList l (c + 1)).lines
        ++ notLines (encodeFormula varList l (c + 1)).outVar c⟩
  | .binary op l r, c =>
    ⟨c, (encodeFormula varList r (encodeFormula varList l (c + 1)).counter).counter,
      (encodeFormula varList l (c + 1)).lines
        ++ (encodeFormula varList r (encodeFormula varList l (c + 1)).counter).lines
        ++ binaryLines op (encodeFormula varList l (c + 1)).outVar
            (encodeFormula varList r (encodeFormula varList l (c + 1)).counter).outVar c⟩

/-- The fresh variables that `encodeFormula` takes with `newVar()`, in the order of the
calls. -/
def auxVars (varList : List String) : CPLFormula → Nat → List Nat
  | .var _, _ => []
  | .not l, c => c :: auxVars varList l (c + 1)
  | .binary _ l r, c =>
    c :: (auxVars varList l (c + 1)
      ++ auxVars varList r (encodeFormula varList l (c + 1)).counter)

/-- The formula has a node `IFF`. -/
def CPLFormula.hasIff : CPLFormula → Bool
  | .var _ => false
  | .not l => l.hasIff
  | .binary op l r => decide (op = .IFF) || (l.hasIff || r.hasIff)

/-- The assignment satisfies every line. -/
def linesHold (a : Nat → Bool) (lines : List PBConstraint) : Prop :=
  ∀ line ∈ lines, line.holds a

/-- The valuation of the propositional variables `x0 … x(n−1)` under the assignment `a`. -/
def valuationOf (n : Nat) (a : Nat → Bool) : List Bool := (List.range n).map a

end SemanticsDefs

/-! ## parser.h / parser.cpp

The input is read as a sequence of characters (code points); the state of a parser is the
part of the input that is still to be read, i.e. the text from `pos` on. The recursive
descent is given a recursion budget that `parse` derives from the length of the input; the
message `"recursion budget exhausted"` is not a message of the code. -/

/-- `std::isspace` in the "C" locale: space, `\t`, `\n`, `\v`, `\f`, `\r`. -/
def isSpace (c : Char) : Bool :=
  c == ' ' || c == Char.ofNat 9 || c == Char.ofNat 10 || c == Char.ofNat 11 ||
    c == Char.ofNat 12 || c == Char.ofNat 13

/-- `skipWhitespace`: the input from the first character that is not white space. -/
def skipWhitespace : List Char → List Char
  | [] => []
  | c :: cs => if isSpace c then skipWhitespace cs else c :: cs

/-- `match(expected)`: white space is skipped first; the text is consumed when it is there. -/
def matchText (expected : List Char) (inp : List Char) : Bool × List Char :=
  if expected.isPrefixOf (skipWhitespace inp) then
    (true, (skipWhitespace inp).drop expected.length)
  else (false, skipWhitespace inp)

/-- The outcome of a parsing function: a value and the rest of the input, or the message of
the exception thrown. -/
inductive ParseResult (τ : Type)
  | ok (value : τ) (rest : List Char)
  | error (msg : String)
  deriving DecidableEq, Repr

/-- The function `precedence` restricted to the binary connectives. -/
def precedence : CPLBinary → Nat
  | .IFF => 1
  | .IMPLIES => 2
  | .OR => 3
  | .AND => 4

/-- The function `modalPrecedence` restricted to the binary connectives. -/
def modalPrecedence : ModalBinary → Nat
  | .IFF => 1
  | .IMPLIES => 2
  | .OR => 3
  | .AND => 4
  | .ODOT => 5
  | .OPLUS => 6

/-- The chain of `match` calls at the head of the loop of `CPLParser::parseBinary`: the
connective found and the input after it, or `none` and the input after the white space. -/
def cplOperator (inp : List Char) : Option CPLBinary × List Char :=
  if (matchText ['∧'] inp).1 then (some .AND, (matchText ['∧'] inp).2)
  else if (matchText ['∨'] inp).1 then (some .OR, (matchText ['∨'] inp).2)
  else if (matchText ['→'] inp).1 then (some .IMPLIES, (matchText ['→'] inp).2)
  else if (matchText ['↔'] inp).1 then (some .IFF, (matchText ['↔'] inp).2)
  else (none, skipWhitespace inp)

/-- The chain of `match` calls at the head of the loop of `ModalParser::parseBinary`. -/
def modalOperator (inp : List Char) : Option ModalBinary × List Char :=
  if (matchText ['↔'] inp).1 then (some .IFF, (matchText ['↔'] inp).2)
  else if (matchText ['→'] inp).1 then (some .IMPLIES, (matchText ['→'] inp).2)
  else if (matchText ['∨'] inp).1 then (some .OR, (matchText ['∨'] inp).2)
  else if (matchText ['∧'] inp).1 then (some .AND, (matchText ['∧'] inp).2)
  else if (matchText ['⊙'] inp).1 then (some .ODOT, (matchText ['⊙'] inp).2)
  else if (matchText ['⊕'] inp).1 then (some .OPLUS, (matchText ['⊕'] inp).2)
  else (none, skipWhitespace inp)

namespace CPLParser

mutual

/-- `CPLParser::parseBinary(minPrec)`. -/
def parseBinary : Nat → Nat → List Char → ParseResult CPLFormula
  | 0, _, _ => .error "recursion budget exhausted"
  | fuel + 1, minPrec, inp =>
    match parseUnary fuel inp with
    | .error e => .error e
    | .ok left rest => binaryLoop fuel minPrec left rest

/-- The `while (true)` loop of `CPLParser::parseBinary`. When the connective found binds less
than `minPrec` the loop is left with the connective already consumed. -/
def binaryLoop : Nat → Nat → CPLFormula → List Char → ParseResult CPLFormula
  | 0, _, _, _ => .error "recursion budget exhausted"
  | fuel + 1, minPrec, left, inp =>
    match cplOperator inp with
    | (none, rest) => .ok left rest
    | (some op, rest) =>
      if precedence op < minPrec then .ok left rest
      else
        match parseBinary fuel (precedence op + 1) rest with
        | .error e => .error e
        | .ok right rest' => binaryLoop fuel minPrec (.binary op left right) rest'

/-- `CPLParser::parseUnary`. -/
def parseUnary : Nat → List Char → ParseResult CPLFormula
  | 0, _ => .error "recursion budget exhausted"
  | fuel + 1, inp =>
    if (matchText ['¬'] inp).1 then
      match parseUnary fuel (matchText ['¬'] inp).2 with
      | .error e => .error e
      | .ok f rest => .ok (.not f) rest
    else parsePrimary fuel (matchText ['¬'] inp).2

/-- `CPLParser::parsePrimary`. -/
def parsePrimary : Nat → List Char → ParseResult CPLFormula
  | 0, _ => .error "recursion budget exhausted"
  | fuel + 1, inp =>
    if (matchText ['('] inp).1 then
      match parseBinary fuel 0 (matchText ['('] inp).2 with
      | .error e => .error e
      | .ok f rest =>
        if (matchText [')'] rest).1 then .ok f (matchText [')'] rest).2
        else .error "Right parenthesis expected."
    else
      match (matchText ['('] inp).2 with
      | [] => .error "Unexpected symbol in CPL formula."
      | c :: cs =>
        if isIdentStart c then
          .ok (.var (String.mk ((c :: cs).takeWhile isIdentChar)))
            ((c :: cs).dropWhile isIdentChar)
        else .error "Unexpected symbol in CPL formula."

end

/-- The recursion budget that suffices for an input of the given length. -/
def budget (inp : List Char) : Nat := 3 * inp.length + 4

/-- `CPLParser(input).parse()`. -/
def parse (input : List Char) : Except String CPLFormula :=
  match parseBinary (budget input) 0 (skipWhitespace input) with
  | .error e => .error e
  | .ok f rest =>
    if skipWhitespace rest = [] then .ok f else .error "Extra entry after CPL formula."

end CPLParser

namespace ModalParser

/-- The loop of `ModalParser::parseCPLInsideP`: the text up to the parenthesis that closes
the `P(`, or up to the end of the input, and the input after it. -/
def readInsideP : Nat → List Char → List Char → List Char × List Char
  | _, [], buffer => (buffer, [])
  | 0, c :: cs, buffer => (buffer, c :: cs)
  | depth + 1, c :: cs, buffer =>
    if c = '(' then readInsideP (depth + 2) cs (buffer ++ [c])
    else if c = ')' then
      (if depth > 0 then readInsideP depth cs (buffer ++ [c]) else (buffer, cs))
    else readInsideP (depth + 1) cs (buffer ++ [c])

/-- `ModalParser::parseCPLInsideP`. -/
def parseCPLInsideP (inp : List Char) : ParseResult CPLFormula :=
  match CPLParser.parse (readInsideP 1 inp []).1 with
  | .error e => .error e
  | .ok f => .ok f (readInsideP 1 inp []).2

mutual

/-- `ModalParser::parseBinary(minPrec)`. -/
def parseBinary : Nat → Nat → List Char → ParseResult ModalFormula
  | 0, _, _ => .error "recursion budget exhausted"
  | fuel + 1, minPrec, inp =>
    match parseUnary fuel inp with
    | .error e => .error e
    | .ok left rest => binaryLoop fuel minPrec left rest

/-- The `while (true)` loop of `ModalParser::parseBinary`. When the connective found binds
less than `minPrec` the loop is left with the connective already consumed. -/
def binaryLoop : Nat → Nat → ModalFormula → List Char → ParseResult ModalFormula
  | 0, _, _, _ => .error "recursion budget exhausted"
  | fuel + 1, minPrec, left, inp =>
    match modalOperator inp with
    | (none, rest) => .ok left rest
    | (some op, rest) =>
      if modalPrecedence op < minPrec then .ok left rest
      else
        match parseBinary fuel (modalPrecedence op + 1) rest with
        | .error e => .error e
        | .ok right rest' => binaryLoop fuel minPrec (.binary op left right) rest'

/-- `ModalParser::parseUnary`. -/
def parseUnary : Nat → List Char → ParseResult ModalFormula
  | 0, _ => .error "recursion budget exhausted"
  | fuel + 1, inp =>
    if (matchText ['¬'] inp).1 then
      match parseUnary fuel (matchText ['¬'] inp).2 with
      | .error e => .error e
      | .ok f rest => .ok (.not f) rest
    else parsePrimary fuel (matchText ['¬'] inp).2

/-- `ModalParser::parsePrimary`. -/
def parsePrimary : Nat → List Char → ParseResult ModalFormula
  | 0, _ => .error "recursion budget exhausted"
  | fuel + 1, inp =>
    if (matchText ['('] inp).1 then
      match parseBinary fuel 0 (matchText ['('] inp).2 with
      | .error e => .error e
      | .ok f rest =>
        if (matchText [')'] rest).1 then .ok f (matchText [')'] rest).2
        else .error "Right parenthesis expected."
    else if (matchText ['P'] inp).1 then
      if (matchText ['('] (matchText ['P'] inp).2).1 then
        match parseCPLInsideP (matchText ['('] (matchText ['P'] inp).2).2 with
        | .error e => .error e
        | .ok phi rest => .ok (.patom phi) rest
      else .error "Expected '(' after P."
    else .error "Unexpected symbol in CPL formula."

end

/-- The recursion budget that suffices for an input of the given length. -/
def budget (inp : List Char) : Nat := 3 * inp.length + 4

/-- `ModalParser(input).parse()`. -/
def parse (input : String) : Except String ModalFormula :=
  match parseBinary (budget input.data) 0 (skipWhitespace input.data) with
  | .error e => .error e
  | .ok f rest =>
    if skipWhitespace rest = [] then .ok f else .error "Extra entry after modal formula."

end ModalParser

/-! ## solver.cpp: the reader of the PB solver's output in `findValuationPB` -/

/-- The test `line.rfind("v ", 0) == 0`: the line begins with `v `. -/
def startsWithV (line : String) : Bool := "v ".data.isPrefixOf line.data

/-- The tokens that `iss >> token` reads: the maximal runs of characters that are not white
space; `cur` is the run being read. -/
def pbTokensFrom : List Char → List Char → List (List Char)
  | [], cur => if cur = [] then [] else [cur]
  | ch :: rest, cur =>
    if isSpace ch then
      if cur = [] then pbTokensFrom rest [] else cur :: pbTokensFrom rest []
    else pbTokensFrom rest (cur ++ [ch])

/-- The tokens of `line.substr(2)`. -/
def pbTokens (line : String) : List (List Char) := pbTokensFrom (line.data.drop 2) []

/-- The value of a run of decimal digits. -/
def decimal (ds : List Char) : Nat :=
  ds.foldl (fun acc d => 10 * acc + (d.toNat - '0'.toNat)) 0

/-- `std::stoi` on a string without white space: an optional sign and the longest run of
decimal digits; `none` when it throws (`invalid_argument` without a digit, `out_of_range`
outside the 32-bit `int`). -/
def stoi (cs : List Char) : Option Int :=
  match cs with
  | [] => none
  | c :: rest =>
    if c = '-' then
      if rest.takeWhile Char.isDigit = [] then none
      else if 2 ^ 31 < decimal (rest.takeWhile Char.isDigit) then none
      else some (-(decimal (rest.takeWhile Char.isDigit) : Int))
    else if c = '+' then
      if rest.takeWhile Char.isDigit = [] then none
      else if 2 ^ 31 ≤ decimal (rest.takeWhile Char.isDigit) then none
      else some (decimal (rest.takeWhile Char.isDigit) : Int)
    else
      if (c :: rest).takeWhile Char.isDigit = [] then none
      else if 2 ^ 31 ≤ decimal ((c :: rest).takeWhile Char.isDigit) then none
      else some (decimal ((c :: rest).takeWhile Char.isDigit) : Int)

/-- The body of the loop `while (iss >> token)`: a token that begins with `-` is skipped, a
token `x…` sets `valuation[idx]` when `idx < n`; `none` when `stoi` throws and when the
index is negative (a write outside the vector). -/
def applyToken (n : Nat) (valuation : List Bool) (token : List Char) : Option (List Bool) :=
  match token with
  | [] => some valuation
  | c :: rest =>
    if c = '-' then some valuation
    else if c = 'x' then
      match stoi rest with
      | none => none
      | some idx =>
        if idx < (n : Int) then
          if idx < 0 then none else some (valuation.set idx.toNat true)
        else some valuation
    else some valuation

/-- The loop `while (iss >> token)` over the tokens of a line. -/
def applyTokens (n : Nat) : List Bool → List (List Char) → Option (List Bool)
  | valuation, [] => some valuation
  | valuation, token :: rest =>
    match applyToken n valuation token with
    | none => none
    | some valuation' => applyTokens n valuation' rest

/-- The loop `while (getline(in, line))` of `findValuationPB` and its `return`: `none` when
the code throws, `some none` for `nullopt`, `some (some valuation)` for a valuation. -/
def readLines (n : Nat) : List String → Bool → List Bool → Option (Option (List Bool))
  | [], found, valuation => some (if found then some valuation else none)
  | line :: rest, found, valuation =>
    if startsWithV line then
      match applyTokens n valuation (pbTokens line) with
      | none => none
      | some valuation' => readLines n rest true valuation'
    else if line = "s UNSATISFIABLE" then some none
    else readLines n rest found valuation

/-- What `findValuationPB` returns for the lines of the solver's output file, with `n` the
size of `varList`. -/
def readPBOutput (n : Nat) (lines : List String) : Option (Option (List Bool)) :=
  readLines n lines false (List.replicate n false)

/-- The token is an unsigned literal `xk`: `x` followed by decimal digits with value `k`. -/
def IsLiteral (token : List Char) (k : Nat) : Prop :=
  ∃ ds, token = 'x' :: ds ∧ ds ≠ [] ∧ (∀ d ∈ ds, d.isDigit = true) ∧ decimal ds = k

/-- Every token of a `v ` line that begins with `x` is `x` followed by decimal digits with
a value below `2³¹`. -/
def LiteralsOnly (lines : List String) : Prop :=
  ∀ line ∈ lines, startsWithV line = true → ∀ token ∈ pbTokens line, ∀ ds,
    token = 'x' :: ds → ds ≠ [] ∧ (∀ d ∈ ds, d.isDigit = true) ∧ decimal ds < 2 ^ 31

/-! ## solver.cpp: the rounds of the branch-and-bound loop -/

/-- The variables `binaries` and `branches` of `solve` after at most `k` iterations of the
loop `while (!branches.empty() && !binaries.empty())`; `none` when `getVarIndex` throws. -/
def branchRounds (engine : LinearProgram → Bool) :
    Nat → List String → List Branch → Option (List String × List Branch)
  | 0, binaries, branches => some (binaries, branches)
  | _ + 1, [], branches => some ([], branches)
  | k + 1, b :: binaries, branches =>
    if branches = [] then some (b :: binaries, [])
    else
      match nextBranches engine b branches with
      | none => none
      | some next => branchRounds engine k binaries next

/-- The row `b = val` that `solve` adds for the entry `(b, val)` of `fixedBinaries`. -/
def fixingRow (lp : LinearProgram) (e : String × Bool) : LPRow :=
  LPRow.ofConstraint [((lp.getVarIndex e.1).getD 0, 1)] .EQ (if e.2 then 1 else 0)

/-- Every name of the name table is the name of the variable that it points at. -/
def LinearProgram.NamesPoint (lp : LinearProgram) : Prop :=
  ∀ (name : String) (i : Nat), lp.nameToIndex.find name = some i → lp.varNames[i]? = some name

/-- The reference program of the branch-and-bound: the program `lp` extended by one row
`1·b = σ(b)` for each of the given fixings `(b, σ(b))`, in their order; the row has both
bounds equal to `σ(b)` and the single entry 1 in the column that the name `b` stands for. -/
def referenceProgram (lp : LinearProgram) (fixings : List (String × Bool)) : LinearProgram :=
  { cols := lp.cols
    rows := lp.rows ++ fixings.map fun e =>
      { lhs := some (if e.2 then 1 else 0)
        rowVec := [((lp.getVarIndex e.1).getD 0, 1)]
        rhs := some (if e.2 then 1 else 0) }
    varNames := lp.varNames
    nameToIndex := lp.nameToIndex }

/-! ## The indices of the rows, and the restriction of an assignment to a set of columns -/

section RestrictionDefs

variable {α : Type} [LinearOrderedField α]

/-- Every entry of every row is on a variable of index below `m`. -/
def LinearProgram.InScope (lp : LinearProgram) (m : Nat) : Prop :=
  ∀ row ∈ lp.rows, ∀ e ∈ row.rowVec, e.1 < m

/-- The name is `x(k)` or `b(k)` for some `k`. -/
def IsEncoderName (name : String) : Prop :=
  (∃ k : String, name = "x(" ++ k ++ ")") ∨ (∃ k : String, name = "b(" ++ k ++ ")")

/-- The rows, the map `xVars` and the name table of the encoder point at variables that
exist, the name table binds names of variables only, and every variable is named `x(·)` or
`b(·)`. -/
def EncState.Scoped (st : EncState) : Prop :=
  st.lp.InScope st.lp.varNames.length ∧
  (∀ (k : String) (i : Nat), st.xVars.find k = some i → i < st.lp.varNames.length) ∧
  (∀ (name : String) (i : Nat),
    st.lp.nameToIndex.find name = some i →
      i < st.lp.varNames.length ∧ name ∈ st.lp.varNames) ∧
  ∀ name ∈ st.lp.varNames, IsEncoderName name

/-- The linear form `F` reads only the variables of index below `m`. -/
def LocalTo (F : (Nat → α) → α) (m : Nat) : Prop :=
  ∀ v v' : Nat → α, (∀ i, i < m → v i = v' i) → F v = F v'

/-- The mass that the assignment `v` of the complete system puts, in the row `r`, on the
columns of the bitmasks that are not in `K`; the column of the bitmask `k` is the variable
`N0 + k`. -/
def missingMass (root : RootLP) (varList : List String) (N0 : Nat) (K : List Nat)
    (v : Nat → α) (r : Nat) : α :=
  (((List.range (2 ^ varList.length)).filter fun k => decide (k ∉ K)).map fun k =>
    (colCoef root varList (valuationOfMask varList.length k) r : α) * v (N0 + k)).sum

/-- The restriction of an assignment `v` of the complete system to the columns of the
bitmasks `K`: the variables of the encoder keep their values, the slack variable of the row
`r` (the variable `m0 + r`) takes on the missing mass of the row, and the `j`-th column
takes the value of the column of its bitmask. -/
def restrictTo (root : RootLP) (varList : List String) (m0 N0 : Nat) (K : List Nat)
    (v : Nat → α) : Nat → α :=
  fun i =>
    if i < m0 then v i
    else if i < N0 then v i + missingMass root varList N0 K v (i - m0)
    else v (N0 + K.getD (i - N0) 0)

end RestrictionDefs

/-- The program of `negatedAtom` with the column of the valuation `p = 0` only. -/
def exampleRestricted : LinearProgram :=
  (addColumns exampleRoot ["p"] exampleRoot.lp
    [("p(0)", valuationOfMask 1 0)]).getD LinearProgram.empty

/-- The complete system of `negatedAtom`: the columns of `p = 0` and `p = 1`. -/
def exampleFull : LinearProgram :=
  (addColumns exampleRoot ["p"] exampleRoot.lp (allColumns 1)).getD LinearProgram.empty

/-! ## solver.cpp: the witness that `isFeasible` stores, and the reporter -/

/-- The members `lastModalValues`, `lastProbDistribution` and `lastValuations` of
`FPSolver`; the map `lastModalValues` is listed in the order of `xVars`. -/
structure Witness where
  lastModalValues : List (String × ℚ)
  lastProbDistribution : List ℚ
  lastValuations : List (List Bool)
  deriving DecidableEq

/-- The loop `while (true) { try { idx = lp->getVarIndex("p(" + to_string(t) + ")"); ++t;
break; } catch (...) { ++t; } }` of `isFeasible`, from the value `t` of the counter and for
at most `fuel` values of it: the index found and the counter after the loop. -/
def nextColumn (lp : LinearProgram) : Nat → Nat → Option (Nat × Nat)
  | 0, _ => none
  | fuel + 1, t =>
    match lp.getVarIndex (columnName t) with
    | some idx => some (idx, t + 1)
    | none => nextColumn lp fuel (t + 1)

/-- The loop `for (int w = 0; w < lastValuations.size(); ++w)` of `isFeasible` that fills
`lastProbDistribution`, for `count` entries from the value `t` of the counter; `value` is
`getVariableValue`. The result is `none` when the counter passes the largest `int`. -/
def probDistribution (lp : LinearProgram) (value : Nat → ℚ) : Nat → Nat → Option (List ℚ)
  | 0, _ => some []
  | count + 1, t =>
    match nextColumn lp (2 ^ 31 - t) t with
    | none => none
    | some r => (probDistribution lp value count r.2).map fun rest => value r.1 :: rest

/-- The block of `isFeasible` under `if (obj <= 0)`: the witness it stores. -/
def acceptWitness (root : RootLP) (value : Nat → ℚ) (st : EngineState) : Option Witness :=
  (probDistribution st.lp value st.lastValuationsLocal.length 0).map fun dist =>
    { lastModalValues := root.xVars.map fun e => (e.1, value e.2)
      lastProbDistribution := dist
      lastValuations := st.lastValuationsLocal }

/-- `FPSolver::isFeasible` with its effect on the members of the solver: the value it
returns and the witness stored after the call, `stored` being the witness stored before it.
The argument `primal lp` is `getVariableValue` on the solved program `lp`; the result is
`none` when the call throws or does not return within the fuel. -/
def isFeasibleStored (root : RootLP) (varList : List String)
    (findValuationPB : Option (List ℚ → List (List Bool) → Option (List Bool)))
    (solver : Nat → LinearProgram → Option LPAnswer) (primal : LinearProgram → Nat → ℚ)
    (fuel : Nat) (lp : LinearProgram) (stored : Witness) : Option (Bool × Witness) :=
  match isFeasible root varList findValuationPB solver fuel lp with
  | .returned true st _ => (acceptWitness root (primal st.lp) st).map fun w => (true, w)
  | .returned false _ _ => some (false, stored)
  | _ => none

/-- The two inner `for` loops of `solve` for one branch, with the stored witness: first the
child `b = 0`, then the child `b = 1`. -/
def branchChildrenStored (check : LinearProgram → Witness → Option (Bool × Witness))
    (b : String) (br : Branch) (stored : Witness) : Option (List Branch × Witness) :=
  match fixBinary br.lp b false with
  | none => none
  | some lp0 =>
    match check lp0 stored with
    | none => none
    | some r0 =>
      match fixBinary br.lp b true with
      | none => none
      | some lp1 =>
        match check lp1 r0.2 with
        | none => none
        | some r1 =>
          some ((if r0.1 then [⟨lp0, br.fixedBinaries ++ [(b, false)]⟩] else []) ++
              (if r1.1 then [⟨lp1, br.fixedBinaries ++ [(b, true)]⟩] else []), r1.2)

/-- The vector `next` of one iteration of the `while` loop of `solve`, with the stored
witness. -/
def nextBranchesStored (check : LinearProgram → Witness → Option (Bool × Witness))
    (b : String) : List Branch → Witness → Option (List Branch × Witness)
  | [], stored => some ([], stored)
  | br :: brs, stored =>
    match branchChildrenStored check b br stored with
    | none => none
    | some cs =>
      match nextBranchesStored check b brs cs.2 with
      | none => none
      | some rest => some (cs.1 ++ rest.1, rest.2)

/-- The loop `while (!branches.empty() && !binaries.empty())` of `solve`, with the stored
witness. -/
def branchLoopStored (check : LinearProgram → Witness → Option (Bool × Witness)) :
    List String → List Branch → Witness → Option (List Branch × Witness)
  | [], branches, stored => some (branches, stored)
  | b :: binaries, branches, stored =>
    if branches = [] then some ([], stored)
    else
      match nextBranchesStored check b branches stored with
      | none => none
      | some next => branchLoopStored check binaries next.1 next.2

/-- What `solve` leaves: the value it returns, the witness stored, which it reports when the
value is `true`, and the vector `branches`. -/
structure SolveOutcome where
  sat : Bool
  witness : Witness
  branches : List Branch
  deriving DecidableEq

/-- `FPSolver::solve` with the stored witness, from the root program that it has built. -/
def solveStoredFrom (check : LinearProgram → Witness → Option (Bool × Witness))
    (lp : LinearProgram) (stored : Witness) : Option SolveOutcome :=
  match check lp stored with
  | none => none
  | some r =>
    if r.1 then
      (branchLoopStored check lp.getBinaryVariableNames [⟨lp, []⟩] r.2).map fun out =>
        ⟨!out.1.isEmpty, out.2, out.1⟩
    else some ⟨false, r.2, []⟩

/-- `FPSolver::solve` with the stored witness; `none` when it throws. -/
def solveStored (check : LinearProgram → Witness → Option (Bool × Witness))
    (formulas : List ModalFormula) (stored : Witness) : Option SolveOutcome :=
  match buildRootLP formulas with
  | none => none
  | some root => solveStoredFrom check root.lp stored

/-- The index `w` that the reporter computes for a valuation when `usePB` is not set:
`w |= (1 << j)` for every `j < n` with `valuation[j]` set. -/
def maskOf (n : Nat) (valuation : List Bool) : Nat :=
  (List.range n).foldl (fun w j => if valuation.getD j false then w ||| (1 <<< j) else w) 0

/-- The index that the reporter prints for the `i`-th entry of `lastProbDistribution`:
`usePB ? i : w`. -/
def reportIndex (usePB : Bool) (n i : Nat) (valuation : List Bool) : Nat :=
  if usePB then i else maskOf n valuation

/-- The entries that the columns of the bitmasks `ks`, added in this order to a program
with `N` variables, leave in `nameToIndex`. -/
def columnTable (N : Nat) (ks : List Nat) : StrMap :=
  ks.foldl (fun m k => (columnName k, N + m.length) :: m) []

/-- The state of the engine holds the columns of the bitmasks `ks`, added in this order to
the program `lp0`, and every bitmask up to a bitmask of `ks` is marked as used. -/
def OrderedColumns (varList : List String) (lp0 : LinearProgram) (st : EngineState)
    (ks : List Nat) : Prop :=
  ks.Sorted (fun a b => a < b) ∧ (∀ k ∈ ks, k < 2 ^ varList.length) ∧ ks.head? = some 0 ∧
  st.lastValuationsLocal = ks.map (valuationOfMask varList.length) ∧
  st.lp.varNames = lp0.varNames ++ ks.map columnName ∧
  st.lp.nameToIndex = columnTable lp0.varNames.length ks ++ lp0.nameToIndex ∧
  ∀ w, (∃ k ∈ ks, w ≤ k) → valuationOfMask varList.length w ∈ st.usedValuations

/-- The root program of the empty input: the normalization row with its slack variable. -/
def emptyRoot : RootLP :=
  { lp :=
      { cols := [⟨1, none, some 0⟩]
        rows := [⟨some 1, [(0, 1)], some 1⟩]
        varNames := ["i(0)"]
        nameToIndex := [("i(0)", 0)] }
    xVars := []
    bVars := []
    psiList := []
    probConstraintRows := []
    sumProbRow := 0 }

/-- The program of the empty input when the engine enters its loop: the column `p(0)` of
the empty valuation is added. -/
def emptyEngineLP : LinearProgram :=
  { cols := [⟨1, none, some 0⟩, ⟨0, some 1, some 0⟩]
    rows := [⟨some 1, [(0, 1), (1, 1)], some 1⟩]
    varNames := ["i(0)", "p(0)"]
    nameToIndex := [("p(0)", 1), ("i(0)", 0)] }

/-- The witness that an empty `FPSolver` holds. -/
def Witness.empty : Witness := ⟨[], [], []⟩

/-- The witness `w` is the one that the feasibility check of the last element of
`branches` stores, whatever witness is stored before that check. -/
def LastWitness (check : LinearProgram → Witness → Option (Bool × Witness))
    (branches : List Branch) (w : Witness) : Prop :=
  ∃ last, branches.getLast? = some last ∧ ∀ stored, check last.lp stored = some (true, w)

/-! ## main.cpp -/

/-- The local variables of `main` that its argument loop sets. -/
structure Options where
  inputFile : String
  pbsolverPath : String
  pbArguments : String
  usePB : Bool
  verbose : Bool
  deriving DecidableEq

/-- The initial values of the local variables of `main`. -/
def Options.initial : Options := ⟨"", "minisat+", "", true, false⟩

/-- How the argument loop of `main` ends: at `--help`, at an argument that it reports as
unknown, or at the end of the arguments. -/
inductive ArgResult
  | help
  | unknown (arg : String)
  | done (o : Options)
  deriving DecidableEq

/-- The loop `for (int i = 1; i < argc; ++i)` of `main` over the arguments `argv[i..]`; the
test `i + 1 < argc` is `rest ≠ []`. -/
def argLoop : List String → Options → ArgResult
  | [], o => .done o
  | arg :: rest, o =>
    if (arg = "-i" ∨ arg = "--input") ∧ rest ≠ [] then
      match rest with
      | value :: rest' => argLoop rest' { o with inputFile := value }
      | [] => .done o
    else if arg = "--no-pb" then argLoop rest { o with usePB := false }
    else if arg = "--pbsolver" ∧ rest ≠ [] then
      match rest with
      | value :: rest' => argLoop rest' { o with pbsolverPath := value }
      | [] => .done o
    else if arg = "--pbarg" ∧ rest ≠ [] then
      match rest with
      | value :: rest' => argLoop rest' { o with pbArguments := value }
      | [] => .done o
    else if arg = "--verbose" then argLoop rest { o with verbose := true }
    else if arg = "--help" then .help
    else .unknown arg

/-- The function `main` on the arguments `argv[1..]`. The argument `run o` is what the body
of the `try` block does with the options `o`: load and parse the input file, build the
solver and call `solve()`; it is `none` when an exception is raised and `some sat`
otherwise. -/
def main (run : Options → Option Bool) (args : List String) : Nat :=
  match argLoop args Options.initial with
  | .help => 0
  | .unknown _ => 1
  | .done o =>
    if o.inputFile = "" then 1
    else
      match run o with
      | none => 1
      | some true => 0
      | some false => 2

/-- The options that are followed by a value. -/
def takesValue (arg : String) : Bool :=
  arg = "-i" || arg = "--input" || arg = "--pbsolver" || arg = "--pbarg"

/-- The options without a value, `--help` apart. -/
def isFlag (arg : String) : Bool := arg = "--no-pb" || arg = "--verbose"

/-- A sequence of arguments that `main` recognises: flags, and options each followed by its
value. -/
inductive Recognised : List String → Prop
  | nil : Recognised []
  | flag (arg : String) (rest : List String) :
      isFlag arg = true → Recognised rest → Recognised (arg :: rest)
  | valued (arg value : String) (rest : List String) :
      takesValue arg = true → Recognised rest → Recognised (arg :: value :: rest)

/-- The argument `arg`, followed by `rest`, is not recognised: it is no flag and not
`--help`, and it is no option with a value or its value is missing. -/
def Unrecognised (arg : String) (rest : List String) : Prop :=
  isFlag arg = false ∧ arg ≠ "--help" ∧ (takesValue arg = false ∨ rest = [])

/-! ## Classical truth -/

/-- Classical truth of a CPL formula under an assignment of its variables, by the truth
tables of the connectives. -/
def CPLFormula.classical (val : String → Bool) : CPLFormula → Bool
  | .var name => val name
  | .not l => !(l.classical val)
  | .binary op l r => op.truth (l.classical val) (r.classical val)

/-- The assignment that a map `val` of `evaluateCPL` holds (`false` for an unbound name). -/
def BoolMap.assignment (val : BoolMap) : String → Bool := fun name => (val.at name).getD false

/-! ## Theorems: the canonical string determines the formula -/

section CanonicalString

theorem stopsIdent_nil : StopsIdent [] := by
  intro c hc
  simp at hc

theorem stopsIdent_cons {c : Char} (r : List Char) (h : isIdentChar c = false) :
    StopsIdent (c :: r) := by
  intro d hd
  simp at hd
  rw [← hd]
  exact h

theorem ident_append_inj : ∀ (a b r s : List Char),
    (∀ c ∈ a, isIdentChar c = true) → (∀ c ∈ b, isIdentChar c = true) →
    StopsIdent r → StopsIdent s → a ++ r = b ++ s → a = b ∧ r = s
  | [], [], r, s, _, _, _, _, h => ⟨rfl, by simpa using h⟩
  | [], d :: b, r, s, _, hb, hr, _, h => by
    simp only [List.nil_append, List.cons_append] at h
    have h1 := hr d (by simp [h])
    have h2 := hb d (by simp)
    rw [h1] at h2
    cases h2
  | c :: a, [], r, s, ha, _, _, hs, h => by
    simp only [List.nil_append, List.cons_append] at h
    have h1 := hs c (by simp [← h])
    have h2 := ha c (by simp)
    rw [h1] at h2
    cases h2
  | c :: a, d :: b, r, s, ha, hb, hr, hs, h => by
    simp only [List.cons_append, List.cons.injEq] at h
    obtain ⟨hcd, hrest⟩ := h
    obtain ⟨h1, h2⟩ := ident_append_inj a b r s
      (fun x hx => ha x (List.mem_cons_of_mem _ hx))
      (fun x hx => hb x (List.mem_cons_of_mem _ hx)) hr hs hrest
    exact ⟨by rw [hcd, h1], h2⟩

theorem isIdentChar_of_isIdentStart {c : Char} (h : isIdentStart c = true) :
    isIdentChar c = true := by
  simp only [isIdentStart, Bool.or_eq_true] at h
  simp only [isIdentChar, Char.isAlphanum, Bool.or_eq_true]
  rcases h with h | h
  · exact Or.inl (Or.inl h)
  · exact Or.inr h

theorem isIdentifier_data {n : String} (h : isIdentifier n = true) :
    ∃ c cs, n.data = c :: cs ∧ ∀ d ∈ n.data, isIdentChar d = true := by
  unfold isIdentifier at h
  cases hd : n.data with
  | nil => rw [hd] at h; cases h
  | cons c cs =>
    rw [hd] at h
    simp only [Bool.and_eq_true, List.all_eq_true] at h
    refine ⟨c, cs, rfl, ?_⟩
    intro d hmem
    rcases List.mem_cons.mp hmem with hdc | hdcs
    · rw [hdc]; exact isIdentChar_of_isIdentStart h.1
    · exact h.2 d hdcs

theorem CPLBinary.cplInfixText_data (op : CPLBinary) :
    op.infixText.data = [' ', op.infixChar, ' '] := by
  cases op <;> rfl

theorem CPLBinary.cplInfixChar_inj {a b : CPLBinary} (h : a.infixChar = b.infixChar) : a = b := by
  cases a <;> cases b <;> first | rfl | (exact absurd h (by decide))

theorem ModalBinary.modalInfixText_data (op : ModalBinary) :
    op.infixText.data = [' ', op.infixChar, ' '] := by
  cases op <;> rfl

theorem ModalBinary.modalInfixChar_inj {a b : ModalBinary} (h : a.infixChar = b.infixChar) :
    a = b := by
  cases a <;> cases b <;> first | rfl | (exact absurd h (by decide))

theorem CPLFormula.cplToString_not_data (l : CPLFormula) :
    (CPLFormula.not l).toString.data = '¬' :: '(' :: (l.toString.data ++ [')']) := by
  simp [CPLFormula.toString, String.data_append]

theorem CPLFormula.cplToString_binary_data (op : CPLBinary) (l r : CPLFormula) :
    (CPLFormula.binary op l r).toString.data =
      '(' :: (l.toString.data ++ (' ' :: op.infixChar :: ' ' :: (r.toString.data ++ [')']))) := by
  simp [CPLFormula.toString, String.data_append, CPLBinary.cplInfixText_data]

theorem ModalFormula.modalToString_patom_data (phi : CPLFormula) :
    (ModalFormula.patom phi).toString.data = 'P' :: '(' :: (phi.toString.data ++ [')']) := by
  simp [ModalFormula.toString, String.data_append]

theorem ModalFormula.modalToString_not_data (l : ModalFormula) :
    (ModalFormula.not l).toString.data = '¬' :: '(' :: (l.toString.data ++ [')']) := by
  simp [ModalFormula.toString, String.data_append]

theorem ModalFormula.modalToString_binary_data (op : ModalBinary) (l r : ModalFormula) :
    (ModalFormula.binary op l r).toString.data =
      '(' :: (l.toString.data ++ (' ' :: op.infixChar :: ' ' :: (r.toString.data ++ [')']))) := by
  simp [ModalFormula.toString, String.data_append, ModalBinary.modalInfixText_data]

/-- Unique readability of CPL canonical strings: a canonical string followed by text that
does not continue an identifier determines the formula and the text. -/
theorem CPLFormula.cplToString_append_inj : ∀ (f g : CPLFormula),
    f.wellFormed = true → g.wellFormed = true → ∀ r s : List Char,
    StopsIdent r → StopsIdent s →
    f.toString.data ++ r = g.toString.data ++ s → f = g ∧ r = s
  | .var n, .var m, hf, hg, r, s, hr, hs, h => by
    obtain ⟨_, _, _, hn⟩ := isIdentifier_data (n := n) hf
    obtain ⟨_, _, _, hm⟩ := isIdentifier_data (n := m) hg
    obtain ⟨h1, h2⟩ := ident_append_inj n.data m.data r s hn hm hr hs h
    exact ⟨by rw [String.ext h1], h2⟩
  | .var n, .not l, hf, _, r, s, _, _, h => by
    obtain ⟨c, cs, hdata, hn⟩ := isIdentifier_data (n := n) hf
    rw [CPLFormula.cplToString_not_data] at h
    have hc : isIdentChar c = true := hn c (by simp [hdata])
    simp only [CPLFormula.toString, hdata, List.cons_append, List.cons.injEq] at h
    rw [h.1] at hc
    exact absurd hc (by decide)
  | .var n, .binary op l r', hf, _, r, s, _, _, h => by
    obtain ⟨c, cs, hdata, hn⟩ := isIdentifier_data (n := n) hf
    rw [CPLFormula.cplToString_binary_data] at h
    have hc : isIdentChar c = true := hn c (by simp [hdata])
    simp only [CPLFormula.toString, hdata, List.cons_append, List.cons.injEq] at h
    rw [h.1] at hc
    exact absurd hc (by decide)
  | .not l, .var m, _, hg, r, s, _, _, h => by
    obtain ⟨c, cs, hdata, hm⟩ := isIdentifier_data (n := m) hg
    rw [CPLFormula.cplToString_not_data] at h
    have hc : isIdentChar c = true := hm c (by simp [hdata])
    simp only [CPLFormula.toString, hdata, List.cons_append, List.cons.injEq] at h
    rw [← h.1] at hc
    exact absurd hc (by decide)
  | .binary op l r', .var m, _, hg, r, s, _, _, h => by
    obtain ⟨c, cs, hdata, hm⟩ := isIdentifier_data (n := m) hg
    rw [CPLFormula.cplToString_binary_data] at h
    have hc : isIdentChar c = true := hm c (by simp [hdata])
    simp only [CPLFormula.toString, hdata, List.cons_append, List.cons.injEq] at h
    rw [← h.1] at hc
    exact absurd hc (by decide)
  | .not l, .binary op l' r', _, _, r, s, _, _, h => by
    rw [CPLFormula.cplToString_not_data, CPLFormula.cplToString_binary_data] at h
    simp only [List.cons_append, List.cons.injEq] at h
    exact absurd h.1 (by decide)
  | .binary op l' r', .not l, _, _, r, s, _, _, h => by
    rw [CPLFormula.cplToString_not_data, CPLFormula.cplToString_binary_data] at h
    simp only [List.cons_append, List.cons.injEq] at h
    exact absurd h.1 (by decide)
  | .not l, .not l', hf, hg, r, s, hr, hs, h => by
    rw [CPLFormula.cplToString_not_data, CPLFormula.cplToString_not_data] at h
    simp only [List.cons_append, List.cons.injEq, true_and, List.append_assoc] at h
    obtain ⟨h1, h2⟩ := CPLFormula.cplToString_append_inj l l' hf hg (')' :: r) (')' :: s)
      (stopsIdent_cons _ (by decide)) (stopsIdent_cons _ (by decide)) (by simpa using h)
    exact ⟨by rw [h1], by simpa using h2⟩
  | .binary op l r', .binary op' l' r'', hf, hg, r, s, hr, hs, h => by
    simp only [CPLFormula.wellFormed, Bool.and_eq_true] at hf hg
    rw [CPLFormula.cplToString_binary_data, CPLFormula.cplToString_binary_data] at h
    simp only [List.cons_append, List.cons.injEq, true_and, List.append_assoc] at h
    obtain ⟨h1, h2⟩ := CPLFormula.cplToString_append_inj l l' hf.1 hg.1 _ _
      (stopsIdent_cons _ (by decide)) (stopsIdent_cons _ (by decide)) h
    simp only [List.cons.injEq, true_and] at h2
    obtain ⟨hop, h3⟩ := h2
    obtain ⟨h4, h5⟩ := CPLFormula.cplToString_append_inj r' r'' hf.2 hg.2 (')' :: r) (')' :: s)
      (stopsIdent_cons _ (by decide)) (stopsIdent_cons _ (by decide)) (by simpa using h3)
    exact ⟨by rw [h1, h4, CPLBinary.cplInfixChar_inj hop], by simpa using h5⟩

/-- Unique readability of modal canonical strings. -/
theorem ModalFormula.modalToString_append_inj : ∀ (f g : ModalFormula),
    f.wellFormed = true → g.wellFormed = true → ∀ r s : List Char,
    f.toString.data ++ r = g.toString.data ++ s → f = g ∧ r = s
  | .patom phi, .patom psi, hf, hg, r, s, h => by
    rw [ModalFormula.modalToString_patom_data, ModalFormula.modalToString_patom_data] at h
    simp only [List.cons_append, List.cons.injEq, true_and, List.append_assoc] at h
    obtain ⟨h1, h2⟩ := CPLFormula.cplToString_append_inj phi psi hf hg (')' :: r) (')' :: s)
      (stopsIdent_cons _ (by decide)) (stopsIdent_cons _ (by decide)) (by simpa using h)
    exact ⟨by rw [h1], by simpa using h2⟩
  | .patom phi, .not l, _, _, r, s, h => by
    rw [ModalFormula.modalToString_patom_data, ModalFormula.modalToString_not_data] at h
    simp only [List.cons_append, List.cons.injEq] at h
    exact absurd h.1 (by decide)
  | .patom phi, .binary op l r', _, _, r, s, h => by
    rw [ModalFormula.modalToString_patom_data, ModalFormula.modalToString_binary_data] at h
    simp only [List.cons_append, List.cons.injEq] at h
    exact absurd h.1 (by decide)
  | .not l, .patom phi, _, _, r, s, h => by
    rw [ModalFormula.modalToString_patom_data, ModalFormula.modalToString_not_data] at h
    simp only [List.cons_append, List.cons.injEq] at h
    exact absurd h.1 (by decide)
  | .binary op l r', .patom phi, _, _, r, s, h => by
    rw [ModalFormula.modalToString_patom_data, ModalFormula.modalToString_binary_data] at h
    simp only [List.cons_append, List.cons.injEq] at h
    exact absurd h.1 (by decide)
  | .not l, .binary op l' r', _, _, r, s, h => by
    rw [ModalFormula.modalToString_not_data, ModalFormula.modalToString_binary_data] at h
    simp only [List.cons_append, List.cons.injEq] at h
    exact absurd h.1 (by decide)
  | .binary op l' r', .not l, _, _, r, s, h => by
    rw [ModalFormula.modalToString_not_data, ModalFormula.modalToString_binary_data] at h
    simp only [List.cons_append, List.cons.injEq] at h
    exact absurd h.1 (by decide)
  | .not l, .not l', hf, hg, r, s, h => by
    rw [ModalFormula.modalToString_not_data, ModalFormula.modalToString_not_data] at h
    simp only [List.cons_append, List.cons.injEq, true_and, List.append_assoc] at h
    obtain ⟨h1, h2⟩ := ModalFormula.modalToString_append_inj l l' hf hg (')' :: r) (')' :: s)
      (by simpa using h)
    exact ⟨by rw [h1], by simpa using h2⟩
  | .binary op l r', .binary op' l' r'', hf, hg, r, s, h => by
    simp only [ModalFormula.wellFormed, Bool.and_eq_true] at hf hg
    rw [ModalFormula.modalToString_binary_data, ModalFormula.modalToString_binary_data] at h
    simp only [List.cons_append, List.cons.injEq, true_and, List.append_assoc] at h
    obtain ⟨h1, h2⟩ := ModalFormula.modalToString_append_inj l l' hf.1 hg.1 _ _ h
    simp only [List.cons.injEq, true_and] at h2
    obtain ⟨hop, h3⟩ := h2
    obtain ⟨h4, h5⟩ := ModalFormula.modalToString_append_inj r' r'' hf.2 hg.2 (')' :: r) (')' :: s)
      (by simpa using h3)
    exact ⟨by rw [h1, h4, ModalBinary.modalInfixChar_inj hop], by simpa using h5⟩

/-- Two well-formed modal formulas with the same canonical string are the same tree. -/
theorem ModalFormula.toString_inj {f g : ModalFormula}
    (hf : f.wellFormed = true) (hg : g.wellFormed = true) (h : f.toString = g.toString) :
    f = g :=
  (ModalFormula.modalToString_append_inj f g hf hg [] [] (by rw [h])).1

end CanonicalString

/-! ## Theorems: the connective gadgets -/

section Gadgets

variable {α : Type} [LinearOrderedField α]

theorem constraintsSat_nil (v : Nat → α) : constraintsSat v [] := by
  intro c hc
  cases hc

theorem constraintsSat_cons (v : Nat → α) (c : Constraint) (cs : List Constraint) :
    constraintsSat v (c :: cs) ↔ c.row.sat v ∧ constraintsSat v cs := by
  simp [constraintsSat]

theorem row_sat_LE (v : Nat → α) (terms : List (Nat × ℚ)) (rhs : ℚ) :
    (Constraint.row (terms, Sense.LE, rhs)).sat v ↔
      (terms.map fun t => (t.2 : α) * v t.1).sum ≤ (rhs : α) := by
  simp [Constraint.row, LPRow.ofConstraint, LPRow.sat, LPRow.value]

theorem row_sat_GE (v : Nat → α) (terms : List (Nat × ℚ)) (rhs : ℚ) :
    (Constraint.row (terms, Sense.GE, rhs)).sat v ↔
      (rhs : α) ≤ (terms.map fun t => (t.2 : α) * v t.1).sum := by
  simp [Constraint.row, LPRow.ofConstraint, LPRow.sat, LPRow.value]

theorem row_sat_EQ (v : Nat → α) (terms : List (Nat × ℚ)) (rhs : ℚ) :
    (Constraint.row (terms, Sense.EQ, rhs)).sat v ↔
      (terms.map fun t => (t.2 : α) * v t.1).sum = (rhs : α) := by
  simp [Constraint.row, LPRow.ofConstraint, LPRow.sat, LPRow.value, le_antisymm_iff, and_comm]

theorem not_sat_iff (v : Nat → α) (lx x : Nat) :
    constraintsSat v (notConstraints lx x) ↔ -v lx + v x = 1 := by
  simp only [notConstraints, constraintsSat_cons, row_sat_EQ, List.map, List.sum_cons,
    List.sum_nil]
  simp [constraintsSat_nil]

theorem oplus_sat_iff (v : Nat → α) (lx rx x b : Nat) :
    constraintsSat v (binaryConstraints .OPLUS lx rx x b) ↔
      (v b - v x ≤ 0 ∧ v x ≤ 1 ∧ v lx + v rx - v b - v x ≤ 0 ∧ -v lx - v rx + v x ≤ 0) := by
  simp only [binaryConstraints, constraintsSat_cons, row_sat_LE, row_sat_GE, List.map,
    List.sum_cons, List.sum_nil]
  push_cast
  simp only [constraintsSat_nil, and_true, one_mul, neg_mul, add_zero]
  constructor
  · rintro ⟨h1, h2, h3, h4⟩
    refine ⟨by linarith, by linarith, by linarith, by linarith⟩
  · rintro ⟨h1, h2, h3, h4⟩
    refine ⟨by linarith, by linarith, by linarith, by linarith⟩

theorem odot_sat_iff (v : Nat → α) (lx rx x b : Nat) :
    constraintsSat v (binaryConstraints .ODOT lx rx x b) ↔
      (0 ≤ v x ∧ v x - v b ≤ 0 ∧ 1 ≤ v lx + v rx - v x ∧ v lx + v rx - v b - v x ≤ 0) := by
  simp only [binaryConstraints, constraintsSat_cons, row_sat_LE, row_sat_GE, List.map,
    List.sum_cons, List.sum_nil]
  push_cast
  simp only [constraintsSat_nil, and_true, one_mul, neg_mul, add_zero]
  constructor
  · rintro ⟨h1, h2, h3, h4⟩
    refine ⟨by linarith, by linarith, by linarith, by linarith⟩
  · rintro ⟨h1, h2, h3, h4⟩
    refine ⟨by linarith, by linarith, by linarith, by linarith⟩

theorem and_sat_iff (v : Nat → α) (lx rx x b : Nat) :
    constraintsSat v (binaryConstraints .AND lx rx x b) ↔
      (v lx - v b - v x ≤ 0 ∧ -v lx + v x ≤ 0 ∧ v rx + v b - v x ≤ 1 ∧ -v rx + v x ≤ 0) := by
  simp only [binaryConstraints, constraintsSat_cons, row_sat_LE, row_sat_GE, List.map,
    List.sum_cons, List.sum_nil]
  push_cast
  simp only [constraintsSat_nil, and_true, one_mul, neg_mul, add_zero]
  constructor
  · rintro ⟨h1, h2, h3, h4⟩
    refine ⟨by linarith, by linarith, by linarith, by linarith⟩
  · rintro ⟨h1, h2, h3, h4⟩
    refine ⟨by linarith, by linarith, by linarith, by linarith⟩

theorem or_sat_iff (v : Nat → α) (lx rx x b : Nat) :
    constraintsSat v (binaryConstraints .OR lx rx x b) ↔
      (v lx - v x ≤ 0 ∧ -v lx + v x - v b ≤ 0 ∧ v rx - v x ≤ 0 ∧ -v rx + v x + v b ≤ 1) := by
  simp only [binaryConstraints, constraintsSat_cons, row_sat_LE, row_sat_GE, List.map,
    List.sum_cons, List.sum_nil]
  push_cast
  simp only [constraintsSat_nil, and_true, one_mul, neg_mul, add_zero]
  constructor
  · rintro ⟨h1, h2, h3, h4⟩
    refine ⟨by linarith, by linarith, by linarith, by linarith⟩
  · rintro ⟨h1, h2, h3, h4⟩
    refine ⟨by linarith, by linarith, by linarith, by linarith⟩

theorem implies_sat_iff (v : Nat → α) (lx rx x b : Nat) :
    constraintsSat v (binaryConstraints .IMPLIES lx rx x b) ↔
      (v b - v x ≤ 0 ∧ v x ≤ 1 ∧ 1 ≤ v lx - v rx + v b + v x ∧ v lx - v rx + v x ≤ 1) := by
  simp only [binaryConstraints, constraintsSat_cons, row_sat_LE, row_sat_GE, List.map,
    List.sum_cons, List.sum_nil]
  push_cast
  simp only [constraintsSat_nil, and_true, one_mul, neg_mul, add_zero]
  constructor
  · rintro ⟨h1, h2, h3, h4⟩
    refine ⟨by linarith, by linarith, by linarith, by linarith⟩
  · rintro ⟨h1, h2, h3, h4⟩
    refine ⟨by linarith, by linarith, by linarith, by linarith⟩

theorem iff_sat_iff (v : Nat → α) (lx rx x b : Nat) :
    constraintsSat v (binaryConstraints .IFF lx rx x b) ↔
      (1 ≤ v lx - v rx + 2 * v b + v x ∧ v lx - v rx + v x ≤ 1 ∧ v lx - v rx + 2 * v b - v x ≤ 1 ∧ -v lx + v rx + v x ≤ 1) := by
  simp only [binaryConstraints, constraintsSat_cons, row_sat_LE, row_sat_GE, List.map,
    List.sum_cons, List.sum_nil]
  push_cast
  simp only [constraintsSat_nil, and_true, one_mul, neg_mul, add_zero]
  constructor
  · rintro ⟨h1, h2, h3, h4⟩
    refine ⟨by linarith, by linarith, by linarith, by linarith⟩
  · rintro ⟨h1, h2, h3, h4⟩
    refine ⟨by linarith, by linarith, by linarith, by linarith⟩

/-- Within the bounds, the `NOT` row forces the Łukasiewicz negation (it even forces
`L = 0` and `X = 1`). -/
theorem not_sound (v : Nat → α) (lx x : Nat) (hL : 0 ≤ v lx) (hX : v x ≤ 1)
    (h : constraintsSat v (notConstraints lx x)) : v x = lukNot (v lx) := by
  rw [not_sat_iff] at h
  have h0 : v lx = 0 := by linarith
  have h1 : v x = 1 := by linarith
  simp [lukNot, h0, h1]

/-- Within the bounds and with a 0/1 value of the auxiliary variable, the four rows of a
binary connective force its Łukasiewicz truth function. -/
theorem binary_sound (op : ModalBinary) (v : Nat → α) (lx rx x b : Nat)
    (hB : v b = 0 ∨ v b = 1) (hX : 0 ≤ v x ∧ v x ≤ 1)
    (hL : 0 ≤ v lx ∧ v lx ≤ 1) (hR : 0 ≤ v rx ∧ v rx ≤ 1)
    (h : constraintsSat v (binaryConstraints op lx rx x b)) :
    v x = op.luk (v lx) (v rx) := by
  obtain ⟨hX0, hX1⟩ := hX
  obtain ⟨hL0, hL1⟩ := hL
  obtain ⟨hR0, hR1⟩ := hR
  cases op
  · rw [and_sat_iff] at h
    obtain ⟨h1, h2, h3, h4⟩ := h
    simp only [ModalBinary.luk]
    rcases hB with hB | hB <;> rw [hB] at h1 h3
    · rw [min_eq_left (by linarith)]; linarith
    · rw [min_eq_right (by linarith)]; linarith
  · rw [or_sat_iff] at h
    obtain ⟨h1, h2, h3, h4⟩ := h
    simp only [ModalBinary.luk]
    rcases hB with hB | hB <;> rw [hB] at h2 h4
    · rw [max_eq_left (by linarith)]; linarith
    · rw [max_eq_right (by linarith)]; linarith
  · rw [implies_sat_iff] at h
    obtain ⟨h1, h2, h3, h4⟩ := h
    simp only [ModalBinary.luk]
    rcases hB with hB | hB <;> rw [hB] at h1 h3
    · rw [min_eq_right (by linarith)]; linarith
    · rw [min_eq_left (by linarith)]; linarith
  · rw [iff_sat_iff] at h
    obtain ⟨h1, h2, h3, h4⟩ := h
    simp only [ModalBinary.luk]
    rcases hB with hB | hB <;> rw [hB] at h1 h3
    · rw [abs_of_nonneg (by linarith)]; linarith
    · rw [abs_of_nonpos (by linarith)]; linarith
  · rw [oplus_sat_iff] at h
    obtain ⟨h1, h2, h3, h4⟩ := h
    simp only [ModalBinary.luk]
    rcases hB with hB | hB <;> rw [hB] at h1 h3
    · rw [min_eq_right (by linarith)]; linarith
    · rw [min_eq_left (by linarith)]; linarith
  · rw [odot_sat_iff] at h
    obtain ⟨h1, h2, h3, h4⟩ := h
    simp only [ModalBinary.luk]
    rcases hB with hB | hB <;> rw [hB] at h2 h4
    · exfalso; linarith
    · rw [max_eq_right (by linarith)]; linarith

/-- For every connective but `ODOT`, a value of `X` that agrees with the truth function can
be completed by a 0/1 value of the auxiliary variable. -/
theorem binary_complete (op : ModalBinary) (hop : op ≠ .ODOT) (v : Nat → α) (lx rx x b : Nat)
    (hl : lx ≠ b) (hr : rx ≠ b) (hx : x ≠ b)
    (hL : 0 ≤ v lx ∧ v lx ≤ 1) (hR : 0 ≤ v rx ∧ v rx ≤ 1)
    (h : v x = op.luk (v lx) (v rx)) :
    ∃ B : α, (B = 0 ∨ B = 1) ∧
      constraintsSat (Function.update v b B) (binaryConstraints op lx rx x b) := by
  obtain ⟨hL0, hL1⟩ := hL
  obtain ⟨hR0, hR1⟩ := hR
  cases op
  · simp only [ModalBinary.luk] at h
    rcases le_total (v lx) (v rx) with hc | hc
    · rw [min_eq_left hc] at h
      refine ⟨0, Or.inl rfl, ?_⟩
      rw [and_sat_iff]
      simp only [Function.update_same, Function.update_noteq hl, Function.update_noteq hr,
        Function.update_noteq hx]
      refine ⟨by linarith, by linarith, by linarith, by linarith⟩
    · rw [min_eq_right hc] at h
      refine ⟨1, Or.inr rfl, ?_⟩
      rw [and_sat_iff]
      simp only [Function.update_same, Function.update_noteq hl, Function.update_noteq hr,
        Function.update_noteq hx]
      refine ⟨by linarith, by linarith, by linarith, by linarith⟩
  · simp only [ModalBinary.luk] at h
    rcases le_total (v rx) (v lx) with hc | hc
    · rw [max_eq_left hc] at h
      refine ⟨0, Or.inl rfl, ?_⟩
      rw [or_sat_iff]
      simp only [Function.update_same, Function.update_noteq hl, Function.update_noteq hr,
        Function.update_noteq hx]
      refine ⟨by linarith, by linarith, by linarith, by linarith⟩
    · rw [max_eq_right hc] at h
      refine ⟨1, Or.inr rfl, ?_⟩
      rw [or_sat_iff]
      simp only [Function.update_same, Function.update_noteq hl, Function.update_noteq hr,
        Function.update_noteq hx]
      refine ⟨by linarith, by linarith, by linarith, by linarith⟩
  · simp only [ModalBinary.luk] at h
    rcases le_total (1 - v lx + v rx) 1 with hc | hc
    · rw [min_eq_right hc] at h
      refine ⟨0, Or.inl rfl, ?_⟩
      rw [implies_sat_iff]
      simp only [Function.update_same, Function.update_noteq hl, Function.update_noteq hr,
        Function.update_noteq hx]
      refine ⟨by linarith, by linarith, by linarith, by linarith⟩
    · rw [min_eq_left hc] at h
      refine ⟨1, Or.inr rfl, ?_⟩
      rw [implies_sat_iff]
      simp only [Function.update_same, Function.update_noteq hl, Function.update_noteq hr,
        Function.update_noteq hx]
      refine ⟨by linarith, by linarith, by linarith, by linarith⟩
  · simp only [ModalBinary.luk] at h
    rcases le_total 0 (v lx - v rx) with hc | hc
    · rw [abs_of_nonneg hc] at h
      refine ⟨0, Or.inl rfl, ?_⟩
      rw [iff_sat_iff]
      simp only [Function.update_same, Function.update_noteq hl, Function.update_noteq hr,
        Function.update_noteq hx]
      refine ⟨by linarith, by linarith, by linarith, by linarith⟩
    · rw [abs_of_nonpos hc] at h
      refine ⟨1, Or.inr rfl, ?_⟩
      rw [iff_sat_iff]
      simp only [Function.update_same, Function.update_noteq hl, Function.update_noteq hr,
        Function.update_noteq hx]
      refine ⟨by linarith, by linarith, by linarith, by linarith⟩
  · simp only [ModalBinary.luk] at h
    rcases le_total (v lx + v rx) 1 with hc | hc
    · rw [min_eq_right hc] at h
      refine ⟨0, Or.inl rfl, ?_⟩
      rw [oplus_sat_iff]
      simp only [Function.update_same, Function.update_noteq hl, Function.update_noteq hr,
        Function.update_noteq hx]
      refine ⟨by linarith, by linarith, by linarith, by linarith⟩
    · rw [min_eq_left hc] at h
      refine ⟨1, Or.inr rfl, ?_⟩
      rw [oplus_sat_iff]
      simp only [Function.update_same, Function.update_noteq hl, Function.update_noteq hr,
        Function.update_noteq hx]
      refine ⟨by linarith, by linarith, by linarith, by linarith⟩
  · exact absurd rfl hop

/-- The rows of a binary connective other than `ODOT` admit a 0/1 auxiliary value exactly when
`X` is the Łukasiewicz value of the connective. -/
theorem binary_rows_iff (op : ModalBinary) (hop : op ≠ .ODOT) (v : Nat → α) (lx rx x b : Nat)
    (hl : lx ≠ b) (hr : rx ≠ b) (hx : x ≠ b)
    (hL : 0 ≤ v lx ∧ v lx ≤ 1) (hR : 0 ≤ v rx ∧ v rx ≤ 1) (hX : 0 ≤ v x ∧ v x ≤ 1) :
    (∃ B : α, (B = 0 ∨ B = 1) ∧
        constraintsSat (Function.update v b B) (binaryConstraints op lx rx x b)) ↔
      v x = op.luk (v lx) (v rx) := by
  constructor
  · rintro ⟨B, hB, hsat⟩
    have key := binary_sound op (Function.update v b B) lx rx x b
      (by simpa using hB)
      (by simpa [Function.update_noteq hx] using hX)
      (by simpa [Function.update_noteq hl] using hL)
      (by simpa [Function.update_noteq hr] using hR) hsat
    simpa [Function.update_noteq hx, Function.update_noteq hl, Function.update_noteq hr]
      using key
  · exact binary_complete op hop v lx rx x b hl hr hx hL hR

/-- What the `ODOT` rows do: they admit a 0/1 auxiliary value exactly when
`X = L + R − 1` (which needs `L + R ≥ 1`). -/
theorem odot_rows_iff (v : Nat → α) (lx rx x b : Nat)
    (hl : lx ≠ b) (hr : rx ≠ b) (hx : x ≠ b) (hX : 0 ≤ v x ∧ v x ≤ 1) :
    (∃ B : α, (B = 0 ∨ B = 1) ∧
        constraintsSat (Function.update v b B) (binaryConstraints .ODOT lx rx x b)) ↔
      v x = v lx + v rx - 1 := by
  obtain ⟨hX0, hX1⟩ := hX
  constructor
  · rintro ⟨B, hB, hsat⟩
    rw [odot_sat_iff] at hsat
    simp only [Function.update_same, Function.update_noteq hl, Function.update_noteq hr,
      Function.update_noteq hx] at hsat
    obtain ⟨h1, h2, h3, h4⟩ := hsat
    rcases hB with hB | hB <;> rw [hB] at h2 h4 <;> linarith
  · intro h
    refine ⟨1, Or.inr rfl, ?_⟩
    rw [odot_sat_iff]
    simp only [Function.update_same, Function.update_noteq hl, Function.update_noteq hr,
      Function.update_noteq hx]
    refine ⟨by linarith, by linarith, by linarith, by linarith⟩

/-- What the `NOT` row does: it holds exactly when `X = 1 + L`. -/
theorem not_row_iff (v : Nat → α) (lx x : Nat) :
    constraintsSat v (notConstraints lx x) ↔ v x = 1 + v lx := by
  rw [not_sat_iff]
  constructor <;> intro h <;> linarith

/-! ## Theorems: the claims about the single connectives -/

/-- C3 (the code departs from the claim): at `L = 1`, `X = 0` the value `X` is the
Łukasiewicz negation `1 − L`, yet the row emitted for a `NOT` node, `−L + X = 1`, is
violated; the row holds only for `X = 1 + L`. -/
theorem not_row_rejects_negation :
    assign4 (1 : ℚ) 0 0 0 2 = 1 - assign4 (1 : ℚ) 0 0 0 0 ∧
      ¬ constraintsSat (assign4 (1 : ℚ) 0 0 0) (notConstraints 0 2) := by
  rw [not_row_iff]
  norm_num [assign4]

/-- C4 (the code departs from the claim): at `L = R = X = 0` the value `X` is the strong
conjunction `max(0, L + R − 1)`, yet no 0/1 value of the auxiliary variable satisfies the
four rows emitted for an `ODOT` node; the rows hold only for `X = L + R − 1`. -/
theorem odot_rows_reject_zero :
    assign4 (0 : ℚ) 0 0 0 2 = max 0 (assign4 (0 : ℚ) 0 0 0 0 + assign4 (0 : ℚ) 0 0 0 1 - 1) ∧
      ¬ ∃ B : ℚ, (B = 0 ∨ B = 1) ∧
        constraintsSat (Function.update (assign4 (0 : ℚ) 0 0 0) 3 B)
          (binaryConstraints .ODOT 0 1 2 3) := by
  rw [odot_rows_iff _ 0 1 2 3 (by decide) (by decide) (by decide) (by norm_num [assign4])]
  norm_num [assign4]

/-- C5: for values `L`, `R`, `X` in `[0,1]`, some `B ∈ {0,1}` satisfies the four rows emitted for an
`OPLUS` node if and only if `X = min(1, L + R)`. -/
theorem oplus_rows_strong_disjunction (v : Nat → α) (lx rx x b : Nat)
    (hl : lx ≠ b) (hr : rx ≠ b) (hx : x ≠ b)
    (hL : 0 ≤ v lx ∧ v lx ≤ 1) (hR : 0 ≤ v rx ∧ v rx ≤ 1) (hX : 0 ≤ v x ∧ v x ≤ 1) :
    (∃ B : α, (B = 0 ∨ B = 1) ∧
        constraintsSat (Function.update v b B) (binaryConstraints .OPLUS lx rx x b)) ↔
      v x = min 1 (v lx + v rx) :=
  binary_rows_iff .OPLUS (by decide) v lx rx x b hl hr hx hL hR hX

/-- The hypotheses of `oplus_rows_strong_disjunction` hold at `L = 1/2`, `R = 1/4`, `X = 3/4`
with the indices 0, 1, 2, 3. -/
theorem oplus_rows_strong_disjunction_witness :
    (∃ B : ℚ, (B = 0 ∨ B = 1) ∧
        constraintsSat (Function.update (assign4 (1/2) (1/4) (3/4) 0) 3 B)
          (binaryConstraints .OPLUS 0 1 2 3)) ↔
      assign4 (1/2 : ℚ) (1/4) (3/4) 0 2
        = min 1 (assign4 (1/2 : ℚ) (1/4) (3/4) 0 0 + assign4 (1/2 : ℚ) (1/4) (3/4) 0 1) :=
  oplus_rows_strong_disjunction (assign4 (1/2) (1/4) (3/4) 0) 0 1 2 3 (by decide) (by decide) (by decide)
    (by norm_num [assign4]) (by norm_num [assign4]) (by norm_num [assign4])

/-- C6: for values `L`, `R`, `X` in `[0,1]`, some `B ∈ {0,1}` satisfies the four rows emitted for an
`IMPLIES` node if and only if `X = min(1, 1 − L + R)`. -/
theorem implies_rows_lukasiewicz (v : Nat → α) (lx rx x b : Nat)
    (hl : lx ≠ b) (hr : rx ≠ b) (hx : x ≠ b)
    (hL : 0 ≤ v lx ∧ v lx ≤ 1) (hR : 0 ≤ v rx ∧ v rx ≤ 1) (hX : 0 ≤ v x ∧ v x ≤ 1) :
    (∃ B : α, (B = 0 ∨ B = 1) ∧
        constraintsSat (Function.update v b B) (binaryConstraints .IMPLIES lx rx x b)) ↔
      v x = min 1 (1 - v lx + v rx) :=
  binary_rows_iff .IMPLIES (by decide) v lx rx x b hl hr hx hL hR hX

/-- The hypotheses of `implies_rows_lukasiewicz` hold at `L = 1/2`, `R = 1/4`, `X = 3/4`
with the indices 0, 1, 2, 3. -/
theorem implies_rows_lukasiewicz_witness :
    (∃ B : ℚ, (B = 0 ∨ B = 1) ∧
        constraintsSat (Function.update (assign4 (1/2) (1/4) (3/4) 0) 3 B)
          (binaryConstraints .IMPLIES 0 1 2 3)) ↔
      assign4 (1/2 : ℚ) (1/4) (3/4) 0 2
        = min 1 (1 - assign4 (1/2 : ℚ) (1/4) (3/4) 0 0 + assign4 (1/2 : ℚ) (1/4) (3/4) 0 1) :=
  implies_rows_lukasiewicz (assign4 (1/2) (1/4) (3/4) 0) 0 1 2 3 (by decide) (by decide) (by decide)
    (by norm_num [assign4]) (by norm_num [assign4]) (by norm_num [assign4])

/-- C7: for values `L`, `R`, `X` in `[0,1]`, some `B ∈ {0,1}` satisfies the four rows emitted for an
`IFF` node if and only if `X = 1 − |L − R|`. -/
theorem iff_rows_lukasiewicz (v : Nat → α) (lx rx x b : Nat)
    (hl : lx ≠ b) (hr : rx ≠ b) (hx : x ≠ b)
    (hL : 0 ≤ v lx ∧ v lx ≤ 1) (hR : 0 ≤ v rx ∧ v rx ≤ 1) (hX : 0 ≤ v x ∧ v x ≤ 1) :
    (∃ B : α, (B = 0 ∨ B = 1) ∧
        constraintsSat (Function.update v b B) (binaryConstraints .IFF lx rx x b)) ↔
      v x = 1 - |v lx - v rx| :=
  binary_rows_iff .IFF (by decide) v lx rx x b hl hr hx hL hR hX

/-- The hypotheses of `iff_rows_lukasiewicz` hold at `L = 1/2`, `R = 1/4`, `X = 3/4`
with the indices 0, 1, 2, 3. -/
theorem iff_rows_lukasiewicz_witness :
    (∃ B : ℚ, (B = 0 ∨ B = 1) ∧
        constraintsSat (Function.update (assign4 (1/2) (1/4) (3/4) 0) 3 B)
          (binaryConstraints .IFF 0 1 2 3)) ↔
      assign4 (1/2 : ℚ) (1/4) (3/4) 0 2
        = 1 - |assign4 (1/2 : ℚ) (1/4) (3/4) 0 0 - assign4 (1/2 : ℚ) (1/4) (3/4) 0 1| :=
  iff_rows_lukasiewicz (assign4 (1/2) (1/4) (3/4) 0) 0 1 2 3 (by decide) (by decide) (by decide)
    (by norm_num [assign4]) (by norm_num [assign4]) (by norm_num [assign4])

/-- C8: for values `L`, `R`, `X` in `[0,1]`, some `B ∈ {0,1}` satisfies the four rows emitted for an
`AND` node if and only if `X = min(L, R)`. -/
theorem and_rows_min (v : Nat → α) (lx rx x b : Nat)
    (hl : lx ≠ b) (hr : rx ≠ b) (hx : x ≠ b)
    (hL : 0 ≤ v lx ∧ v lx ≤ 1) (hR : 0 ≤ v rx ∧ v rx ≤ 1) (hX : 0 ≤ v x ∧ v x ≤ 1) :
    (∃ B : α, (B = 0 ∨ B = 1) ∧
        constraintsSat (Function.update v b B) (binaryConstraints .AND lx rx x b)) ↔
      v x = min (v lx) (v rx) :=
  binary_rows_iff .AND (by decide) v lx rx x b hl hr hx hL hR hX

/-- The hypotheses of `and_rows_min` hold at `L = 1/2`, `R = 1/4`, `X = 1/4`
with the indices 0, 1, 2, 3. -/
theorem and_rows_min_witness :
    (∃ B : ℚ, (B = 0 ∨ B = 1) ∧
        constraintsSat (Function.update (assign4 (1/2) (1/4) (1/4) 0) 3 B)
          (binaryConstraints .AND 0 1 2 3)) ↔
      assign4 (1/2 : ℚ) (1/4) (1/4) 0 2
        = min (assign4 (1/2 : ℚ) (1/4) (1/4) 0 0) (assign4 (1/2 : ℚ) (1/4) (1/4) 0 1) :=
  and_rows_min (assign4 (1/2) (1/4) (1/4) 0) 0 1 2 3 (by decide) (by decide) (by decide)
    (by norm_num [assign4]) (by norm_num [assign4]) (by norm_num [assign4])

/-- C9: for values `L`, `R`, `X` in `[0,1]`, some `B ∈ {0,1}` satisfies the four rows emitted for an
`OR` node if and only if `X = max(L, R)`. -/
theorem or_rows_max (v : Nat → α) (lx rx x b : Nat)
    (hl : lx ≠ b) (hr : rx ≠ b) (hx : x ≠ b)
    (hL : 0 ≤ v lx ∧ v lx ≤ 1) (hR : 0 ≤ v rx ∧ v rx ≤ 1) (hX : 0 ≤ v x ∧ v x ≤ 1) :
    (∃ B : α, (B = 0 ∨ B = 1) ∧
        constraintsSat (Function.update v b B) (binaryConstraints .OR lx rx x b)) ↔
      v x = max (v lx) (v rx) :=
  binary_rows_iff .OR (by decide) v lx rx x b hl hr hx hL hR hX

/-- The hypotheses of `or_rows_max` hold at `L = 1/2`, `R = 1/4`, `X = 1/2`
with the indices 0, 1, 2, 3. -/
theorem or_rows_max_witness :
    (∃ B : ℚ, (B = 0 ∨ B = 1) ∧
        constraintsSat (Function.update (assign4 (1/2) (1/4) (1/2) 0) 3 B)
          (binaryConstraints .OR 0 1 2 3)) ↔
      assign4 (1/2 : ℚ) (1/4) (1/2) 0 2
        = max (assign4 (1/2 : ℚ) (1/4) (1/2) 0 0) (assign4 (1/2 : ℚ) (1/4) (1/2) 0 1) :=
  or_rows_max (assign4 (1/2) (1/4) (1/2) 0) 0 1 2 3 (by decide) (by decide) (by decide)
    (by norm_num [assign4]) (by norm_num [assign4]) (by norm_num [assign4])

end Gadgets

/-! ## Theorems: the encoder -/

section Encoder

variable {α : Type} [LinearOrderedField α]

theorem encode_hit (f : ModalFormula) (st : EncState) (h : st.xVars.count f.toString = true) :
    encodeModalFormula f st = st := by
  cases f <;> simp [encodeModalFormula, h]

theorem encode_patom (phi : CPLFormula) (st : EncState)
    (h : st.xVars.count (ModalFormula.patom phi).toString = false) :
    encodeModalFormula (.patom phi) st =
      { st with
        lp := (st.lp.addVariable ("x(" ++ (ModalFormula.patom phi).toString ++ ")")
          (some 0) (some 1)).1
        xVars := st.xVars.insert (ModalFormula.patom phi).toString st.lp.varNames.length } := by
  simp [encodeModalFormula, h, LinearProgram.addVariable]

theorem encode_not (l : ModalFormula) (st : EncState)
    (h : st.xVars.count (ModalFormula.not l).toString = false) :
    encodeModalFormula (.not l) st =
      { lp := ((encodeModalFormula l st).lp.addVariable
            ("x(" ++ (ModalFormula.not l).toString ++ ")") (some 0) (some 1)).1.addConstraints
          (notConstraints ((encodeModalFormula l st).xVars.index l.toString).1
            (encodeModalFormula l st).lp.varNames.length)
        xVars := StrMap.insert ((encodeModalFormula l st).xVars.index l.toString).2
          (ModalFormula.not l).toString (encodeModalFormula l st).lp.varNames.length
        bVars := (encodeModalFormula l st).bVars } := by
  rw [encodeModalFormula]
  simp [h, LinearProgram.addVariable]

theorem encode_binary (op : ModalBinary) (l r : ModalFormula) (st : EncState)
    (h : st.xVars.count (ModalFormula.binary op l r).toString = false) :
    encodeModalFormula (.binary op l r) st =
      { lp := (((encodeModalFormula r { encodeModalFormula l st with
                  xVars := ((encodeModalFormula l st).xVars.index l.toString).2 }).lp.addVariable
              ("x(" ++ (ModalFormula.binary op l r).toString ++ ")")
              (some 0) (some 1)).1.addVariable
            ("b(" ++ (ModalFormula.binary op l r).toString ++ ")")
            (some 0) (some 1)).1.addConstraints
          (binaryConstraints op ((encodeModalFormula l st).xVars.index l.toString).1
            ((encodeModalFormula r { encodeModalFormula l st with
                  xVars := ((encodeModalFormula l st).xVars.index l.toString).2 }).xVars.index
              r.toString).1
            (encodeModalFormula r { encodeModalFormula l st with
                  xVars := ((encodeModalFormula l st).xVars.index l.toString).2 }).lp.varNames.length
            ((encodeModalFormula r { encodeModalFormula l st with
                  xVars := ((encodeModalFormula l st).xVars.index l.toString).2
                    }).lp.varNames.length + 1))
        xVars := StrMap.insert
          ((encodeModalFormula r { encodeModalFormula l st with
                  xVars := ((encodeModalFormula l st).xVars.index l.toString).2 }).xVars.index
              r.toString).2
          (ModalFormula.binary op l r).toString
          (encodeModalFormula r { encodeModalFormula l st with
                  xVars := ((encodeModalFormula l st).xVars.index l.toString).2 }).lp.varNames.length
        bVars := StrMap.insert
          (encodeModalFormula r { encodeModalFormula l st with
                  xVars := ((encodeModalFormula l st).xVars.index l.toString).2 }).bVars
          (ModalFormula.binary op l r).toString
          ((encodeModalFormula r { encodeModalFormula l st with
                  xVars := ((encodeModalFormula l st).xVars.index l.toString).2
                    }).lp.varNames.length + 1) } := by
  rw [encodeModalFormula]
  simp [h, LinearProgram.addVariable]

theorem StrMap.index_of_find {m : StrMap} {k : String} {i : Nat} (h : m.find k = some i) :
    m.index k = (i, m) := by
  simp [StrMap.index, h]

theorem StrMap.find_insert (m : StrMap) (k k' : String) (i : Nat) :
    (m.insert k i).find k' = if k = k' then some i else m.find k' := by
  simp [StrMap.insert, StrMap.find]

theorem getElem?_append_add {β : Type} (l t : List β) (k : Nat) :
    (l ++ t)[l.length + k]? = t[k]? := by
  rw [List.getElem?_append_right (by omega)]
  simp

theorem getElem?_mono {β : Type} {l l' : List β} (h : l <+: l') {i : Nat} {b : β}
    (hb : l[i]? = some b) : l'[i]? = some b := by
  obtain ⟨t, rfl⟩ := h
  obtain ⟨hi, _⟩ := List.getElem?_eq_some.mp hb
  rw [List.getElem?_append_left hi]
  exact hb

theorem LinearProgram.addConstraints_rows (lp : LinearProgram) (cs : List Constraint) :
    (lp.addConstraints cs).rows = lp.rows ++ cs.map Constraint.row := by
  induction cs generalizing lp with
  | nil => simp [LinearProgram.addConstraints]
  | cons c cs ih =>
    have := ih (lp.addConstraint c.1 c.2.1 c.2.2)
    simp only [LinearProgram.addConstraints, List.foldl_cons] at this ⊢
    rw [this]
    simp [LinearProgram.addConstraint, Constraint.row]

theorem LinearProgram.addConstraints_cols (lp : LinearProgram) (cs : List Constraint) :
    (lp.addConstraints cs).cols = lp.cols := by
  induction cs generalizing lp with
  | nil => simp [LinearProgram.addConstraints]
  | cons c cs ih =>
    have := ih (lp.addConstraint c.1 c.2.1 c.2.2)
    simp only [LinearProgram.addConstraints, List.foldl_cons] at this ⊢
    rw [this]
    simp [LinearProgram.addConstraint]

theorem LinearProgram.addConstraints_varNames (lp : LinearProgram) (cs : List Constraint) :
    (lp.addConstraints cs).varNames = lp.varNames := by
  induction cs generalizing lp with
  | nil => simp [LinearProgram.addConstraints]
  | cons c cs ih =>
    have := ih (lp.addConstraint c.1 c.2.1 c.2.2)
    simp only [LinearProgram.addConstraints, List.foldl_cons] at this ⊢
    rw [this]
    simp [LinearProgram.addConstraint]

theorem LinearProgram.Feasible.restrict {lp lp' : LinearProgram} {v : Nat → α}
    (hc : lp.cols <+: lp'.cols) (hr : lp.rows <+: lp'.rows) (h : lp'.Feasible v) :
    lp.Feasible v :=
  ⟨fun i c hic => h.1 i c (getElem?_mono hc hic), fun r hr' => h.2 r (hr.subset hr')⟩

theorem LinearProgram.Integral.restrictNames {lp lp' : LinearProgram} {v : Nat → α}
    (hn : lp.varNames <+: lp'.varNames) (h : lp'.Integral v) : lp.Integral v :=
  fun i name hi hb => h i name (getElem?_mono hn hi) hb

theorem EncState.Ext.refl (st : EncState) : st.Ext st :=
  ⟨fun _ h => h, fun _ _ h => h, List.prefix_rfl, List.prefix_rfl, List.prefix_rfl⟩

theorem EncState.Ext.trans {a b c : EncState} (h1 : a.Ext b) (h2 : b.Ext c) : a.Ext c :=
  ⟨fun k h => h2.1 k (h1.1 k h), fun psi j h => h2.2.1 psi j (h1.2.1 psi j h),
    h1.2.2.1.trans h2.2.2.1, h1.2.2.2.1.trans h2.2.2.2.1, h1.2.2.2.2.trans h2.2.2.2.2⟩

theorem Good.extend {st st' : EncState} {g : ModalFormula} {i : Nat} (hext : st.Ext st')
    (h : Good α st g i) : Good α st' g i := by
  refine ⟨fun k hk => hext.1 _ (h.1 k hk), ?_⟩
  intro v hfeas hint
  obtain ⟨hb, hval⟩ := h.2 v (hfeas.restrict hext.2.2.1 hext.2.2.2.2) (hint.restrictNames hext.2.2.2.1)
  exact ⟨hb, fun pv hpv => hval pv (fun psi j hj => hpv psi j (hext.2.1 psi j hj))⟩

/-- The step of the invariant when one new key is bound on top of a state that extends a
state satisfying the invariant. -/
theorem EncInv.step {st st' : EncState} {f : ModalFormula} {n : Nat}
    (hf : f.wellFormed = true) (hinv : EncInv α st) (hext : st.Ext st')
    (hlen : st'.lp.cols.length = st'.lp.varNames.length)
    (hfind : ∀ k j, st'.xVars.find k = some j →
      (k = f.toString ∧ j = n) ∨ st.xVars.find k = some j)
    (hgood : Good α st' f n) : EncInv α st' := by
  refine ⟨hlen, ?_⟩
  intro g hg i hi
  rcases hfind _ _ hi with ⟨hk, hj⟩ | hold
  · have : g = f := ModalFormula.toString_inj hg hf hk
    rw [this, hj]
    exact hgood
  · exact (hinv.2 g hg i hold).extend hext

theorem bounds_of_col {lp : LinearProgram} {v : Nat → α} (h : lp.Feasible v) {i : Nat}
    {o : ℚ} (hc : lp.cols[i]? = some ⟨o, some 1, some 0⟩) : 0 ≤ v i ∧ v i ≤ 1 := by
  have := h.1 i _ hc
  simpa [LPCol.inBounds] using this

theorem ModalFormula.toString_not_ne_patom (l : ModalFormula) (psi : CPLFormula) :
    (ModalFormula.not l).toString ≠ (ModalFormula.patom psi).toString := by
  intro h
  have h2 := congrArg String.data h
  rw [ModalFormula.modalToString_not_data, ModalFormula.modalToString_patom_data] at h2
  simp only [List.cons.injEq] at h2
  exact absurd h2.1 (by decide)

theorem ModalFormula.toString_binary_ne_patom (op : ModalBinary) (l r : ModalFormula)
    (psi : CPLFormula) :
    (ModalFormula.binary op l r).toString ≠ (ModalFormula.patom psi).toString := by
  intro h
  have h2 := congrArg String.data h
  rw [ModalFormula.modalToString_binary_data, ModalFormula.modalToString_patom_data] at h2
  simp only [List.cons.injEq] at h2
  exact absurd h2.1 (by decide)

theorem isBinaryName_b (id : String) : isBinaryName ("b(" ++ id ++ ")") = true := by
  simp [isBinaryName, String.data_append, List.isPrefixOf]

/-- Binding a fresh key that is not the canonical string of an atom extends the state. -/
theorem ext_of_insert {st st' : EncState} {id : String} {n : Nat} {extraC : List LPCol}
    {extraN : List String} {extraR : List LPRow}
    (hid : ∀ psi, (ModalFormula.patom psi).toString = id → st.xVars.find id = none)
    (hcols : st'.lp.cols = st.lp.cols ++ extraC)
    (hnames : st'.lp.varNames = st.lp.varNames ++ extraN)
    (hrows : st'.lp.rows = st.lp.rows ++ extraR)
    (hx : st'.xVars = st.xVars.insert id n) : st.Ext st' := by
  refine ⟨?_, ?_, ?_, ?_, ?_⟩
  · intro k hk
    rw [hx, StrMap.find_insert]
    split
    · rfl
    · exact hk
  · intro psi j hj
    rw [hx, StrMap.find_insert]
    split
    · rename_i heq
      have := hid psi heq.symm
      rw [heq, hj] at this
      cases this
    · exact hj
  · rw [hcols]; exact List.prefix_append _ _
  · rw [hnames]; exact List.prefix_append _ _
  · rw [hrows]; exact List.prefix_append _ _

theorem find_of_insert {st st' : EncState} {id : String} {n : Nat}
    (hx : st'.xVars = st.xVars.insert id n) :
    ∀ k j, st'.xVars.find k = some j → (k = id ∧ j = n) ∨ st.xVars.find k = some j := by
  intro k j hj
  rw [hx, StrMap.find_insert] at hj
  split at hj
  · rename_i heq
    left
    exact ⟨heq.symm, by simpa using hj.symm⟩
  · right
    exact hj

theorem step_patom (phi : CPLFormula) (st st' : EncState) (name : String)
    (hf : (ModalFormula.patom phi).wellFormed = true) (hinv : EncInv α st)
    (hnone : st.xVars.find (ModalFormula.patom phi).toString = none)
    (hcols : st'.lp.cols = st.lp.cols ++ [⟨0, some 1, some 0⟩])
    (hnames : st'.lp.varNames = st.lp.varNames ++ [name])
    (hrows : st'.lp.rows = st.lp.rows ++ [])
    (hx : st'.xVars = st.xVars.insert (ModalFormula.patom phi).toString
      st.lp.varNames.length) :
    EncInv α st' ∧ st.Ext st' ∧
      (st'.xVars.find (ModalFormula.patom phi).toString).isSome = true := by
  have hext : st.Ext st' := ext_of_insert (fun _ _ => hnone) hcols hnames hrows hx
  have hfound : st'.xVars.find (ModalFormula.patom phi).toString
      = some st.lp.varNames.length := by
    rw [hx, StrMap.find_insert]; simp
  refine ⟨EncInv.step hf hinv hext ?_ (find_of_insert hx) ?_, hext, by rw [hfound]; rfl⟩
  · rw [hcols, hnames]; simp [hinv.1]
  · refine ⟨?_, ?_⟩
    · intro h hh
      simp only [ModalFormula.subformulas, List.mem_singleton] at hh
      rw [hh, hfound]; rfl
    · intro v hfeas _
      refine ⟨?_, ?_⟩
      · apply bounds_of_col hfeas (o := 0)
        rw [hcols, ← hinv.1]
        exact List.getElem?_concat_length _ _
      · intro pv hpv
        exact (hpv phi _ hfound).symm

theorem step_not (l : ModalFormula) (st0 st st' : EncState) (lx : Nat) (name : String)
    (hf : (ModalFormula.not l).wellFormed = true) (hinv : EncInv α st)
    (hl : Good α st l lx) (h0 : st0.Ext st)
    (hcols : st'.lp.cols = st.lp.cols ++ [⟨0, some 1, some 0⟩])
    (hnames : st'.lp.varNames = st.lp.varNames ++ [name])
    (hrows : st'.lp.rows = st.lp.rows ++
      (notConstraints lx st.lp.varNames.length).map Constraint.row)
    (hx : st'.xVars = st.xVars.insert (ModalFormula.not l).toString st.lp.varNames.length) :
    EncInv α st' ∧ st0.Ext st' ∧
      (st'.xVars.find (ModalFormula.not l).toString).isSome = true := by
  have hext : st.Ext st' := ext_of_insert
    (fun psi h => absurd h.symm (ModalFormula.toString_not_ne_patom l psi)) hcols hnames hrows hx
  have hfound : st'.xVars.find (ModalFormula.not l).toString
      = some st.lp.varNames.length := by
    rw [hx, StrMap.find_insert]; simp
  have hl' : Good α st' l lx := hl.extend hext
  refine ⟨EncInv.step hf hinv hext ?_ (find_of_insert hx) ?_, h0.trans hext,
    by rw [hfound]; rfl⟩
  · rw [hcols, hnames]; simp [hinv.1]
  · refine ⟨?_, ?_⟩
    · intro h hh
      simp only [ModalFormula.subformulas, List.mem_cons] at hh
      rcases hh with hh | hh
      · rw [hh, hfound]; rfl
      · exact hl'.1 h hh
    · intro v hfeas hint
      have hxb : 0 ≤ v st.lp.varNames.length ∧ v st.lp.varNames.length ≤ 1 := by
        apply bounds_of_col hfeas (o := 0)
        rw [hcols, ← hinv.1]
        exact List.getElem?_concat_length _ _
      obtain ⟨hlb, hlv⟩ := hl'.2 v hfeas hint
      have hsat : constraintsSat v (notConstraints lx st.lp.varNames.length) := by
        intro c hc
        apply hfeas.2
        rw [hrows]
        exact List.mem_append_right _ (List.mem_map_of_mem _ hc)
      have key := not_sound v lx _ hlb.1 hxb.2 hsat
      refine ⟨hxb, ?_⟩
      intro pv hpv
      rw [key, hlv pv hpv]
      rfl

theorem step_binary (op : ModalBinary) (l r : ModalFormula) (st0 st st' : EncState)
    (lx rx : Nat) (name : String) (id : String)
    (hf : (ModalFormula.binary op l r).wellFormed = true) (hinv : EncInv α st)
    (hl : Good α st l lx) (hr : Good α st r rx) (h0 : st0.Ext st)
    (hcols : st'.lp.cols = st.lp.cols ++ [⟨0, some 1, some 0⟩, ⟨0, some 1, some 0⟩])
    (hnames : st'.lp.varNames = st.lp.varNames ++ [name, "b(" ++ id ++ ")"])
    (hrows : st'.lp.rows = st.lp.rows ++
      (binaryConstraints op lx rx st.lp.varNames.length
        (st.lp.varNames.length + 1)).map Constraint.row)
    (hx : st'.xVars = st.xVars.insert (ModalFormula.binary op l r).toString
      st.lp.varNames.length) :
    EncInv α st' ∧ st0.Ext st' ∧
      (st'.xVars.find (ModalFormula.binary op l r).toString).isSome = true := by
  have hext : st.Ext st' := ext_of_insert
    (fun psi h => absurd h.symm (ModalFormula.toString_binary_ne_patom op l r psi))
    hcols hnames hrows hx
  have hfound : st'.xVars.find (ModalFormula.binary op l r).toString
      = some st.lp.varNames.length := by
    rw [hx, StrMap.find_insert]; simp
  have hl' : Good α st' l lx := hl.extend hext
  have hr' : Good α st' r rx := hr.extend hext
  refine ⟨EncInv.step hf hinv hext ?_ (find_of_insert hx) ?_, h0.trans hext,
    by rw [hfound]; rfl⟩
  · rw [hcols, hnames]; simp [hinv.1]
  · refine ⟨?_, ?_⟩
    · intro h hh
      simp only [ModalFormula.subformulas, List.mem_cons, List.mem_append] at hh
      rcases hh with hh | hh | hh
      · rw [hh, hfound]; rfl
      · exact hl'.1 h hh
      · exact hr'.1 h hh
    · intro v hfeas hint
      have hxb : 0 ≤ v st.lp.varNames.length ∧ v st.lp.varNames.length ≤ 1 := by
        apply bounds_of_col hfeas (o := 0)
        rw [hcols, ← hinv.1]
        have := getElem?_append_add st.lp.cols
          [(⟨0, some 1, some 0⟩ : LPCol), ⟨0, some 1, some 0⟩] 0
        simpa using this
      have hbb : v (st.lp.varNames.length + 1) = 0 ∨ v (st.lp.varNames.length + 1) = 1 := by
        apply hint _ ("b(" ++ id ++ ")") _ (isBinaryName_b id)
        rw [hnames]
        have := getElem?_append_add st.lp.varNames [name, "b(" ++ id ++ ")"] 1
        simpa using this
      obtain ⟨hlb, hlv⟩ := hl'.2 v hfeas hint
      obtain ⟨hrb, hrv⟩ := hr'.2 v hfeas hint
      have hsat : constraintsSat v (binaryConstraints op lx rx st.lp.varNames.length
          (st.lp.varNames.length + 1)) := by
        intro c hc
        apply hfeas.2
        rw [hrows]
        exact List.mem_append_right _ (List.mem_map_of_mem _ hc)
      have key := binary_sound op v lx rx _ _ hbb hxb hlb hrb hsat
      refine ⟨hxb, ?_⟩
      intro pv hpv
      rw [key, hlv pv hpv, hrv pv hpv]
      rfl

theorem count_false_iff (m : StrMap) (k : String) :
    m.count k = false ↔ m.find k = none := by
  simp [StrMap.count]

/-- The encoder keeps its invariant, extends the state and binds the encoded formula. -/
theorem encode_correct : ∀ f : ModalFormula, f.wellFormed = true → ∀ st : EncState,
    EncInv α st →
    EncInv α (encodeModalFormula f st) ∧ st.Ext (encodeModalFormula f st) ∧
      ((encodeModalFormula f st).xVars.find f.toString).isSome = true := by
  intro f
  induction f with
  | patom phi =>
    intro hf st hinv
    by_cases h : st.xVars.count (ModalFormula.patom phi).toString = true
    · rw [encode_hit _ _ h]
      exact ⟨hinv, EncState.Ext.refl st, h⟩
    · have h' : st.xVars.count (ModalFormula.patom phi).toString = false := by simpa using h
      rw [encode_patom _ _ h']
      exact step_patom phi st _ _ hf hinv ((count_false_iff _ _).mp h') rfl rfl
        (by simp [LinearProgram.addVariable]) rfl
  | not l ih =>
    intro hf st hinv
    by_cases h : st.xVars.count (ModalFormula.not l).toString = true
    · rw [encode_hit _ _ h]
      exact ⟨hinv, EncState.Ext.refl st, h⟩
    · have h' : st.xVars.count (ModalFormula.not l).toString = false := by simpa using h
      have hlwf : l.wellFormed = true := hf
      obtain ⟨hinv1, hext1, hsome1⟩ := ih hlwf st hinv
      obtain ⟨lx, hlx⟩ := Option.isSome_iff_exists.mp hsome1
      rw [encode_not _ _ h', StrMap.index_of_find hlx]
      refine step_not l st (encodeModalFormula l st) _ lx
        ("x(" ++ (ModalFormula.not l).toString ++ ")") hf hinv1
        (hinv1.2 l hlwf lx hlx) hext1 ?_ ?_ ?_ rfl
      · rw [LinearProgram.addConstraints_cols]; rfl
      · rw [LinearProgram.addConstraints_varNames]; rfl
      · rw [LinearProgram.addConstraints_rows]; rfl
  | binary op l r ihl ihr =>
    intro hf st hinv
    by_cases h : st.xVars.count (ModalFormula.binary op l r).toString = true
    · rw [encode_hit _ _ h]
      exact ⟨hinv, EncState.Ext.refl st, h⟩
    · have h' : st.xVars.count (ModalFormula.binary op l r).toString = false := by
        simpa using h
      have hwf : l.wellFormed = true ∧ r.wellFormed = true := by
        simpa [ModalFormula.wellFormed] using hf
      obtain ⟨hinv1, hext1, hsome1⟩ := ihl hwf.1 st hinv
      obtain ⟨lx, hlx⟩ := Option.isSome_iff_exists.mp hsome1
      obtain ⟨hinv2, hext2, hsome2⟩ := ihr hwf.2 (encodeModalFormula l st) hinv1
      obtain ⟨rx, hrx⟩ := Option.isSome_iff_exists.mp hsome2
      rw [encode_binary _ _ _ _ h', StrMap.index_of_find hlx]
      simp only []
      rw [StrMap.index_of_find hrx]
      refine step_binary op l r st
        (encodeModalFormula r (encodeModalFormula l st)) _ lx rx
        ("x(" ++ (ModalFormula.binary op l r).toString ++ ")")
        (ModalFormula.binary op l r).toString hf hinv2
        ((hinv1.2 l hwf.1 lx hlx).extend hext2) (hinv2.2 r hwf.2 rx hrx)
        (hext1.trans hext2) ?_ ?_ ?_ rfl
      · rw [LinearProgram.addConstraints_cols]; simp [LinearProgram.addVariable]
      · rw [LinearProgram.addConstraints_varNames]; simp [LinearProgram.addVariable]
      · rw [LinearProgram.addConstraints_rows]; rfl

theorem encInv_empty : EncInv α ⟨LinearProgram.empty, [], []⟩ := by
  refine ⟨rfl, ?_⟩
  intro g _ i hi
  simp [StrMap.find] at hi

/-- The first loop of `solve` keeps the invariant and binds every input formula. -/
theorem encodeAll_correct : ∀ (formulas : List ModalFormula),
    (∀ f ∈ formulas, f.wellFormed = true) → ∀ st : EncState, EncInv α st →
    EncInv α (encodeAll formulas st) ∧ st.Ext (encodeAll formulas st) ∧
      ∀ f ∈ formulas, ((encodeAll formulas st).xVars.find f.toString).isSome = true
  | [], _, st, hinv => ⟨hinv, EncState.Ext.refl st, fun _ hf => by cases hf⟩
  | f :: fs, hwf, st, hinv => by
    obtain ⟨h1, h2, h3⟩ := encode_correct (α := α) f (hwf f (List.mem_cons_self _ _)) st hinv
    obtain ⟨h4, h5, h6⟩ := encodeAll_correct fs
      (fun g hg => hwf g (List.mem_cons_of_mem _ hg)) (encodeModalFormula f st) h1
    refine ⟨h4, h2.trans h5, ?_⟩
    intro g hg
    rcases List.mem_cons.mp hg with hgf | hgfs
    · rw [hgf]
      exact h5.1 _ h3
    · exact h6 g hgfs

/-- The second loop of `solve` does not throw when every input formula is bound; it appends
the row `x(f) = 1` of every input formula and changes nothing else. -/
theorem addAssertions_spec : ∀ (formulas : List ModalFormula) (xVars : StrMap)
    (lp : LinearProgram),
    (∀ f ∈ formulas, (xVars.find f.toString).isSome = true) →
    ∃ lp', addAssertions formulas xVars lp = some lp' ∧ lp'.cols = lp.cols ∧
      lp'.varNames = lp.varNames ∧ lp.rows <+: lp'.rows ∧
      ∀ f ∈ formulas, ∀ i, xVars.find f.toString = some i →
        Constraint.row ([(i, 1)], Sense.EQ, 1) ∈ lp'.rows
  | [], _, lp, _ => ⟨lp, rfl, rfl, rfl, List.prefix_rfl, fun _ hf => by cases hf⟩
  | f :: fs, xVars, lp, hb => by
    obtain ⟨i, hi⟩ := Option.isSome_iff_exists.mp (hb f (List.mem_cons_self _ _))
    obtain ⟨lp', h1, h2, h3, h4, h5⟩ := addAssertions_spec fs xVars
      (lp.addConstraint [(i, 1)] .EQ 1) (fun g hg => hb g (List.mem_cons_of_mem _ hg))
    refine ⟨lp', ?_, h2, h3, ?_, ?_⟩
    · simp only [addAssertions, hi]
      exact h1
    · exact (List.prefix_append _ _).trans h4
    · intro g hg j hj
      rcases List.mem_cons.mp hg with hgf | hgfs
      · rw [hgf, hi] at hj
        cases hj
        apply h4.subset
        simp [LinearProgram.addConstraint, Constraint.row]
      · exact h5 g hgfs j hj

theorem ModalFormula.wellFormed_of_mem_subformulas : ∀ (f : ModalFormula),
    f.wellFormed = true → ∀ g ∈ f.subformulas, g.wellFormed = true
  | .patom phi, hf, g, hg => by
    simp only [ModalFormula.subformulas, List.mem_singleton] at hg
    rw [hg]; exact hf
  | .not l, hf, g, hg => by
    simp only [ModalFormula.subformulas, List.mem_cons] at hg
    rcases hg with hg | hg
    · rw [hg]; exact hf
    · exact ModalFormula.wellFormed_of_mem_subformulas l hf g hg
  | .binary op l r, hf, g, hg => by
    have hwf : l.wellFormed = true ∧ r.wellFormed = true := by
      simpa [ModalFormula.wellFormed] using hf
    simp only [ModalFormula.subformulas, List.mem_cons, List.mem_append] at hg
    rcases hg with hg | hg | hg
    · rw [hg]; exact hf
    · exact ModalFormula.wellFormed_of_mem_subformulas l hwf.1 g hg
    · exact ModalFormula.wellFormed_of_mem_subformulas r hwf.2 g hg

theorem ModalFormula.self_mem_subformulas (f : ModalFormula) : f ∈ f.subformulas := by
  cases f <;> simp [ModalFormula.subformulas]

theorem agree_atomValues {β : Type} (xs : StrMap) (v : Nat → β) : Agree xs v (atomValues xs v) := by
  intro psi j hj
  simp [atomValues, hj]

/-- C2: Łukasiewicz soundness of the encoding. For well-formed input formulas the first two
loops of `solve` succeed, and every assignment that keeps every variable within its bounds
`[0,1]`, gives every `b(·)` variable the value 0 or 1 and satisfies all emitted rows and the
assertion rows gives the variable `x(g)` of every subformula `g` the Łukasiewicz value of `g`
under the atom values `x(Pψ)`; hence every input formula evaluates to 1. -/
theorem encoding_lukasiewicz_sound (formulas : List ModalFormula)
    (hwf : ∀ f ∈ formulas, f.wellFormed = true) :
    ∃ st, encodeAndAssert formulas = some st ∧
      ∀ v : Nat → α, st.lp.Feasible v → st.lp.Integral v →
        (∀ f ∈ formulas, ∀ g ∈ f.subformulas, ∃ i, st.xVars.find g.toString = some i ∧
          v i = g.lukEval (atomValues st.xVars v)) ∧
        ∀ f ∈ formulas, f.lukEval (atomValues st.xVars v) = 1 := by
  obtain ⟨hinv, _, hbound⟩ := encodeAll_correct (α := α) formulas hwf
    ⟨LinearProgram.empty, [], []⟩ encInv_empty
  obtain ⟨lp', h1, h2, h3, h4, h5⟩ := addAssertions_spec formulas
    (encodeAll formulas ⟨LinearProgram.empty, [], []⟩).xVars
    (encodeAll formulas ⟨LinearProgram.empty, [], []⟩).lp hbound
  refine ⟨{ encodeAll formulas ⟨LinearProgram.empty, [], []⟩ with lp := lp' }, ?_, ?_⟩
  · simp [encodeAndAssert, h1]
  · intro v hfeas hint
    have hfeas0 : (encodeAll formulas ⟨LinearProgram.empty, [], []⟩).lp.Feasible v :=
      LinearProgram.Feasible.restrict (by rw [← h2]) h4 hfeas
    have hint0 : (encodeAll formulas ⟨LinearProgram.empty, [], []⟩).lp.Integral v :=
      LinearProgram.Integral.restrictNames (by rw [← h3]) hint
    have hsub : ∀ f ∈ formulas, ∀ g ∈ f.subformulas,
        ∃ i, (encodeAll formulas ⟨LinearProgram.empty, [], []⟩).xVars.find g.toString = some i ∧
          v i = g.lukEval
            (atomValues (encodeAll formulas ⟨LinearProgram.empty, [], []⟩).xVars v) := by
      intro f hf g hg
      obtain ⟨j, hj⟩ := Option.isSome_iff_exists.mp (hbound f hf)
      have hgood := hinv.2 f (hwf f hf) j hj
      obtain ⟨i, hi⟩ := Option.isSome_iff_exists.mp (hgood.1 g hg)
      have hgoodg := hinv.2 g
        (ModalFormula.wellFormed_of_mem_subformulas f (hwf f hf) g hg) i hi
      exact ⟨i, hi, (hgoodg.2 v hfeas0 hint0).2 _ (agree_atomValues _ v)⟩
    refine ⟨hsub, ?_⟩
    intro f hf
    obtain ⟨i, hi, hv⟩ := hsub f hf f (ModalFormula.self_mem_subformulas f)
    have hrow := hfeas.2 _ (h5 f hf i hi)
    rw [row_sat_EQ] at hrow
    simp only [List.map, List.sum_cons, List.sum_nil] at hrow
    rw [← hv]
    simpa using hrow

/-- The hypothesis of `encoding_lukasiewicz_sound` holds for `exampleFormulas`. -/
theorem encoding_lukasiewicz_sound_witness :
    ∃ st, encodeAndAssert exampleFormulas = some st ∧
      ∀ v : Nat → ℚ, st.lp.Feasible v → st.lp.Integral v →
        (∀ f ∈ exampleFormulas, ∀ g ∈ f.subformulas,
          ∃ i, st.xVars.find g.toString = some i ∧
            v i = g.lukEval (atomValues st.xVars v)) ∧
        ∀ f ∈ exampleFormulas, f.lukEval (atomValues st.xVars v) = 1 :=
  encoding_lukasiewicz_sound exampleFormulas (by decide)

end Encoder

/-! ## Theorems: rows and columns of the feasibility engine -/

section Engine

variable {α : Type} [LinearOrderedField α]

theorem modifyAt_length {β : Type} (f : β → β) : ∀ (i : Nat) (l : List β),
    (modifyAt f i l).length = l.length
  | _, [] => by simp [modifyAt]
  | 0, _ :: _ => rfl
  | i + 1, _ :: bs => by simp [modifyAt, modifyAt_length f i bs]

theorem getElem?_modifyAt {β : Type} (f : β → β) : ∀ (i : Nat) (l : List β) (j : Nat),
    (modifyAt f i l)[j]? = if j = i then (l[j]?).map f else l[j]?
  | _, [], j => by simp [modifyAt]
  | 0, b :: bs, 0 => by simp [modifyAt]
  | 0, b :: bs, j + 1 => by simp [modifyAt]
  | i + 1, b :: bs, 0 => by simp [modifyAt]
  | i + 1, b :: bs, j + 1 => by simp [modifyAt, getElem?_modifyAt f i bs j]

theorem mem_modifyAt {β : Type} (f : β → β) : ∀ (i : Nat) (l : List β) (a : β),
    a ∈ modifyAt f i l → a ∈ l ∨ ∃ b ∈ l, a = f b
  | _, [], a, h => by simp [modifyAt] at h
  | 0, b :: bs, a, h => by
    simp only [modifyAt, List.mem_cons] at h
    rcases h with h | h
    · exact Or.inr ⟨b, List.mem_cons_self _ _, h⟩
    · exact Or.inl (List.mem_cons_of_mem _ h)
  | i + 1, b :: bs, a, h => by
    simp only [modifyAt, List.mem_cons] at h
    rcases h with h | h
    · exact Or.inl (by rw [h]; exact List.mem_cons_self _ _)
    · rcases mem_modifyAt f i bs a h with h' | ⟨c, hc, hac⟩
      · exact Or.inl (List.mem_cons_of_mem _ h')
      · exact Or.inr ⟨c, List.mem_cons_of_mem _ hc, hac⟩

theorem modifyAt_append_length {β : Type} (f : β → β) : ∀ (l : List β) (a : β),
    modifyAt f l.length (l ++ [a]) = l ++ [f a]
  | [], a => rfl
  | b :: bs, a => by simp [modifyAt, modifyAt_append_length f bs a]

theorem RowIs.congr {lp : LinearProgram} {r : Nat} {lo hi : Option ℚ}
    {F G : (Nat → α) → α} (h : RowIs lp r lo hi F) (hFG : ∀ v, F v = G v) :
    RowIs lp r lo hi G := by
  obtain ⟨row, h1, h2, h3, h4⟩ := h
  exact ⟨row, h1, h2, h3, fun v => by rw [h4 v, hFG v]⟩

theorem RowIs.ofRowsPrefixed {lp lp' : LinearProgram} {r : Nat} {lo hi : Option ℚ}
    {F : (Nat → α) → α} (hp : lp.rows <+: lp'.rows) (h : RowIs lp r lo hi F) :
    RowIs lp' r lo hi F := by
  obtain ⟨row, h1, h2, h3, h4⟩ := h
  exact ⟨row, getElem?_mono hp h1, h2, h3, h4⟩

theorem LPRow.value_append (v : Nat → α) (row : LPRow) (idx : Nat) (c : ℚ) :
    LPRow.value v { row with rowVec := row.rowVec ++ [(idx, c)] }
      = row.value v + (c : α) * v idx := by
  simp [LPRow.value]

theorem RowIs.addCoefficientToRow {lp : LinearProgram} {r : Nat} {lo hi : Option ℚ}
    {F : (Nat → α) → α} (h : RowIs lp r lo hi F) (row idx : Nat) (c : ℚ) :
    RowIs (lp.addCoefficientToRow row idx c) r lo hi
      (fun v => F v + if r = row then (c : α) * v idx else 0) := by
  obtain ⟨row0, h1, h2, h3, h4⟩ := h
  by_cases hr : r = row
  · refine ⟨{ row0 with rowVec := row0.rowVec ++ [(idx, c)] }, ?_, h2, h3, ?_⟩
    · show (modifyAt _ row lp.rows)[r]? = _
      rw [getElem?_modifyAt, if_pos hr, h1]
      rfl
    · intro v
      show _ = F v + if r = row then (c : α) * v idx else 0
      rw [LPRow.value_append, h4 v, if_pos hr]
  · refine ⟨row0, ?_, h2, h3, ?_⟩
    · show (modifyAt _ row lp.rows)[r]? = _
      rw [getElem?_modifyAt, if_neg hr, h1]
    · intro v
      show _ = F v + if r = row then (c : α) * v idx else 0
      rw [h4 v, if_neg hr, add_zero]

theorem addSlack_varNames (lp : LinearProgram) (row : Nat) :
    (addSlack lp row).varNames = lp.varNames ++ ["i(" ++ toString row ++ ")"] := rfl

theorem addSlack_rows_length (lp : LinearProgram) (row : Nat) :
    (addSlack lp row).rows.length = lp.rows.length := by
  show (modifyAt _ row lp.rows).length = _
  rw [modifyAt_length]

theorem addSlack_cols (lp : LinearProgram) (row : Nat)
    (h : lp.cols.length = lp.varNames.length) :
    (addSlack lp row).cols = lp.cols ++ [⟨1, none, some 0⟩] := by
  show modifyAt _ lp.varNames.length (lp.cols ++ [_]) = _
  rw [← h, modifyAt_append_length]

theorem addSlack_rowIs {lp : LinearProgram} {r : Nat} {lo hi : Option ℚ}
    {F : (Nat → α) → α} (h : RowIs lp r lo hi F) (row : Nat) :
    RowIs (addSlack lp row) r lo hi
      (fun v => F v + if r = row then v lp.varNames.length else 0) := by
  have h1 : RowIs (lp.addVariable ("i(" ++ toString row ++ ")") (some 0) none).1 r lo hi F := h
  have h2 := h1.addCoefficientToRow row lp.varNames.length 1
  obtain ⟨row0, h3, h4, h5, h6⟩ := h2
  refine ⟨row0, h3, h4, h5, ?_⟩
  intro v
  rw [h6 v]
  simp

theorem addSlacks_succ (lp : LinearProgram) (n : Nat) :
    addSlacks lp (n + 1) = addSlack (addSlacks lp n) n := by
  simp [addSlacks, List.range_succ, List.foldl_append]

/-- The slack loop: one new column `i(r)` with objective coefficient 1 and bounds `[0, ∞)`
per row `r`, entering the row `r` with coefficient 1. -/
theorem addSlacks_spec (lp : LinearProgram) (h : lp.cols.length = lp.varNames.length) :
    ∀ n : Nat,
      (addSlacks lp n).varNames
          = lp.varNames ++ (List.range n).map (fun r => "i(" ++ toString r ++ ")") ∧
      (addSlacks lp n).cols = lp.cols ++ List.replicate n ⟨1, none, some 0⟩ ∧
      (addSlacks lp n).rows.length = lp.rows.length ∧
      ∀ (r : Nat) (lo hi : Option ℚ) (F : (Nat → α) → α), RowIs lp r lo hi F →
        RowIs (addSlacks lp n) r lo hi
          (fun v => F v + if r < n then v (lp.varNames.length + r) else 0)
  | 0 => by
    refine ⟨by simp [addSlacks], by simp [addSlacks], rfl, ?_⟩
    intro r lo hi F hF
    exact hF.congr (fun v => by simp)
  | n + 1 => by
    obtain ⟨h1, h2, h3, h4⟩ := addSlacks_spec lp h n
    have hlen : (addSlacks lp n).cols.length = (addSlacks lp n).varNames.length := by
      rw [h1, h2]; simp [h]
    have hn : (addSlacks lp n).varNames.length = lp.varNames.length + n := by
      rw [h1]; simp
    rw [addSlacks_succ]
    refine ⟨?_, ?_, ?_, ?_⟩
    · rw [addSlack_varNames, h1, List.range_succ]; simp
    · rw [addSlack_cols _ _ hlen, h2, List.replicate_succ']; simp
    · rw [addSlack_rows_length, h3]
    · intro r lo hi F hF
      refine (addSlack_rowIs (h4 r lo hi F hF) n).congr ?_
      intro v
      rw [hn]
      by_cases hr : r = n
      · subst hr
        simp
      · by_cases hlt : r < n
        · simp [hr, hlt, Nat.lt_succ_of_lt hlt]
        · have : ¬ r < n + 1 := by omega
          simp [hr, hlt, this]

theorem coefAt_cons (e : Nat × ℚ) (col : List (Nat × ℚ)) (r : Nat) :
    coefAt (e :: col) r = (if e.1 = r then e.2 else 0) + coefAt col r := by
  simp [coefAt]

theorem coefAt_append (c1 c2 : List (Nat × ℚ)) (r : Nat) :
    coefAt (c1 ++ c2) r = coefAt c1 r + coefAt c2 r := by
  simp [coefAt]

theorem foldl_addCoefficient_spec (n : Nat) : ∀ (col : List (Nat × ℚ)) (q : LinearProgram),
    (col.foldl (fun q e => q.addCoefficientToRow e.1 n e.2) q).varNames = q.varNames ∧
    (col.foldl (fun q e => q.addCoefficientToRow e.1 n e.2) q).cols = q.cols ∧
    (col.foldl (fun q e => q.addCoefficientToRow e.1 n e.2) q).rows.length = q.rows.length ∧
    ∀ (r : Nat) (lo hi : Option ℚ) (F : (Nat → α) → α), RowIs q r lo hi F →
      RowIs (col.foldl (fun q e => q.addCoefficientToRow e.1 n e.2) q) r lo hi
        (fun v => F v + (coefAt col r : α) * v n)
  | [], q => by
    refine ⟨rfl, rfl, rfl, ?_⟩
    intro r lo hi F hF
    exact hF.congr (fun v => by simp [coefAt])
  | e :: col, q => by
    obtain ⟨h1, h2, h3, h4⟩ := foldl_addCoefficient_spec n col (q.addCoefficientToRow e.1 n e.2)
    refine ⟨by rw [List.foldl_cons, h1]; rfl, by rw [List.foldl_cons, h2]; rfl, ?_, ?_⟩
    · rw [List.foldl_cons, h3]
      show (modifyAt _ e.1 q.rows).length = _
      rw [modifyAt_length]
    · intro r lo hi F hF
      rw [List.foldl_cons]
      refine (h4 r lo hi _ (hF.addCoefficientToRow e.1 n e.2)).congr ?_
      intro v
      rw [coefAt_cons]
      by_cases hr : r = e.1
      · have hr' : e.1 = r := hr.symm
        rw [if_pos hr, if_pos hr']
        push_cast
        ring
      · have hr' : ¬ e.1 = r := fun h => hr h.symm
        rw [if_neg hr, if_neg hr']
        push_cast
        ring

/-- Adding a column: one new variable with bounds `[0,1]` and objective coefficient 0,
entering each row with the coefficient the column holds for it. -/
theorem addColumn_spec (lp : LinearProgram) (name : String) (col : List (Nat × ℚ)) :
    (addColumn lp name col).varNames = lp.varNames ++ [name] ∧
    (addColumn lp name col).cols = lp.cols ++ [⟨0, some 1, some 0⟩] ∧
    (addColumn lp name col).rows.length = lp.rows.length ∧
    ∀ (r : Nat) (lo hi : Option ℚ) (F : (Nat → α) → α), RowIs lp r lo hi F →
      RowIs (addColumn lp name col) r lo hi
        (fun v => F v + (coefAt col r : α) * v lp.varNames.length) := by
  obtain ⟨h1, h2, h3, h4⟩ := foldl_addCoefficient_spec (α := α) lp.varNames.length col
    (lp.addVariable name (some 0) (some 1)).1
  exact ⟨h1, h2, h3, fun r lo hi F hF => h4 r lo hi F hF⟩

theorem addColumns_spec (root : RootLP) (varList : List String) :
    ∀ (ws : List (String × List Bool)) (lp lp' : LinearProgram),
      addColumns root varList lp ws = some lp' →
      lp'.varNames = lp.varNames ++ ws.map (fun c => c.1) ∧
      lp'.cols = lp.cols ++ List.replicate ws.length ⟨0, some 1, some 0⟩ ∧
      lp'.rows.length = lp.rows.length ∧
      (∀ c ∈ ws, (newColumn root varList c.2).isSome = true) ∧
      ∀ (r : Nat) (lo hi : Option ℚ) (F : (Nat → α) → α), RowIs lp r lo hi F →
        RowIs lp' r lo hi
          (fun v => F v + weightedSum v lp.varNames.length
            (ws.map fun c => colCoef root varList c.2 r))
  | [], lp, lp', h => by
    simp only [addColumns, Option.some.injEq] at h
    subst h
    refine ⟨by simp, by simp, rfl, by simp, ?_⟩
    intro r lo hi F hF
    exact hF.congr (fun v => by simp [weightedSum])
  | c :: ws, lp, lp', h => by
    simp only [addColumns] at h
    cases hcol : newColumn root varList c.2 with
    | none => rw [hcol] at h; cases h
    | some col =>
      rw [hcol] at h
      simp only at h
      obtain ⟨g1, g2, g3, g4⟩ := addColumn_spec (α := α) lp c.1 col
      obtain ⟨h1, h2, h3, h4, h5⟩ := addColumns_spec root varList ws (addColumn lp c.1 col) lp' h
      refine ⟨?_, ?_, ?_, ?_, ?_⟩
      · rw [h1, g1]; simp
      · rw [h2, g2]; simp [List.replicate_succ]
      · rw [h3, g3]
      · intro d hd
        rcases List.mem_cons.mp hd with hd | hd
        · rw [hd, hcol]; rfl
        · exact h4 d hd
      · intro r lo hi F hF
        refine (h5 r lo hi _ (g4 r lo hi F hF)).congr ?_
        intro v
        have hlen : (addColumn lp c.1 col).varNames.length = lp.varNames.length + 1 := by
          rw [g1]; simp
        simp only [List.map_cons, weightedSum, hlen, colCoef, hcol, Option.map_some',
          Option.getD_some]
        ring

theorem evaluateCPL_zero_one : ∀ (psi : CPLFormula) (val : BoolMap) (a : ℚ),
    evaluateCPL psi val = some a → a = 0 ∨ a = 1
  | .var name, val, a, h => by
    simp only [evaluateCPL] at h
    cases hb : val.at name with
    | none => rw [hb] at h; cases h
    | some b =>
      rw [hb] at h
      simp only [Option.map_some', Option.some.injEq] at h
      cases b <;> simp at h <;> simp [← h]
  | .not l, val, a, h => by
    simp only [evaluateCPL] at h
    cases hl : evaluateCPL l val with
    | none => rw [hl] at h; cases h
    | some b =>
      rw [hl] at h
      simp only [Option.map_some', Option.some.injEq] at h
      rcases evaluateCPL_zero_one l val b hl with hb | hb <;> rw [hb] at h <;>
        simp [← h]
  | .binary op l r, val, a, h => by
    simp only [evaluateCPL] at h
    cases hl : evaluateCPL l val with
    | none => rw [hl] at h; cases h
    | some b =>
      cases hr : evaluateCPL r val with
      | none => rw [hl, hr] at h; cases h
      | some c =>
        rw [hl, hr] at h
        simp only [Option.some.injEq] at h
        rcases evaluateCPL_zero_one l val b hl with hb | hb <;>
          rcases evaluateCPL_zero_one r val c hr with hc | hc <;>
          rw [hb, hc] at h <;> cases op <;> simp at h <;> simp [← h]

theorem columnEntries_coefAt (varList : List String) (w : List Bool) :
    ∀ (L : List (CPLFormula × Nat)) (es : List (Nat × ℚ)),
      (L.map Prod.snd).Nodup → columnEntries L varList w = some es →
      (∀ e ∈ L, coefAt es e.2 = cplValue varList e.1 w) ∧
      ∀ r, r ∉ L.map Prod.snd → coefAt es r = 0
  | [], es, _, h => by
    simp only [columnEntries, Option.some.injEq] at h
    subst h
    exact ⟨fun e he => (by cases he), fun r _ => (by simp [coefAt])⟩
  | e :: L, es, hnd, h => by
    simp only [columnEntries] at h
    cases hv : evaluateCPL e.1 (valuationMap varList w) with
    | none => rw [hv] at h; cases h
    | some val =>
      cases hes : columnEntries L varList w with
      | none => rw [hv, hes] at h; cases h
      | some es' =>
        rw [hv, hes] at h
        simp only [Option.some.injEq] at h
        simp only [List.map_cons, List.nodup_cons] at hnd
        obtain ⟨ih1, ih2⟩ := columnEntries_coefAt varList w L es' hnd.2 hes
        have hhead : coefAt es e.2 = val ∧ ∀ r, r ≠ e.2 → coefAt es r = coefAt es' r := by
          rcases evaluateCPL_zero_one _ _ _ hv with h0 | h1
          · rw [h0] at h
            norm_num at h
            subst h
            exact ⟨by rw [ih2 _ hnd.1, h0], fun _ _ => rfl⟩
          · rw [h1] at h
            norm_num at h
            subst h
            refine ⟨?_, ?_⟩
            · rw [coefAt_cons, ih2 _ hnd.1, h1]; simp
            · intro r hr
              rw [coefAt_cons, if_neg (fun h' => hr h'.symm), zero_add]
        refine ⟨?_, ?_⟩
        · intro d hd
          rcases List.mem_cons.mp hd with hd | hd
          · rw [hd, hhead.1]
            simp [cplValue, hv]
          · have hne : d.2 ≠ e.2 := by
              intro heq
              apply hnd.1
              rw [← heq]
              exact List.mem_map_of_mem _ hd
            rw [hhead.2 _ hne]
            exact ih1 d hd
        · intro r hr
          simp only [List.map_cons, List.mem_cons, not_or] at hr
          rw [hhead.2 _ hr.1]
          exact ih2 r hr.2

theorem colsOK_empty : LinearProgram.empty.ColsOK :=
  ⟨rfl, fun c hc => by cases hc⟩

theorem LinearProgram.ColsOK.addVariable {lp : LinearProgram} (h : lp.ColsOK) (name : String)
    (ub : Option ℚ) : (lp.addVariable name (some 0) ub).1.ColsOK := by
  refine ⟨?_, ?_⟩
  · show (lp.cols ++ [_]).length = (lp.varNames ++ [_]).length
    simp [h.1]
  · intro c hc
    have hc' : c ∈ lp.cols ++ [⟨0, ub, some 0⟩] := hc
    rcases List.mem_append.mp hc' with hc' | hc'
    · exact h.2 c hc'
    · simp only [List.mem_singleton] at hc'
      rw [hc']
      exact ⟨rfl, le_refl _⟩

theorem LinearProgram.ColsOK.of_eq {lp lp' : LinearProgram} (h : lp.ColsOK) (hc : lp'.cols = lp.cols)
    (hn : lp'.varNames = lp.varNames) : lp'.ColsOK := by
  refine ⟨by rw [hc, hn]; exact h.1, ?_⟩
  rw [hc]
  exact h.2

theorem LinearProgram.ColsOK.addConstraints {lp : LinearProgram} (h : lp.ColsOK) (cs : List Constraint) :
    (lp.addConstraints cs).ColsOK :=
  h.of_eq (LinearProgram.addConstraints_cols lp cs) (LinearProgram.addConstraints_varNames lp cs)

theorem encode_colsOK : ∀ (f : ModalFormula) (st : EncState), st.lp.ColsOK →
    (encodeModalFormula f st).lp.ColsOK := by
  intro f
  induction f with
  | patom phi =>
    intro st h
    by_cases hc : st.xVars.count (ModalFormula.patom phi).toString = true
    · rw [encode_hit _ _ hc]; exact h
    · rw [encode_patom _ _ (by simpa using hc)]
      exact h.addVariable _ _
  | not l ih =>
    intro st h
    by_cases hc : st.xVars.count (ModalFormula.not l).toString = true
    · rw [encode_hit _ _ hc]; exact h
    · rw [encode_not _ _ (by simpa using hc)]
      exact ((ih st h).addVariable _ _).addConstraints _
  | binary op l r ihl ihr =>
    intro st h
    by_cases hc : st.xVars.count (ModalFormula.binary op l r).toString = true
    · rw [encode_hit _ _ hc]; exact h
    · rw [encode_binary _ _ _ _ (by simpa using hc)]
      have h1 := ihl st h
      have h2 := ihr { encodeModalFormula l st with
        xVars := ((encodeModalFormula l st).xVars.index l.toString).2 } h1
      exact ((h2.addVariable _ _).addVariable _ _).addConstraints _

theorem encodeAll_colsOK : ∀ (formulas : List ModalFormula) (st : EncState), st.lp.ColsOK →
    (encodeAll formulas st).lp.ColsOK
  | [], _, h => h
  | f :: fs, st, h => encodeAll_colsOK fs (encodeModalFormula f st) (encode_colsOK f st h)

theorem addAssertions_cols : ∀ (formulas : List ModalFormula) (xVars : StrMap)
    (lp lp' : LinearProgram), addAssertions formulas xVars lp = some lp' →
    lp'.cols = lp.cols ∧ lp'.varNames = lp.varNames
  | [], _, lp, lp', h => by
    simp only [addAssertions, Option.some.injEq] at h
    subst h
    exact ⟨rfl, rfl⟩
  | f :: fs, xVars, lp, lp', h => by
    simp only [addAssertions] at h
    cases hf : xVars.find f.toString with
    | none => rw [hf] at h; cases h
    | some i =>
      rw [hf] at h
      simp only at h
      exact addAssertions_cols fs xVars (lp.addConstraint [(i, 1)] Sense.EQ 1) lp' h

theorem encodeAndAssert_colsOK (formulas : List ModalFormula) (st : EncState)
    (h : encodeAndAssert formulas = some st) : st.lp.ColsOK := by
  simp only [encodeAndAssert, Option.map_eq_some'] at h
  obtain ⟨lp', h1, h2⟩ := h
  obtain ⟨h3, h4⟩ := addAssertions_cols _ _ _ _ h1
  rw [← h2]
  exact (encodeAll_colsOK formulas _ colsOK_empty).of_eq h3 h4

theorem rowIs_addConstraint_new (lp : LinearProgram) (terms : List (Nat × ℚ)) (sense : Sense)
    (rhs : ℚ) :
    RowIs (α := α) (lp.addConstraint terms sense rhs) lp.rows.length
      (LPRow.ofConstraint terms sense rhs).lhs (LPRow.ofConstraint terms sense rhs).rhs
      (fun v => (LPRow.ofConstraint terms sense rhs).value v) :=
  ⟨_, List.getElem?_concat_length _ _, rfl, rfl, fun _ => rfl⟩

/-- The seed loop: one row `−x(Pψ) = 0` per entry of `psiList`, appended in order, and the
recorded row indices are the consecutive indices of these rows. -/
theorem addSeedRows_spec : ∀ (psis : List CPLFormula) (xVars : StrMap) (lp : LinearProgram)
    (acc : List Nat) (res : LinearProgram × List Nat),
    addSeedRows psis xVars (lp, acc) = some res →
    res.1.cols = lp.cols ∧ res.1.varNames = lp.varNames ∧ lp.rows <+: res.1.rows ∧
    res.1.rows.length = lp.rows.length + psis.length ∧
    res.2 = acc ++ List.range' lp.rows.length psis.length ∧
    ∀ (i : Nat) (psi : CPLFormula), psis[i]? = some psi →
      ∃ x, xVars.find (ModalFormula.patom psi).toString = some x ∧
        RowIs (α := α) res.1 (lp.rows.length + i) (some 0) (some 0) (fun v => -v x)
  | [], xVars, lp, acc, res, h => by
    simp only [addSeedRows, Option.some.injEq] at h
    subst h
    refine ⟨rfl, rfl, List.prefix_rfl, rfl, by simp, ?_⟩
    intro i psi hi
    simp at hi
  | psi :: psis, xVars, lp, acc, res, h => by
    simp only [addSeedRows] at h
    cases hx : xVars.find (ModalFormula.patom psi).toString with
    | none => rw [hx] at h; cases h
    | some x =>
      rw [hx] at h
      simp only at h
      obtain ⟨h1, h2, h3, h4, h5, h6⟩ := addSeedRows_spec psis xVars _ _ res h
      have hlen : (lp.addConstraint [(x, -1)] Sense.EQ 0).rows.length = lp.rows.length + 1 := by
        simp [LinearProgram.addConstraint]
      refine ⟨h1, h2, (List.prefix_append _ _).trans h3, ?_, ?_, ?_⟩
      · rw [h4, hlen]; simp; omega
      · rw [h5, hlen]
        simp [LinearProgram.numRows, LinearProgram.addConstraint, List.range'_succ]
      · intro i phi hi
        cases i with
        | zero =>
          simp only [List.getElem?_cons_zero, Option.some.injEq] at hi
          subst hi
          refine ⟨x, hx, ?_⟩
          have hnew := rowIs_addConstraint_new (α := α) lp [(x, -1)] Sense.EQ 0
          refine (RowIs.ofRowsPrefixed h3 hnew).congr ?_
          intro v
          simp [LPRow.ofConstraint, LPRow.value]
        | succ j =>
          simp only [List.getElem?_cons_succ] at hi
          obtain ⟨y, hy, hrow⟩ := h6 j phi hi
          refine ⟨y, hy, ?_⟩
          rw [hlen] at hrow
          have : lp.rows.length + (j + 1) = lp.rows.length + 1 + j := by omega
          rw [this]
          exact hrow

theorem objectiveFrom_nonneg (v : Nat → α) : ∀ (cs : List LPCol) (n : Nat),
    (∀ (j : Nat) (c : LPCol), cs[j]? = some c → 0 ≤ (c.obj : α) * v (n + j)) →
    0 ≤ objectiveFrom v n cs
  | [], _, _ => le_refl _
  | c :: cs, n, h => by
    have h0 := h 0 c (by simp)
    have h1 := objectiveFrom_nonneg v cs (n + 1) (fun j d hd => by
      have := h (j + 1) d (by simpa using hd)
      rwa [show n + (j + 1) = n + 1 + j by omega] at this)
    simp only [objectiveFrom]
    simp only [add_zero] at h0
    linarith

theorem objectiveFrom_zero (v : Nat → α) : ∀ (cs : List LPCol) (n : Nat),
    (∀ (j : Nat) (c : LPCol), cs[j]? = some c → 0 ≤ (c.obj : α) * v (n + j)) →
    objectiveFrom v n cs ≤ 0 →
    ∀ (j : Nat) (c : LPCol), cs[j]? = some c → (c.obj : α) * v (n + j) = 0
  | [], _, _, _, j, c, hc => by simp at hc
  | d :: cs, n, h, hle, j, c, hc => by
    have h0 := h 0 d (by simp)
    have htail : ∀ (j : Nat) (c : LPCol), cs[j]? = some c → 0 ≤ (c.obj : α) * v (n + 1 + j) :=
      fun j e he => by
        have := h (j + 1) e (by simpa using he)
        rwa [show n + (j + 1) = n + 1 + j by omega] at this
    have h1 := objectiveFrom_nonneg v cs (n + 1) htail
    simp only [objectiveFrom] at hle
    simp only [add_zero] at h0
    cases j with
    | zero =>
      simp only [List.getElem?_cons_zero, Option.some.injEq] at hc
      subst hc
      simp only [add_zero]
      linarith
    | succ k =>
      simp only [List.getElem?_cons_succ] at hc
      have := objectiveFrom_zero v cs (n + 1) htail (by linarith) k c hc
      rwa [show n + 1 + k = n + (k + 1) by omega] at this

/-- At objective value at most 0 every slack variable of a feasible assignment is 0. -/
theorem slack_zero {lp : LinearProgram} (hok : lp.ColsOK) {v : Nat → α}
    (hfeas : lp.Feasible v) (hobj : lp.objective v ≤ 0) {s : Nat} {ub : Option ℚ}
    (hs : lp.cols[s]? = some ⟨1, ub, some 0⟩) : v s = 0 := by
  have hnn : ∀ (j : Nat) (c : LPCol), lp.cols[j]? = some c → 0 ≤ (c.obj : α) * v (0 + j) := by
    intro j c hc
    obtain ⟨hlow, hobjc⟩ := hok.2 c (List.getElem?_mem hc)
    have hb := (hfeas.1 j c hc).1
    rw [hlow] at hb
    simp only [Rat.cast_zero] at hb
    rw [zero_add]
    exact mul_nonneg (Rat.cast_nonneg.mpr hobjc) hb
  have := objectiveFrom_zero v lp.cols 0 hnn hobj s _ hs
  simpa using this

theorem mem_zip_range' : ∀ (psis : List CPLFormula) (R i : Nat) (psi : CPLFormula),
    psis[i]? = some psi → (psi, R + i) ∈ psis.zip (List.range' R psis.length)
  | [], _, i, _, h => by simp at h
  | p :: psis, R, 0, psi, h => by
    simp only [List.getElem?_cons_zero, Option.some.injEq] at h
    subst h
    simp [List.range'_succ]
  | p :: psis, R, i + 1, psi, h => by
    simp only [List.getElem?_cons_succ] at h
    have := mem_zip_range' psis (R + 1) i psi h
    simp only [List.length_cons, List.range'_succ, List.zip_cons_cons, List.mem_cons]
    right
    rwa [show R + (i + 1) = R + 1 + i by omega]

/-- The coefficients of a column: `ψᵢ(w)` in the `i`-th coherence row and 1 in the
normalization row. -/
theorem colCoef_spec (root : RootLP) (varList : List String) (w : List Bool) (R0 : Nat)
    (hrows : root.probConstraintRows = List.range' R0 root.psiList.length)
    (hsum : root.sumProbRow = R0 + root.psiList.length)
    (hsome : (newColumn root varList w).isSome = true) :
    (∀ (i : Nat) (psi : CPLFormula), root.psiList[i]? = some psi →
      colCoef root varList w (R0 + i) = cplValue varList psi w) ∧
    colCoef root varList w root.sumProbRow = 1 := by
  obtain ⟨col, hcol⟩ := Option.isSome_iff_exists.mp hsome
  simp only [newColumn, Option.map_eq_some'] at hcol
  obtain ⟨es, hes, hcol⟩ := hcol
  have hsnd : (root.psiList.zip root.probConstraintRows).map Prod.snd
      = List.range' R0 root.psiList.length := by
    rw [hrows]
    exact List.map_snd_zip _ _ (by simp)
  obtain ⟨h1, h2⟩ := columnEntries_coefAt varList w _ es
    (by rw [hsnd]; exact List.nodup_range' _ _) hes
  have hnew : newColumn root varList w = some (es ++ [(root.sumProbRow, 1)]) := by
    simp [newColumn, hes]
  refine ⟨?_, ?_⟩
  · intro i psi hi
    have hmem := mem_zip_range' root.psiList R0 i psi hi
    rw [← hrows] at hmem
    have hlt : i < root.psiList.length := (List.getElem?_eq_some.mp hi).1
    have := h1 _ hmem
    simp only [colCoef, hnew, Option.map_some', Option.getD_some, coefAt_append]
    rw [this, coefAt_cons, if_neg (by rw [hsum]; omega)]
    simp [coefAt]
  · have hnot : root.sumProbRow ∉ (root.psiList.zip root.probConstraintRows).map Prod.snd := by
      rw [hsnd, hsum]
      simp [List.mem_range']
    simp only [colCoef, hnew, Option.map_some', Option.getD_some, coefAt_append]
    rw [h2 _ hnot, coefAt_cons, if_pos rfl]
    simp [coefAt]

/-- The shape of the root program: the coherence rows `−x(Pψᵢ) + i(r) = 0` at consecutive
indices `R0 + i`, the normalization row `i(r) = 1` right after them, and one slack column per
row. -/
theorem buildRootLP_spec (formulas : List ModalFormula) (root : RootLP)
    (h : buildRootLP formulas = some root) :
    ∃ R0 m0 : Nat,
      root.psiList = collectAllPatoms formulas ∧
      root.probConstraintRows = List.range' R0 root.psiList.length ∧
      root.sumProbRow = R0 + root.psiList.length ∧
      root.lp.ColsOK ∧
      (∀ r, r < R0 + root.psiList.length + 1 →
        root.lp.cols[m0 + r]? = some ⟨1, none, some 0⟩ ∧
        root.lp.varNames[m0 + r]? = some (slackName r)) ∧
      (∀ (i : Nat) (psi : CPLFormula), root.psiList[i]? = some psi →
        ∃ x, root.xVars.find (ModalFormula.patom psi).toString = some x ∧
          RowIs (α := α) root.lp (R0 + i) (some 0) (some 0)
            (fun v => -v x + v (m0 + (R0 + i)))) ∧
      RowIs (α := α) root.lp (R0 + root.psiList.length) (some 1) (some 1)
        (fun v => v (m0 + (R0 + root.psiList.length))) := by
  unfold buildRootLP at h
  cases hst : encodeAndAssert formulas with
  | none => rw [hst] at h; cases h
  | some st =>
    rw [hst] at h
    simp only [finishRootLP] at h
    cases hacc : addSeedRows (collectAllPatoms formulas) st.xVars (st.lp, []) with
    | none => rw [hacc] at h; cases h
    | some acc =>
      rw [hacc] at h
      simp only [Option.some.injEq] at h
      subst h
      have hok := encodeAndAssert_colsOK formulas st hst
      obtain ⟨a1, a2, a3, a4, a5, a6⟩ := addSeedRows_spec (α := α) _ _ _ _ acc hacc
      have hlenS : (acc.1.addConstraint [] Sense.EQ 1).cols.length
          = (acc.1.addConstraint [] Sense.EQ 1).varNames.length := by
        show acc.1.cols.length = acc.1.varNames.length
        rw [a1, a2]; exact hok.1
      have hN : (acc.1.addConstraint [] Sense.EQ 1).numRows
          = st.lp.rows.length + (collectAllPatoms formulas).length + 1 := by
        simp [LinearProgram.numRows, LinearProgram.addConstraint, a4]
      obtain ⟨s1, s2, s3, s4⟩ := addSlacks_spec (α := α) (acc.1.addConstraint [] Sense.EQ 1)
        hlenS (acc.1.addConstraint [] Sense.EQ 1).numRows
      have hnames : (acc.1.addConstraint [] Sense.EQ 1).varNames = st.lp.varNames := a2
      have hcols : (acc.1.addConstraint [] Sense.EQ 1).cols = st.lp.cols := a1
      refine ⟨st.lp.rows.length, st.lp.varNames.length, rfl, ?_, ?_, ?_, ?_, ?_, ?_⟩
      · show acc.2 = _
        rw [a5]; simp
      · show (acc.1.addConstraint [] Sense.EQ 1).numRows - 1 = _
        rw [hN]; simp
      · refine ⟨?_, ?_⟩
        · show (addSlacks _ _).cols.length = (addSlacks _ _).varNames.length
          rw [s1, s2]; simp [hlenS]
        · intro c hc
          have hc' : c ∈ (addSlacks (acc.1.addConstraint [] Sense.EQ 1)
              (acc.1.addConstraint [] Sense.EQ 1).numRows).cols := hc
          rw [s2, hcols] at hc'
          rcases List.mem_append.mp hc' with hc' | hc'
          · exact hok.2 c hc'
          · rw [(List.mem_replicate.mp hc').2]
            exact ⟨rfl, by norm_num⟩
      · intro r hr
        refine ⟨?_, ?_⟩
        · show (addSlacks _ _).cols[_]? = _
          rw [s2, hcols, ← hok.1, getElem?_append_add, List.getElem?_replicate, hN, if_pos hr]
        · show (addSlacks _ _).varNames[_]? = _
          rw [s1, hnames, getElem?_append_add, List.getElem?_map, hN,
            List.getElem?_range hr]
          rfl
      · intro i psi hi
        obtain ⟨x, hx, hrow⟩ := a6 i psi hi
        refine ⟨x, hx, ?_⟩
        have hrow' : RowIs (α := α) (acc.1.addConstraint [] Sense.EQ 1) (st.lp.rows.length + i)
            (some 0) (some 0) (fun v => -v x) :=
          RowIs.ofRowsPrefixed (List.prefix_append _ _) hrow
        refine (s4 _ _ _ _ hrow').congr ?_
        intro v
        have hlt : i < (collectAllPatoms formulas).length := (List.getElem?_eq_some.mp hi).1
        rw [hN, hnames, if_pos (by omega)]
      · have hnew := rowIs_addConstraint_new (α := α) acc.1 [] Sense.EQ 1
        rw [a4] at hnew
        refine (s4 _ _ _ _ hnew).congr ?_
        intro v
        rw [hN, hnames, if_pos (by omega)]
        simp [LPRow.ofConstraint, LPRow.value]

theorem mem_collectPatoms : ∀ (f : ModalFormula) (out : List CPLFormula) (psi : CPLFormula),
    psi ∈ collectPatoms f out ↔ psi ∈ out ∨ ModalFormula.patom psi ∈ f.subformulas
  | .patom phi, out, psi => by
    simp [collectPatoms, ModalFormula.subformulas]
  | .not l, out, psi => by
    simp [collectPatoms, ModalFormula.subformulas, mem_collectPatoms l out psi]
  | .binary op l r, out, psi => by
    simp [collectPatoms, ModalFormula.subformulas, mem_collectPatoms r _ psi,
      mem_collectPatoms l out psi, or_assoc]

theorem mem_foldl_collectPatoms : ∀ (formulas : List ModalFormula) (out : List CPLFormula)
    (psi : CPLFormula),
    psi ∈ formulas.foldl (fun out f => collectPatoms f out) out ↔
      psi ∈ out ∨ ∃ f ∈ formulas, ModalFormula.patom psi ∈ f.subformulas
  | [], out, psi => by simp
  | f :: fs, out, psi => by
    rw [List.foldl_cons, mem_foldl_collectPatoms fs _ psi, mem_collectPatoms]
    simp [or_assoc]

/-- The list `psiList` holds the formula of every atom that occurs in the input. -/
theorem mem_collectAllPatoms (formulas : List ModalFormula) (psi : CPLFormula) :
    psi ∈ collectAllPatoms formulas ↔
      ∃ f ∈ formulas, ModalFormula.patom psi ∈ f.subformulas := by
  simp [collectAllPatoms, mem_foldl_collectPatoms]

/-- The coherence rows and the normalization row after the engine has added columns. -/
theorem engine_rows (formulas : List ModalFormula) (root : RootLP)
    (hroot : buildRootLP formulas = some root) (varList : List String)
    (extra : List Constraint) (ws : List (String × List Bool)) (lp : LinearProgram)
    (hlp : addColumns root varList (root.lp.addConstraints extra) ws = some lp) :
    ∃ R0 m0 : Nat,
      root.probConstraintRows = List.range' R0 root.psiList.length ∧
      root.sumProbRow = R0 + root.psiList.length ∧
      lp.ColsOK ∧
      lp.varNames = root.lp.varNames ++ ws.map (fun c => c.1) ∧
      (∀ r, r < R0 + root.psiList.length + 1 →
        lp.cols[m0 + r]? = some ⟨1, none, some 0⟩ ∧
        lp.varNames[m0 + r]? = some (slackName r)) ∧
      (∀ (i : Nat) (psi : CPLFormula), root.psiList[i]? = some psi →
        ∃ x, root.xVars.find (ModalFormula.patom psi).toString = some x ∧
          RowIs (α := α) lp (R0 + i) (some 0) (some 0)
            (fun v => weightedSum v root.lp.varNames.length
              (ws.map fun c => cplValue varList psi c.2) - v x + v (m0 + (R0 + i)))) ∧
      RowIs (α := α) lp (R0 + root.psiList.length) (some 1) (some 1)
        (fun v => weightedSum v root.lp.varNames.length (ws.map fun _ => (1 : ℚ))
          + v (m0 + (R0 + root.psiList.length))) := by
  obtain ⟨R0, m0, _, p2, p3, p4, p5, p6, p7⟩ := buildRootLP_spec (α := α) formulas root hroot
  obtain ⟨c1, c2, _, c4, c5⟩ := addColumns_spec (α := α) root varList ws _ lp hlp
  rw [LinearProgram.addConstraints_varNames] at c1 c5
  rw [LinearProgram.addConstraints_cols] at c2
  have hrowsP : root.lp.rows <+: (root.lp.addConstraints extra).rows := by
    rw [LinearProgram.addConstraints_rows]; exact List.prefix_append _ _
  refine ⟨R0, m0, p2, p3, ?_, c1, ?_, ?_, ?_⟩
  · refine ⟨by rw [c1, c2]; simp [p4.1], ?_⟩
    intro c hc
    rw [c2] at hc
    rcases List.mem_append.mp hc with hc | hc
    · exact p4.2 c hc
    · rw [(List.mem_replicate.mp hc).2]
      exact ⟨rfl, le_refl _⟩
  · intro r hr
    obtain ⟨q1, q2⟩ := p5 r hr
    exact ⟨getElem?_mono (by rw [c2]; exact List.prefix_append _ _) q1,
      getElem?_mono (by rw [c1]; exact List.prefix_append _ _) q2⟩
  · intro i psi hi
    obtain ⟨x, hx, hrow⟩ := p6 i psi hi
    refine ⟨x, hx, ?_⟩
    refine (c5 _ _ _ _ (RowIs.ofRowsPrefixed hrowsP hrow)).congr ?_
    intro v
    have hmap : (ws.map fun c => colCoef root varList c.2 (R0 + i))
        = ws.map fun c => cplValue varList psi c.2 :=
      List.map_congr_left (fun c hc => (colCoef_spec root varList c.2 R0 p2 p3 (c4 c hc)).1 i psi hi)
    rw [hmap]
    ring
  · refine (c5 _ _ _ _ (RowIs.ofRowsPrefixed hrowsP p7)).congr ?_
    intro v
    have hmap : (ws.map fun c => colCoef root varList c.2 (R0 + root.psiList.length))
        = ws.map fun _ => (1 : ℚ) :=
      List.map_congr_left (fun c hc => by
        rw [← p3]; exact (colCoef_spec root varList c.2 R0 p2 p3 (c4 c hc)).2)
    rw [hmap]
    ring

theorem value_eq_of_sat {row : LPRow} {a : ℚ} {v : Nat → α} (hl : row.lhs = some a)
    (hr : row.rhs = some a) (h : row.sat v) : row.value v = (a : α) := by
  unfold LPRow.sat at h
  rw [hl, hr] at h
  exact le_antisymm h.2 h.1

/-- C10: witness coherence. After the engine has added the columns `p(k)` of the valuations
`w₀ = 0…0, w₁, …` to the program of a branch (the root program plus the rows that fix
binaries), the row `probConstraintRows[i]` has the bounds `[0, 0]` and the linear form
`Σₖ ψᵢ(wₖ)·p(k) − x(Pψᵢ) + slack`, and the row `sumProbRow` has the bounds `[1, 1]` and the
linear form `Σₖ p(k) + slack`; hence every feasible assignment with objective value at most 0
satisfies `x(Pψ) = Σₖ p(k)·ψ(wₖ)` for every atom `Pψ` of the input and `Σₖ p(k) = 1`. -/
theorem witness_coherence (formulas : List ModalFormula) (root : RootLP)
    (hroot : buildRootLP formulas = some root) (varList : List String)
    (extra : List Constraint) (more : List (String × List Bool)) (lp : LinearProgram)
    (hlp : addColumns root varList (root.lp.addConstraints extra)
      (("p(0)", zeroValuation varList) :: more) = some lp) :
    lp.varNames = root.lp.varNames ++
      (("p(0)", zeroValuation varList) :: more).map (fun c => c.1) ∧
    (∀ (i : Nat) (psi : CPLFormula), root.psiList[i]? = some psi →
      ∃ (r x s : Nat) (row : LPRow), root.probConstraintRows[i]? = some r ∧
        root.xVars.find (ModalFormula.patom psi).toString = some x ∧
        lp.varNames[s]? = some (slackName r) ∧
        lp.rows[r]? = some row ∧ row.lhs = some 0 ∧ row.rhs = some 0 ∧
        ∀ v : Nat → α, row.value v =
          weightedSum v root.lp.varNames.length
            ((("p(0)", zeroValuation varList) :: more).map fun c => cplValue varList psi c.2)
          - v x + v s) ∧
    (∃ (s : Nat) (row : LPRow), lp.varNames[s]? = some (slackName root.sumProbRow) ∧
      lp.rows[root.sumProbRow]? = some row ∧ row.lhs = some 1 ∧ row.rhs = some 1 ∧
      ∀ v : Nat → α, row.value v =
        weightedSum v root.lp.varNames.length
          ((("p(0)", zeroValuation varList) :: more).map fun _ => (1 : ℚ)) + v s) ∧
    ∀ v : Nat → α, lp.Feasible v → lp.objective v ≤ 0 →
      (∀ f ∈ formulas, ∀ psi : CPLFormula, ModalFormula.patom psi ∈ f.subformulas →
        ∃ x, root.xVars.find (ModalFormula.patom psi).toString = some x ∧
          v x = weightedSum v root.lp.varNames.length
            ((("p(0)", zeroValuation varList) :: more).map
              fun c => cplValue varList psi c.2)) ∧
      weightedSum v root.lp.varNames.length
        ((("p(0)", zeroValuation varList) :: more).map fun _ => (1 : ℚ)) = 1 := by
  obtain ⟨R0, m0, e1, e2, e3, e4, e5, e6, e7⟩ :=
    engine_rows (α := α) formulas root hroot varList extra _ lp hlp
  have hpsi : root.psiList = collectAllPatoms formulas := by
    obtain ⟨_, _, p1, _⟩ := buildRootLP_spec (α := α) formulas root hroot
    exact p1
  refine ⟨e4, ?_, ?_, ?_⟩
  · intro i psi hi
    have hlt : i < root.psiList.length := (List.getElem?_eq_some.mp hi).1
    obtain ⟨x, hx, row, h1, h2, h3, h4⟩ := e6 i psi hi
    refine ⟨R0 + i, x, m0 + (R0 + i), row, ?_, hx, (e5 _ (by omega)).2, h1, h2, h3, h4⟩
    rw [e1, List.getElem?_range' _ _ hlt]
    simp
  · obtain ⟨row, h1, h2, h3, h4⟩ := e7
    refine ⟨m0 + (R0 + root.psiList.length), row, ?_, ?_, h2, h3, h4⟩
    · rw [e2]; exact (e5 _ (by omega)).2
    · rw [e2]; exact h1
  · intro v hfeas hobj
    refine ⟨?_, ?_⟩
    · intro f hf psi hmem
      have hin : psi ∈ root.psiList := by
        rw [hpsi, mem_collectAllPatoms]
        exact ⟨f, hf, hmem⟩
      obtain ⟨i, hi⟩ := List.mem_iff_getElem?.mp hin
      have hlt : i < root.psiList.length := (List.getElem?_eq_some.mp hi).1
      obtain ⟨x, hx, row, h1, h2, h3, h4⟩ := e6 i psi hi
      refine ⟨x, hx, ?_⟩
      have hval := value_eq_of_sat h2 h3 (hfeas.2 row (List.getElem?_mem h1))
      have hs := slack_zero e3 hfeas hobj (e5 (R0 + i) (by omega)).1
      rw [h4 v] at hval
      simp only [hs, Rat.cast_zero] at hval
      linarith
    · obtain ⟨row, h1, h2, h3, h4⟩ := e7
      have hval := value_eq_of_sat h2 h3 (hfeas.2 row (List.getElem?_mem h1))
      have hs := slack_zero e3 hfeas hobj (e5 (R0 + root.psiList.length) (by omega)).1
      rw [h4 v] at hval
      simp only [hs, Rat.cast_one] at hval
      linarith

set_option maxRecDepth 4000

/-- The hypotheses of `witness_coherence` hold for the input `¬P(p)` with the columns of the
valuations `p = 0` and `p = 1`. -/
theorem witness_coherence_witness :
    buildRootLP negatedAtom = some exampleRoot ∧
    addColumns exampleRoot ["p"] (exampleRoot.lp.addConstraints [])
      (("p(0)", zeroValuation ["p"]) :: [("p(1)", [true])]) = some exampleEngineLP ∧
    ∀ v : Nat → ℚ, exampleEngineLP.Feasible v → exampleEngineLP.objective v ≤ 0 →
      (∀ f ∈ negatedAtom, ∀ psi : CPLFormula, ModalFormula.patom psi ∈ f.subformulas →
        ∃ x, exampleRoot.xVars.find (ModalFormula.patom psi).toString = some x ∧
          v x = weightedSum v exampleRoot.lp.varNames.length
            ((("p(0)", zeroValuation ["p"]) :: [("p(1)", [true])]).map
              fun c => cplValue ["p"] psi c.2)) ∧
      weightedSum v exampleRoot.lp.varNames.length
        ((("p(0)", zeroValuation ["p"]) :: [("p(1)", [true])]).map
          fun _ => (1 : ℚ)) = 1 :=
  ⟨by with_unfolding_all decide, by with_unfolding_all decide,
    (witness_coherence negatedAtom exampleRoot (by with_unfolding_all decide) ["p"] []
      [("p(1)", [true])] exampleEngineLP (by with_unfolding_all decide)).2.2.2⟩

end Engine

/-! ## Theorems: canonical strings, memoisation and seed rows -/

section Memo

/-- C15: the canonical string decides structural equality. For well-formed modal formulas
(every CPL variable name an identifier) `f.toString() = g.toString()` holds if and only if
`f` and `g` are the same tree. -/
theorem canonical_string_decides_equality (f g : ModalFormula)
    (hf : f.wellFormed = true) (hg : g.wellFormed = true) :
    f.toString = g.toString ↔ f = g :=
  ⟨fun h => ModalFormula.toString_inj hf hg h, fun h => by rw [h]⟩

/-- The hypotheses of `canonical_string_decides_equality` hold for `P(p) ⊕ P(q)` and
`P(p ∧ q) → P(p)`. -/
theorem canonical_string_decides_equality_witness :
    (ModalFormula.binary .OPLUS (.patom (.var "p")) (.patom (.var "q"))).toString
        = (ModalFormula.binary .IMPLIES (.patom (.binary .AND (.var "p") (.var "q")))
            (.patom (.var "p"))).toString ↔
      ModalFormula.binary .OPLUS (.patom (.var "p")) (.patom (.var "q"))
        = ModalFormula.binary .IMPLIES (.patom (.binary .AND (.var "p") (.var "q")))
            (.patom (.var "p")) :=
  canonical_string_decides_equality _ _ (by decide) (by decide)

theorem encode_binds (f : ModalFormula) (st : EncState) :
    (encodeModalFormula f st).xVars.count f.toString = true := by
  by_cases h : st.xVars.count f.toString = true
  · rw [encode_hit _ _ h]; exact h
  · have h' : st.xVars.count f.toString = false := by simpa using h
    cases f with
    | patom phi =>
      rw [encode_patom _ _ h']
      simp [StrMap.count, StrMap.find_insert]
    | not l =>
      rw [encode_not _ _ h']
      simp [StrMap.count, StrMap.find_insert]
    | binary op l r =>
      rw [encode_binary _ _ _ _ h']
      simp [StrMap.count, StrMap.find_insert]

/-- C19: encoder memoisation. A second call of `encodeModalFormula` on the same formula with
the program and the maps the first call left is the identity (no variable, no row, both maps
unchanged), and after `solve` has encoded the well-formed input every subformula of the input
is bound, so that encoding it again is the identity as well. -/
theorem encoder_memoisation (formulas : List ModalFormula)
    (hwf : ∀ f ∈ formulas, f.wellFormed = true) (f : ModalFormula) (hf : f ∈ formulas)
    (st : EncState) :
    encodeModalFormula f (encodeModalFormula f st) = encodeModalFormula f st ∧
    ∀ g ∈ f.subformulas,
      encodeModalFormula g (encodeAll formulas ⟨LinearProgram.empty, [], []⟩)
        = encodeAll formulas ⟨LinearProgram.empty, [], []⟩ := by
  refine ⟨encode_hit _ _ (encode_binds f st), ?_⟩
  intro g hg
  obtain ⟨hinv, _, hbound⟩ := encodeAll_correct (α := ℚ) formulas hwf
    ⟨LinearProgram.empty, [], []⟩ encInv_empty
  obtain ⟨j, hj⟩ := Option.isSome_iff_exists.mp (hbound f hf)
  exact encode_hit _ _ ((hinv.2 f (hwf f hf) j hj).1 g hg)

/-- The hypotheses of `encoder_memoisation` hold for `exampleFormulas` and its first
formula. -/
theorem encoder_memoisation_witness :
    encodeModalFormula (.binary .OPLUS (.patom (.var "p")) (.patom (.var "q")))
        (encodeModalFormula (.binary .OPLUS (.patom (.var "p")) (.patom (.var "q")))
          ⟨LinearProgram.empty, [], []⟩)
      = encodeModalFormula (.binary .OPLUS (.patom (.var "p")) (.patom (.var "q")))
          ⟨LinearProgram.empty, [], []⟩ ∧
    ∀ g ∈ (ModalFormula.binary .OPLUS (.patom (.var "p")) (.patom (.var "q"))).subformulas,
      encodeModalFormula g (encodeAll exampleFormulas ⟨LinearProgram.empty, [], []⟩)
        = encodeAll exampleFormulas ⟨LinearProgram.empty, [], []⟩ :=
  encoder_memoisation exampleFormulas (by decide) _ (by decide) _

theorem collectPatoms_eq : ∀ (f : ModalFormula) (out : List CPLFormula),
    collectPatoms f out = out ++ f.atoms
  | .patom phi, out => rfl
  | .not l, out => by
    simp only [collectPatoms, ModalFormula.atoms]
    exact collectPatoms_eq l out
  | .binary op l r, out => by
    simp only [collectPatoms, ModalFormula.atoms]
    rw [collectPatoms_eq l out, collectPatoms_eq r, List.append_assoc]

theorem foldl_collectPatoms_eq : ∀ (formulas : List ModalFormula) (out : List CPLFormula),
    formulas.foldl (fun out f => collectPatoms f out) out = out ++ allAtoms formulas
  | [], out => by simp [allAtoms]
  | f :: fs, out => by
    rw [List.foldl_cons, foldl_collectPatoms_eq fs, collectPatoms_eq, allAtoms,
      List.append_assoc]

theorem collectAllPatoms_eq (formulas : List ModalFormula) :
    collectAllPatoms formulas = allAtoms formulas := by
  simp [collectAllPatoms, foldl_collectPatoms_eq]

theorem addSeedRows_rows : ∀ (psis : List CPLFormula) (xVars : StrMap) (lp : LinearProgram)
    (acc : List Nat) (res : LinearProgram × List Nat),
    addSeedRows psis xVars (lp, acc) = some res →
    res.1.rows = lp.rows ++ psis.map (seedRow xVars)
  | [], xVars, lp, acc, res, h => by
    simp only [addSeedRows, Option.some.injEq] at h
    subst h
    simp
  | psi :: psis, xVars, lp, acc, res, h => by
    simp only [addSeedRows] at h
    cases hx : xVars.find (ModalFormula.patom psi).toString with
    | none => rw [hx] at h; cases h
    | some x =>
      rw [hx] at h
      simp only at h
      rw [addSeedRows_rows psis xVars _ _ res h]
      simp [LinearProgram.addConstraint, seedRow, hx]

theorem addSeedRows_isSome : ∀ (psis : List CPLFormula) (xVars : StrMap)
    (acc : LinearProgram × List Nat),
    (∀ psi ∈ psis, (xVars.find (ModalFormula.patom psi).toString).isSome = true) →
    ∃ res, addSeedRows psis xVars acc = some res
  | [], _, acc, _ => ⟨acc, rfl⟩
  | psi :: psis, xVars, acc, h => by
    obtain ⟨x, hx⟩ := Option.isSome_iff_exists.mp (h psi (List.mem_cons_self _ _))
    obtain ⟨res, hres⟩ := addSeedRows_isSome psis xVars
      (acc.1.addConstraint [(x, -1)] .EQ 0,
        acc.2 ++ [(acc.1.addConstraint [(x, -1)] .EQ 0).numRows - 1])
      (fun p hp => h p (List.mem_cons_of_mem _ hp))
    exact ⟨res, by simp only [addSeedRows, hx]; exact hres⟩

/-- For well-formed input the first two loops of `solve` do not throw. -/
theorem encodeAndAssert_isSome (formulas : List ModalFormula)
    (hwf : ∀ f ∈ formulas, f.wellFormed = true) :
    ∃ st, encodeAndAssert formulas = some st ∧
      st.xVars = (encodeAll formulas ⟨LinearProgram.empty, [], []⟩).xVars := by
  obtain ⟨_, _, hbound⟩ := encodeAll_correct (α := ℚ) formulas hwf
    ⟨LinearProgram.empty, [], []⟩ encInv_empty
  obtain ⟨lp', h1, _⟩ := addAssertions_spec formulas
    (encodeAll formulas ⟨LinearProgram.empty, [], []⟩).xVars
    (encodeAll formulas ⟨LinearProgram.empty, [], []⟩).lp hbound
  exact ⟨{ encodeAll formulas ⟨LinearProgram.empty, [], []⟩ with lp := lp' },
    by simp [encodeAndAssert, h1], rfl⟩

/-- C18 (the claim as stated fails): for the input line `P(p) ⊕ P(p)` the lists `psiList` and
`probConstraintRows` have two entries although the input has one distinct atom. -/
theorem seed_rows_count_occurrences :
    ∃ root, buildRootLP repeatedAtom = some root ∧
      root.probConstraintRows.length = 2 ∧ root.psiList.length = 2 ∧
      (distinctAtoms repeatedAtom).length = 1 ∧
      root.probConstraintRows.length ≠ (distinctAtoms repeatedAtom).length :=
  ⟨_, rfl, rfl, rfl, by decide, by decide⟩

/-- C18 (amended): for well-formed input `solve` does not throw and appends exactly one seed
row `−x(Pψ) = 0` for each occurrence of an atom `Pψ` in the input, in the order of the
occurrences; `psiList` lists the occurrences and `probConstraintRows` the consecutive indices
of their rows, so both have as many entries as the input has occurrences of atoms. -/
theorem seed_rows_per_occurrence (formulas : List ModalFormula)
    (hwf : ∀ f ∈ formulas, f.wellFormed = true) :
    ∃ st acc root, encodeAndAssert formulas = some st ∧
      addSeedRows (collectAllPatoms formulas) st.xVars (st.lp, []) = some acc ∧
      buildRootLP formulas = some root ∧
      root.psiList = allAtoms formulas ∧
      acc.1.rows = st.lp.rows ++ (allAtoms formulas).map (seedRow st.xVars) ∧
      root.probConstraintRows = List.range' st.lp.rows.length (allAtoms formulas).length ∧
      root.probConstraintRows.length = (allAtoms formulas).length ∧
      ∀ psi ∈ allAtoms formulas,
        (st.xVars.find (ModalFormula.patom psi).toString).isSome = true := by
  obtain ⟨st, hst, hx⟩ := encodeAndAssert_isSome formulas hwf
  obtain ⟨hinv, _, hbound⟩ := encodeAll_correct (α := ℚ) formulas hwf
    ⟨LinearProgram.empty, [], []⟩ encInv_empty
  have hpres : ∀ psi ∈ collectAllPatoms formulas,
      (st.xVars.find (ModalFormula.patom psi).toString).isSome = true := by
    intro psi hpsi
    obtain ⟨f, hf, hmem⟩ := (mem_collectAllPatoms formulas psi).mp hpsi
    obtain ⟨j, hj⟩ := Option.isSome_iff_exists.mp (hbound f hf)
    rw [hx]
    exact (hinv.2 f (hwf f hf) j hj).1 _ hmem
  obtain ⟨acc, hacc⟩ := addSeedRows_isSome (collectAllPatoms formulas) st.xVars (st.lp, []) hpres
  have hroot : buildRootLP formulas = some
      { lp := addSlacks (acc.1.addConstraint [] .EQ 1) (acc.1.addConstraint [] .EQ 1).numRows
        xVars := st.xVars
        bVars := st.bVars
        psiList := collectAllPatoms formulas
        probConstraintRows := acc.2
        sumProbRow := (acc.1.addConstraint [] .EQ 1).numRows - 1 } := by
    simp [buildRootLP, hst, finishRootLP, hacc]
  obtain ⟨_, _, _, _, a5, _⟩ := addSeedRows_spec (α := ℚ) _ _ _ _ acc hacc
  refine ⟨st, acc, _, hst, hacc, hroot, collectAllPatoms_eq formulas, ?_, ?_, ?_, ?_⟩
  · rw [addSeedRows_rows _ _ _ _ acc hacc, collectAllPatoms_eq]
  · show acc.2 = _
    rw [a5, collectAllPatoms_eq]; simp
  · show acc.2.length = _
    rw [a5, collectAllPatoms_eq]; simp
  · rw [← collectAllPatoms_eq]; exact hpres

/-- The hypothesis of `seed_rows_per_occurrence` holds for the input `P(p) ⊕ P(p)`, which
gets two seed rows. -/
theorem seed_rows_per_occurrence_witness :
    ∃ st acc root, encodeAndAssert repeatedAtom = some st ∧
      addSeedRows (collectAllPatoms repeatedAtom) st.xVars (st.lp, []) = some acc ∧
      buildRootLP repeatedAtom = some root ∧
      root.psiList = allAtoms repeatedAtom ∧
      acc.1.rows = st.lp.rows ++ (allAtoms repeatedAtom).map (seedRow st.xVars) ∧
      root.probConstraintRows = List.range' st.lp.rows.length (allAtoms repeatedAtom).length ∧
      root.probConstraintRows.length = (allAtoms repeatedAtom).length ∧
      ∀ psi ∈ allAtoms repeatedAtom,
        (st.xVars.find (ModalFormula.patom psi).toString).isSome = true :=
  seed_rows_per_occurrence repeatedAtom (by decide)

end Memo

/-! ## Theorems: the parsers -/

section Parsers

theorem isSpace_eq_true {c : Char} (h : isSpace c = true) :
    c = ' ' ∨ c = Char.ofNat 9 ∨ c = Char.ofNat 10 ∨ c = Char.ofNat 11 ∨ c = Char.ofNat 12 ∨
      c = Char.ofNat 13 := by
  simpa [isSpace, or_assoc] using h

theorem isSpace_of_isIdentChar {c : Char} (h : isIdentChar c = true) : isSpace c = false := by
  cases hs : isSpace c with
  | false => rfl
  | true =>
    rcases isSpace_eq_true hs with h1 | h1 | h1 | h1 | h1 | h1 <;> rw [h1] at h <;>
      exact absurd h (by decide)

theorem skipWhitespace_cons {c : Char} (cs : List Char) (h : isSpace c = false) :
    skipWhitespace (c :: cs) = c :: cs := by
  simp [skipWhitespace, h]

theorem skipWhitespace_space (cs : List Char) :
    skipWhitespace (' ' :: cs) = skipWhitespace cs := by
  simp [skipWhitespace, isSpace]

theorem matchText_of_skip {c d : Char} {inp rest : List Char}
    (h : skipWhitespace inp = d :: rest) :
    matchText [c] inp = if c = d then (true, rest) else (false, d :: rest) := by
  unfold matchText
  rw [h]
  by_cases hcd : c = d
  · simp [hcd, List.isPrefixOf]
  · simp [hcd, List.isPrefixOf]

theorem matchText_hit {c : Char} {inp rest : List Char}
    (h : skipWhitespace inp = c :: rest) : matchText [c] inp = (true, rest) := by
  rw [matchText_of_skip h, if_pos rfl]

theorem matchText_miss {c d : Char} {inp rest : List Char}
    (h : skipWhitespace inp = d :: rest) (hne : c ≠ d) :
    matchText [c] inp = (false, d :: rest) := by
  rw [matchText_of_skip h, if_neg hne]

theorem matchText_of_skip_nil {c : Char} {inp : List Char} (h : skipWhitespace inp = []) :
    matchText [c] inp = (false, []) := by
  unfold matchText
  rw [h]
  simp [List.isPrefixOf]

theorem cplOperator_infixChar (op : CPLBinary) {inp rest : List Char}
    (h : skipWhitespace inp = op.infixChar :: rest) : cplOperator inp = (some op, rest) := by
  cases op <;>
    simp [cplOperator, matchText_of_skip h, CPLBinary.infixChar]

theorem cplOperator_none {d : Char} {inp rest : List Char}
    (h : skipWhitespace inp = d :: rest)
    (hd : d ≠ '∧' ∧ d ≠ '∨' ∧ d ≠ '→' ∧ d ≠ '↔') : cplOperator inp = (none, d :: rest) := by
  obtain ⟨h1, h2, h3, h4⟩ := hd
  simp [cplOperator, matchText_of_skip h, Ne.symm h1, Ne.symm h2, Ne.symm h3, Ne.symm h4, h]

theorem cplOperator_nil {inp : List Char} (h : skipWhitespace inp = []) :
    cplOperator inp = (none, []) := by
  simp [cplOperator, matchText_of_skip_nil h, h]

theorem modalOperator_infixChar (op : ModalBinary) {inp rest : List Char}
    (h : skipWhitespace inp = op.infixChar :: rest) : modalOperator inp = (some op, rest) := by
  cases op <;>
    simp [modalOperator, matchText_of_skip h, ModalBinary.infixChar]

theorem modalOperator_none {d : Char} {inp rest : List Char}
    (h : skipWhitespace inp = d :: rest)
    (hd : d ≠ '∧' ∧ d ≠ '∨' ∧ d ≠ '→' ∧ d ≠ '↔' ∧ d ≠ '⊙' ∧ d ≠ '⊕') :
    modalOperator inp = (none, d :: rest) := by
  obtain ⟨h1, h2, h3, h4, h5, h6⟩ := hd
  simp [modalOperator, matchText_of_skip h, Ne.symm h1, Ne.symm h2, Ne.symm h3, Ne.symm h4,
    Ne.symm h5, Ne.symm h6, h]

theorem modalOperator_nil {inp : List Char} (h : skipWhitespace inp = []) :
    modalOperator inp = (none, []) := by
  simp [modalOperator, matchText_of_skip_nil h, h]

theorem takeWhile_ident_append : ∀ (a rest : List Char),
    (∀ c ∈ a, isIdentChar c = true) → StopsIdent rest →
    (a ++ rest).takeWhile isIdentChar = a ∧ (a ++ rest).dropWhile isIdentChar = rest
  | [], [], _, _ => by simp
  | [], d :: rest, _, hr => by
    have hd : isIdentChar d = false := hr d (by simp)
    simp [List.takeWhile, List.dropWhile, hd]
  | c :: a, rest, ha, hr => by
    have hc : isIdentChar c = true := ha c (List.mem_cons_self _ _)
    obtain ⟨h1, h2⟩ := takeWhile_ident_append a rest
      (fun x hx => ha x (List.mem_cons_of_mem _ hx)) hr
    simp [List.takeWhile, List.dropWhile, hc, h1, h2]

/-- The loop of `CPLParser::parseBinary` stops without consuming anything in front of a
closing parenthesis. -/
theorem CPLParser.cplLoop_rparen (fuel minPrec : Nat) (left : CPLFormula)
    (rest : List Char) :
    CPLParser.binaryLoop (fuel + 1) minPrec left (')' :: rest) = .ok left (')' :: rest) := by
  rw [CPLParser.binaryLoop,
    cplOperator_none (skipWhitespace_cons rest (by decide)) (by decide)]

theorem CPLParser.cplLoop_nil (fuel minPrec : Nat) (left : CPLFormula) :
    CPLParser.binaryLoop (fuel + 1) minPrec left [] = .ok left [] := by
  rw [CPLParser.binaryLoop, cplOperator_nil (show skipWhitespace [] = [] from rfl)]

theorem CPLFormula.need_pos : ∀ f : CPLFormula, 2 ≤ f.need
  | .var _ => le_refl _
  | .not l => by have := CPLFormula.need_pos l; simp only [CPLFormula.need]; omega
  | .binary _ l r => by have := CPLFormula.need_pos l; simp only [CPLFormula.need]; omega

/-- The canonical string of a well-formed CPL formula does not begin with white space. -/
theorem CPLFormula.skipWhitespace_toString (f : CPLFormula) (hf : f.wellFormed = true)
    (rest : List Char) :
    skipWhitespace (f.toString.data ++ rest) = f.toString.data ++ rest := by
  cases f with
  | var n =>
    obtain ⟨c, cs, hdata, hn⟩ := isIdentifier_data (n := n) hf
    have hc : isIdentChar c = true := hn c (by simp [hdata])
    simp only [CPLFormula.toString, hdata, List.cons_append]
    exact skipWhitespace_cons _ (isSpace_of_isIdentChar hc)
  | not l =>
    rw [CPLFormula.cplToString_not_data]
    exact skipWhitespace_cons _ (by decide)
  | binary op l r =>
    rw [CPLFormula.cplToString_binary_data]
    exact skipWhitespace_cons _ (by decide)

/-- Parsing the canonical string of a well-formed CPL formula with `parseUnary` returns the
formula and leaves the text that follows. -/
theorem CPLParser.cplParseUnary_toString : ∀ (f : CPLFormula), f.wellFormed = true →
    ∀ (fuel : Nat), f.need ≤ fuel → ∀ (inp rest : List Char), StopsIdent rest →
    skipWhitespace inp = f.toString.data ++ rest →
    CPLParser.parseUnary fuel inp = .ok f rest
  | .var n, hf, fuel, hfuel, inp, rest, hrest, hinp => by
    obtain ⟨c, cs, hdata, hn⟩ := isIdentifier_data (n := n) hf
    have hc : isIdentChar c = true := hn c (by simp [hdata])
    have hstart : isIdentStart c = true := by
      have := hf
      simp only [CPLFormula.wellFormed, isIdentifier, hdata, Bool.and_eq_true] at this
      exact this.1
    obtain ⟨k, rfl⟩ : ∃ k, fuel = k + 2 := ⟨fuel - 2, by simp [CPLFormula.need] at hfuel; omega⟩
    have hinp' : skipWhitespace inp = c :: (cs ++ rest) := by
      rw [hinp]; simp [CPLFormula.toString, hdata]
    have hne1 : ¬ ('¬' = c) := by
      intro h; rw [← h] at hc; exact absurd hc (by decide)
    have hne2 : ¬ ('(' = c) := by
      intro h; rw [← h] at hc; exact absurd hc (by decide)
    have hskip : skipWhitespace (c :: (cs ++ rest)) = c :: (cs ++ rest) :=
      skipWhitespace_cons _ (isSpace_of_isIdentChar hc)
    obtain ⟨t1, t2⟩ := takeWhile_ident_append (c :: cs) rest (by rw [← hdata]; exact hn) hrest
    rw [CPLParser.parseUnary, matchText_miss hinp' hne1]
    simp only [Bool.false_eq_true, if_false]
    rw [CPLParser.parsePrimary, matchText_miss hskip hne2]
    simp only [Bool.false_eq_true, if_false, hstart, if_true]
    have e1 : (c :: (cs ++ rest)) = (c :: cs) ++ rest := rfl
    rw [e1, t1, t2, ← hdata]
  | .not l, hf, fuel, hfuel, inp, rest, hrest, hinp => by
    obtain ⟨j, rfl⟩ : ∃ j, fuel = j + 5 :=
      ⟨fuel - 5, by have := l.need_pos; simp [CPLFormula.need] at hfuel; omega⟩
    have hk : l.need ≤ j + 1 := by simp [CPLFormula.need] at hfuel; omega
    have hinp' : skipWhitespace inp = '¬' :: ('(' :: (l.toString.data ++ (')' :: rest))) := by
      rw [hinp, CPLFormula.cplToString_not_data]; simp
    have hskip : skipWhitespace ('(' :: (l.toString.data ++ (')' :: rest)))
        = '(' :: (l.toString.data ++ (')' :: rest)) := skipWhitespace_cons _ (by decide)
    have hl := CPLParser.cplParseUnary_toString l hf (j + 1) hk
      (l.toString.data ++ (')' :: rest)) (')' :: rest) (stopsIdent_cons _ (by decide))
      (CPLFormula.skipWhitespace_toString l hf _)
    rw [CPLParser.parseUnary, matchText_hit hinp']
    simp only [if_true]
    rw [CPLParser.parseUnary, matchText_miss hskip (by decide)]
    simp only [Bool.false_eq_true, if_false]
    rw [CPLParser.parsePrimary, matchText_hit hskip]
    simp only [if_true]
    rw [CPLParser.parseBinary, hl]
    simp only
    rw [CPLParser.cplLoop_rparen]
    simp only
    rw [matchText_hit (skipWhitespace_cons rest (by decide))]
    simp
  | .binary op l r, hf, fuel, hfuel, inp, rest, hrest, hinp => by
    have hwf : l.wellFormed = true ∧ r.wellFormed = true := by
      simpa [CPLFormula.wellFormed] using hf
    have hlpos := l.need_pos
    have hrpos := r.need_pos
    obtain ⟨j, rfl⟩ : ∃ j, fuel = j + 6 :=
      ⟨fuel - 6, by simp [CPLFormula.need] at hfuel; omega⟩
    have hkl : l.need ≤ j + 3 := by simp [CPLFormula.need] at hfuel; omega
    have hkr : r.need ≤ j + 1 := by simp [CPLFormula.need] at hfuel; omega
    have hinp' : skipWhitespace inp = '(' :: (l.toString.data ++
        (' ' :: op.infixChar :: ' ' :: (r.toString.data ++ (')' :: rest)))) := by
      rw [hinp, CPLFormula.cplToString_binary_data]; simp
    have hl := CPLParser.cplParseUnary_toString l hwf.1 (j + 3) hkl
      (l.toString.data ++ (' ' :: op.infixChar :: ' ' :: (r.toString.data ++ (')' :: rest))))
      (' ' :: op.infixChar :: ' ' :: (r.toString.data ++ (')' :: rest)))
      (stopsIdent_cons _ (by decide)) (CPLFormula.skipWhitespace_toString l hwf.1 _)
    have hr := CPLParser.cplParseUnary_toString r hwf.2 (j + 1) hkr
      (' ' :: (r.toString.data ++ (')' :: rest))) (')' :: rest)
      (stopsIdent_cons _ (by decide))
      (by rw [skipWhitespace_space]; exact CPLFormula.skipWhitespace_toString r hwf.2 _)
    have hop : cplOperator (' ' :: op.infixChar :: ' ' :: (r.toString.data ++ (')' :: rest)))
        = (some op, ' ' :: (r.toString.data ++ (')' :: rest))) :=
      cplOperator_infixChar op (by
        rw [skipWhitespace_space]
        exact skipWhitespace_cons _ (by cases op <;> decide))
    rw [CPLParser.parseUnary, matchText_miss hinp' (by decide)]
    simp only [Bool.false_eq_true, if_false]
    rw [CPLParser.parsePrimary, matchText_hit (skipWhitespace_cons _ (by decide))]
    simp only [if_true]
    rw [CPLParser.parseBinary, hl]
    simp only
    rw [CPLParser.binaryLoop, hop]
    simp only [Nat.not_lt_zero, if_false]
    rw [CPLParser.parseBinary, hr]
    simp only
    rw [CPLParser.cplLoop_rparen]
    simp only
    rw [CPLParser.cplLoop_rparen]
    simp only
    rw [matchText_hit (skipWhitespace_cons rest (by decide))]
    simp

theorem CPLFormula.need_le_length : ∀ f : CPLFormula, f.wellFormed = true →
    f.need + 1 ≤ 3 * f.toString.data.length
  | .var n, hf => by
    obtain ⟨c, cs, hdata, _⟩ := isIdentifier_data (n := n) hf
    have h1 : (CPLFormula.var n).toString.data.length = cs.length + 1 := by
      simp only [CPLFormula.toString, hdata, List.length_cons]
    rw [h1]
    simp only [CPLFormula.need]
    omega
  | .not l, hf => by
    have := CPLFormula.need_le_length l hf
    have h1 : (CPLFormula.not l).toString.data.length = l.toString.data.length + 3 := by
      rw [CPLFormula.cplToString_not_data]
      simp only [List.length_cons, List.length_append, List.length_nil]
    rw [h1]
    simp only [CPLFormula.need]
    omega
  | .binary op l r, hf => by
    have hwf : l.wellFormed = true ∧ r.wellFormed = true := by
      simpa [CPLFormula.wellFormed] using hf
    have h1 := CPLFormula.need_le_length l hwf.1
    have h2 := CPLFormula.need_le_length r hwf.2
    have h3 : (CPLFormula.binary op l r).toString.data.length
        = l.toString.data.length + r.toString.data.length + 5 := by
      rw [CPLFormula.cplToString_binary_data]
      simp only [List.length_cons, List.length_append, List.length_nil]
      omega
    rw [h3]
    simp only [CPLFormula.need]
    omega

/-- `CPLParser(toString(f)).parse()` returns `f` for every well-formed CPL formula. -/
theorem CPLParser.cplParse_toString (f : CPLFormula) (hf : f.wellFormed = true) :
    CPLParser.parse f.toString.data = .ok f := by
  have hlen := CPLFormula.need_le_length f hf
  have hskip := CPLFormula.skipWhitespace_toString f hf []
  simp only [List.append_nil] at hskip
  obtain ⟨m, hm⟩ : ∃ m, CPLParser.budget f.toString.data = m + 1 :=
    ⟨3 * f.toString.data.length + 3, rfl⟩
  have hneed : f.need ≤ m := by
    simp only [CPLParser.budget] at hm
    omega
  have hm1 : ∃ j, m = j + 1 := ⟨m - 1, by have := f.need_pos; omega⟩
  obtain ⟨j, hj⟩ := hm1
  have hu := CPLParser.cplParseUnary_toString f hf m hneed f.toString.data []
    stopsIdent_nil (by rw [hskip]; simp)
  unfold CPLParser.parse
  rw [hm, hskip, CPLParser.parseBinary, hu]
  simp only
  rw [hj, CPLParser.cplLoop_nil]
  simp [skipWhitespace]

theorem readInsideP_other {c : Char} (h1 : c ≠ '(') (h2 : c ≠ ')') (d : Nat)
    (cs buf : List Char) :
    ModalParser.readInsideP (d + 1) (c :: cs) buf
      = ModalParser.readInsideP (d + 1) cs (buf ++ [c]) := by
  simp [ModalParser.readInsideP, h1, h2]

theorem readInsideP_open (d : Nat) (cs buf : List Char) :
    ModalParser.readInsideP (d + 1) ('(' :: cs) buf
      = ModalParser.readInsideP (d + 2) cs (buf ++ ['(']) := by
  simp [ModalParser.readInsideP]

theorem readInsideP_close (d : Nat) (cs buf : List Char) :
    ModalParser.readInsideP (d + 2) (')' :: cs) buf
      = ModalParser.readInsideP (d + 1) cs (buf ++ [')']) := by
  simp [ModalParser.readInsideP]

theorem readInsideP_ident : ∀ (a : List Char) (d : Nat) (tail buf : List Char),
    (∀ c ∈ a, isIdentChar c = true) →
    ModalParser.readInsideP (d + 1) (a ++ tail) buf
      = ModalParser.readInsideP (d + 1) tail (buf ++ a)
  | [], d, tail, buf, _ => by simp
  | c :: a, d, tail, buf, ha => by
    have hc : isIdentChar c = true := ha c (List.mem_cons_self _ _)
    have h1 : c ≠ '(' := by
      intro h; rw [h] at hc; exact absurd hc (by decide)
    have h2 : c ≠ ')' := by
      intro h; rw [h] at hc; exact absurd hc (by decide)
    have ih := readInsideP_ident a d tail (buf ++ [c])
      (fun x hx => ha x (List.mem_cons_of_mem _ hx))
    rw [List.cons_append, readInsideP_other h1 h2, ih]
    simp

/-- The canonical string of a CPL formula is read as a whole by the loop of
`parseCPLInsideP`: its parentheses are balanced. -/
theorem readInsideP_toString : ∀ (f : CPLFormula), f.wellFormed = true →
    ∀ (d : Nat) (tail buf : List Char),
    ModalParser.readInsideP (d + 1) (f.toString.data ++ tail) buf
      = ModalParser.readInsideP (d + 1) tail (buf ++ f.toString.data)
  | .var n, hf, d, tail, buf => by
    obtain ⟨_, _, _, hn⟩ := isIdentifier_data (n := n) hf
    exact readInsideP_ident n.data d tail buf hn
  | .not l, hf, d, tail, buf => by
    have e : (CPLFormula.not l).toString.data ++ tail
        = '¬' :: '(' :: (l.toString.data ++ (')' :: tail)) := by
      rw [CPLFormula.cplToString_not_data]; simp
    rw [e, readInsideP_other (by decide) (by decide), readInsideP_open,
      readInsideP_toString l hf (d + 1), readInsideP_close,
      CPLFormula.cplToString_not_data]
    simp
  | .binary op l r, hf, d, tail, buf => by
    have hwf : l.wellFormed = true ∧ r.wellFormed = true := by
      simpa [CPLFormula.wellFormed] using hf
    have hop1 : op.infixChar ≠ '(' := by cases op <;> decide
    have hop2 : op.infixChar ≠ ')' := by cases op <;> decide
    have e : (CPLFormula.binary op l r).toString.data ++ tail
        = '(' :: (l.toString.data ++
            (' ' :: op.infixChar :: ' ' :: (r.toString.data ++ (')' :: tail)))) := by
      rw [CPLFormula.cplToString_binary_data]; simp
    rw [e, readInsideP_open, readInsideP_toString l hwf.1 (d + 1),
      readInsideP_other (by decide) (by decide), readInsideP_other hop1 hop2,
      readInsideP_other (by decide) (by decide), readInsideP_toString r hwf.2 (d + 1),
      readInsideP_close, CPLFormula.cplToString_binary_data]
    simp

/-- `parseCPLInsideP` on the canonical string of a CPL formula followed by the closing
parenthesis of `P(`. -/
theorem parseCPLInsideP_toString (phi : CPLFormula) (hf : phi.wellFormed = true)
    (rest : List Char) :
    ModalParser.parseCPLInsideP (phi.toString.data ++ (')' :: rest)) = .ok phi rest := by
  have h := readInsideP_toString phi hf 0 (')' :: rest) []
  simp only [Nat.zero_add, List.nil_append] at h
  have h2 : ModalParser.readInsideP 1 (')' :: rest) phi.toString.data
      = (phi.toString.data, rest) := by
    simp [ModalParser.readInsideP]
  unfold ModalParser.parseCPLInsideP
  rw [h, h2, CPLParser.cplParse_toString phi hf]

theorem ModalParser.modalLoop_rparen (fuel minPrec : Nat) (left : ModalFormula)
    (rest : List Char) :
    ModalParser.binaryLoop (fuel + 1) minPrec left (')' :: rest) = .ok left (')' :: rest) := by
  rw [ModalParser.binaryLoop,
    modalOperator_none (skipWhitespace_cons rest (by decide)) (by decide)]

theorem ModalParser.modalLoop_nil (fuel minPrec : Nat) (left : ModalFormula) :
    ModalParser.binaryLoop (fuel + 1) minPrec left [] = .ok left [] := by
  rw [ModalParser.binaryLoop, modalOperator_nil (show skipWhitespace [] = [] from rfl)]

theorem ModalFormula.modalNeed_pos : ∀ f : ModalFormula, 2 ≤ f.need
  | .patom _ => le_refl _
  | .not l => by have := ModalFormula.modalNeed_pos l; simp only [ModalFormula.need]; omega
  | .binary _ l r => by
    have := ModalFormula.modalNeed_pos l; simp only [ModalFormula.need]; omega

/-- The canonical string of a modal formula does not begin with white space. -/
theorem ModalFormula.modalSkipWhitespace_toString (f : ModalFormula) (rest : List Char) :
    skipWhitespace (f.toString.data ++ rest) = f.toString.data ++ rest := by
  cases f with
  | patom phi =>
    rw [ModalFormula.modalToString_patom_data]
    exact skipWhitespace_cons _ (by decide)
  | not l =>
    rw [ModalFormula.modalToString_not_data]
    exact skipWhitespace_cons _ (by decide)
  | binary op l r =>
    rw [ModalFormula.modalToString_binary_data]
    exact skipWhitespace_cons _ (by decide)

/-- Parsing the canonical string of a well-formed modal formula with `parseUnary` returns the
formula and leaves the text that follows. -/
theorem ModalParser.modalParseUnary_toString : ∀ (f : ModalFormula), f.wellFormed = true →
    ∀ (fuel : Nat), f.need ≤ fuel → ∀ (inp rest : List Char),
    skipWhitespace inp = f.toString.data ++ rest →
    ModalParser.parseUnary fuel inp = .ok f rest
  | .patom phi, hf, fuel, hfuel, inp, rest, hinp => by
    obtain ⟨k, rfl⟩ : ∃ k, fuel = k + 2 :=
      ⟨fuel - 2, by simp [ModalFormula.need] at hfuel; omega⟩
    have hinp' : skipWhitespace inp = 'P' :: ('(' :: (phi.toString.data ++ (')' :: rest))) := by
      rw [hinp, ModalFormula.modalToString_patom_data]; simp
    have hskip : skipWhitespace ('P' :: ('(' :: (phi.toString.data ++ (')' :: rest))))
        = 'P' :: ('(' :: (phi.toString.data ++ (')' :: rest))) :=
      skipWhitespace_cons _ (by decide)
    have hskip2 : skipWhitespace ('(' :: (phi.toString.data ++ (')' :: rest)))
        = '(' :: (phi.toString.data ++ (')' :: rest)) := skipWhitespace_cons _ (by decide)
    rw [ModalParser.parseUnary, matchText_miss hinp' (by decide)]
    simp only [Bool.false_eq_true, if_false]
    rw [ModalParser.parsePrimary, matchText_miss hskip (by decide), matchText_hit hskip]
    simp only [Bool.false_eq_true, if_false, if_true]
    rw [matchText_hit hskip2]
    simp only [if_true]
    rw [parseCPLInsideP_toString phi hf rest]
  | .not l, hf, fuel, hfuel, inp, rest, hinp => by
    obtain ⟨j, rfl⟩ : ∃ j, fuel = j + 5 :=
      ⟨fuel - 5, by have := l.modalNeed_pos; simp [ModalFormula.need] at hfuel; omega⟩
    have hk : l.need ≤ j + 1 := by simp [ModalFormula.need] at hfuel; omega
    have hinp' : skipWhitespace inp = '¬' :: ('(' :: (l.toString.data ++ (')' :: rest))) := by
      rw [hinp, ModalFormula.modalToString_not_data]; simp
    have hskip : skipWhitespace ('(' :: (l.toString.data ++ (')' :: rest)))
        = '(' :: (l.toString.data ++ (')' :: rest)) := skipWhitespace_cons _ (by decide)
    have hl := ModalParser.modalParseUnary_toString l hf (j + 1) hk
      (l.toString.data ++ (')' :: rest)) (')' :: rest)
      (ModalFormula.modalSkipWhitespace_toString l _)
    rw [ModalParser.parseUnary, matchText_hit hinp']
    simp only [if_true]
    rw [ModalParser.parseUnary, matchText_miss hskip (by decide)]
    simp only [Bool.false_eq_true, if_false]
    rw [ModalParser.parsePrimary, matchText_hit hskip]
    simp only [if_true]
    rw [ModalParser.parseBinary, hl]
    simp only
    rw [ModalParser.modalLoop_rparen]
    simp only
    rw [matchText_hit (skipWhitespace_cons rest (by decide))]
    simp
  | .binary op l r, hf, fuel, hfuel, inp, rest, hinp => by
    have hwf : l.wellFormed = true ∧ r.wellFormed = true := by
      simpa [ModalFormula.wellFormed] using hf
    have hlpos := l.modalNeed_pos
    have hrpos := r.modalNeed_pos
    obtain ⟨j, rfl⟩ : ∃ j, fuel = j + 6 :=
      ⟨fuel - 6, by simp [ModalFormula.need] at hfuel; omega⟩
    have hkl : l.need ≤ j + 3 := by simp [ModalFormula.need] at hfuel; omega
    have hkr : r.need ≤ j + 1 := by simp [ModalFormula.need] at hfuel; omega
    have hinp' : skipWhitespace inp = '(' :: (l.toString.data ++
        (' ' :: op.infixChar :: ' ' :: (r.toString.data ++ (')' :: rest)))) := by
      rw [hinp, ModalFormula.modalToString_binary_data]; simp
    have hl := ModalParser.modalParseUnary_toString l hwf.1 (j + 3) hkl
      (l.toString.data ++ (' ' :: op.infixChar :: ' ' :: (r.toString.data ++ (')' :: rest))))
      (' ' :: op.infixChar :: ' ' :: (r.toString.data ++ (')' :: rest)))
      (ModalFormula.modalSkipWhitespace_toString l _)
    have hr := ModalParser.modalParseUnary_toString r hwf.2 (j + 1) hkr
      (' ' :: (r.toString.data ++ (')' :: rest))) (')' :: rest)
      (by rw [skipWhitespace_space]; exact ModalFormula.modalSkipWhitespace_toString r _)
    have hop : modalOperator
        (' ' :: op.infixChar :: ' ' :: (r.toString.data ++ (')' :: rest)))
        = (some op, ' ' :: (r.toString.data ++ (')' :: rest))) :=
      modalOperator_infixChar op (by
        rw [skipWhitespace_space]
        exact skipWhitespace_cons _ (by cases op <;> decide))
    rw [ModalParser.parseUnary, matchText_miss hinp' (by decide)]
    simp only [Bool.false_eq_true, if_false]
    rw [ModalParser.parsePrimary, matchText_hit (skipWhitespace_cons _ (by decide))]
    simp only [if_true]
    rw [ModalParser.parseBinary, hl]
    simp only
    rw [ModalParser.binaryLoop, hop]
    simp only [Nat.not_lt_zero, if_false]
    rw [ModalParser.parseBinary, hr]
    simp only
    rw [ModalParser.modalLoop_rparen]
    simp only
    rw [ModalParser.modalLoop_rparen]
    simp only
    rw [matchText_hit (skipWhitespace_cons rest (by decide))]
    simp

theorem ModalFormula.modalNeed_le_length : ∀ f : ModalFormula,
    f.need + 1 ≤ 3 * f.toString.data.length
  | .patom phi => by
    have h1 : (ModalFormula.patom phi).toString.data.length
        = phi.toString.data.length + 3 := by
      rw [ModalFormula.modalToString_patom_data]
      simp only [List.length_cons, List.length_append, List.length_nil]
    rw [h1]
    simp only [ModalFormula.need]
    omega
  | .not l => by
    have := ModalFormula.modalNeed_le_length l
    have h1 : (ModalFormula.not l).toString.data.length = l.toString.data.length + 3 := by
      rw [ModalFormula.modalToString_not_data]
      simp only [List.length_cons, List.length_append, List.length_nil]
    rw [h1]
    simp only [ModalFormula.need]
    omega
  | .binary op l r => by
    have h1 := ModalFormula.modalNeed_le_length l
    have h2 := ModalFormula.modalNeed_le_length r
    have h3 : (ModalFormula.binary op l r).toString.data.length
        = l.toString.data.length + r.toString.data.length + 5 := by
      rw [ModalFormula.modalToString_binary_data]
      simp only [List.length_cons, List.length_append, List.length_nil]
      omega
    rw [h3]
    simp only [ModalFormula.need]
    omega

/-- C11: parser round trip. For every well-formed modal formula `f` (every CPL variable name
an identifier) `ModalParser(f.toString()).parse()` succeeds and returns `f`. -/
theorem parser_round_trip (f : ModalFormula) (hf : f.wellFormed = true) :
    ModalParser.parse f.toString = .ok f := by
  have hlen := ModalFormula.modalNeed_le_length f
  have hskip := ModalFormula.modalSkipWhitespace_toString f []
  simp only [List.append_nil] at hskip
  obtain ⟨m, hm⟩ : ∃ m, ModalParser.budget f.toString.data = m + 1 :=
    ⟨3 * f.toString.data.length + 3, rfl⟩
  have hneed : f.need ≤ m := by
    simp only [ModalParser.budget] at hm
    omega
  obtain ⟨j, hj⟩ : ∃ j, m = j + 1 := ⟨m - 1, by have := f.modalNeed_pos; omega⟩
  have hu := ModalParser.modalParseUnary_toString f hf m hneed f.toString.data []
    (by rw [hskip]; simp)
  unfold ModalParser.parse
  rw [hm, hskip, ModalParser.parseBinary, hu]
  simp only
  rw [hj, ModalParser.modalLoop_nil]
  simp [skipWhitespace]

/-- The hypothesis of `parser_round_trip` holds for `¬(P((p ∧ ¬(q))) ⊕ P(r_1))`. -/
theorem parser_round_trip_witness :
    ModalParser.parse (ModalFormula.not (.binary .OPLUS
        (.patom (.binary .AND (.var "p") (.not (.var "q")))) (.patom (.var "r_1")))).toString
      = .ok (ModalFormula.not (.binary .OPLUS
        (.patom (.binary .AND (.var "p") (.not (.var "q")))) (.patom (.var "r_1")))) :=
  parser_round_trip _ (by decide)

/-- C14 (the code departs from the claim): the line `P(p` has an opening parenthesis that is
never closed, yet `ModalParser::parse` raises no error and returns the formula `P(p)`:
`parseCPLInsideP` stops at the end of the input without checking that the depth is back
to 0. -/
theorem unclosed_atom_is_accepted :
    ModalParser.parse "P(p" = .ok (.patom (.var "p")) := rfl

/-- C13 (the code departs from the claim): `∧` binds tighter than `∨`, yet the line
`P(a) ∧ P(b) ∨ P(c)` is not parsed to `∨(∧(P(a), P(b)), P(c))`: the inner call of
`parseBinary` consumes the `∨` before it finds that it binds too little, returns without
giving it back, and `parse` ends with the error "Extra entry after modal formula.". -/
theorem lower_operator_is_lost :
    ModalParser.parse "P(a) ∧ P(b) ∨ P(c)" = .error "Extra entry after modal formula." := rfl

theorem threeAtomLine_data (o1 o2 : ModalBinary) (a b c : CPLFormula) :
    (threeAtomLine o1 o2 a b c).data =
      (ModalFormula.patom a).toString.data ++ (' ' :: o1.infixChar :: ' ' ::
        ((ModalFormula.patom b).toString.data ++ (' ' :: o2.infixChar :: ' ' ::
          ((ModalFormula.patom c).toString.data ++ [])))) := by
  simp [threeAtomLine, String.data_append, ModalBinary.modalInfixText_data]

theorem rightNestedLine_data (o1 o2 : ModalBinary) (a b c : CPLFormula) :
    (rightNestedLine o1 o2 a b c).data =
      (ModalFormula.patom a).toString.data ++ (' ' :: o1.infixChar :: ' ' ::
        ((ModalFormula.binary o2 (.patom b) (.patom c)).toString.data ++ [])) := by
  simp [rightNestedLine, String.data_append, ModalBinary.modalInfixText_data]

theorem modalOperator_spaced (op : ModalBinary) (rest : List Char) :
    modalOperator (' ' :: op.infixChar :: rest) = (some op, rest) :=
  modalOperator_infixChar op (by
    rw [skipWhitespace_space]
    exact skipWhitespace_cons _ (by cases op <;> decide))

theorem patom_data_length (a : CPLFormula) :
    3 ≤ (ModalFormula.patom a).toString.data.length := by
  rw [ModalFormula.modalToString_patom_data]
  simp only [List.length_cons, List.length_append, List.length_nil]
  omega

/-- What `ModalParser::parse` does with a line `A o1 B o2 C` of three atoms: when `o2` does
not bind tighter than `o1` it ends with the error "Extra entry after modal formula.",
otherwise it returns `o1(A, o2(B, C))`. -/
theorem parse_threeAtomLine (o1 o2 : ModalBinary) (a b c : CPLFormula)
    (ha : a.wellFormed = true) (hb : b.wellFormed = true) (hc : c.wellFormed = true) :
    ModalParser.parse (threeAtomLine o1 o2 a b c) =
      if modalPrecedence o2 < modalPrecedence o1 + 1 then
        .error "Extra entry after modal formula."
      else .ok (.binary o1 (.patom a) (.binary o2 (.patom b) (.patom c))) := by
  have hlen : 3 ≤ (threeAtomLine o1 o2 a b c).data.length := by
    rw [threeAtomLine_data]
    have := patom_data_length a
    simp only [List.length_cons, List.length_append]
    omega
  obtain ⟨n, hn⟩ : ∃ n, ModalParser.budget (threeAtomLine o1 o2 a b c).data = n + 8 :=
    ⟨ModalParser.budget (threeAtomLine o1 o2 a b c).data - 8, by
      simp only [ModalParser.budget]; omega⟩
  have hA := fun (fuel : Nat) (rest : List Char) =>
    ModalParser.modalParseUnary_toString (.patom a) ha (fuel + 2) (by simp [ModalFormula.need])
      ((ModalFormula.patom a).toString.data ++ rest) rest
      (ModalFormula.modalSkipWhitespace_toString _ _)
  have hB := fun (fuel : Nat) (rest : List Char) =>
    ModalParser.modalParseUnary_toString (.patom b) hb (fuel + 2) (by simp [ModalFormula.need])
      (' ' :: ((ModalFormula.patom b).toString.data ++ rest)) rest
      (by rw [skipWhitespace_space]; exact ModalFormula.modalSkipWhitespace_toString _ _)
  have hC := fun (fuel : Nat) (rest : List Char) =>
    ModalParser.modalParseUnary_toString (.patom c) hc (fuel + 2) (by simp [ModalFormula.need])
      (' ' :: ((ModalFormula.patom c).toString.data ++ rest)) rest
      (by rw [skipWhitespace_space]; exact ModalFormula.modalSkipWhitespace_toString _ _)
  have hskipC : skipWhitespace (' ' :: ((ModalFormula.patom c).toString.data ++ []))
      = 'P' :: ('(' :: (c.toString.data ++ [')'])) := by
    rw [skipWhitespace_space, ModalFormula.modalSkipWhitespace_toString,
      ModalFormula.modalToString_patom_data]
    simp
  unfold ModalParser.parse
  rw [hn, threeAtomLine_data, ModalFormula.modalSkipWhitespace_toString,
    ModalParser.parseBinary, hA (n + 5)]
  simp only
  rw [ModalParser.binaryLoop, modalOperator_spaced]
  simp only [Nat.not_lt_zero, if_false]
  rw [ModalParser.parseBinary, hB (n + 3)]
  simp only
  rw [ModalParser.binaryLoop, modalOperator_spaced]
  simp only
  by_cases hprec : modalPrecedence o2 < modalPrecedence o1 + 1
  · rw [if_pos hprec, if_pos hprec]
    simp only
    rw [ModalParser.binaryLoop, modalOperator_none hskipC (by decide)]
    simp [skipWhitespace_cons, isSpace]
  · rw [if_neg hprec, if_neg hprec]
    rw [ModalParser.parseBinary, hC (n + 1)]
    simp only
    rw [ModalParser.modalLoop_nil]
    simp only
    rw [ModalParser.modalLoop_nil]
    simp only
    rw [ModalParser.modalLoop_nil]
    simp [skipWhitespace]

/-- `ModalParser::parse` returns `o1(A, o2(B, C))` for the parenthesised line
`A o1 (B o2 C)`. -/
theorem parse_rightNestedLine (o1 o2 : ModalBinary) (a b c : CPLFormula)
    (ha : a.wellFormed = true) (hb : b.wellFormed = true) (hc : c.wellFormed = true) :
    ModalParser.parse (rightNestedLine o1 o2 a b c) =
      .ok (.binary o1 (.patom a) (.binary o2 (.patom b) (.patom c))) := by
  have hX : (ModalFormula.binary o2 (.patom b) (.patom c)).wellFormed = true := by
    simp [ModalFormula.wellFormed, hb, hc]
  have hlenX := ModalFormula.modalNeed_le_length (.binary o2 (.patom b) (.patom c))
  have hlen : (rightNestedLine o1 o2 a b c).data.length
      = (ModalFormula.patom a).toString.data.length + 3 +
        (ModalFormula.binary o2 (.patom b) (.patom c)).toString.data.length := by
    rw [rightNestedLine_data]
    simp only [List.length_cons, List.length_append, List.length_nil]
    omega
  obtain ⟨n, hn⟩ : ∃ n, ModalParser.budget (rightNestedLine o1 o2 a b c).data = n + 4 :=
    ⟨3 * (rightNestedLine o1 o2 a b c).data.length, rfl⟩
  have hneedX : (ModalFormula.binary o2 (.patom b) (.patom c)).need ≤ n + 1 := by
    simp only [ModalParser.budget] at hn
    omega
  have hA := ModalParser.modalParseUnary_toString (.patom a) ha (n + 3)
    (by simp [ModalFormula.need])
    ((ModalFormula.patom a).toString.data ++ (' ' :: o1.infixChar :: ' ' ::
        ((ModalFormula.binary o2 (.patom b) (.patom c)).toString.data ++ [])))
    (' ' :: o1.infixChar :: ' ' ::
        ((ModalFormula.binary o2 (.patom b) (.patom c)).toString.data ++ []))
    (ModalFormula.modalSkipWhitespace_toString _ _)
  have hXp := ModalParser.modalParseUnary_toString _ hX (n + 1) hneedX
    (' ' :: ((ModalFormula.binary o2 (.patom b) (.patom c)).toString.data ++ [])) []
    (by rw [skipWhitespace_space]; exact ModalFormula.modalSkipWhitespace_toString _ _)
  unfold ModalParser.parse
  rw [hn, rightNestedLine_data, ModalFormula.modalSkipWhitespace_toString,
    ModalParser.parseBinary, hA]
  simp only
  rw [ModalParser.binaryLoop, modalOperator_spaced]
  simp only [Nat.not_lt_zero, if_false]
  rw [ModalParser.parseBinary, hXp]
  simp only
  rw [ModalParser.modalLoop_nil]
  simp only
  rw [ModalParser.modalLoop_nil]
  simp [skipWhitespace]

/-- C12 (the claim as stated fails): the line `P(a) ∧ P(b) ∧ P(c)` is not parsed to
`∧(P(a), ∧(P(b), P(c)))`. -/
theorem chain_is_not_right_nested :
    ModalParser.parse "P(a) ∧ P(b) ∧ P(c)" ≠
      .ok (.binary .AND (.patom (.var "a"))
        (.binary .AND (.patom (.var "b")) (.patom (.var "c")))) := by
  have h : ModalParser.parse "P(a) ∧ P(b) ∧ P(c)"
      = .error "Extra entry after modal formula." := rfl
  rw [h]
  intro h2
  cases h2

/-- C12 (amended): the right operand of a binary connective is parsed at precedence
`p + 1`, so a chain is not nested to the right. For every binary modal connective `o` and all
well-formed atoms `A`, `B`, `C`, `ModalParser::parse` does not return `o(A, o(B, C))` for
the line `A o B o C`; it returns that tree for the parenthesised line `A o (B o C)`. -/
theorem chain_needs_parentheses (o : ModalBinary) (a b c : CPLFormula)
    (ha : a.wellFormed = true) (hb : b.wellFormed = true) (hc : c.wellFormed = true) :
    ModalParser.parse (threeAtomLine o o a b c) ≠
        .ok (.binary o (.patom a) (.binary o (.patom b) (.patom c))) ∧
      ModalParser.parse (rightNestedLine o o a b c) =
        .ok (.binary o (.patom a) (.binary o (.patom b) (.patom c))) := by
  refine ⟨?_, parse_rightNestedLine o o a b c ha hb hc⟩
  rw [parse_threeAtomLine o o a b c ha hb hc, if_pos (Nat.lt_succ_self _)]
  intro h
  cases h

theorem chain_needs_parentheses_witness :
    ModalParser.parse (threeAtomLine .AND .AND (.var "a") (.var "b") (.var "c")) ≠
        .ok (.binary .AND (.patom (.var "a"))
          (.binary .AND (.patom (.var "b")) (.patom (.var "c")))) ∧
      ModalParser.parse (rightNestedLine .AND .AND (.var "a") (.var "b") (.var "c")) =
        .ok (.binary .AND (.patom (.var "a"))
          (.binary .AND (.patom (.var "b")) (.patom (.var "c")))) :=
  chain_needs_parentheses .AND (.var "a") (.var "b") (.var "c")
    (by decide) (by decide) (by decide)

end Parsers

/-! ## Theorems: Phase I -/

section PhaseOne

variable {α : Type} [LinearOrderedField α]

theorem value_filter (p : Nat → Bool) (v : Nat → α) : ∀ (rowVec : List (Nat × ℚ)),
    (∀ e ∈ rowVec, p e.1 = false → v e.1 = 0) →
    ((rowVec.filter fun e => p e.1).map fun t => (t.2 : α) * v t.1).sum
      = (rowVec.map fun t => (t.2 : α) * v t.1).sum
  | [], _ => rfl
  | e :: rowVec, h => by
    have ih := value_filter p v rowVec (fun e' he' => h e' (List.mem_cons_of_mem _ he'))
    cases hp : p e.1 with
    | true =>
      rw [List.filter_cons_of_pos (by simpa using hp)]
      simp only [List.map_cons, List.sum_cons, ih]
    | false =>
      rw [List.filter_cons_of_neg (by simp [hp])]
      simp only [List.map_cons, List.sum_cons, ih, h e (List.mem_cons_self _ _) hp]
      simp

theorem value_congr (v u : Nat → α) : ∀ (rowVec : List (Nat × ℚ)),
    (∀ e ∈ rowVec, v e.1 = u e.1) →
    (rowVec.map fun t => (t.2 : α) * v t.1).sum = (rowVec.map fun t => (t.2 : α) * u t.1).sum
  | [], _ => rfl
  | e :: rowVec, h => by
    simp only [List.map_cons, List.sum_cons, h e (List.mem_cons_self _ _),
      value_congr v u rowVec (fun e' he' => h e' (List.mem_cons_of_mem _ he'))]

theorem objectiveFrom_eq_zero (v : Nat → α) : ∀ (cs : List LPCol) (n : Nat),
    (∀ (j : Nat) (c : LPCol), cs[j]? = some c → (c.obj : α) * v (n + j) = 0) →
    objectiveFrom v n cs = 0
  | [], _, _ => rfl
  | c :: cs, n, h => by
    have h0 := h 0 c (by simp)
    have h1 := objectiveFrom_eq_zero v cs (n + 1) (fun j d hd => by
      have := h (j + 1) d (by simpa using hd)
      rwa [show n + (j + 1) = n + 1 + j by omega] at this)
    simp only [objectiveFrom, h1]
    simpa using h0

theorem LinearProgram.SlackShape.colsOK {lp : LinearProgram} (h : lp.SlackShape) :
    lp.ColsOK := by
  refine ⟨h.1, ?_⟩
  intro c hc
  obtain ⟨i, hi⟩ := List.mem_iff_getElem?.mp hc
  cases hs : lp.isSlackIndex i with
  | true =>
    rw [((h.2 i c hi).1 hs)]
    exact ⟨rfl, by norm_num⟩
  | false =>
    obtain ⟨h0, hl⟩ := (h.2 i c hi).2 hs
    exact ⟨hl, by rw [h0]⟩

theorem LinearProgram.SlackShape.col_of_slack {lp : LinearProgram} (h : lp.SlackShape)
    {i : Nat} (hs : lp.isSlackIndex i = true) : lp.cols[i]? = some ⟨1, none, some 0⟩ := by
  have hlt : i < lp.varNames.length := by
    by_contra hge
    have : lp.varNames[i]? = none := List.getElem?_eq_none (by omega)
    simp [LinearProgram.isSlackIndex, this] at hs
  rw [← h.1] at hlt
  have hc : lp.cols[i]? = some lp.cols[i] := List.getElem?_eq_getElem hlt
  rw [hc, (h.2 i _ hc).1 hs]

/-- The Phase-I equivalence for a program whose columns have the shape of the programs of
`solve`: the objective has the minimum 0 over the feasible assignments if and only if the
rows without the slack variables have a solution within the bounds. -/
theorem phase_one (lp : LinearProgram) (h : lp.SlackShape) :
    (∃ v : Nat → α, lp.Feasible v ∧ lp.objective v = 0 ∧
      ∀ v' : Nat → α, lp.Feasible v' → lp.objective v ≤ lp.objective v') ↔
    ∃ u : Nat → α, lp.withoutSlacks.Feasible u := by
  have hok := h.colsOK
  constructor
  · rintro ⟨v, hfeas, hobj, _⟩
    refine ⟨v, hfeas.1, ?_⟩
    intro r hr
    obtain ⟨r0, hr0, rfl⟩ := List.mem_map.mp hr
    have hsat := hfeas.2 r0 hr0
    have hval : LPRow.value v
        { r0 with rowVec := r0.rowVec.filter fun e => !lp.isSlackIndex e.1 }
        = r0.value v := by
      simp only [LPRow.value]
      refine value_filter (fun i => !lp.isSlackIndex i) v r0.rowVec ?_
      intro e _ hp
      have hs : lp.isSlackIndex e.1 = true := by simpa using hp
      exact slack_zero hok hfeas (le_of_eq hobj) (h.col_of_slack hs)
    unfold LPRow.sat at hsat ⊢
    rw [hval]
    exact hsat
  · rintro ⟨u, hu⟩
    have hfeas : lp.Feasible (lp.zeroSlacks u) := by
      refine ⟨?_, ?_⟩
      · intro i c hc
        cases hs : lp.isSlackIndex i with
        | true =>
          rw [(h.2 i c hc).1 hs]
          simp [LinearProgram.zeroSlacks, hs, LPCol.inBounds]
        | false =>
          have := hu.1 i c hc
          simpa [LinearProgram.zeroSlacks, hs] using this
      · intro r0 hr0
        have hsat := hu.2 _ (List.mem_map.mpr ⟨r0, hr0, rfl⟩)
        have hval : LPRow.value u
            { r0 with rowVec := r0.rowVec.filter fun e => !lp.isSlackIndex e.1 }
            = r0.value (lp.zeroSlacks u) := by
          simp only [LPRow.value]
          rw [← value_filter (fun i => !lp.isSlackIndex i) (lp.zeroSlacks u) r0.rowVec]
          · refine value_congr _ _ _ ?_
            intro e he
            have hp := (List.mem_filter.mp he).2
            have hs : lp.isSlackIndex e.1 = false := by simpa using hp
            simp [LinearProgram.zeroSlacks, hs]
          · intro e _ hp
            have hs : lp.isSlackIndex e.1 = true := by simpa using hp
            simp [LinearProgram.zeroSlacks, hs]
        unfold LPRow.sat at hsat ⊢
        rw [← hval]
        exact hsat
    have hzero : lp.objective (lp.zeroSlacks u) = 0 := by
      refine objectiveFrom_eq_zero _ _ _ ?_
      intro j c hc
      rw [Nat.zero_add]
      cases hs : lp.isSlackIndex j with
      | true => simp [LinearProgram.zeroSlacks, hs]
      | false =>
        rw [((h.2 j c hc).2 hs).1]
        simp
    refine ⟨lp.zeroSlacks u, hfeas, hzero, ?_⟩
    intro v' hv'
    rw [hzero]
    refine objectiveFrom_nonneg v' lp.cols 0 ?_
    intro j c hc
    obtain ⟨hlow, hobjc⟩ := hok.2 c (List.getElem?_mem hc)
    have hb := (hv'.1 j c hc).1
    rw [hlow] at hb
    simp only [Rat.cast_zero] at hb
    rw [zero_add]
    exact mul_nonneg (Rat.cast_nonneg.mpr hobjc) hb

end PhaseOne

/-! ## Theorems: the pricing oracle and the feasibility loop -/

section Pricing

theorem valuationOfMask_inj {n w w' : Nat} (hw : w < 2 ^ n) (hw' : w' < 2 ^ n)
    (h : valuationOfMask n w = valuationOfMask n w') : w = w' := by
  apply Nat.eq_of_testBit_eq
  intro i
  by_cases hi : i < n
  · have h' := (List.map_inj_left.mp h) i (List.mem_range.mpr hi)
    rw [Nat.testBit_to_div_mod, Nat.testBit_to_div_mod, ← Nat.shiftRight_eq_div_pow,
      ← Nat.shiftRight_eq_div_pow]
    exact h'
  · have hle : 2 ^ n ≤ 2 ^ i := Nat.pow_le_pow_right (by decide) (by omega)
    rw [Nat.testBit_lt_two_pow (by omega), Nat.testBit_lt_two_pow (by omega)]

theorem valuationOfMask_zero (n : Nat) : valuationOfMask n 0 = List.replicate n false := by
  apply List.ext_getElem
  · simp [valuationOfMask]
  · intro i h1 h2
    simp [valuationOfMask]

theorem foldl_reducedCost (duals : Nat → ℚ) : ∀ (column : List (Nat × ℚ)) (acc : ℚ),
    column.foldl (fun rc e => rc - duals e.1 * e.2) acc
      = acc - (column.map fun e => duals e.1 * e.2).sum
  | [], acc => by simp
  | e :: column, acc => by
    simp only [List.foldl_cons, List.map_cons, List.sum_cons]
    rw [foldl_reducedCost duals column]
    ring

theorem columnEntries_sum (varList : List String) (w : List Bool) (duals : Nat → ℚ) :
    ∀ (L : List (CPLFormula × Nat)) (es : List (Nat × ℚ)),
      columnEntries L varList w = some es →
      (es.map fun e => duals e.1 * e.2).sum
        = (L.map fun e => duals e.2 * cplValue varList e.1 w).sum
  | [], es, h => by
    simp only [columnEntries, Option.some.injEq] at h
    subst h
    rfl
  | e :: L, es, h => by
    simp only [columnEntries] at h
    cases hv : evaluateCPL e.1 (valuationMap varList w) with
    | none => rw [hv] at h; cases h
    | some val =>
      cases hes : columnEntries L varList w with
      | none => rw [hv, hes] at h; cases h
      | some es' =>
        rw [hv, hes] at h
        simp only [Option.some.injEq] at h
        have ih := columnEntries_sum varList w duals L es' hes
        have hcv : cplValue varList e.1 w = val := by simp [cplValue, hv]
        simp only [List.map_cons, List.sum_cons, hcv, ← ih]
        rcases evaluateCPL_zero_one _ _ _ hv with h0 | h1
        · rw [h0] at h
          norm_num at h
          subst h
          rw [h0]
          ring
        · rw [h1] at h
          norm_num at h
          subst h
          rw [h1]
          simp

/-- In exact arithmetic the sum that the exhaustive search accumulates for the bitmask `w`
is `−(Σᵢ dᵢ·ψᵢ(w) + d_Σ)`. -/
theorem exactCost_newColumn (root : RootLP) (varList : List String) (duals : Nat → ℚ)
    (w : Nat) (column : List (Nat × ℚ))
    (h : newColumn root varList (valuationOfMask varList.length w) = some column) :
    column.foldl (fun rc e => rc - duals e.1 * e.2) 0 = columnCost root varList duals w := by
  simp only [newColumn, Option.map_eq_some'] at h
  obtain ⟨es, hes, hcol⟩ := h
  subst hcol
  have hsum := columnEntries_sum varList _ duals _ es hes
  simp only [foldl_reducedCost, List.map_append, List.sum_append, hsum, columnCost]
  simp

/-- The entries of a column in the coherence rows: the entry 1 in the row of every atom
whose formula is true under the valuation. -/
theorem columnEntries_ones (varList : List String) (w : List Bool) :
    ∀ (L : List (CPLFormula × Nat)) (es : List (Nat × ℚ)),
      columnEntries L varList w = some es →
      es = (L.filter fun e => decide (cplValue varList e.1 w ≠ 0)).map fun e => (e.2, 1)
  | [], es, h => by
    simp only [columnEntries, Option.some.injEq] at h
    subst h
    rfl
  | e :: L, es, h => by
    simp only [columnEntries] at h
    cases hv : evaluateCPL e.1 (valuationMap varList w) with
    | none => rw [hv] at h; cases h
    | some val =>
      cases hes : columnEntries L varList w with
      | none => rw [hv, hes] at h; cases h
      | some es' =>
        rw [hv, hes] at h
        simp only [Option.some.injEq] at h
        have ih := columnEntries_ones varList w L es' hes
        have hcv : cplValue varList e.1 w = val := by simp [cplValue, hv]
        rcases evaluateCPL_zero_one _ _ _ hv with h0 | h1
        · rw [h0] at h hcv
          norm_num at h
          subst h
          rw [List.filter_cons, hcv]
          simpa using ih
        · rw [h1] at h hcv
          norm_num at h
          subst h
          rw [List.filter_cons, hcv, ih]
          simp

/-- The value of `reducedCost` that the exhaustive search computes for the bitmask `w`: the
duals of the rows with `ψᵢ(w) = 1` and the dual of the normalization row, subtracted from
`0.0` one after the other in `double` arithmetic. -/
theorem reducedCost_newColumn (root : RootLP) (varList : List String) (duals : Nat → ℚ)
    (w : Nat) (column : List (Nat × ℚ))
    (h : newColumn root varList (valuationOfMask varList.length w) = some column) :
    reducedCost duals column = accumulatedCost root varList duals w := by
  simp only [newColumn, Option.map_eq_some'] at h
  obtain ⟨es, hes, hcol⟩ := h
  subst hcol
  rw [columnEntries_ones varList _ _ es hes]
  simp only [reducedCost, accumulatedCost, List.foldl_append, List.foldl_map,
    List.foldl_cons, List.foldl_nil, mul_one]

theorem shiftLeftOne_toNat (n : Nat) (h : n < 32) :
    (shiftLeftOne n).toNat = if n < 31 then 2 ^ n else 0 := by
  by_cases hn : n < 31
  · rw [if_pos hn]
    have hlt : 2 ^ n < 2 ^ 31 := Nat.pow_lt_pow_right (by decide) hn
    have hpos : 0 < 2 ^ n := Nat.pos_pow_of_pos n (by decide)
    have hx : ((2 : Int) ^ n) = ((2 ^ n : Nat) : Int) := by norm_cast
    unfold shiftLeftOne
    rw [hx]
    generalize 2 ^ n = x at hlt hpos
    norm_num at hlt ⊢
    omega
  · have h31 : n = 31 := by omega
    subst h31
    decide

theorem shiftLeftOne_lt {n : Nat} (h : n < 31) : (shiftLeftOne n).toNat = 2 ^ n := by
  rw [shiftLeftOne_toNat n (by omega), if_pos h]

theorem exhaustiveSearch_skip (root : RootLP) (varList : List String) (duals : Nat → ℚ)
    (w : Nat) (ws : List Nat) (st : EngineState)
    (h : valuationOfMask varList.length w ∈ st.usedValuations) :
    exhaustiveSearch root varList duals (w :: ws) st
      = exhaustiveSearch root varList duals ws st := by
  rw [exhaustiveSearch, if_pos h]

theorem exhaustiveSearch_hit (root : RootLP) (varList : List String) (duals : Nat → ℚ)
    (w : Nat) (ws : List Nat) (st : EngineState) (column : List (Nat × ℚ))
    (h : valuationOfMask varList.length w ∉ st.usedValuations)
    (hcol : newColumn root varList (valuationOfMask varList.length w) = some column)
    (hrc : (reducedCost duals column).isNegative = true) :
    exhaustiveSearch root varList duals (w :: ws) st
      = some (true,
          { lp := addColumn st.lp (columnName w) column
            usedValuations := st.usedValuations ++ [valuationOfMask varList.length w]
            lastValuationsLocal :=
              st.lastValuationsLocal ++ [valuationOfMask varList.length w]
            priced := st.priced ++ [valuationOfMask varList.length w] }) := by
  rw [exhaustiveSearch, if_neg h, hcol]
  simp only [if_pos hrc, insertValuation, if_neg h]

theorem exhaustiveSearch_miss (root : RootLP) (varList : List String) (duals : Nat → ℚ)
    (w : Nat) (ws : List Nat) (st : EngineState) (column : List (Nat × ℚ))
    (h : valuationOfMask varList.length w ∉ st.usedValuations)
    (hcol : newColumn root varList (valuationOfMask varList.length w) = some column)
    (hrc : ¬ (reducedCost duals column).isNegative = true) :
    exhaustiveSearch root varList duals (w :: ws) st
      = exhaustiveSearch root varList duals ws
          { st with
            usedValuations := st.usedValuations ++ [valuationOfMask varList.length w]
            priced := st.priced ++ [valuationOfMask varList.length w] } := by
  rw [exhaustiveSearch, if_neg h, hcol]
  simp only [if_neg hrc, insertValuation, if_neg h]

/-- What one run of the exhaustive search does: it marks the valuations `P` that it prices
as used, and it either returns `false` with the program unchanged, every bitmask being used
on entry or of a reduced cost that is not negative, or returns `true` after adding the
column of the first bitmask that is not used on entry and has a negative reduced cost; the
reduced cost is the one accumulated in `double` arithmetic. -/
theorem exhaustiveSearch_spec (root : RootLP) (varList : List String) (duals : Nat → ℚ) :
    ∀ (ws : List Nat) (st : EngineState), ws.Nodup →
    (∀ a ∈ ws, ∀ b ∈ ws,
      valuationOfMask varList.length a = valuationOfMask varList.length b → a = b) →
    (∀ w ∈ ws, (newColumn root varList (valuationOfMask varList.length w)).isSome = true) →
    ∃ (res : Bool × EngineState) (P : List (List Bool)),
      exhaustiveSearch root varList duals ws st = some res ∧
      res.2.usedValuations = st.usedValuations ++ P ∧ res.2.priced = st.priced ++ P ∧
      P.Nodup ∧
      (∀ v ∈ P, v ∉ st.usedValuations ∧ ∃ w ∈ ws, v = valuationOfMask varList.length w) ∧
      ((res.1 = false ∧ res.2.lp = st.lp ∧
          res.2.lastValuationsLocal = st.lastValuationsLocal ∧
          ∀ w ∈ ws, valuationOfMask varList.length w ∈ st.usedValuations ∨
            (accumulatedCost root varList duals w).isNegative = false) ∨
        (res.1 = true ∧ P ≠ [] ∧ ∃ (pre : List Nat) (w : Nat) (post : List Nat)
            (column : List (Nat × ℚ)),
          ws = pre ++ w :: post ∧
          valuationOfMask varList.length w ∉ st.usedValuations ∧
          (accumulatedCost root varList duals w).isNegative = true ∧
          (∀ w' ∈ pre, valuationOfMask varList.length w' ∈ st.usedValuations ∨
            (accumulatedCost root varList duals w').isNegative = false) ∧
          newColumn root varList (valuationOfMask varList.length w) = some column ∧
          res.2.lp = addColumn st.lp (columnName w) column ∧
          res.2.lastValuationsLocal
            = st.lastValuationsLocal ++ [valuationOfMask varList.length w]))
  | [], st, _, _, _ =>
    ⟨(false, st), [], rfl, by simp, by simp, List.nodup_nil, fun v hv => (by cases hv),
      Or.inl ⟨rfl, rfl, rfl, fun w hw => (by cases hw)⟩⟩
  | w :: ws, st, hnd, hinj, hcols => by
    have hnd' := List.nodup_cons.mp hnd
    have hinj' : ∀ a ∈ ws, ∀ b ∈ ws,
        valuationOfMask varList.length a = valuationOfMask varList.length b → a = b :=
      fun a ha b hb => hinj a (List.mem_cons_of_mem _ ha) b (List.mem_cons_of_mem _ hb)
    have hcols' : ∀ w' ∈ ws,
        (newColumn root varList (valuationOfMask varList.length w')).isSome = true :=
      fun w' hw' => hcols w' (List.mem_cons_of_mem _ hw')
    have hne : ∀ w' ∈ ws, valuationOfMask varList.length w'
        ≠ valuationOfMask varList.length w := by
      intro w' hw' he
      have := hinj w' (List.mem_cons_of_mem _ hw') w (List.mem_cons_self _ _) he
      rw [this] at hw'
      exact hnd'.1 hw'
    by_cases hused : valuationOfMask varList.length w ∈ st.usedValuations
    · obtain ⟨res, P, h1, h2, h3, h4, h5, h6⟩ :=
        exhaustiveSearch_spec root varList duals ws st hnd'.2 hinj' hcols'
      refine ⟨res, P, ?_, h2, h3, h4, ?_, ?_⟩
      · rw [exhaustiveSearch_skip _ _ _ _ _ _ hused]; exact h1
      · intro v hv
        obtain ⟨a, w', hw', e⟩ := h5 v hv
        exact ⟨a, w', List.mem_cons_of_mem _ hw', e⟩
      · rcases h6 with ⟨a, b, c, d⟩ | ⟨a, b, pre, w0, post, column, c1, c2, c3, c4, c5, c6⟩
        · refine Or.inl ⟨a, b, c, ?_⟩
          intro w' hw'
          rcases List.mem_cons.mp hw' with rfl | hw'
          · exact Or.inl hused
          · exact d w' hw'
        · refine Or.inr ⟨a, b, w :: pre, w0, post, column, by rw [c1]; rfl, c2, c3, ?_, c5, c6⟩
          intro w' hw'
          rcases List.mem_cons.mp hw' with rfl | hw'
          · exact Or.inl hused
          · exact c4 w' hw'
    · obtain ⟨column, hcol⟩ := Option.isSome_iff_exists.mp (hcols w (List.mem_cons_self _ _))
      have hrcost := reducedCost_newColumn root varList duals w column hcol
      by_cases hrc : (reducedCost duals column).isNegative = true
      · refine ⟨_, [valuationOfMask varList.length w],
          exhaustiveSearch_hit _ _ _ _ _ _ _ hused hcol hrc, rfl, rfl,
          List.nodup_singleton _, ?_, ?_⟩
        · intro v hv
          rw [List.mem_singleton] at hv
          rw [hv]
          exact ⟨hused, w, List.mem_cons_self _ _, rfl⟩
        · refine Or.inr ⟨rfl, by simp, [], w, ws, column, rfl, hused, ?_,
            fun w' hw' => (by cases hw'), hcol, rfl, rfl⟩
          rw [← hrcost]; exact hrc
      · obtain ⟨res, P, h1, h2, h3, h4, h5, h6⟩ :=
          exhaustiveSearch_spec root varList duals ws
            { st with
              usedValuations := st.usedValuations ++ [valuationOfMask varList.length w]
              priced := st.priced ++ [valuationOfMask varList.length w] }
            hnd'.2 hinj' hcols'
        have hconv : ∀ w' ∈ ws,
            valuationOfMask varList.length w'
              ∈ st.usedValuations ++ [valuationOfMask varList.length w] →
            valuationOfMask varList.length w' ∈ st.usedValuations := by
          intro w' hw' hm
          rcases List.mem_append.mp hm with hm | hm
          · exact hm
          · exact absurd (List.mem_singleton.mp hm) (hne w' hw')
        have hcost0 : (accumulatedCost root varList duals w).isNegative = false := by
          rw [← hrcost]; simpa using hrc
        refine ⟨res, valuationOfMask varList.length w :: P, ?_, ?_, ?_, ?_, ?_, ?_⟩
        · rw [exhaustiveSearch_miss _ _ _ _ _ _ _ hused hcol hrc]; exact h1
        · rw [h2]; simp
        · rw [h3]; simp
        · refine List.nodup_cons.mpr ⟨?_, h4⟩
          intro hm
          exact (h5 _ hm).1 (List.mem_append_right _ (List.mem_singleton_self _))
        · intro v hv
          rcases List.mem_cons.mp hv with rfl | hv
          · exact ⟨hused, w, List.mem_cons_self _ _, rfl⟩
          · obtain ⟨a, w', hw', e⟩ := h5 v hv
            exact ⟨fun hm => a (List.mem_append_left _ hm), w', List.mem_cons_of_mem _ hw', e⟩
        · rcases h6 with ⟨a, b, c, d⟩ | ⟨a, b, pre, w0, post, col0, c1, c2, c3, c4, c5, c6, c7⟩
          · refine Or.inl ⟨a, b, c, ?_⟩
            intro w' hw'
            rcases List.mem_cons.mp hw' with rfl | hw'
            · exact Or.inr hcost0
            · exact (d w' hw').imp (hconv w' hw') id
          · refine Or.inr ⟨a, by simp, w :: pre, w0, post, col0, by rw [c1]; rfl,
              fun hm => c2 (List.mem_append_left _ hm), c3, ?_, c5, c6, c7⟩
            intro w' hw'
            rcases List.mem_cons.mp hw' with rfl | hw'
            · exact Or.inr hcost0
            · have hw'ws : w' ∈ ws := by
                rw [c1]; exact List.mem_append_left _ hw'
              exact (c4 w' hw').imp (hconv w' hw'ws) id

theorem range_split {N w : Nat} {pre post : List Nat} (h : List.range N = pre ++ w :: post) :
    w < N ∧ ∀ w', w' < w → w' ∈ pre := by
  have hlen : pre.length < N := by
    have := congrArg List.length h
    simp only [List.length_range, List.length_append, List.length_cons] at this
    omega
  have hw : w = pre.length := by
    have h1 : (List.range N)[pre.length]? = some pre.length := by
      rw [List.getElem?_range hlen]
    rw [h, List.getElem?_append_right (Nat.le_refl _), Nat.sub_self,
      List.getElem?_cons_zero] at h1
    exact Option.some.inj h1
  refine ⟨by omega, ?_⟩
  intro w' hw'
  have h1 : (List.range N)[w']? = some w' := by
    rw [List.getElem?_range (by omega)]
  rw [h, List.getElem?_append_left (by omega)] at h1
  exact List.getElem?_mem h1

/-- When some bitmask is a candidate the exhaustive pricing returns `true`. -/
theorem pricing_finds (root : RootLP) (varList : List String) (duals : Nat → ℚ)
    (st : EngineState) (hn : varList.length < 31)
    (hcols : ∀ w, w < 2 ^ varList.length →
      (newColumn root varList (valuationOfMask varList.length w)).isSome = true)
    (w : Nat) (hw : Candidate root varList duals st.usedValuations w) :
    ∃ st', addNewProbabilisticCoherenceConstraint root varList none duals st
      = some (true, st') := by
  obtain ⟨res, P, h1, _, _, _, _, h6⟩ :=
    exhaustiveSearch_spec root varList duals (List.range (2 ^ varList.length)) st
      (List.nodup_range _)
      (fun a ha b hb => valuationOfMask_inj (List.mem_range.mp ha) (List.mem_range.mp hb))
      (fun w hw => hcols w (List.mem_range.mp hw))
  have hres : addNewProbabilisticCoherenceConstraint root varList none duals st
      = some res := by
    simp only [addNewProbabilisticCoherenceConstraint,
      if_neg (show ¬ 32 ≤ varList.length by omega), shiftLeftOne_lt hn]
    exact h1
  rcases h6 with ⟨_, _, _, d⟩ | ⟨a, _⟩
  · exfalso
    rcases d w (List.mem_range.mpr hw.1) with hu | hc
    · exact hw.2.1 hu
    · have := hw.2.2
      rw [hc] at this
      cases this
  · obtain ⟨b, st'⟩ := res
    cases a
    exact ⟨st', hres⟩

set_option maxRecDepth 4000

theorem roundingDuals_first :
    (DoubleValue.finite 0).sub (roundToDouble (roundingDuals 5 * 1)) = .finite (-1) := by
  with_unfolding_all decide

theorem roundingDuals_second :
    (DoubleValue.finite (-1)).sub (roundToDouble (roundingDuals 6 * 1)) = .finite (-1) := by
  with_unfolding_all decide

theorem roundingDuals_third :
    (DoubleValue.finite (-1)).sub (roundToDouble (roundingDuals 7 * 1)) = .finite 0 := by
  with_unfolding_all decide

/-- In `double` arithmetic `0.0 − 1 − 2⁻⁶⁰ − (−1)` is `0.0`: the second difference rounds
to −1. -/
theorem roundingDuals_cost :
    reducedCost roundingDuals [(5, 1), (6, 1), (7, 1)] = .finite 0 := by
  simp only [reducedCost, List.foldl_cons, List.foldl_nil]
  rw [roundingDuals_first, roundingDuals_second, roundingDuals_third]

/-- C21 (the claim as stated fails): for the input line `P(p) ⊕ P(p)`, in the state in which
`isFeasible` enters its loop (the column `p(0)` added, the all-false valuation used) and
with the duals 1, `2⁻⁶⁰` and −1 of the two coherence rows 5, 6 and the normalization row 7,
the bitmask 1 is not used and its reduced cost `−(Σᵢ dᵢ·ψᵢ(w) + d_Σ) = −2⁻⁶⁰` is strictly
negative; yet the exhaustive search adds no column and returns `false`: the reduced cost
that it accumulates in `double` arithmetic, `0.0 − 1 − 2⁻⁶⁰ − (−1)`, is `0.0`. -/
theorem rounding_hides_candidate :
    repeatedRoot.probConstraintRows = [5, 6] ∧ repeatedRoot.sumProbRow = 7 ∧
    engineStart repeatedRoot ["p"] repeatedRoot.lp
      = some ⟨addColumn repeatedRoot.lp "p(0)" [(7, 1)], [[false]], [[false]], []⟩ ∧
    ["p"].length < 31 ∧ 1 < 2 ^ ["p"].length ∧
    valuationOfMask ["p"].length 1 ∉ [[false]] ∧
    newColumn repeatedRoot ["p"] (valuationOfMask ["p"].length 1)
      = some [(5, 1), (6, 1), (7, 1)] ∧
    columnCost repeatedRoot ["p"] roundingDuals 1 = -(1 / 2 ^ 60) ∧
    columnCost repeatedRoot ["p"] roundingDuals 1 < 0 ∧
    reducedCost roundingDuals [(5, 1), (6, 1), (7, 1)] = .finite 0 ∧
    addNewProbabilisticCoherenceConstraint repeatedRoot ["p"] none roundingDuals
        ⟨addColumn repeatedRoot.lp "p(0)" [(7, 1)], [[false]], [[false]], []⟩
      = some (false,
          ⟨addColumn repeatedRoot.lp "p(0)" [(7, 1)], [[false], [true]], [[false]],
            [[true]]⟩) := by
  have hcol : newColumn repeatedRoot ["p"] (valuationOfMask ["p"].length 1)
      = some [(5, 1), (6, 1), (7, 1)] := by with_unfolding_all decide
  have hcost : columnCost repeatedRoot ["p"] roundingDuals 1 = -(1 / 2 ^ 60) := by
    rw [← exactCost_newColumn repeatedRoot ["p"] roundingDuals 1 _ hcol]
    norm_num [roundingDuals]
  have hrc : reducedCost roundingDuals [(5, 1), (6, 1), (7, 1)] = .finite 0 :=
    roundingDuals_cost
  have hstart : newColumn repeatedRoot ["p"] (zeroValuation ["p"]) = some [(7, 1)] := by
    with_unfolding_all decide
  refine ⟨rfl, rfl, ?_, by decide, by decide, by decide, hcol, hcost, ?_, hrc, ?_⟩
  · simp only [engineStart, hstart]
    rfl
  · rw [hcost]
    norm_num
  · have hrange : List.range (shiftLeftOne ["p"].length).toNat = [0, 1] := by
      rw [shiftLeftOne_lt (by decide)]
      decide
    simp only [addNewProbabilisticCoherenceConstraint,
      if_neg (show ¬ 32 ≤ ["p"].length by decide), hrange]
    rw [exhaustiveSearch_skip _ _ _ _ _ _ (by decide),
      exhaustiveSearch_miss _ _ _ _ _ _ _ (by decide) hcol (by rw [hrc]; decide)]
    rfl

/-- C21 (amended): exhaustive pricing. For fewer than 31 variables, any duals and any set
`usedValuations`, the exhaustive branch of `addNewProbabilisticCoherenceConstraint` returns
`false` exactly when no bitmask `w` in `0..2ⁿ−1` is a candidate (its valuation is not in
`usedValuations` on entry and its reduced cost, accumulated in `double` arithmetic as
`0.0 − dᵢ − … − d_Σ` over the rows with `ψᵢ(w) = 1` and the normalization row, is negative),
and then it leaves the program unchanged; otherwise it returns `true` after adding the
column `p(w)` of the smallest candidate `w` and appending its valuation to
`lastValuationsLocal`. -/
theorem exhaustive_pricing (root : RootLP) (varList : List String) (duals : Nat → ℚ)
    (st : EngineState) (hn : varList.length < 31)
    (hcols : ∀ w, w < 2 ^ varList.length →
      (newColumn root varList (valuationOfMask varList.length w)).isSome = true) :
    ∃ res, addNewProbabilisticCoherenceConstraint root varList none duals st = some res ∧
      (res.1 = false ↔ ∀ w, ¬ Candidate root varList duals st.usedValuations w) ∧
      (res.1 = false → res.2.lp = st.lp) ∧
      (res.1 = true → ∃ (w : Nat) (column : List (Nat × ℚ)),
        Candidate root varList duals st.usedValuations w ∧
        (∀ w', w' < w → ¬ Candidate root varList duals st.usedValuations w') ∧
        newColumn root varList (valuationOfMask varList.length w) = some column ∧
        res.2.lp = addColumn st.lp (columnName w) column ∧
        res.2.lastValuationsLocal
          = st.lastValuationsLocal ++ [valuationOfMask varList.length w]) := by
  obtain ⟨res, P, h1, _, _, _, _, h6⟩ :=
    exhaustiveSearch_spec root varList duals (List.range (2 ^ varList.length)) st
      (List.nodup_range _)
      (fun a ha b hb => valuationOfMask_inj (List.mem_range.mp ha) (List.mem_range.mp hb))
      (fun w hw => hcols w (List.mem_range.mp hw))
  refine ⟨res, ?_, ?_⟩
  · simp only [addNewProbabilisticCoherenceConstraint,
      if_neg (show ¬ 32 ≤ varList.length by omega), shiftLeftOne_lt hn]
    exact h1
  rcases h6 with ⟨a, b, _, d⟩ | ⟨a, _, pre, w, post, column, c1, c2, c3, c4, c5, c6, c7⟩
  · refine ⟨⟨fun _ w hw => ?_, fun _ => a⟩, fun _ => b, fun ht => ?_⟩
    · rcases d w (List.mem_range.mpr hw.1) with hu | hc
      · exact hw.2.1 hu
      · have := hw.2.2
        rw [hc] at this
        cases this
    · rw [a] at ht; cases ht
  · obtain ⟨hwN, hpre⟩ := range_split c1
    have hcand : Candidate root varList duals st.usedValuations w := ⟨hwN, c2, c3⟩
    refine ⟨⟨fun hf => ?_, fun hall => absurd hcand (hall w)⟩, fun hf => ?_, fun _ => ?_⟩
    · rw [a] at hf; cases hf
    · rw [a] at hf; cases hf
    · refine ⟨w, column, hcand, ?_, c5, c6, c7⟩
      intro w' hw' hc'
      rcases c4 w' (hpre w' hw') with hu | hc
      · exact hc'.2.1 hu
      · have := hc'.2.2
        rw [hc] at this
        cases this

theorem exampleRoot_columns (w : Nat) (hw : w < 2 ^ ["p"].length) :
    (newColumn exampleRoot ["p"] (valuationOfMask ["p"].length w)).isSome = true := by
  have hw' : w < 2 := hw
  have h0 : (newColumn exampleRoot ["p"] (valuationOfMask ["p"].length 0)).isSome = true := by
    with_unfolding_all decide
  have h1 : (newColumn exampleRoot ["p"] (valuationOfMask ["p"].length 1)).isSome = true := by
    with_unfolding_all decide
  interval_cases w
  · exact h0
  · exact h1

/-- The hypotheses of `exhaustive_pricing` hold for the root program of `¬P(p)` with all
duals 1 and the all-false valuation used; the bitmask 1 is a candidate there, its reduced
cost being `0.0 − 1 − 1 = −2`. -/
theorem exhaustive_pricing_witness :
    ["p"].length < 31 ∧
    Candidate exampleRoot ["p"] (fun _ => 1) [[false]] 1 ∧
    ∃ res, addNewProbabilisticCoherenceConstraint exampleRoot ["p"] none (fun _ => 1)
        ⟨exampleRoot.lp, [[false]], [[false]], []⟩ = some res ∧
      (res.1 = false ↔
        ∀ w, ¬ Candidate exampleRoot ["p"] (fun _ => 1) [[false]] w) :=
  ⟨by decide, ⟨by decide, by decide, by with_unfolding_all decide⟩,
    (exhaustive_pricing exampleRoot ["p"] (fun _ => 1)
      ⟨exampleRoot.lp, [[false]], [[false]], []⟩ (by decide) exampleRoot_columns).imp
      fun _ h => ⟨h.1, h.2.1⟩⟩

/-- One call of the exhaustive pricing from any state: it returns, and the valuations `P` it
prices are new, pairwise different valuations of bitmasks below `2ⁿ`, appended to
`usedValuations`; a successful call prices at least one. -/
theorem pricing_step (root : RootLP) (varList : List String) (duals : Nat → ℚ)
    (st : EngineState) (hn : varList.length < 31)
    (hcols : ∀ w, w < 2 ^ varList.length →
      (newColumn root varList (valuationOfMask varList.length w)).isSome = true) :
    ∃ (res : Bool × EngineState) (P : List (List Bool)),
      addNewProbabilisticCoherenceConstraint root varList none duals st = some res ∧
      res.2.usedValuations = st.usedValuations ++ P ∧ res.2.priced = st.priced ++ P ∧
      P.Nodup ∧
      (∀ v ∈ P, v ∉ st.usedValuations ∧
        v ∈ (List.range (2 ^ varList.length)).map (valuationOfMask varList.length)) ∧
      (res.1 = true → P ≠ []) := by
  obtain ⟨res, P, h1, h2, h3, h4, h5, h6⟩ :=
    exhaustiveSearch_spec root varList duals (List.range (2 ^ varList.length)) st
      (List.nodup_range _)
      (fun a ha b hb => valuationOfMask_inj (List.mem_range.mp ha) (List.mem_range.mp hb))
      (fun w hw => hcols w (List.mem_range.mp hw))
  refine ⟨res, P, ?_, h2, h3, h4, ?_, ?_⟩
  · simp only [addNewProbabilisticCoherenceConstraint,
      if_neg (show ¬ 32 ≤ varList.length by omega), shiftLeftOne_lt hn]
    exact h1
  · intro v hv
    obtain ⟨a, w, hw, e⟩ := h5 v hv
    exact ⟨a, List.mem_map.mpr ⟨w, hw, e.symm⟩⟩
  · intro ht
    rcases h6 with ⟨a, _⟩ | ⟨_, b, _⟩
    · rw [a] at ht; cases ht
    · exact b

theorem EngineInv.length_le {varList : List String} {st : EngineState}
    (h : EngineInv varList st) : st.usedValuations.length ≤ 2 ^ varList.length := by
  have := (List.Nodup.subperm h.2.1 h.2.2).length_le
  simpa using this

theorem EngineInv.pricing {varList : List String}
    {st : EngineState} (h : EngineInv varList st) {res : Bool × EngineState}
    {P : List (List Bool)}
    (h2 : res.2.usedValuations = st.usedValuations ++ P) (h3 : res.2.priced = st.priced ++ P)
    (h4 : P.Nodup)
    (h5 : ∀ v ∈ P, v ∉ st.usedValuations ∧
        v ∈ (List.range (2 ^ varList.length)).map (valuationOfMask varList.length)) :
    EngineInv varList res.2 := by
  refine ⟨?_, ?_, ?_⟩
  · rw [h2, h3, h.1]; rfl
  · rw [h2]
    exact List.Nodup.append h.2.1 h4 (fun v hv hp => (h5 v hp).1 hv)
  · rw [h2]
    intro v hv
    rcases List.mem_append.mp hv with hv | hv
    · exact h.2.2 hv
    · exact (h5 v hv).2

theorem engineStart_inv (root : RootLP) (varList : List String) (lp : LinearProgram)
    (hcols : ∀ w, w < 2 ^ varList.length →
      (newColumn root varList (valuationOfMask varList.length w)).isSome = true) :
    ∃ st, engineStart root varList lp = some st ∧ EngineInv varList st ∧
      st.usedValuations.length = 1 := by
  have hz : zeroValuation varList = valuationOfMask varList.length 0 := by
    rw [valuationOfMask_zero]; rfl
  have hpos : 0 < 2 ^ varList.length := Nat.pow_pos (by decide)
  obtain ⟨column, hcol⟩ := Option.isSome_iff_exists.mp (hcols 0 hpos)
  rw [← hz] at hcol
  refine ⟨{ lp := addColumn lp "p(0)" column
            usedValuations := insertValuation (zeroValuation varList) []
            lastValuationsLocal := [zeroValuation varList]
            priced := [] }, ?_, ⟨rfl, ?_, ?_⟩, rfl⟩
  · simp only [engineStart, hcol, Option.map_some']
  · simp [insertValuation]
  · intro v hv
    simp only [insertValuation, List.not_mem_nil, if_false, List.nil_append,
      List.mem_singleton] at hv
    rw [hv, hz]
    exact List.mem_map.mpr ⟨0, List.mem_range.mpr hpos, rfl⟩

/-- The loop of `isFeasible` with the exhaustive search returns within the fuel that the
unused valuations allow, after at most `2ⁿ` pricing calls. -/
theorem feasibilityLoop_returns (root : RootLP) (varList : List String)
    (solver : Nat → LinearProgram → Option LPAnswer) (hn : varList.length < 31)
    (hcols : ∀ w, w < 2 ^ varList.length →
      (newColumn root varList (valuationOfMask varList.length w)).isSome = true) :
    ∀ (fuel iter calls : Nat) (st : EngineState), EngineInv varList st →
      calls + 1 ≤ st.usedValuations.length →
      2 ^ varList.length + 1 ≤ fuel + st.usedValuations.length →
      ∃ value st' calls',
        feasibilityLoop root varList none solver fuel iter calls st
          = .returned value st' calls' ∧
        calls' ≤ 2 ^ varList.length ∧ EngineInv varList st'
  | 0, _, _, st, hinv, _, hfuel => by
    have := hinv.length_le
    omega
  | fuel + 1, iter, calls, st, hinv, hcalls, hfuel => by
    have hlen := hinv.length_le
    rw [feasibilityLoop]
    cases hs : solver iter st.lp with
    | none => exact ⟨false, st, calls, rfl, by omega, hinv⟩
    | some ans =>
      simp only
      by_cases hobj : ans.obj ≤ 0
      · rw [if_pos hobj]
        exact ⟨true, st, calls, rfl, by omega, hinv⟩
      · rw [if_neg hobj]
        obtain ⟨res, P, h1, h2, h3, h4, h5, h6⟩ :=
          pricing_step root varList ans.duals st hn hcols
        have hinv' : EngineInv varList res.2 := hinv.pricing h2 h3 h4 h5
        rw [h1]
        obtain ⟨b, st'⟩ := res
        cases b with
        | false => exact ⟨false, st', calls + 1, rfl, by omega, hinv'⟩
        | true =>
          simp only
          have hP : P ≠ [] := h6 rfl
          have hgrow : st.usedValuations.length + 1 ≤ st'.usedValuations.length := by
            have hl := congrArg List.length h2
            simp only [List.length_append] at hl
            have : 0 < P.length := List.length_pos.mpr hP
            change st'.usedValuations.length = _ at hl
            omega
          exact feasibilityLoop_returns root varList solver hn hcols fuel (iter + 1)
            (calls + 1) st' hinv' (by omega) (by omega)

/-- C22: termination of the feasibility loop with exhaustive pricing. For fewer than 31
variables and any answers of the LP solver, a call of `isFeasible` returns within `2ⁿ`
iterations of its loop after at most `2ⁿ` pricing calls; the valuations whose reduced cost
was computed are pairwise different and different from the all-false valuation, so the
reduced cost of a valuation is computed at most once; and every successful pricing call
strictly enlarges `usedValuations` with a valuation that was not in it. -/
theorem feasibility_loop_terminates (root : RootLP) (varList : List String)
    (solver : Nat → LinearProgram → Option LPAnswer) (lp : LinearProgram) (fuel : Nat)
    (hn : varList.length < 31)
    (hcols : ∀ w, w < 2 ^ varList.length →
      (newColumn root varList (valuationOfMask varList.length w)).isSome = true)
    (hfuel : 2 ^ varList.length ≤ fuel) :
    (∃ value st calls,
      isFeasible root varList none solver fuel lp = .returned value st calls ∧
      calls ≤ 2 ^ varList.length ∧ st.priced.Nodup ∧ zeroValuation varList ∉ st.priced ∧
      st.usedValuations = zeroValuation varList :: st.priced ∧
      st.usedValuations.length ≤ 2 ^ varList.length) ∧
    ∀ (duals : Nat → ℚ) (st st' : EngineState),
      addNewProbabilisticCoherenceConstraint root varList none duals st = some (true, st') →
      st.usedValuations.length < st'.usedValuations.length ∧
      (∀ u ∈ st.usedValuations, u ∈ st'.usedValuations) ∧
      ∃ v, v ∉ st.usedValuations ∧ v ∈ st'.usedValuations := by
  constructor
  · obtain ⟨st0, hst0, hinv0, hlen0⟩ := engineStart_inv root varList lp hcols
    obtain ⟨value, st, calls, hres, hcalls, hinv⟩ :=
      feasibilityLoop_returns root varList solver hn hcols fuel 1 0 st0 hinv0
        (by omega) (by omega)
    refine ⟨value, st, calls, ?_, hcalls, ?_, ?_, hinv.1, hinv.length_le⟩
    · simp only [isFeasible, hst0]
      exact hres
    · have := hinv.2.1
      rw [hinv.1] at this
      exact (List.nodup_cons.mp this).2
    · have := hinv.2.1
      rw [hinv.1] at this
      exact (List.nodup_cons.mp this).1
  · intro duals st st' hcall
    obtain ⟨res, P, h1, h2, _, _, h5, h6⟩ := pricing_step root varList duals st hn hcols
    rw [hcall] at h1
    cases h1
    have hP : P ≠ [] := h6 rfl
    obtain ⟨v, P', rfl⟩ := List.exists_cons_of_ne_nil hP
    change st'.usedValuations = _ at h2
    refine ⟨?_, ?_, v, (h5 v (List.mem_cons_self _ _)).1, ?_⟩
    · rw [h2]; simp
    · intro u hu
      rw [h2]; exact List.mem_append_left _ hu
    · rw [h2]; simp

/-- The hypotheses of `feasibility_loop_terminates` hold for the root program of `¬P(p)`;
with an LP solver that reports objective value 1 and all duals 1 the call returns after at
most two pricing calls. -/
theorem feasibility_loop_terminates_witness :
    ["p"].length < 31 ∧ 2 ^ ["p"].length ≤ 2 ∧
    ∃ value st calls,
      isFeasible exampleRoot ["p"] none (fun _ _ => some ⟨1, fun _ => 1⟩) 2 exampleRoot.lp
        = .returned value st calls ∧ calls ≤ 2 ^ ["p"].length :=
  ⟨by decide, by decide,
    (feasibility_loop_terminates exampleRoot ["p"] (fun _ _ => some ⟨1, fun _ => 1⟩)
      exampleRoot.lp 2 (by decide) exampleRoot_columns (by decide)).1.imp
      fun _ h => h.imp fun _ h => h.imp fun _ h => ⟨h.1, h.2.1⟩⟩

/-- The step of the loop of `isFeasible` when the LP solver reports an objective value of
at most 0: it returns `true` without a pricing call. -/
theorem feasibilityLoop_accept (root : RootLP) (varList : List String)
    (findValuationPB : Option (List ℚ → List (List Bool) → Option (List Bool)))
    (solver : Nat → LinearProgram → Option LPAnswer) (fuel iter calls : Nat)
    (st : EngineState) (ans : LPAnswer) (hs : solver iter st.lp = some ans)
    (hobj : ans.obj ≤ 0) :
    feasibilityLoop root varList findValuationPB solver (fuel + 1) iter calls st
      = .returned true st calls := by
  rw [feasibilityLoop, hs]
  simp only [if_pos hobj]

/-- The step of the loop of `isFeasible` when the LP solver reports a positive objective
value: the pricing oracle is called. -/
theorem feasibilityLoop_price (root : RootLP) (varList : List String)
    (findValuationPB : Option (List ℚ → List (List Bool) → Option (List Bool)))
    (solver : Nat → LinearProgram → Option LPAnswer) (fuel iter calls : Nat)
    (st : EngineState) (ans : LPAnswer) (hs : solver iter st.lp = some ans)
    (hobj : 0 < ans.obj) :
    feasibilityLoop root varList findValuationPB solver (fuel + 1) iter calls st
      = match addNewProbabilisticCoherenceConstraint root varList findValuationPB
            ans.duals st with
        | none => .threw
        | some (false, st') => .returned false st' (calls + 1)
        | some (true, st') =>
          feasibilityLoop root varList findValuationPB solver fuel (iter + 1) (calls + 1)
            st' := by
  rw [feasibilityLoop, hs]
  simp only [if_neg (not_le.mpr hobj)]

theorem columnCost_zero (root : RootLP) (varList : List String) (w : Nat) :
    columnCost root varList (fun _ => 0) w = 0 := by
  simp [columnCost]

theorem foldl_sub_zeros : ∀ (ds : List ℚ), (∀ d ∈ ds, d = 0) →
    ds.foldl (fun rc d => DoubleValue.sub rc (roundToDouble d)) (.finite 0) = .finite 0
  | [], _ => rfl
  | d :: ds, h => by
    rw [List.foldl_cons, h d (List.mem_cons_self _ _)]
    have h0 : DoubleValue.sub (.finite 0) (roundToDouble 0) = .finite 0 := by
      simp [roundToDouble, DoubleValue.sub]
    rw [h0]
    exact foldl_sub_zeros ds (fun d' hd' => h d' (List.mem_cons_of_mem _ hd'))

theorem accumulatedCost_zero (root : RootLP) (varList : List String) (w : Nat) :
    accumulatedCost root varList (fun _ => 0) w = .finite 0 := by
  rw [accumulatedCost]
  exact foldl_sub_zeros _ (fun d hd => by
    simp only [List.mem_append, List.mem_map, List.mem_singleton] at hd
    rcases hd with ⟨_, _, rfl⟩ | rfl <;> rfl)

/-- With all duals 0 no column has a negative reduced cost and the exhaustive pricing
returns `false`. -/
theorem pricing_zero_duals (root : RootLP) (varList : List String) (st : EngineState)
    (hn : varList.length < 31)
    (hcols : ∀ w, w < 2 ^ varList.length →
      (newColumn root varList (valuationOfMask varList.length w)).isSome = true) :
    ∃ st', addNewProbabilisticCoherenceConstraint root varList none (fun _ => 0) st
      = some (false, st') := by
  obtain ⟨res, P, h1, _, _, _, _, h6⟩ :=
    exhaustiveSearch_spec root varList (fun _ => 0) (List.range (2 ^ varList.length)) st
      (List.nodup_range _)
      (fun a ha b hb => valuationOfMask_inj (List.mem_range.mp ha) (List.mem_range.mp hb))
      (fun w hw => hcols w (List.mem_range.mp hw))
  refine ⟨res.2, ?_⟩
  simp only [addNewProbabilisticCoherenceConstraint,
    if_neg (show ¬ 32 ≤ varList.length by omega), shiftLeftOne_lt hn]
  rw [h1]
  rcases h6 with ⟨a, _⟩ | ⟨_, _, pre, w, post, column, _, _, c3, _⟩
  · obtain ⟨b, st'⟩ := res
    cases a
    rfl
  · rw [accumulatedCost_zero] at c3
    cases c3

/-- C23 (the claim as stated fails): for the input line `¬P(p)` and an LP solver that
reports the optimal objective value `5·10⁻⁹ ≤ 10⁻⁸` with all duals 0, `isFeasible` does not
return `true` in that iteration: it calls the pricing oracle, which finds no column, and
returns `false`. -/
theorem small_objective_is_priced :
    (1 / 200000000 : ℚ) ≤ 1 / 100000000 ∧
    ∃ st, isFeasible exampleRoot ["p"] none
      (fun _ _ => some ⟨1 / 200000000, fun _ => 0⟩) 2 exampleRoot.lp
        = .returned false st 1 := by
  refine ⟨by norm_num, ?_⟩
  obtain ⟨st0, hst0, _, _⟩ := engineStart_inv exampleRoot ["p"] exampleRoot.lp
    exampleRoot_columns
  obtain ⟨st', hst'⟩ := pricing_zero_duals exampleRoot ["p"] st0 (by decide)
    exampleRoot_columns
  refine ⟨st', ?_⟩
  simp only [isFeasible, hst0]
  rw [feasibilityLoop_price exampleRoot ["p"] none _ 1 1 0 st0
    ⟨1 / 200000000, fun _ => 0⟩ rfl (by norm_num), hst']

/-- C23 (amended): whenever the slacked LP is solved to optimality with an objective value
`obj ≤ 0`, `isFeasible` declares the LP feasible and returns `true` in that iteration
without calling the pricing oracle; for every `obj > 0` it calls the pricing oracle. -/
theorem acceptance_without_tolerance (root : RootLP) (varList : List String)
    (findValuationPB : Option (List ℚ → List (List Bool) → Option (List Bool)))
    (solver : Nat → LinearProgram → Option LPAnswer) (fuel iter calls : Nat)
    (st : EngineState) (ans : LPAnswer) (hs : solver iter st.lp = some ans) :
    (ans.obj ≤ 0 →
      feasibilityLoop root varList findValuationPB solver (fuel + 1) iter calls st
        = .returned true st calls) ∧
    (0 < ans.obj →
      feasibilityLoop root varList findValuationPB solver (fuel + 1) iter calls st
        = match addNewProbabilisticCoherenceConstraint root varList findValuationPB
              ans.duals st with
          | none => .threw
          | some (false, st') => .returned false st' (calls + 1)
          | some (true, st') =>
            feasibilityLoop root varList findValuationPB solver fuel (iter + 1)
              (calls + 1) st') :=
  ⟨feasibilityLoop_accept root varList findValuationPB solver fuel iter calls st ans hs,
    feasibilityLoop_price root varList findValuationPB solver fuel iter calls st ans hs⟩

/-- The hypothesis of `acceptance_without_tolerance` holds for an LP solver that reports the
objective value 0: the loop returns `true` at once. -/
theorem acceptance_without_tolerance_witness :
    feasibilityLoop exampleRoot ["p"] none (fun _ _ => some ⟨0, fun _ => 0⟩) 1 1 0
        ⟨exampleRoot.lp, [[false]], [[false]], []⟩
      = .returned true ⟨exampleRoot.lp, [[false]], [[false]], []⟩ 0 :=
  (acceptance_without_tolerance exampleRoot ["p"] none (fun _ _ => some ⟨0, fun _ => 0⟩)
    0 1 0 ⟨exampleRoot.lp, [[false]], [[false]], []⟩ ⟨0, fun _ => 0⟩ rfl).1 (le_refl _)

end Pricing

/-! ## Theorems: the names of the files -/

section FileNames

/-- C29 (the code departs from the claim): for the input path `./input` the report goes to
the file `.out`, not to the sibling `./input.out`: `find_last_of('.')` finds the period of
the directory part. For `dir/input.txt` the two names agree. -/
theorem report_name_leaves_directory :
    outName "./input" = ".out" ∧ siblingOut "./input" = "./input.out" ∧
    outName "data.v2/input" = "data.out" ∧ siblingOut "data.v2/input" = "data.v2/input.out" ∧
    outName "dir/input.txt" = "dir/input.out" ∧
    siblingOut "dir/input.txt" = "dir/input.out" := by
  decide

end FileNames

/-! ## Theorems: the OPB file -/

section PseudoBoolean

theorem exclusionLoop_spec (x : Nat → Bool) : ∀ (vs : List Bool) (num : Nat) (rhs : Int),
    pbSum x (exclusionLoop vs num rhs).1 - (exclusionLoop vs num rhs).2
      = (diffCount x vs num : Int) - rhs
  | [], _, _ => by simp [exclusionLoop, pbSum, diffCount]
  | v :: vs, num, rhs => by
    have ih := exclusionLoop_spec x vs (num + 1) (if v then rhs - 1 else rhs)
    simp only [exclusionLoop, pbSum, diffCount]
    cases v <;> cases hx : x num <;> simp [hx] at ih ⊢ <;> omega

theorem diffCount_pos_iff (x : Nat → Bool) : ∀ (vs : List Bool) (num : Nat),
    0 < diffCount x vs num ↔ ∃ j, j < vs.length ∧ vs[j]? ≠ some (x (num + j))
  | [], _ => by simp [diffCount]
  | v :: vs, num => by
    have ih := diffCount_pos_iff x vs (num + 1)
    simp only [diffCount]
    constructor
    · intro h
      by_cases hv : x num = v
      · rw [if_pos hv, Nat.zero_add] at h
        obtain ⟨j, hj, hne⟩ := ih.mp h
        refine ⟨j + 1, by simp only [List.length_cons]; omega, ?_⟩
        rw [List.getElem?_cons_succ, show num + (j + 1) = num + 1 + j by omega]
        exact hne
      · refine ⟨0, by simp, ?_⟩
        simp only [List.getElem?_cons_zero, Nat.add_zero, ne_eq, Option.some.injEq]
        exact fun h' => hv h'.symm
    · rintro ⟨j, hj, hne⟩
      cases j with
      | zero =>
        simp only [List.getElem?_cons_zero, Nat.add_zero, ne_eq, Option.some.injEq] at hne
        rw [if_neg (fun h' => hne h'.symm)]
        omega
      | succ k =>
        rw [List.getElem?_cons_succ, show num + (k + 1) = num + 1 + k by omega] at hne
        have := ih.mpr ⟨k, by simp only [List.length_cons] at hj; omega, hne⟩
        omega

theorem exclusionLoop_rhs : ∀ (vs : List Bool) (num : Nat) (rhs : Int),
    (exclusionLoop vs num rhs).2 = rhs - (vs.count true : Int)
  | [], _, _ => by simp [exclusionLoop]
  | v :: vs, num, rhs => by
    have ih := exclusionLoop_rhs vs (num + 1) (if v then rhs - 1 else rhs)
    simp only [exclusionLoop]
    cases v <;> simp at ih ⊢ <;> omega

/-- C26: the exclusion line of the OPB file. For every used valuation `v` and every 0/1
assignment `x`, the line `Σⱼ (vⱼ = 0 ? +xⱼ : −xⱼ) ≥ 1 − |{j : vⱼ = 1}|` that `writeOPBFile`
writes for `v` holds if and only if `x` differs from `v` in at least one position. -/
theorem exclusion_constraint_excludes (valuation : List Bool) (x : Nat → Bool) :
    (exclusionConstraint valuation).rhs = 1 - (valuation.count true : Int) ∧
    ((exclusionConstraint valuation).holds x ↔
      ∃ j, j < valuation.length ∧ valuation[j]? ≠ some (x j)) := by
  refine ⟨exclusionLoop_rhs valuation 0 1, ?_⟩
  have h := exclusionLoop_spec x valuation 0 1
  have h2 := diffCount_pos_iff x valuation 0
  simp only [Nat.zero_add] at h2
  rw [← h2]
  simp only [PBConstraint.holds, exclusionConstraint]
  omega

theorem notLines_iff (a : Nat → Bool) (l y : Nat) :
    linesHold a (notLines l y) ↔ a y = !a l := by
  cases hl : a l <;> cases hy : a y <;>
    simp [linesHold, notLines, PBConstraint.holds, pbSum, hl, hy]

theorem binaryLines_iff (a : Nat → Bool) (op : CPLBinary) (l r y : Nat) :
    linesHold a (binaryLines op l r y) ↔ a y = op.truth (a l) (a r) := by
  cases op <;> cases hl : a l <;> cases hr : a r <;> cases hy : a y <;>
    simp [linesHold, binaryLines, PBConstraint.holds, pbSum, CPLBinary.truth, hl, hr, hy]

theorem linesHold_append (a : Nat → Bool) (l1 l2 : List PBConstraint) :
    linesHold a (l1 ++ l2) ↔ linesHold a l1 ∧ linesHold a l2 := by
  simp only [linesHold, List.mem_append]
  constructor
  · intro h
    exact ⟨fun c hc => h c (Or.inl hc), fun c hc => h c (Or.inr hc)⟩
  · rintro ⟨h1, h2⟩ c (hc | hc)
    · exact h1 c hc
    · exact h2 c hc

theorem pbSum_congr (a a' : Nat → Bool) : ∀ (terms : List (Int × Nat)),
    (∀ t ∈ terms, a t.2 = a' t.2) → pbSum a terms = pbSum a' terms
  | [], _ => rfl
  | t :: ts, h => by
    simp only [pbSum, h t (List.mem_cons_self _ _),
      pbSum_congr a a' ts (fun t' ht' => h t' (List.mem_cons_of_mem _ ht'))]

/-- The lines of `IFF` are written without the terminator `;`, all other lines with it. -/
theorem binaryLines_terminated (op : CPLBinary) (l r y : Nat) :
    ∀ line ∈ binaryLines op l r y, line.terminated = decide (op ≠ .IFF) := by
  cases op <;> simp [binaryLines]

theorem binaryLines_terms (op : CPLBinary) (l r y : Nat) :
    ∀ line ∈ binaryLines op l r y, ∀ t ∈ line.terms, t.2 = l ∨ t.2 = r ∨ t.2 = y := by
  intro line hline t ht
  cases op <;>
    simp only [binaryLines, List.mem_cons, List.mem_singleton, List.not_mem_nil,
      or_false] at hline <;>
    rcases hline with rfl | rfl | rfl | rfl <;>
    simp only [List.mem_cons, List.mem_singleton, List.not_mem_nil, or_false] at ht <;>
    rcases ht with rfl | rfl | rfl <;> simp

theorem notLines_terms (l y : Nat) :
    ∀ line ∈ notLines l y, ∀ t ∈ line.terms, t.2 = l ∨ t.2 = y := by
  intro line hline t ht
  simp only [notLines, List.mem_cons, List.mem_singleton, List.not_mem_nil,
    or_false] at hline
  rcases hline with rfl | rfl <;>
    simp only [List.mem_cons, List.mem_singleton, List.not_mem_nil, or_false] at ht <;>
    rcases ht with rfl | rfl <;> simp

/-- The variables of a call of `encodeFormula` with `auxVarCounter = c`: the counter does
not decrease, and the returned variable and the variables of the lines are propositional
variables (below `n`) or fresh variables of this call (from `c` up to the new counter). -/
theorem encodeFormula_scope (varList : List String) : ∀ (psi : CPLFormula) (c : Nat),
    (∀ name ∈ psi.vars, name ∈ varList) →
    c ≤ (encodeFormula varList psi c).counter ∧
    ((encodeFormula varList psi c).outVar < varList.length ∨
      (c ≤ (encodeFormula varList psi c).outVar ∧
        (encodeFormula varList psi c).outVar < (encodeFormula varList psi c).counter)) ∧
    ∀ line ∈ (encodeFormula varList psi c).lines, ∀ t ∈ line.terms,
      t.2 < varList.length ∨ (c ≤ t.2 ∧ t.2 < (encodeFormula varList psi c).counter)
  | .var name, c, h => by
    refine ⟨le_refl _, Or.inl ?_, fun line hl => by cases hl⟩
    exact List.indexOf_lt_length.mpr (h name (by simp [CPLFormula.vars]))
  | .not l, c, h => by
    obtain ⟨h1, h2, h3⟩ := encodeFormula_scope varList l (c + 1) h
    simp only [encodeFormula]
    refine ⟨by omega, Or.inr ⟨le_refl _, by omega⟩, ?_⟩
    intro line hline t ht
    rcases List.mem_append.mp hline with hline | hline
    · rcases h3 line hline t ht with h' | h'
      · exact Or.inl h'
      · exact Or.inr ⟨by omega, h'.2⟩
    · rcases notLines_terms _ _ line hline t ht with h' | h'
      · rw [h']
        rcases h2 with h2 | h2
        · exact Or.inl h2
        · exact Or.inr ⟨by omega, h2.2⟩
      · rw [h']; exact Or.inr ⟨le_refl _, by omega⟩
  | .binary op l r, c, h => by
    have hl : ∀ name ∈ l.vars, name ∈ varList :=
      fun name hn => h name (by simp [CPLFormula.vars, hn])
    have hr : ∀ name ∈ r.vars, name ∈ varList :=
      fun name hn => h name (by simp [CPLFormula.vars, hn])
    obtain ⟨h1, h2, h3⟩ := encodeFormula_scope varList l (c + 1) hl
    obtain ⟨k1, k2, k3⟩ := encodeFormula_scope varList r
      (encodeFormula varList l (c + 1)).counter hr
    simp only [encodeFormula]
    refine ⟨by omega, Or.inr ⟨le_refl _, by omega⟩, ?_⟩
    intro line hline t ht
    rcases List.mem_append.mp hline with hline | hline
    · rcases List.mem_append.mp hline with hline | hline
      · rcases h3 line hline t ht with h' | h'
        · exact Or.inl h'
        · exact Or.inr ⟨by omega, by omega⟩
      · rcases k3 line hline t ht with h' | h'
        · exact Or.inl h'
        · exact Or.inr ⟨by omega, h'.2⟩
    · rcases binaryLines_terms _ _ _ _ line hline t ht with h' | h' | h'
      · rw [h']
        rcases h2 with h2 | h2
        · exact Or.inl h2
        · exact Or.inr ⟨by omega, by omega⟩
      · rw [h']
        rcases k2 with k2 | k2
        · exact Or.inl k2
        · exact Or.inr ⟨by omega, k2.2⟩
      · rw [h']; exact Or.inr ⟨le_refl _, by omega⟩

theorem BoolMap.at_of_mem : ∀ (m : BoolMap) (k : String) (b : Bool),
    (m.map Prod.fst).Nodup → (k, b) ∈ m → m.at k = some b
  | [], _, _, _, h => by cases h
  | (k', b') :: m, k, b, hnd, h => by
    simp only [List.map_cons, List.nodup_cons] at hnd
    simp only [BoolMap.at]
    rcases List.mem_cons.mp h with h | h
    · cases h
      rw [if_pos rfl]
    · have hk : k' ≠ k := by
        intro hk
        apply hnd.1
        rw [hk]
        exact List.mem_map.mpr ⟨(k, b), h, rfl⟩
      rw [if_neg hk]
      exact BoolMap.at_of_mem m k b hnd.2 h

/-- The map that `evaluateCPL` builds from the valuation of an assignment gives a variable
of the table the value of its `x` variable. -/
theorem at_valuationMap (varList : List String) (hnd : varList.Nodup) (a : Nat → Bool)
    (name : String) (h : name ∈ varList) :
    (valuationMap varList (valuationOf varList.length a)).at name
      = some (a (varList.indexOf name)) := by
  apply BoolMap.at_of_mem
  · simp only [valuationMap, List.map_reverse, List.nodup_reverse]
    rw [List.map_fst_zip _ _ (by simp [valuationOf])]
    exact hnd
  · simp only [valuationMap, List.mem_reverse]
    have hlt : varList.indexOf name < varList.length := List.indexOf_lt_length.mpr h
    rw [List.mem_iff_getElem]
    refine ⟨varList.indexOf name, by simp [valuationOf, hlt], ?_⟩
    simp [valuationOf]

theorem linesHold_congr (a a' : Nat → Bool) (lines : List PBConstraint)
    (h : ∀ line ∈ lines, ∀ t ∈ line.terms, a t.2 = a' t.2) :
    linesHold a lines ↔ linesHold a' lines := by
  constructor
  · intro hh line hline
    have := hh line hline
    simp only [PBConstraint.holds] at this ⊢
    rw [← pbSum_congr a a' line.terms (h line hline)]
    exact this
  · intro hh line hline
    have := hh line hline
    simp only [PBConstraint.holds] at this ⊢
    rw [pbSum_congr a a' line.terms (h line hline)]
    exact this

/-- The lines of a call of `encodeFormula` depend only on the propositional variables and
on the fresh variables of the call. -/
theorem encodeFormula_frame (varList : List String) (psi : CPLFormula) (c : Nat)
    (hv : ∀ name ∈ psi.vars, name ∈ varList) (a a' : Nat → Bool)
    (h : ∀ k, (k < varList.length ∨ (c ≤ k ∧ k < (encodeFormula varList psi c).counter)) →
      a k = a' k) :
    linesHold a (encodeFormula varList psi c).lines ↔
      linesHold a' (encodeFormula varList psi c).lines :=
  linesHold_congr a a' _ fun line hline t ht =>
    h t.2 ((encodeFormula_scope varList psi c hv).2.2 line hline t ht)

/-- An assignment that satisfies the lines of `encodeFormula` gives the returned variable
the classical truth value of the formula, as `evaluateCPL` computes it. -/
theorem encodeFormula_value (varList : List String) (hnd : varList.Nodup) (a : Nat → Bool) :
    ∀ (psi : CPLFormula) (c : Nat), (∀ name ∈ psi.vars, name ∈ varList) →
    linesHold a (encodeFormula varList psi c).lines →
    evaluateCPL psi (valuationMap varList (valuationOf varList.length a))
      = some (if a (encodeFormula varList psi c).outVar then 1 else 0)
  | .var name, c, h, _ => by
    simp only [evaluateCPL, encodeFormula,
      at_valuationMap varList hnd a name (h name (by simp [CPLFormula.vars])),
      Option.map_some']
  | .not l, c, h, hl => by
    simp only [encodeFormula, linesHold_append, notLines_iff] at hl
    have ih := encodeFormula_value varList hnd a l (c + 1) h hl.1
    simp only [evaluateCPL, encodeFormula, ih, Option.map_some', hl.2]
    cases a (encodeFormula varList l (c + 1)).outVar <;> simp
  | .binary op l r, c, h, hl => by
    have hlv : ∀ name ∈ l.vars, name ∈ varList :=
      fun name hn => h name (by simp [CPLFormula.vars, hn])
    have hrv : ∀ name ∈ r.vars, name ∈ varList :=
      fun name hn => h name (by simp [CPLFormula.vars, hn])
    simp only [encodeFormula, linesHold_append, binaryLines_iff] at hl
    have ih1 := encodeFormula_value varList hnd a l (c + 1) hlv hl.1.1
    have ih2 := encodeFormula_value varList hnd a r _ hrv hl.1.2
    simp only [evaluateCPL, encodeFormula, ih1, ih2, hl.2]
    cases op <;> cases a (encodeFormula varList l (c + 1)).outVar <;>
      cases a (encodeFormula varList r (encodeFormula varList l (c + 1)).counter).outVar <;>
      simp [CPLBinary.truth]

/-- Every assignment can be changed on the fresh variables of a call of `encodeFormula` so
that the lines of the call hold. -/
theorem encodeFormula_exists (varList : List String) : ∀ (psi : CPLFormula) (c : Nat),
    varList.length ≤ c → (∀ name ∈ psi.vars, name ∈ varList) → ∀ a0 : Nat → Bool,
    ∃ a : Nat → Bool, linesHold a (encodeFormula varList psi c).lines ∧
      ∀ k, ¬ (c ≤ k ∧ k < (encodeFormula varList psi c).counter) → a k = a0 k
  | .var name, c, _, _, a0 => ⟨a0, fun line hl => (by cases hl), fun _ _ => rfl⟩
  | .not l, c, hc, h, a0 => by
    obtain ⟨a1, h1, h2⟩ := encodeFormula_exists varList l (c + 1) (by omega) h a0
    obtain ⟨s1, s2, s3⟩ := encodeFormula_scope varList l (c + 1) h
    have hne : (encodeFormula varList l (c + 1)).outVar ≠ c := by
      rcases s2 with s2 | s2 <;> omega
    refine ⟨Function.update a1 c (!a1 (encodeFormula varList l (c + 1)).outVar), ?_, ?_⟩
    · simp only [encodeFormula, linesHold_append, notLines_iff]
      refine ⟨?_, ?_⟩
      · refine (encodeFormula_frame varList l (c + 1) h _ a1 ?_).mpr h1
        intro k hk
        rw [Function.update_noteq (by omega)]
      · rw [Function.update_same, Function.update_noteq hne]
    · intro k hk
      simp only [encodeFormula] at hk
      rw [Function.update_noteq (by omega)]
      exact h2 k (by omega)
  | .binary op l r, c, hc, h, a0 => by
    have hlv : ∀ name ∈ l.vars, name ∈ varList :=
      fun name hn => h name (by simp [CPLFormula.vars, hn])
    have hrv : ∀ name ∈ r.vars, name ∈ varList :=
      fun name hn => h name (by simp [CPLFormula.vars, hn])
    obtain ⟨s1, s2, s3⟩ := encodeFormula_scope varList l (c + 1) hlv
    obtain ⟨t1, t2, t3⟩ := encodeFormula_scope varList r
      (encodeFormula varList l (c + 1)).counter hrv
    obtain ⟨a1, h1, h2⟩ := encodeFormula_exists varList l (c + 1) (by omega) hlv a0
    obtain ⟨a2, k1, k2⟩ := encodeFormula_exists varList r
      (encodeFormula varList l (c + 1)).counter (by omega) hrv a1
    have hnel : (encodeFormula varList l (c + 1)).outVar ≠ c := by
      rcases s2 with s2 | s2 <;> omega
    have hner : (encodeFormula varList r (encodeFormula varList l (c + 1)).counter).outVar
        ≠ c := by
      rcases t2 with t2 | t2 <;> omega
    refine ⟨Function.update a2 c
      (op.truth (a2 (encodeFormula varList l (c + 1)).outVar)
        (a2 (encodeFormula varList r (encodeFormula varList l (c + 1)).counter).outVar)),
      ?_, ?_⟩
    · simp only [encodeFormula, linesHold_append, binaryLines_iff]
      refine ⟨⟨?_, ?_⟩, ?_⟩
      · refine (encodeFormula_frame varList l (c + 1) hlv _ a1 ?_).mpr h1
        intro k hk
        rw [Function.update_noteq (by omega)]
        exact k2 k (by omega)
      · refine (encodeFormula_frame varList r _ hrv _ a2 ?_).mpr k1
        intro k hk
        rw [Function.update_noteq (by omega)]
      · rw [Function.update_same, Function.update_noteq hnel, Function.update_noteq hner]
    · intro k hk
      simp only [encodeFormula] at hk
      rw [Function.update_noteq (by omega), k2 k (by omega)]
      exact h2 k (by omega)

/-- Two assignments that satisfy the lines of a call of `encodeFormula` and agree on the
propositional variables agree on the fresh variables of the call. -/
theorem encodeFormula_unique (varList : List String) (a a' : Nat → Bool)
    (hprop : ∀ k, k < varList.length → a k = a' k) : ∀ (psi : CPLFormula) (c : Nat),
    varList.length ≤ c → (∀ name ∈ psi.vars, name ∈ varList) →
    linesHold a (encodeFormula varList psi c).lines →
    linesHold a' (encodeFormula varList psi c).lines →
    ∀ k, c ≤ k → k < (encodeFormula varList psi c).counter → a k = a' k
  | .var name, c, _, _, _, _, k, h1, h2 => by
    simp only [encodeFormula] at h2
    omega
  | .not l, c, hc, h, hl, hl', k, h1, h2 => by
    simp only [encodeFormula, linesHold_append, notLines_iff] at hl hl' h2
    obtain ⟨s1, s2, s3⟩ := encodeFormula_scope varList l (c + 1) h
    have ih := encodeFormula_unique varList a a' hprop l (c + 1) (by omega) h hl.1 hl'.1
    have hout : a (encodeFormula varList l (c + 1)).outVar
        = a' (encodeFormula varList l (c + 1)).outVar := by
      rcases s2 with s2 | s2
      · exact hprop _ s2
      · exact ih _ s2.1 s2.2
    by_cases hk : k = c
    · rw [hk, hl.2, hl'.2, hout]
    · exact ih k (by omega) h2
  | .binary op l r, c, hc, h, hl, hl', k, h1, h2 => by
    have hlv : ∀ name ∈ l.vars, name ∈ varList :=
      fun name hn => h name (by simp [CPLFormula.vars, hn])
    have hrv : ∀ name ∈ r.vars, name ∈ varList :=
      fun name hn => h name (by simp [CPLFormula.vars, hn])
    simp only [encodeFormula, linesHold_append, binaryLines_iff] at hl hl' h2
    obtain ⟨s1, s2, s3⟩ := encodeFormula_scope varList l (c + 1) hlv
    obtain ⟨t1, t2, t3⟩ := encodeFormula_scope varList r
      (encodeFormula varList l (c + 1)).counter hrv
    have ih1 := encodeFormula_unique varList a a' hprop l (c + 1) (by omega) hlv
      hl.1.1 hl'.1.1
    have ih2 := encodeFormula_unique varList a a' hprop r _ (by omega) hrv hl.1.2 hl'.1.2
    have houtl : a (encodeFormula varList l (c + 1)).outVar
        = a' (encodeFormula varList l (c + 1)).outVar := by
      rcases s2 with s2 | s2
      · exact hprop _ s2
      · exact ih1 _ s2.1 s2.2
    have houtr : a (encodeFormula varList r (encodeFormula varList l (c + 1)).counter).outVar
        = a' (encodeFormula varList r (encodeFormula varList l (c + 1)).counter).outVar := by
      rcases t2 with t2 | t2
      · exact hprop _ t2
      · exact ih2 _ t2.1 t2.2
    by_cases hk : k = c
    · rw [hk, hl.2, hl'.2, houtl, houtr]
    · by_cases hk2 : k < (encodeFormula varList l (c + 1)).counter
      · exact ih1 k (by omega) hk2
      · exact ih2 k (by omega) h2

theorem range'_glue (c c1 c2 : Nat) (h1 : c + 1 ≤ c1) (h2 : c1 ≤ c2) :
    c :: (List.range' (c + 1) (c1 - (c + 1)) ++ List.range' c1 (c2 - c1))
      = List.range' c (c2 - c) := by
  obtain ⟨n1, rfl⟩ := Nat.exists_eq_add_of_le h1
  obtain ⟨n2, rfl⟩ := Nat.exists_eq_add_of_le h2
  rw [show c + 1 + n1 + n2 - c = (n1 + n2) + 1 by omega, List.range'_succ,
    show c + 1 + n1 - (c + 1) = n1 by omega, show c + 1 + n1 + n2 - (c + 1 + n1) = n2 by omega,
    List.range'_append_1, Nat.add_comm n2 n1]

/-- The fresh variables of a call of `encodeFormula` with `auxVarCounter = c` are
`c, c + 1, …` up to the new counter, each taken once. -/
theorem auxVars_eq (varList : List String) : ∀ (psi : CPLFormula) (c : Nat),
    auxVars varList psi c
      = List.range' c ((encodeFormula varList psi c).counter - c) ∧
    c ≤ (encodeFormula varList psi c).counter
  | .var name, c => by simp [auxVars, encodeFormula]
  | .not l, c => by
    obtain ⟨h1, h2⟩ := auxVars_eq varList l (c + 1)
    refine ⟨?_, by simp only [encodeFormula]; omega⟩
    simp only [auxVars, encodeFormula, h1]
    rw [show (encodeFormula varList l (c + 1)).counter - c
      = ((encodeFormula varList l (c + 1)).counter - (c + 1)) + 1 by omega,
      List.range'_succ]
  | .binary op l r, c => by
    obtain ⟨h1, h2⟩ := auxVars_eq varList l (c + 1)
    obtain ⟨k1, k2⟩ := auxVars_eq varList r (encodeFormula varList l (c + 1)).counter
    refine ⟨?_, by simp only [encodeFormula]; omega⟩
    simp only [auxVars, encodeFormula, h1, k1]
    exact range'_glue _ _ _ h2 k2

theorem mem_auxVars (varList : List String) (psi : CPLFormula) (c k : Nat) :
    k ∈ auxVars varList psi c ↔ c ≤ k ∧ k < (encodeFormula varList psi c).counter := by
  obtain ⟨h1, h2⟩ := auxVars_eq varList psi c
  rw [h1, List.mem_range'_1]
  constructor
  · rintro ⟨a, b⟩; exact ⟨a, by omega⟩
  · rintro ⟨a, b⟩; exact ⟨a, by omega⟩

/-- The lines written for `ψ`, each read by its terms, relation and right-hand side, whether
it ends with `;` or not: for a variable table without repetitions, every CPL formula `ψ`
over it, every value `c ≥ n` of `auxVarCounter` and every 0/1 assignment `w`, the fresh
variables that `encodeFormula` takes are pairwise distinct and distinct from
`x0 … x(n−1)`, exactly one assignment that agrees with `w` outside the fresh variables
satisfies the lines, and it gives the returned variable the classical truth value of `ψ`
under `w`, as `evaluateCPL` computes it. -/
theorem tseitin_encoding_correct (varList : List String) (hnd : varList.Nodup)
    (psi : CPLFormula) (c : Nat) (hc : varList.length ≤ c)
    (hv : ∀ name ∈ psi.vars, name ∈ varList) (w : Nat → Bool) :
    (auxVars varList psi c).Nodup ∧ (∀ y ∈ auxVars varList psi c, varList.length ≤ y) ∧
    ∃ a : Nat → Bool,
      (linesHold a (encodeFormula varList psi c).lines ∧
        ∀ k, k ∉ auxVars varList psi c → a k = w k) ∧
      (∀ a' : Nat → Bool, linesHold a' (encodeFormula varList psi c).lines →
        (∀ k, k ∉ auxVars varList psi c → a' k = w k) → a' = a) ∧
      evaluateCPL psi (valuationMap varList (valuationOf varList.length w))
        = some (if a (encodeFormula varList psi c).outVar then 1 else 0) := by
  refine ⟨?_, ?_, ?_⟩
  · rw [(auxVars_eq varList psi c).1]
    exact List.nodup_range' _ _
  · intro y hy
    have := (mem_auxVars varList psi c y).mp hy
    omega
  · obtain ⟨a, ha1, ha2⟩ := encodeFormula_exists varList psi c hc hv w
    have hout : ∀ (a' : Nat → Bool), (∀ k, k ∉ auxVars varList psi c → a' k = w k) →
        ∀ k, k < varList.length → a' k = w k := by
      intro a' h k hk
      refine h k ?_
      rw [mem_auxVars]
      omega
    have haw : ∀ k, k ∉ auxVars varList psi c → a k = w k := by
      intro k hk
      rw [mem_auxVars] at hk
      exact ha2 k hk
    refine ⟨a, ⟨ha1, haw⟩, ?_, ?_⟩
    · intro a' hl' hw'
      funext k
      by_cases hk : k ∈ auxVars varList psi c
      · have hk' := (mem_auxVars varList psi c k).mp hk
        exact encodeFormula_unique varList a' a
          (fun j hj => by rw [hout a' hw' j hj, hout a haw j hj]) psi c hc hv hl' ha1 k
          hk'.1 hk'.2
      · rw [hw' k hk, haw k hk]
    · have hval : valuationOf varList.length w = valuationOf varList.length a := by
        simp only [valuationOf]
        apply List.map_congr_left
        intro k hk
        exact (hout a haw k (List.mem_range.mp hk)).symm
      rw [hval]
      exact encodeFormula_value varList hnd a psi c hv ha1

/-- The hypotheses of `tseitin_encoding_correct` hold for the table `p, q`, the formula
`¬p ↔ (p ∧ q)`, the counter 2 and the all-false assignment. -/
theorem tseitin_encoding_correct_witness :
    (["p", "q"] : List String).Nodup ∧
    (["p", "q"] : List String).length ≤ 2 ∧
    (∀ name ∈ CPLFormula.vars (.binary .IFF (.not (.var "p")) (.binary .AND (.var "p") (.var "q"))),
      name ∈ (["p", "q"] : List String)) ∧
    ((auxVars ["p", "q"] (.binary .IFF (.not (.var "p")) (.binary .AND (.var "p") (.var "q"))) 2).Nodup ∧
      (∀ y ∈ auxVars ["p", "q"] (.binary .IFF (.not (.var "p")) (.binary .AND (.var "p") (.var "q"))) 2,
        (["p", "q"] : List String).length ≤ y) ∧
      ∃ a : Nat → Bool,
        (linesHold a (encodeFormula ["p", "q"] (.binary .IFF (.not (.var "p")) (.binary .AND (.var "p") (.var "q"))) 2).lines ∧
          ∀ k, k ∉ auxVars ["p", "q"] (.binary .IFF (.not (.var "p")) (.binary .AND (.var "p") (.var "q"))) 2 →
            a k = (fun _ => false) k) ∧
        (∀ a' : Nat → Bool,
          linesHold a' (encodeFormula ["p", "q"] (.binary .IFF (.not (.var "p")) (.binary .AND (.var "p") (.var "q"))) 2).lines →
          (∀ k, k ∉ auxVars ["p", "q"] (.binary .IFF (.not (.var "p")) (.binary .AND (.var "p") (.var "q"))) 2 →
            a' k = (fun _ => false) k) → a' = a) ∧
        evaluateCPL (.binary .IFF (.not (.var "p")) (.binary .AND (.var "p") (.var "q")))
            (valuationMap ["p", "q"] (valuationOf (["p", "q"] : List String).length (fun _ => false)))
          = some (if a (encodeFormula ["p", "q"] (.binary .IFF (.not (.var "p")) (.binary .AND (.var "p") (.var "q"))) 2).outVar
              then 1 else 0)) :=
  ⟨by decide, by decide, by decide,
    tseitin_encoding_correct ["p", "q"] (by decide)
      (.binary .IFF (.not (.var "p")) (.binary .AND (.var "p") (.var "q"))) 2 (by decide)
      (by decide) (fun _ => false)⟩

theorem notLines_terminated (l y : Nat) : ∀ line ∈ notLines l y, line.terminated = true := by
  simp [notLines]

/-- All lines written for `ψ` end with the terminator `;` exactly when `ψ` has no `↔`. -/
theorem encodeFormula_terminated (varList : List String) : ∀ (psi : CPLFormula) (c : Nat),
    (∀ line ∈ (encodeFormula varList psi c).lines, line.terminated = true) ↔
      psi.hasIff = false
  | .var _, c => by simp [encodeFormula, CPLFormula.hasIff]
  | .not l, c => by
    have ih := encodeFormula_terminated varList l (c + 1)
    simp only [encodeFormula, CPLFormula.hasIff, List.mem_append]
    rw [← ih]
    constructor
    · intro h line hl
      exact h line (Or.inl hl)
    · intro h line hl
      rcases hl with hl | hl
      · exact h line hl
      · exact notLines_terminated _ _ line hl
  | .binary op l r, c => by
    have ihl := encodeFormula_terminated varList l (c + 1)
    have ihr := encodeFormula_terminated varList r (encodeFormula varList l (c + 1)).counter
    simp only [encodeFormula, CPLFormula.hasIff, List.mem_append, Bool.or_eq_false_iff,
      decide_eq_false_iff_not]
    rw [← ihl, ← ihr]
    constructor
    · intro h
      refine ⟨?_, fun line hl => h line (Or.inl (Or.inl hl)),
        fun line hl => h line (Or.inl (Or.inr hl))⟩
      intro hop
      subst hop
      have := h ⟨[(-1, c), (-1, (encodeFormula varList l (c + 1)).outVar),
        (1, (encodeFormula varList r (encodeFormula varList l (c + 1)).counter).outVar)],
        -1, false⟩ (Or.inr (by simp [binaryLines]))
      cases this
    · rintro ⟨hop, h1, h2⟩ line hl
      rcases hl with (hl | hl) | hl
      · exact h1 line hl
      · exact h2 line hl
      · rw [binaryLines_terminated op _ _ _ line hl]
        simpa using hop

/-- C27 (the code departs from the claim): the four lines that `encodeFormula` writes for a
node `↔` have no terminator `;`, unlike the lines of `¬`, `∧`, `∨` and `→`: all the lines
written for `ψ` end with `;` exactly when `ψ` has no `↔`. For `¬(p ↔ q)` over the table
`p, q` the text written is the six lines below with the indicator `x2`; the four lines of
`↔` (fresh variable `x3`) are not terminated, so the file does not carry them as four
constraints. -/
theorem iff_lines_lack_terminator :
    (∀ (varList : List String) (psi : CPLFormula) (c : Nat),
      (∀ line ∈ (encodeFormula varList psi c).lines, line.terminated = true) ↔
        psi.hasIff = false) ∧
    (encodeFormula ["p", "q"] (.not (.binary .IFF (.var "p") (.var "q"))) 2).lines
      = [⟨[(-1, 3), (-1, 0), (1, 1)], -1, false⟩, ⟨[(-1, 3), (1, 0), (-1, 1)], -1, false⟩,
         ⟨[(-1, 0), (-1, 1), (1, 3)], -1, false⟩, ⟨[(1, 0), (1, 1), (1, 3)], 1, false⟩,
         ⟨[(1, 3), (1, 2)], 1, true⟩, ⟨[(-1, 3), (-1, 2)], -1, true⟩] ∧
    (encodeFormula ["p", "q"] (.not (.binary .IFF (.var "p") (.var "q"))) 2).outVar = 2 :=
  ⟨encodeFormula_terminated, by decide, by decide⟩

end PseudoBoolean

/-! ## Theorems: the reader of the PB solver's output -/

section PBReader

theorem stoi_digits (ds : List Char) (hne : ds ≠ []) (hd : ∀ d ∈ ds, d.isDigit = true)
    (hlt : decimal ds < 2 ^ 31) : stoi ds = some (decimal ds : Int) := by
  cases ds with
  | nil => exact absurd rfl hne
  | cons c rest =>
    have hc := hd c (List.mem_cons_self _ _)
    have h1 : c ≠ '-' := by
      intro h; rw [h] at hc; exact absurd hc (by decide)
    have h2 : c ≠ '+' := by
      intro h; rw [h] at hc; exact absurd hc (by decide)
    have htake : (c :: rest).takeWhile Char.isDigit = c :: rest :=
      List.takeWhile_eq_self_iff.mpr hd
    simp only [stoi, if_neg h1, if_neg h2, htake]
    rw [if_neg (by simp), if_neg (by omega)]

theorem getElem?_set_true (v : List Bool) (i k : Nat) (hi : i < v.length) :
    (v.set i true)[k]? = some true ↔ k = i ∨ v[k]? = some true := by
  rw [List.getElem?_set]
  by_cases hik : i = k
  · subst hik
    simp [hi]
  · rw [if_neg hik]
    constructor
    · exact Or.inr
    · rintro (h | h)
      · exact absurd h.symm hik
      · exact h

/-- One token of a well-formed `v ` line: the valuation keeps its length, and an entry is
true afterwards if and only if it was true before or the token is its literal. -/
theorem applyToken_spec (n : Nat) (v : List Bool) (hlen : v.length = n) (token : List Char)
    (hw : ∀ ds, token = 'x' :: ds →
      ds ≠ [] ∧ (∀ d ∈ ds, d.isDigit = true) ∧ decimal ds < 2 ^ 31) :
    ∃ v', applyToken n v token = some v' ∧ v'.length = n ∧
      ∀ k, k < n → (v'[k]? = some true ↔ v[k]? = some true ∨ IsLiteral token k) := by
  have hnolit : ∀ c rest, token = c :: rest → c ≠ 'x' → ∀ k, ¬ IsLiteral token k := by
    rintro c rest rfl hc k ⟨ds, h, _⟩
    simp only [List.cons.injEq] at h
    exact hc h.1
  cases token with
  | nil =>
    refine ⟨v, rfl, hlen, fun k _ => ⟨Or.inl, ?_⟩⟩
    rintro (h | ⟨ds, h, _⟩)
    · exact h
    · cases h
  | cons c rest =>
    by_cases h1 : c = '-'
    · refine ⟨v, by simp only [applyToken, if_pos h1], hlen, fun k _ => ⟨Or.inl, ?_⟩⟩
      rintro (h | h)
      · exact h
      · exact absurd h (hnolit c rest rfl (by rw [h1]; decide) k)
    · by_cases h2 : c = 'x'
      · subst h2
        obtain ⟨hne, hd, hlt⟩ := hw rest rfl
        have hstoi := stoi_digits rest hne hd hlt
        by_cases hidx : decimal rest < n
        · refine ⟨v.set (decimal rest) true, ?_, by rw [List.length_set]; exact hlen, ?_⟩
          · simp only [applyToken, if_neg h1, if_pos, hstoi]
            rw [if_pos (by exact_mod_cast hidx), if_neg (by omega)]
            simp
          · intro k hk
            rw [getElem?_set_true v _ k (by omega)]
            constructor
            · rintro (h | h)
              · exact Or.inr ⟨rest, rfl, hne, hd, h.symm⟩
              · exact Or.inl h
            · rintro (h | ⟨ds, h, _, _, hk'⟩)
              · exact Or.inr h
              · simp only [List.cons.injEq, true_and] at h
                subst h
                exact Or.inl hk'.symm
        · refine ⟨v, ?_, hlen, ?_⟩
          · simp only [applyToken, if_neg h1, if_pos, hstoi]
            rw [if_neg (by exact_mod_cast hidx)]
          · intro k hk
            constructor
            · exact Or.inl
            · rintro (h | ⟨ds, h, _, _, hk'⟩)
              · exact h
              · simp only [List.cons.injEq, true_and] at h
                subst h
                omega
      · refine ⟨v, by simp only [applyToken, if_neg h1, if_neg h2], hlen,
          fun k _ => ⟨Or.inl, ?_⟩⟩
        rintro (h | h)
        · exact h
        · exact absurd h (hnolit c rest rfl h2 k)

theorem applyTokens_spec (n : Nat) : ∀ (tokens : List (List Char)) (v : List Bool),
    v.length = n →
    (∀ token ∈ tokens, ∀ ds, token = 'x' :: ds →
      ds ≠ [] ∧ (∀ d ∈ ds, d.isDigit = true) ∧ decimal ds < 2 ^ 31) →
    ∃ v', applyTokens n v tokens = some v' ∧ v'.length = n ∧
      ∀ k, k < n →
        (v'[k]? = some true ↔ v[k]? = some true ∨ ∃ token ∈ tokens, IsLiteral token k)
  | [], v, hlen, _ => ⟨v, rfl, hlen, fun k _ => ⟨Or.inl, fun h => h.elim id
      (fun ⟨_, ht, _⟩ => (by cases ht))⟩⟩
  | token :: rest, v, hlen, hw => by
    obtain ⟨v1, h1, hl1, hk1⟩ := applyToken_spec n v hlen token
      (hw token (List.mem_cons_self _ _))
    obtain ⟨v2, h2, hl2, hk2⟩ := applyTokens_spec n rest v1 hl1
      (fun t ht => hw t (List.mem_cons_of_mem _ ht))
    refine ⟨v2, by simp only [applyTokens, h1, h2], hl2, ?_⟩
    intro k hk
    rw [hk2 k hk, hk1 k hk]
    constructor
    · rintro ((h | h) | ⟨t, ht, h⟩)
      · exact Or.inl h
      · exact Or.inr ⟨token, List.mem_cons_self _ _, h⟩
      · exact Or.inr ⟨t, List.mem_cons_of_mem _ ht, h⟩
    · rintro (h | ⟨t, ht, h⟩)
      · exact Or.inl (Or.inl h)
      · rcases List.mem_cons.mp ht with rfl | ht
        · exact Or.inl (Or.inr h)
        · exact Or.inr ⟨t, ht, h⟩

theorem startsWithV_unsat (line : String) (h : line = "s UNSATISFIABLE") :
    startsWithV line = false := by
  subst h
  decide

theorem LiteralsOnly.tail {line : String} {rest : List String}
    (h : LiteralsOnly (line :: rest)) : LiteralsOnly rest :=
  fun l hl => h l (List.mem_cons_of_mem _ hl)

/-- The loop over the lines of the output, on lines whose `v ` lines hold well-formed
literals only: a line that is exactly `s UNSATISFIABLE` ends it without a valuation;
otherwise the valuation collects the literals of the `v ` lines, and is returned when the
flag was set or a `v ` line was read. -/
theorem readLines_spec (n : Nat) : ∀ (lines : List String) (found : Bool) (v : List Bool),
    v.length = n → LiteralsOnly lines →
    ((∃ line ∈ lines, line = "s UNSATISFIABLE") → readLines n lines found v = some none) ∧
    ((∀ line ∈ lines, line ≠ "s UNSATISFIABLE") →
      ∃ v', v'.length = n ∧
        (∀ k, k < n → (v'[k]? = some true ↔ v[k]? = some true ∨
          ∃ line ∈ lines, startsWithV line = true ∧ ∃ token ∈ pbTokens line,
            IsLiteral token k)) ∧
        readLines n lines found v
          = some (if (found || lines.any startsWithV) = true then some v' else none))
  | [], found, v, hlen, _ => by
    refine ⟨?_, fun _ => ⟨v, hlen, ?_, ?_⟩⟩
    · rintro ⟨l, hl, _⟩
      cases hl
    · intro k _
      constructor
      · exact Or.inl
      · rintro (h | ⟨l, hl, _⟩)
        · exact h
        · cases hl
    · cases found <;> simp [readLines]
  | line :: rest, found, v, hlen, hlit => by
    by_cases hv : startsWithV line = true
    · obtain ⟨v1, h1, hl1, hk1⟩ := applyTokens_spec n (pbTokens line) v hlen
        (hlit line (List.mem_cons_self _ _) hv)
      have hstep : readLines n (line :: rest) found v = readLines n rest true v1 := by
        simp only [readLines, if_pos hv, h1]
      obtain ⟨ih1, ih2⟩ := readLines_spec n rest true v1 hl1 hlit.tail
      refine ⟨?_, ?_⟩
      · rintro ⟨l, hl, hu⟩
        rw [hstep]
        rcases List.mem_cons.mp hl with rfl | hl
        · rw [startsWithV_unsat l hu] at hv
          cases hv
        · exact ih1 ⟨l, hl, hu⟩
      · intro hno
        obtain ⟨v2, hl2, hk2, hr2⟩ := ih2 (fun l hl => hno l (List.mem_cons_of_mem _ hl))
        refine ⟨v2, hl2, ?_, ?_⟩
        · intro k hk
          rw [hk2 k hk, hk1 k hk]
          constructor
          · rintro ((h | ⟨t, ht, h⟩) | ⟨l, hl, hs, h⟩)
            · exact Or.inl h
            · exact Or.inr ⟨line, List.mem_cons_self _ _, hv, t, ht, h⟩
            · exact Or.inr ⟨l, List.mem_cons_of_mem _ hl, hs, h⟩
          · rintro (h | ⟨l, hl, hs, h⟩)
            · exact Or.inl (Or.inl h)
            · rcases List.mem_cons.mp hl with rfl | hl
              · exact Or.inl (Or.inr h)
              · exact Or.inr ⟨l, hl, hs, h⟩
        · rw [hstep, hr2]
          simp [hv]
    · have hv' : startsWithV line = false := by
        cases h : startsWithV line
        · rfl
        · exact absurd h hv
      by_cases hu : line = "s UNSATISFIABLE"
      · refine ⟨fun _ => ?_, fun hno => absurd hu (hno line (List.mem_cons_self _ _))⟩
        simp only [readLines, hv', if_pos hu]
        simp
      · have hstep : readLines n (line :: rest) found v = readLines n rest found v := by
          simp only [readLines, hv', if_neg hu]
          simp
        obtain ⟨ih1, ih2⟩ := readLines_spec n rest found v hlen hlit.tail
        refine ⟨?_, ?_⟩
        · rintro ⟨l, hl, hu'⟩
          rw [hstep]
          rcases List.mem_cons.mp hl with rfl | hl
          · exact absurd hu' hu
          · exact ih1 ⟨l, hl, hu'⟩
        · intro hno
          obtain ⟨v2, hl2, hk2, hr2⟩ := ih2 (fun l hl => hno l (List.mem_cons_of_mem _ hl))
          refine ⟨v2, hl2, ?_, ?_⟩
          · intro k hk
            rw [hk2 k hk]
            constructor
            · rintro (h | ⟨l, hl, hs, h⟩)
              · exact Or.inl h
              · exact Or.inr ⟨l, List.mem_cons_of_mem _ hl, hs, h⟩
            · rintro (h | ⟨l, hl, hs, h⟩)
              · exact Or.inl h
              · rcases List.mem_cons.mp hl with rfl | hl
                · rw [hv'] at hs
                  cases hs
                · exact Or.inr ⟨l, hl, hs, h⟩
          · rw [hstep, hr2]
            simp [hv']

theorem getElem?_replicate_false (n k : Nat) :
    ¬ ((List.replicate n false)[k]? = some true) := by
  intro h
  have := List.getElem?_mem h
  simp [List.mem_replicate] at this

/-- C28, what the code does: a line that merely begins with `s UNSATISFIABLE` (here it
is followed by a blank) does not stop the reader, which returns the valuation of the `v `
line; and on a `v ` line with the token `xy` the conversion of the index throws, so that
the reader returns nothing at all. -/
theorem unsat_line_needs_exact_match :
    "s UNSATISFIABLE".data.isPrefixOf "s UNSATISFIABLE ".data = true ∧
    readPBOutput 1 ["v x0", "s UNSATISFIABLE "] = some (some [true]) ∧
    readPBOutput 1 ["v xy"] = none := by
  refine ⟨by decide, by decide, by decide⟩

/-- C28, amended: for every sequence of output lines whose `v ` lines hold, among the
tokens that begin with `x`, only `x` followed by a decimal index below `2 ^ 31`, the
reader returns no valuation if some line is exactly `s UNSATISFIABLE` or if no line begins
with `v `; otherwise it returns the valuation of length `n` in which variable `k` is true
exactly when an unsigned literal `xk` with `k < n` occurs on some `v ` line, every other
variable being false. -/
theorem pb_output_reader (n : Nat) (lines : List String) (hlit : LiteralsOnly lines) :
    (((∃ line ∈ lines, line = "s UNSATISFIABLE") ∨
        (∀ line ∈ lines, startsWithV line = false)) →
      readPBOutput n lines = some none) ∧
    (¬ ((∃ line ∈ lines, line = "s UNSATISFIABLE") ∨
        (∀ line ∈ lines, startsWithV line = false)) →
      ∃ v, readPBOutput n lines = some (some v) ∧ v.length = n ∧
        ∀ k, k < n →
          (v[k]? = some true ↔
            ∃ line ∈ lines, startsWithV line = true ∧ ∃ token ∈ pbTokens line,
              IsLiteral token k) ∧
          (v[k]? = some true ∨ v[k]? = some false)) := by
  obtain ⟨h1, h2⟩ := readLines_spec n lines false (List.replicate n false)
    (List.length_replicate _ _) hlit
  by_cases hu : ∃ line ∈ lines, line = "s UNSATISFIABLE"
  · exact ⟨fun _ => h1 hu, fun h => absurd (Or.inl hu) h⟩
  · obtain ⟨v, hl, hk, hr⟩ := h2 (fun l hl h => hu ⟨l, hl, h⟩)
    refine ⟨?_, ?_⟩
    · rintro (h | h)
      · exact absurd h hu
      · unfold readPBOutput
        rw [hr, if_neg]
        simp only [Bool.false_or, List.any_eq_true, not_exists, not_and]
        intro l hl'
        rw [h l hl']
        decide
    · intro hnot
      have hsome : ∃ line ∈ lines, startsWithV line = true := by
        by_contra hc
        apply hnot
        right
        intro l hl'
        cases hs : startsWithV l
        · rfl
        · exact absurd ⟨l, hl', hs⟩ hc
      refine ⟨v, ?_, hl, ?_⟩
      · unfold readPBOutput
        rw [hr, if_pos]
        simp only [Bool.false_or, List.any_eq_true]
        exact hsome
      · intro k hkn
        refine ⟨?_, ?_⟩
        · rw [hk k hkn]
          constructor
          · rintro (h | h)
            · exact absurd h (getElem?_replicate_false n k)
            · exact h
          · exact Or.inr
        · have hlt : k < v.length := by omega
          rw [List.getElem?_eq_getElem hlt]
          cases v[k] <;> simp

theorem pb_output_reader_witness :
    LiteralsOnly ["c done", "v x0 -x1", "v x2 x7"] ∧
    readPBOutput 3 ["c done", "v x0 -x1", "v x2 x7"] = some (some [true, false, true]) ∧
    ((((∃ line ∈ ["c done", "v x0 -x1", "v x2 x7"], line = "s UNSATISFIABLE") ∨
        (∀ line ∈ ["c done", "v x0 -x1", "v x2 x7"], startsWithV line = false)) →
      readPBOutput 3 ["c done", "v x0 -x1", "v x2 x7"] = some none) ∧
    (¬ ((∃ line ∈ ["c done", "v x0 -x1", "v x2 x7"], line = "s UNSATISFIABLE") ∨
        (∀ line ∈ ["c done", "v x0 -x1", "v x2 x7"], startsWithV line = false)) →
      ∃ v, readPBOutput 3 ["c done", "v x0 -x1", "v x2 x7"] = some (some v) ∧ v.length = 3 ∧
        ∀ k, k < 3 →
          (v[k]? = some true ↔
            ∃ line ∈ ["c done", "v x0 -x1", "v x2 x7"], startsWithV line = true ∧
              ∃ token ∈ pbTokens line, IsLiteral token k) ∧
          (v[k]? = some true ∨ v[k]? = some false))) := by
  have hlit : LiteralsOnly ["c done", "v x0 -x1", "v x2 x7"] := by
    intro line hl hv token ht ds hds
    simp only [List.mem_cons, List.mem_singleton, List.not_mem_nil, or_false] at hl
    rcases hl with rfl | rfl | rfl
    · exact absurd hv (by decide)
    · have : token = "x0".data ∨ token = "-x1".data := by
        have h : pbTokens "v x0 -x1" = ["x0".data, "-x1".data] := by decide
        rw [h] at ht
        simpa using ht
      rcases this with rfl | rfl
      · have : ds = ['0'] := by
          have h : "x0".data = 'x' :: ['0'] := by decide
          rw [h] at hds
          simpa using hds.symm
        subst this
        decide
      · have h : "-x1".data = '-' :: ['x', '1'] := by decide
        rw [h] at hds
        simp at hds
    · have : token = "x2".data ∨ token = "x7".data := by
        have h : pbTokens "v x2 x7" = ["x2".data, "x7".data] := by decide
        rw [h] at ht
        simpa using ht
      rcases this with rfl | rfl
      · have : ds = ['2'] := by
          have h : "x2".data = 'x' :: ['2'] := by decide
          rw [h] at hds
          simpa using hds.symm
        subst this
        decide
      · have : ds = ['7'] := by
          have h : "x7".data = 'x' :: ['7'] := by decide
          rw [h] at hds
          simpa using hds.symm
        subst this
        decide
  exact ⟨hlit, by decide, pb_output_reader 3 ["c done", "v x0 -x1", "v x2 x7"] hlit⟩

end PBReader

/-! ## Theorems: the variables of the encoder -/

section EncoderVariables

theorem xName_inj {a b : String} (h : "x(" ++ a ++ ")" = "x(" ++ b ++ ")") : a = b := by
  have h' := congrArg String.data h
  simp only [String.data_append] at h'
  exact String.ext (List.append_cancel_left (List.append_cancel_right h'))

theorem bName_inj {a b : String} (h : "b(" ++ a ++ ")" = "b(" ++ b ++ ")") : a = b := by
  have h' := congrArg String.data h
  simp only [String.data_append] at h'
  exact String.ext (List.append_cancel_left (List.append_cancel_right h'))

theorem xName_ne_bName (a b : String) : "x(" ++ a ++ ")" ≠ "b(" ++ b ++ ")" := by
  intro h
  have h' := congrArg String.data h
  simp [String.data_append] at h'

theorem getElem?_concat_iff {β : Type} (l : List β) (a b : β) (i : Nat) :
    (l ++ [a])[i]? = some b ↔ l[i]? = some b ∨ (i = l.length ∧ a = b) := by
  rcases Nat.lt_trichotomy i l.length with hi | hi | hi
  · rw [List.getElem?_append_left hi]
    constructor
    · exact Or.inl
    · rintro (h | ⟨h, _⟩)
      · exact h
      · omega
  · subst hi
    have e : (l ++ [a])[l.length]? = some a := by simp
    rw [e]
    have e2 : l[l.length]? = none := List.getElem?_eq_none (Nat.le_refl _)
    rw [e2]
    simp
  · have e : (l ++ [a])[i]? = none :=
      List.getElem?_eq_none (by simp only [List.length_append, List.length_singleton]; omega)
    have e2 : l[i]? = none := List.getElem?_eq_none (by omega)
    rw [e, e2]
    constructor
    · intro h; cases h
    · rintro (h | ⟨h, _⟩)
      · cases h
      · omega

theorem LinearProgram.addConstraints_nameToIndex (lp : LinearProgram)
    (cs : List Constraint) : (lp.addConstraints cs).nameToIndex = lp.nameToIndex := by
  unfold LinearProgram.addConstraints
  induction cs generalizing lp with
  | nil => rfl
  | cons c cs ih =>
    simp only [List.foldl_cons]
    rw [ih]
    rfl

theorem StrMap.count_insert (m : StrMap) (k k' : String) (i : Nat) :
    (m.insert k i).count k' = true ↔ k' = k ∨ m.count k' = true := by
  simp only [StrMap.count, StrMap.find_insert]
  by_cases h : k = k'
  · rw [if_pos h]; simp [h]
  · rw [if_neg h]
    constructor
    · exact Or.inr
    · rintro (h' | h')
      · exact absurd h'.symm h
      · exact h'

theorem count_of_find {m : StrMap} {k : String} {i : Nat} (h : m.find k = some i) :
    m.count k = true := by
  simp [StrMap.count, h]

theorem ModalFormula.subformulas_trans : ∀ (f g h : ModalFormula),
    g ∈ f.subformulas → h ∈ g.subformulas → h ∈ f.subformulas
  | .patom phi, g, h, hg, hh => by
    simp only [ModalFormula.subformulas, List.mem_singleton] at hg
    rw [hg] at hh
    exact hh
  | .not l, g, h, hg, hh => by
    simp only [ModalFormula.subformulas, List.mem_cons] at hg
    rcases hg with hg | hg
    · rw [hg] at hh; exact hh
    · simp only [ModalFormula.subformulas, List.mem_cons]
      exact Or.inr (ModalFormula.subformulas_trans l g h hg hh)
  | .binary op l r, g, h, hg, hh => by
    simp only [ModalFormula.subformulas, List.mem_cons, List.mem_append] at hg
    rcases hg with hg | hg | hg
    · rw [hg] at hh; exact hh
    · simp only [ModalFormula.subformulas, List.mem_cons, List.mem_append]
      exact Or.inr (Or.inl (ModalFormula.subformulas_trans l g h hg hh))
    · simp only [ModalFormula.subformulas, List.mem_cons, List.mem_append]
      exact Or.inr (Or.inr (ModalFormula.subformulas_trans r g h hg hh))

theorem ModalFormula.sizeOf_le_of_mem_subformulas : ∀ (f g : ModalFormula),
    g ∈ f.subformulas → sizeOf g ≤ sizeOf f
  | .patom phi, g, hg => by
    simp only [ModalFormula.subformulas, List.mem_singleton] at hg
    rw [hg]
  | .not l, g, hg => by
    simp only [ModalFormula.subformulas, List.mem_cons] at hg
    rcases hg with hg | hg
    · rw [hg]
    · have := ModalFormula.sizeOf_le_of_mem_subformulas l g hg
      simp only [ModalFormula.not.sizeOf_spec]
      omega
  | .binary op l r, g, hg => by
    simp only [ModalFormula.subformulas, List.mem_cons, List.mem_append] at hg
    rcases hg with hg | hg | hg
    · rw [hg]
    · have := ModalFormula.sizeOf_le_of_mem_subformulas l g hg
      simp only [ModalFormula.binary.sizeOf_spec]
      omega
    · have := ModalFormula.sizeOf_le_of_mem_subformulas r g hg
      simp only [ModalFormula.binary.sizeOf_spec]
      omega

theorem SubClosed.union {T : ModalFormula → Prop} (hT : SubClosed T) {l : ModalFormula}
    (hl : l.wellFormed = true) : SubClosed (fun g => T g ∨ g ∈ l.subformulas) := by
  intro g hg
  rcases hg with hg | hg
  · exact ⟨(hT g hg).1, fun h hh => Or.inl ((hT g hg).2 h hh)⟩
  · exact ⟨ModalFormula.wellFormed_of_mem_subformulas l hl g hg,
      fun h hh => Or.inr (ModalFormula.subformulas_trans l g h hg hh)⟩

theorem KeysAre.ofIff {st : EncState} {T T' : ModalFormula → Prop} (h : KeysAre st T)
    (hT : ∀ g, T' g ↔ T g) : KeysAre st T' := by
  have e : T' = T := funext fun g => propext (hT g)
  rw [e]
  exact h

/-- Binding the key of `f` turns the keys of `T0` into the keys of `T0` with `f`. -/
theorem KeysAre.add {st st' : EncState} {T0 T' : ModalFormula → Prop} {f : ModalFormula}
    (hk : KeysAre st T0)
    (hx : ∀ k, st'.xVars.count k = true ↔ k = f.toString ∨ st.xVars.count k = true)
    (hb : ∀ k, st'.bVars.count k = true ↔
      (f.isBinary = true ∧ k = f.toString) ∨ st.bVars.count k = true)
    (hT : ∀ g, T' g ↔ g = f ∨ T0 g) : KeysAre st' T' := by
  constructor
  · intro k
    rw [hx k, hk.1 k]
    constructor
    · rintro (h | ⟨g, hg, hkg⟩)
      · exact ⟨f, (hT f).mpr (Or.inl rfl), h⟩
      · exact ⟨g, (hT g).mpr (Or.inr hg), hkg⟩
    · rintro ⟨g, hg, hkg⟩
      rcases (hT g).mp hg with hgf | hg0
      · rw [hgf] at hkg; exact Or.inl hkg
      · exact Or.inr ⟨g, hg0, hkg⟩
  · intro k
    rw [hb k, hk.2 k]
    constructor
    · rintro (⟨hbin, h⟩ | ⟨g, hg, hgb, hkg⟩)
      · exact ⟨f, (hT f).mpr (Or.inl rfl), hbin, h⟩
      · exact ⟨g, (hT g).mpr (Or.inr hg), hgb, hkg⟩
    · rintro ⟨g, hg, hgb, hkg⟩
      rcases (hT g).mp hg with hgf | hg0
      · rw [hgf] at hkg hgb; exact Or.inl ⟨hgb, hkg⟩
      · exact Or.inr ⟨g, hg0, hgb, hkg⟩

theorem NamesInv.fresh_x {st : EncState} (h : NamesInv st) {k : String}
    (hk : st.xVars.count k = false) : "x(" ++ k ++ ")" ∉ st.lp.varNames := by
  intro hmem
  rcases h.2.2.2.2.2.2 _ hmem with ⟨k', hk', e⟩ | ⟨k', _, e⟩
  · rw [xName_inj e, hk'] at hk
    cases hk
  · exact xName_ne_bName _ _ e

theorem NamesInv.fresh_b {st : EncState} (h : NamesInv st) {k : String}
    (hk : st.bVars.count k = false) : "b(" ++ k ++ ")" ∉ st.lp.varNames := by
  intro hmem
  rcases h.2.2.2.2.2.2 _ hmem with ⟨k', _, e⟩ | ⟨k', hk', e⟩
  · exact xName_ne_bName _ _ e.symm
  · rw [bName_inj e, hk'] at hk
    cases hk

/-- One call of `addVariable` with a fresh name and the bounds `[0,1]`, bound in one of the
two maps, keeps the name tables in step. -/
theorem NamesInv.addVar {st st' : EncState} {name : String} (h : NamesInv st)
    (hfresh : name ∉ st.lp.varNames)
    (hnames : st'.lp.varNames = st.lp.varNames ++ [name])
    (hcols : st'.lp.cols = st.lp.cols ++ [⟨0, some 1, some 0⟩])
    (hnti : st'.lp.nameToIndex = (name, st.lp.varNames.length) :: st.lp.nameToIndex)
    (hx : ∀ k i, st'.xVars.find k = some i → st.xVars.find k = some i ∨
      (i = st.lp.varNames.length ∧ name = "x(" ++ k ++ ")"))
    (hb : ∀ k i, st'.bVars.find k = some i → st.bVars.find k = some i ∨
      (i = st.lp.varNames.length ∧ name = "b(" ++ k ++ ")"))
    (hxm : ∀ k, st.xVars.count k = true → st'.xVars.count k = true)
    (hbm : ∀ k, st.bVars.count k = true → st'.bVars.count k = true)
    (hnew : (∃ k, st'.xVars.count k = true ∧ name = "x(" ++ k ++ ")") ∨
      (∃ k, st'.bVars.count k = true ∧ name = "b(" ++ k ++ ")")) : NamesInv st' := by
  obtain ⟨h1, h2, h3, h4, h5, h6, h7⟩ := h
  refine ⟨?_, ?_, ?_, ?_, ?_, ?_, ?_⟩
  · rw [hnames]
    refine List.Nodup.append h1 (List.nodup_singleton _) ?_
    intro a ha hb'
    rw [List.mem_singleton] at hb'
    rw [hb'] at ha
    exact hfresh ha
  · rw [hnames, hcols]
    simp only [List.length_append, List.length_singleton, h2]
  · intro c hc
    rw [hcols, List.mem_append, List.mem_singleton] at hc
    rcases hc with hc | hc
    · exact h3 c hc
    · exact hc
  · intro nm i
    rw [hnti, hnames, getElem?_concat_iff]
    simp only [StrMap.find]
    by_cases hn : name = nm
    · rw [if_pos hn]
      constructor
      · intro hi
        cases hi
        exact Or.inr ⟨rfl, hn⟩
      · rintro (hi | ⟨hi, _⟩)
        · exfalso
          apply hfresh
          rw [hn]
          exact List.getElem?_mem hi
        · rw [hi]
    · rw [if_neg hn, h4 nm i]
      constructor
      · exact Or.inl
      · rintro (hi | ⟨_, hi⟩)
        · exact hi
        · exact absurd hi hn
  · intro k i hk
    rw [hnames, getElem?_concat_iff]
    rcases hx k i hk with hk' | ⟨hi, hn⟩
    · exact Or.inl (h5 k i hk')
    · exact Or.inr ⟨hi, hn⟩
  · intro k i hk
    rw [hnames, getElem?_concat_iff]
    rcases hb k i hk with hk' | ⟨hi, hn⟩
    · exact Or.inl (h6 k i hk')
    · exact Or.inr ⟨hi, hn⟩
  · intro nm hnm
    rw [hnames, List.mem_append, List.mem_singleton] at hnm
    rcases hnm with hnm | hnm
    · rcases h7 nm hnm with ⟨k, hk, e⟩ | ⟨k, hk, e⟩
      · exact Or.inl ⟨k, hxm k hk, e⟩
      · exact Or.inr ⟨k, hbm k hk, e⟩
    · rw [hnm]
      exact hnew

theorem find_insert_cases {m : StrMap} {key k : String} {n i : Nat}
    (h : (m.insert key n).find k = some i) : m.find k = some i ∨ (i = n ∧ key = k) := by
  rw [StrMap.find_insert] at h
  by_cases hk : key = k
  · rw [if_pos hk] at h
    cases h
    exact Or.inr ⟨rfl, hk⟩
  · rw [if_neg hk] at h
    exact Or.inl h

/-- The key of `f` is not bound by encoding formulas that `f` is not a subformula of. -/
theorem key_unbound {st : EncState} {T S : ModalFormula → Prop} {f : ModalFormula}
    (hf : f.wellFormed = true) (hk : KeysAre st (fun g => T g ∨ S g))
    (hT : ∀ g, T g → g.wellFormed = true) (hS : ∀ g, S g → g.wellFormed = true)
    (hfT : ¬ T f) (hfS : ¬ S f) : st.xVars.count f.toString = false := by
  by_contra hc
  have hc' : st.xVars.count f.toString = true := by simpa using hc
  obtain ⟨g, hg, e⟩ := (hk.1 _).mp hc'
  have hgw : g.wellFormed = true := hg.elim (hT g) (hS g)
  have hfg : f = g := ModalFormula.toString_inj hf hgw e
  rw [← hfg] at hg
  exact hg.elim hfT hfS

theorem KeysAre.b_sub_x {st : EncState} {T : ModalFormula → Prop} (hk : KeysAre st T)
    {k : String} (h : st.bVars.count k = true) : st.xVars.count k = true := by
  obtain ⟨g, hg, _, e⟩ := (hk.2 k).mp h
  exact (hk.1 k).mpr ⟨g, hg, e⟩

theorem KeysAre.of_hit {st : EncState} {T : ModalFormula → Prop} {f : ModalFormula}
    (hf : f.wellFormed = true) (hk : KeysAre st T) (hT : SubClosed T)
    (h : st.xVars.count f.toString = true) :
    KeysAre st (fun g => T g ∨ g ∈ f.subformulas) := by
  obtain ⟨g, hg, e⟩ := (hk.1 _).mp h
  have hfg : f = g := ModalFormula.toString_inj hf (hT g hg).1 e
  rw [← hfg] at hg
  exact hk.ofIff fun g' => ⟨fun hg' => hg'.elim id ((hT f hg).2 g'), Or.inl⟩

/-- The step that adds the variable `x(key)` and binds `key` in `xVars`. -/
theorem NamesInv.step_x {st t : EncState} {key : String} (hn : NamesInv st)
    (hfree : st.xVars.count key = false)
    (hnames : t.lp.varNames = st.lp.varNames ++ ["x(" ++ key ++ ")"])
    (hcols : t.lp.cols = st.lp.cols ++ [⟨0, some 1, some 0⟩])
    (hnti : t.lp.nameToIndex = ("x(" ++ key ++ ")", st.lp.varNames.length) ::
      st.lp.nameToIndex)
    (hxv : t.xVars = st.xVars.insert key st.lp.varNames.length)
    (hbv : t.bVars = st.bVars) :
    NamesInv t ∧ ∀ k, t.xVars.count k = true ↔ k = key ∨ st.xVars.count k = true := by
  have hcount : ∀ k, t.xVars.count k = true ↔ k = key ∨ st.xVars.count k = true := by
    intro k
    rw [hxv]
    exact StrMap.count_insert _ _ _ _
  refine ⟨NamesInv.addVar hn (hn.fresh_x hfree) hnames hcols hnti ?_ ?_ ?_ ?_ ?_, hcount⟩
  · intro k i hki
    rw [hxv] at hki
    rcases find_insert_cases hki with h | ⟨hi, hkey⟩
    · exact Or.inl h
    · exact Or.inr ⟨hi, by rw [hkey]⟩
  · intro k i hki
    rw [hbv] at hki
    exact Or.inl hki
  · intro k hk
    exact (hcount k).mpr (Or.inr hk)
  · intro k hk
    rw [hbv]
    exact hk
  · exact Or.inl ⟨key, (hcount key).mpr (Or.inl rfl), rfl⟩

/-- The step that adds the variable `b(key)` and binds `key` in `bVars`. -/
theorem NamesInv.step_b {st t : EncState} {key : String} (hn : NamesInv st)
    (hfree : st.bVars.count key = false)
    (hnames : t.lp.varNames = st.lp.varNames ++ ["b(" ++ key ++ ")"])
    (hcols : t.lp.cols = st.lp.cols ++ [⟨0, some 1, some 0⟩])
    (hnti : t.lp.nameToIndex = ("b(" ++ key ++ ")", st.lp.varNames.length) ::
      st.lp.nameToIndex)
    (hxv : t.xVars = st.xVars)
    (hbv : t.bVars = st.bVars.insert key st.lp.varNames.length) :
    NamesInv t ∧ ∀ k, t.bVars.count k = true ↔ k = key ∨ st.bVars.count k = true := by
  have hcount : ∀ k, t.bVars.count k = true ↔ k = key ∨ st.bVars.count k = true := by
    intro k
    rw [hbv]
    exact StrMap.count_insert _ _ _ _
  refine ⟨NamesInv.addVar hn (hn.fresh_b hfree) hnames hcols hnti ?_ ?_ ?_ ?_ ?_, hcount⟩
  · intro k i hki
    rw [hxv] at hki
    exact Or.inl hki
  · intro k i hki
    rw [hbv] at hki
    rcases find_insert_cases hki with h | ⟨hi, hkey⟩
    · exact Or.inl h
    · exact Or.inr ⟨hi, by rw [hkey]⟩
  · intro k hk
    rw [hxv]
    exact hk
  · intro k hk
    exact (hcount k).mpr (Or.inr hk)
  · exact Or.inr ⟨key, (hcount key).mpr (Or.inl rfl), rfl⟩

theorem ModalFormula.not_mem_subformulas_not (l : ModalFormula) :
    ModalFormula.not l ∉ l.subformulas := by
  intro h
  have := ModalFormula.sizeOf_le_of_mem_subformulas l _ h
  simp only [ModalFormula.not.sizeOf_spec] at this
  omega

theorem ModalFormula.not_mem_subformulas_binary (op : ModalBinary) (l r : ModalFormula) :
    ModalFormula.binary op l r ∉ l.subformulas ∧
      ModalFormula.binary op l r ∉ r.subformulas := by
  constructor
  · intro h
    have := ModalFormula.sizeOf_le_of_mem_subformulas l _ h
    simp only [ModalFormula.binary.sizeOf_spec] at this
    omega
  · intro h
    have := ModalFormula.sizeOf_le_of_mem_subformulas r _ h
    simp only [ModalFormula.binary.sizeOf_spec] at this
    omega

/-- One call of `encodeModalFormula` keeps the name tables in step and binds exactly the
subformulas of its argument. -/
theorem encode_names : ∀ f : ModalFormula, f.wellFormed = true →
    ∀ (st : EncState) (T : ModalFormula → Prop), NamesInv st → KeysAre st T → SubClosed T →
    NamesInv (encodeModalFormula f st) ∧
      KeysAre (encodeModalFormula f st) (fun g => T g ∨ g ∈ f.subformulas) := by
  intro f
  induction f with
  | patom phi =>
    intro hf st T hn hk hT
    by_cases h : st.xVars.count (ModalFormula.patom phi).toString = true
    · rw [encode_hit _ _ h]
      exact ⟨hn, KeysAre.of_hit hf hk hT h⟩
    · have h' : st.xVars.count (ModalFormula.patom phi).toString = false := by simpa using h
      rw [encode_patom _ _ h']
      obtain ⟨hn', hc⟩ := NamesInv.step_x
        (t :=
        { st with
          lp := (st.lp.addVariable ("x(" ++ (ModalFormula.patom phi).toString ++ ")")
            (some 0) (some 1)).1
          xVars := st.xVars.insert (ModalFormula.patom phi).toString st.lp.varNames.length })
        hn h' rfl rfl rfl rfl rfl
      refine ⟨hn', KeysAre.add (f := .patom phi) hk hc ?_ ?_⟩
      · intro k
        simp [ModalFormula.isBinary]
      · intro g
        simp only [ModalFormula.subformulas, List.mem_singleton]
        exact Or.comm
  | not l ih =>
    intro hf st T hn hk hT
    by_cases h : st.xVars.count (ModalFormula.not l).toString = true
    · rw [encode_hit _ _ h]
      exact ⟨hn, KeysAre.of_hit hf hk hT h⟩
    · have h' : st.xVars.count (ModalFormula.not l).toString = false := by simpa using h
      have hlwf : l.wellFormed = true := hf
      obtain ⟨hn1, hk1⟩ := ih hlwf st T hn hk hT
      obtain ⟨lx, hlx⟩ := Option.isSome_iff_exists.mp (encode_binds l st)
      have hfT : ¬ T (.not l) := fun hTf => h ((hk.1 _).mpr ⟨_, hTf, rfl⟩)
      have hfree : (encodeModalFormula l st).xVars.count (ModalFormula.not l).toString
          = false :=
        key_unbound hf hk1 (fun g hg => (hT g hg).1)
          (fun g hg => ModalFormula.wellFormed_of_mem_subformulas l hlwf g hg) hfT
          (ModalFormula.not_mem_subformulas_not l)
      rw [encode_not _ _ h', StrMap.index_of_find hlx]
      obtain ⟨hn', hc⟩ := NamesInv.step_x
        (t :=
        { lp := ((encodeModalFormula l st).lp.addVariable
              ("x(" ++ (ModalFormula.not l).toString ++ ")") (some 0) (some 1)).1.addConstraints
            (notConstraints lx (encodeModalFormula l st).lp.varNames.length)
          xVars := StrMap.insert (encodeModalFormula l st).xVars
            (ModalFormula.not l).toString (encodeModalFormula l st).lp.varNames.length
          bVars := (encodeModalFormula l st).bVars })
        hn1 hfree
        (by rw [LinearProgram.addConstraints_varNames]; rfl)
        (by rw [LinearProgram.addConstraints_cols]; rfl)
        (by rw [LinearProgram.addConstraints_nameToIndex]; rfl) rfl rfl
      refine ⟨hn', KeysAre.add (f := .not l) hk1 hc ?_ ?_⟩
      · intro k
        simp [ModalFormula.isBinary]
      · intro g
        simp only [ModalFormula.subformulas, List.mem_cons]
        constructor
        · rintro (hg | hg | hg)
          · exact Or.inr (Or.inl hg)
          · exact Or.inl hg
          · exact Or.inr (Or.inr hg)
        · rintro (hg | hg | hg)
          · exact Or.inr (Or.inl hg)
          · exact Or.inl hg
          · exact Or.inr (Or.inr hg)
  | binary op l r ihl ihr =>
    intro hf st T hn hk hT
    by_cases h : st.xVars.count (ModalFormula.binary op l r).toString = true
    · rw [encode_hit _ _ h]
      exact ⟨hn, KeysAre.of_hit hf hk hT h⟩
    · have h' : st.xVars.count (ModalFormula.binary op l r).toString = false := by
        simpa using h
      have hwf : l.wellFormed = true ∧ r.wellFormed = true := by
        simpa [ModalFormula.wellFormed] using hf
      obtain ⟨hn1, hk1⟩ := ihl hwf.1 st T hn hk hT
      obtain ⟨lx, hlx⟩ := Option.isSome_iff_exists.mp (encode_binds l st)
      obtain ⟨hn2, hk2⟩ := ihr hwf.2 (encodeModalFormula l st) _ hn1 hk1 (hT.union hwf.1)
      obtain ⟨rx, hrx⟩ :=
        Option.isSome_iff_exists.mp (encode_binds r (encodeModalFormula l st))
      have hfT : ¬ T (.binary op l r) := fun hTf => h ((hk.1 _).mpr ⟨_, hTf, rfl⟩)
      have hmem := ModalFormula.not_mem_subformulas_binary op l r
      have hfree : (encodeModalFormula r (encodeModalFormula l st)).xVars.count
          (ModalFormula.binary op l r).toString = false :=
        key_unbound hf hk2 (fun g hg => ((hT.union hwf.1) g hg).1)
          (fun g hg => ModalFormula.wellFormed_of_mem_subformulas r hwf.2 g hg)
          (fun hg => hg.elim hfT hmem.1) hmem.2
      have hfreeb : (encodeModalFormula r (encodeModalFormula l st)).bVars.count
          (ModalFormula.binary op l r).toString = false := by
        by_contra hc
        have hc' := hk2.b_sub_x (by simpa using hc)
        rw [hfree] at hc'
        cases hc'
      rw [encode_binary _ _ _ _ h', StrMap.index_of_find hlx]
      simp only []
      rw [StrMap.index_of_find hrx]
      obtain ⟨hnx, hcx⟩ := NamesInv.step_x
        (t :=
        { lp := ((encodeModalFormula r (encodeModalFormula l st)).lp.addVariable
              ("x(" ++ (ModalFormula.binary op l r).toString ++ ")") (some 0) (some 1)).1
          xVars := StrMap.insert (encodeModalFormula r (encodeModalFormula l st)).xVars
            (ModalFormula.binary op l r).toString
            (encodeModalFormula r (encodeModalFormula l st)).lp.varNames.length
          bVars := (encodeModalFormula r (encodeModalFormula l st)).bVars })
        hn2 hfree rfl rfl rfl rfl rfl
      obtain ⟨hn', hcb⟩ := NamesInv.step_b
        (t :=
        { lp := (((encodeModalFormula r (encodeModalFormula l st)).lp.addVariable
                ("x(" ++ (ModalFormula.binary op l r).toString ++ ")")
                (some 0) (some 1)).1.addVariable
              ("b(" ++ (ModalFormula.binary op l r).toString ++ ")")
              (some 0) (some 1)).1.addConstraints
            (binaryConstraints op lx rx
              (encodeModalFormula r (encodeModalFormula l st)).lp.varNames.length
              ((encodeModalFormula r (encodeModalFormula l st)).lp.varNames.length + 1))
          xVars := StrMap.insert (encodeModalFormula r (encodeModalFormula l st)).xVars
            (ModalFormula.binary op l r).toString
            (encodeModalFormula r (encodeModalFormula l st)).lp.varNames.length
          bVars := StrMap.insert (encodeModalFormula r (encodeModalFormula l st)).bVars
            (ModalFormula.binary op l r).toString
            ((encodeModalFormula r (encodeModalFormula l st)).lp.varNames.length + 1) })
        hnx hfreeb
        (by rw [LinearProgram.addConstraints_varNames]; rfl)
        (by rw [LinearProgram.addConstraints_cols]; rfl)
        (by rw [LinearProgram.addConstraints_nameToIndex]
            simp [LinearProgram.addVariable])
        rfl
        (by simp [LinearProgram.addVariable])
      refine ⟨hn', KeysAre.add (f := .binary op l r) hk2 hcx ?_ ?_⟩
      · intro k
        rw [hcb k]
        simp [ModalFormula.isBinary]
      · intro g
        simp only [ModalFormula.subformulas, List.mem_cons, List.mem_append]
        constructor
        · rintro (hg | hg | hg | hg)
          · exact Or.inr (Or.inl (Or.inl hg))
          · exact Or.inl hg
          · exact Or.inr (Or.inl (Or.inr hg))
          · exact Or.inr (Or.inr hg)
        · rintro (hg | (hg | hg) | hg)
          · exact Or.inr (Or.inl hg)
          · exact Or.inl hg
          · exact Or.inr (Or.inr (Or.inl hg))
          · exact Or.inr (Or.inr (Or.inr hg))

/-- The first loop of `solve` keeps the name tables in step and binds exactly the
subformulas of the formulas it encodes. -/
theorem encodeAll_names : ∀ (formulas : List ModalFormula),
    (∀ f ∈ formulas, f.wellFormed = true) →
    ∀ (st : EncState) (T : ModalFormula → Prop), NamesInv st → KeysAre st T → SubClosed T →
    NamesInv (encodeAll formulas st) ∧
      KeysAre (encodeAll formulas st)
        (fun g => T g ∨ ∃ f ∈ formulas, g ∈ f.subformulas)
  | [], _, st, T, hn, hk, _ => by
    refine ⟨hn, hk.ofIff fun g => ⟨fun hg => hg.elim id ?_, Or.inl⟩⟩
    rintro ⟨f, hf, _⟩
    cases hf
  | f :: fs, hwf, st, T, hn, hk, hT => by
    have hfw := hwf f (List.mem_cons_self _ _)
    obtain ⟨hn1, hk1⟩ := encode_names f hfw st T hn hk hT
    obtain ⟨hn2, hk2⟩ := encodeAll_names fs
      (fun g hg => hwf g (List.mem_cons_of_mem _ hg)) (encodeModalFormula f st) _ hn1 hk1
      (hT.union hfw)
    refine ⟨hn2, hk2.ofIff fun g => ?_⟩
    simp only [List.mem_cons, exists_eq_or_imp]
    exact or_assoc.symm

theorem namesInv_empty : NamesInv ⟨LinearProgram.empty, [], []⟩ := by
  refine ⟨List.nodup_nil, rfl, ?_, ?_, ?_, ?_, ?_⟩
  · intro c hc; cases hc
  · intro name i
    simp [LinearProgram.empty, StrMap.find]
  · intro k i h; simp [StrMap.find] at h
  · intro k i h; simp [StrMap.find] at h
  · intro name hn; cases hn

theorem keysAre_empty : KeysAre ⟨LinearProgram.empty, [], []⟩ (fun _ => False) := by
  constructor <;> intro k <;> simp [StrMap.count, StrMap.find]

/-- C20: the variables of the encoder. After the first loop of `solve` has encoded a list
of well-formed modal formulas into an empty program, the variable names are pairwise
distinct, every column has the objective coefficient 0 and the bounds `[0,1]`, the names
are exactly `x(id)` for the canonical strings `id` of the subformulas of the input and
`b(id)` for those of the subformulas with a binary connective (neither `NOT` nor
`P_ATOM`), `xVars[id]` is the index of the variable named `x(id)` and `bVars[id]` the index
of the variable named `b(id)`. -/
theorem encoder_variables (formulas : List ModalFormula)
    (hwf : ∀ f ∈ formulas, f.wellFormed = true) :
    (encodedState formulas).lp.varNames.Nodup ∧
    (encodedState formulas).lp.cols.length = (encodedState formulas).lp.varNames.length ∧
    (∀ c ∈ (encodedState formulas).lp.cols, c = (⟨0, some 1, some 0⟩ : LPCol)) ∧
    (∀ name, name ∈ (encodedState formulas).lp.varNames ↔
      (∃ f ∈ formulas, ∃ g ∈ f.subformulas, name = "x(" ++ g.toString ++ ")") ∨
      (∃ f ∈ formulas, ∃ g ∈ f.subformulas,
        g.isBinary = true ∧ name = "b(" ++ g.toString ++ ")")) ∧
    (∀ f ∈ formulas, ∀ g ∈ f.subformulas, ∃ i,
      (encodedState formulas).xVars.find g.toString = some i ∧
      (encodedState formulas).lp.varNames[i]? = some ("x(" ++ g.toString ++ ")") ∧
      (encodedState formulas).lp.getVarIndex ("x(" ++ g.toString ++ ")") = some i ∧
      (encodedState formulas).lp.cols[i]? = some ⟨0, some 1, some 0⟩) ∧
    (∀ f ∈ formulas, ∀ g ∈ f.subformulas, g.isBinary = true → ∃ i,
      (encodedState formulas).bVars.find g.toString = some i ∧
      (encodedState formulas).lp.varNames[i]? = some ("b(" ++ g.toString ++ ")") ∧
      (encodedState formulas).lp.getVarIndex ("b(" ++ g.toString ++ ")") = some i ∧
      (encodedState formulas).lp.cols[i]? = some ⟨0, some 1, some 0⟩) := by
  obtain ⟨hn, hk⟩ := encodeAll_names formulas hwf ⟨LinearProgram.empty, [], []⟩ _
    namesInv_empty keysAre_empty (fun g hg => hg.elim)
  change NamesInv (encodedState formulas) at hn
  change KeysAre (encodedState formulas) _ at hk
  obtain ⟨h1, h2, h3, h4, h5, h6, h7⟩ := hn
  have hcol : ∀ (i : Nat) (name : String),
      (encodedState formulas).lp.varNames[i]? = some name →
      (encodedState formulas).lp.cols[i]? = some ⟨0, some 1, some 0⟩ := by
    intro i name hi
    obtain ⟨hlt, _⟩ := List.getElem?_eq_some.mp hi
    rw [← h2] at hlt
    have hc := h3 _ (List.getElem_mem hlt)
    rw [List.getElem?_eq_getElem hlt, hc]
  have hx : ∀ f ∈ formulas, ∀ g ∈ f.subformulas, ∃ i,
      (encodedState formulas).xVars.find g.toString = some i ∧
      (encodedState formulas).lp.varNames[i]? = some ("x(" ++ g.toString ++ ")") := by
    intro f hf g hg
    have hc := (hk.1 g.toString).mpr ⟨g, Or.inr ⟨f, hf, hg⟩, rfl⟩
    obtain ⟨i, hi⟩ := Option.isSome_iff_exists.mp hc
    exact ⟨i, hi, h5 _ _ hi⟩
  have hb : ∀ f ∈ formulas, ∀ g ∈ f.subformulas, g.isBinary = true → ∃ i,
      (encodedState formulas).bVars.find g.toString = some i ∧
      (encodedState formulas).lp.varNames[i]? = some ("b(" ++ g.toString ++ ")") := by
    intro f hf g hg hgb
    have hc := (hk.2 g.toString).mpr ⟨g, Or.inr ⟨f, hf, hg⟩, hgb, rfl⟩
    obtain ⟨i, hi⟩ := Option.isSome_iff_exists.mp hc
    exact ⟨i, hi, h6 _ _ hi⟩
  refine ⟨h1, h2, h3, ?_, ?_, ?_⟩
  · intro name
    constructor
    · intro hmem
      rcases h7 name hmem with ⟨k, hkc, e⟩ | ⟨k, hkc, e⟩
      · obtain ⟨g, hg, hkg⟩ := (hk.1 k).mp hkc
        rcases hg with hg | ⟨f, hf, hg⟩
        · exact hg.elim
        · exact Or.inl ⟨f, hf, g, hg, by rw [e, hkg]⟩
      · obtain ⟨g, hg, hgb, hkg⟩ := (hk.2 k).mp hkc
        rcases hg with hg | ⟨f, hf, hg⟩
        · exact hg.elim
        · exact Or.inr ⟨f, hf, g, hg, hgb, by rw [e, hkg]⟩
    · rintro (⟨f, hf, g, hg, e⟩ | ⟨f, hf, g, hg, hgb, e⟩)
      · obtain ⟨i, _, hi⟩ := hx f hf g hg
        rw [e]
        exact List.getElem?_mem hi
      · obtain ⟨i, _, hi⟩ := hb f hf g hg hgb
        rw [e]
        exact List.getElem?_mem hi
  · intro f hf g hg
    obtain ⟨i, hi, hname⟩ := hx f hf g hg
    exact ⟨i, hi, hname, (h4 _ _).mpr hname, hcol i _ hname⟩
  · intro f hf g hg hgb
    obtain ⟨i, hi, hname⟩ := hb f hf g hg hgb
    exact ⟨i, hi, hname, (h4 _ _).mpr hname, hcol i _ hname⟩

/-- The hypothesis of `encoder_variables` holds for `exampleFormulas`, whose encoding has
pairwise distinct variable names, all with the bounds `[0,1]`. -/
theorem encoder_variables_witness :
    (∀ f ∈ exampleFormulas, f.wellFormed = true) ∧
    (encodedState exampleFormulas).lp.varNames.Nodup ∧
    (encodedState exampleFormulas).lp.cols.length
      = (encodedState exampleFormulas).lp.varNames.length ∧
    ∀ c ∈ (encodedState exampleFormulas).lp.cols, c = (⟨0, some 1, some 0⟩ : LPCol) :=
  ⟨by decide, (encoder_variables exampleFormulas (by decide)).1,
    (encoder_variables exampleFormulas (by decide)).2.1,
    (encoder_variables exampleFormulas (by decide)).2.2.1⟩

end EncoderVariables

/-! ## Theorems: the slacked program of `solve` -/

section SlackedProgram

variable {α : Type} [LinearOrderedField α]

theorem isSlackName_x (k : String) : isSlackName ("x(" ++ k ++ ")") = false := by
  simp [isSlackName, String.data_append, List.isPrefixOf]

theorem isSlackName_b (k : String) : isSlackName ("b(" ++ k ++ ")") = false := by
  simp [isSlackName, String.data_append, List.isPrefixOf]

theorem isSlackName_columnName (w : Nat) : isSlackName (columnName w) = false := by
  simp [isSlackName, columnName, String.data_append, List.isPrefixOf]

theorem isSlackName_slack (r : Nat) : isSlackName ("i(" ++ toString r ++ ")") = true := by
  simp [isSlackName, String.data_append, List.isPrefixOf]

theorem forall₂_of_all {names : List String} {cols : List LPCol}
    (hlen : names.length = cols.length)
    (h : ∀ name ∈ names, ∀ c ∈ cols, slackRel name c) : List.Forall₂ slackRel names cols := by
  rw [List.forall₂_iff_get]
  exact ⟨hlen, fun i h1 h2 => h _ (List.get_mem _ _ _) _ (List.get_mem _ _ _)⟩

theorem slackShape_of_forall₂ {lp : LinearProgram}
    (h : List.Forall₂ slackRel lp.varNames lp.cols) : lp.SlackShape := by
  have hlen := h.length_eq
  refine ⟨hlen.symm, ?_⟩
  intro i c hc
  obtain ⟨hlt, hci⟩ := List.getElem?_eq_some.mp hc
  have hlt' : i < lp.varNames.length := by omega
  have hrel := (List.forall₂_iff_get.mp h).2 i hlt' hlt
  have hname : lp.varNames[i]? = some (lp.varNames.get ⟨i, hlt'⟩) :=
    List.getElem?_eq_getElem hlt'
  have hcg : lp.cols.get ⟨i, hlt⟩ = c := hci
  rw [hcg] at hrel
  simp only [LinearProgram.isSlackIndex, hname]
  exact hrel

/-- The names and columns of the root program: those of the encoder followed by the slack
variables. -/
theorem buildRootLP_columns (formulas : List ModalFormula) (root : RootLP)
    (h : buildRootLP formulas = some root) :
    ∃ N : Nat,
      root.lp.varNames = (encodedState formulas).lp.varNames
        ++ (List.range N).map (fun r => "i(" ++ toString r ++ ")") ∧
      root.lp.cols = (encodedState formulas).lp.cols
        ++ List.replicate N ⟨1, none, some 0⟩ := by
  unfold buildRootLP at h
  cases hst : encodeAndAssert formulas with
  | none => rw [hst] at h; cases h
  | some st =>
    rw [hst] at h
    simp only [finishRootLP] at h
    cases hacc : addSeedRows (collectAllPatoms formulas) st.xVars (st.lp, []) with
    | none => rw [hacc] at h; cases h
    | some acc =>
      rw [hacc] at h
      simp only [Option.some.injEq] at h
      subst h
      have hok := encodeAndAssert_colsOK formulas st hst
      obtain ⟨a1, a2, _, _, _, _⟩ := addSeedRows_spec (α := ℚ) _ _ _ _ acc hacc
      have hlenS : (acc.1.addConstraint [] Sense.EQ 1).cols.length
          = (acc.1.addConstraint [] Sense.EQ 1).varNames.length := by
        show acc.1.cols.length = acc.1.varNames.length
        rw [a1, a2]; exact hok.1
      obtain ⟨s1, s2, _, _⟩ := addSlacks_spec (α := ℚ) (acc.1.addConstraint [] Sense.EQ 1)
        hlenS (acc.1.addConstraint [] Sense.EQ 1).numRows
      simp only [encodeAndAssert, Option.map_eq_some'] at hst
      obtain ⟨lp', h1, h2⟩ := hst
      obtain ⟨h3, h4⟩ := addAssertions_cols _ _ _ _ h1
      have hn : (acc.1.addConstraint [] Sense.EQ 1).varNames
          = (encodedState formulas).lp.varNames := by
        show acc.1.varNames = _
        rw [a2, ← h2]; exact h4
      have hc : (acc.1.addConstraint [] Sense.EQ 1).cols
          = (encodedState formulas).lp.cols := by
        show acc.1.cols = _
        rw [a1, ← h2]; exact h3
      refine ⟨(acc.1.addConstraint [] Sense.EQ 1).numRows, ?_, ?_⟩
      · show (addSlacks _ _).varNames = _
        rw [s1, hn]
      · show (addSlacks _ _).cols = _
        rw [s2, hc]

/-- The programs on which `solve` runs the engine have the column shape of Phase I. -/
theorem solve_slackShape (formulas : List ModalFormula)
    (hwf : ∀ f ∈ formulas, f.wellFormed = true) (root : RootLP)
    (hroot : buildRootLP formulas = some root) (varList : List String)
    (extra : List Constraint) (ws : List (Nat × List Bool)) (lp : LinearProgram)
    (hlp : addColumns root varList (root.lp.addConstraints extra)
      (ws.map fun c => (columnName c.1, c.2)) = some lp) : lp.SlackShape := by
  obtain ⟨N, hn, hc⟩ := buildRootLP_columns formulas root hroot
  obtain ⟨c1, c2, _, _, _⟩ := addColumns_spec (α := ℚ) root varList _ _ lp hlp
  rw [LinearProgram.addConstraints_varNames, hn] at c1
  rw [LinearProgram.addConstraints_cols, hc] at c2
  obtain ⟨hinv, _⟩ := encodeAll_names formulas hwf ⟨LinearProgram.empty, [], []⟩ _
    namesInv_empty keysAre_empty (fun g hg => hg.elim)
  change NamesInv (encodedState formulas) at hinv
  obtain ⟨_, k2, k3, _, _, _, k7⟩ := hinv
  apply slackShape_of_forall₂
  rw [c1, c2]
  refine List.rel_append (List.rel_append ?_ ?_) ?_
  · refine forall₂_of_all k2.symm ?_
    intro name hname c hcm
    rw [k3 c hcm]
    rcases k7 name hname with ⟨k, _, e⟩ | ⟨k, _, e⟩
    · rw [e]
      exact ⟨fun hs => (by rw [isSlackName_x] at hs; cases hs), fun _ => ⟨rfl, rfl⟩⟩
    · rw [e]
      exact ⟨fun hs => (by rw [isSlackName_b] at hs; cases hs), fun _ => ⟨rfl, rfl⟩⟩
  · refine forall₂_of_all (by simp) ?_
    intro name hname c hcm
    obtain ⟨r, _, e⟩ := List.mem_map.mp hname
    rw [(List.mem_replicate.mp hcm).2, ← e]
    exact ⟨fun _ => rfl, fun hs => by rw [isSlackName_slack] at hs; cases hs⟩
  · refine forall₂_of_all (by simp) ?_
    intro name hname c hcm
    simp only [List.map_map, List.mem_map, Function.comp] at hname
    obtain ⟨e, _, he⟩ := hname
    rw [(List.mem_replicate.mp hcm).2, ← he]
    exact ⟨fun hs => (by rw [isSlackName_columnName] at hs; cases hs), fun _ => ⟨rfl, rfl⟩⟩

theorem objectiveFrom_eq_sum (v : Nat → α) : ∀ (cs : List LPCol) (n : Nat),
    objectiveFrom v n cs
      = ((List.range cs.length).map fun j =>
          ((cs[j]?.map fun c => (c.obj : α)).getD 0) * v (n + j)).sum
  | [], _ => rfl
  | c :: cs, n => by
    rw [objectiveFrom, objectiveFrom_eq_sum v cs (n + 1), List.length_cons,
      List.range_succ_eq_map, List.map_cons, List.sum_cons, List.map_map]
    simp only [List.getElem?_cons_zero, Option.map_some', Option.getD_some, Nat.add_zero]
    congr 2
    apply List.map_congr_left
    intro j _
    simp only [Function.comp, List.getElem?_cons_succ]
    rw [show n + 1 + j = n + (j + 1) by omega]

/-- The objective of a program of `solve` is the sum of its slack variables. -/
theorem LinearProgram.SlackShape.objective_eq {lp : LinearProgram} (h : lp.SlackShape)
    (v : Nat → α) : lp.objective v = lp.slackSum v := by
  rw [LinearProgram.objective, objectiveFrom_eq_sum, LinearProgram.slackSum]
  congr 1
  apply List.map_congr_left
  intro j hj
  have hlt : j < lp.cols.length := List.mem_range.mp hj
  have hc : lp.cols[j]? = some lp.cols[j] := List.getElem?_eq_getElem hlt
  rw [hc, Nat.zero_add]
  cases hs : lp.isSlackIndex j with
  | true =>
    rw [(h.2 j _ hc).1 hs]
    simp
  | false =>
    simp [((h.2 j _ hc).2 hs).1]

end SlackedProgram

/-! ## Theorems: an unsatisfiable atom -/

section UnsatAtom

variable {α : Type} [LinearOrderedField α]

theorem buildRootLP_atom (psi : CPLFormula) :
    buildRootLP [.patom psi] = some (atomRoot psi) := by
  simp [buildRootLP, encodeAndAssert, encodeAll, encodeModalFormula, StrMap.count, StrMap.find,
    StrMap.insert, addAssertions, LinearProgram.addVariable, LinearProgram.empty,
    LinearProgram.addConstraint, finishRootLP, collectAllPatoms, collectPatoms, addSeedRows,
    LinearProgram.numRows, addSlacks, addSlack, LinearProgram.addCoefficientToRow,
    LinearProgram.setObjectiveCoefficient, modifyAt, LPRow.ofConstraint, List.range,
    List.range.loop, atomRoot]
  decide

/-- The column of a valuation in the program of `P(ψ)` for a formula `ψ` that is false
under every valuation: only the entry 1 in the normalization row. -/
theorem newColumn_atom (psi : CPLFormula)
    (hunsat : ∀ (val : BoolMap) (a : ℚ), evaluateCPL psi val = some a → a = 0)
    (varList : List String) (w : List Bool)
    (h : (newColumn (atomRoot psi) varList w).isSome = true) :
    newColumn (atomRoot psi) varList w = some [(2, 1)] := by
  obtain ⟨col, hcol⟩ := Option.isSome_iff_exists.mp h
  rw [hcol]
  simp only [newColumn, atomRoot, List.zip_cons_cons, List.zip_nil_right, columnEntries,
    Option.map_eq_some'] at hcol
  obtain ⟨es, hes, hcol⟩ := hcol
  cases hv : evaluateCPL psi (valuationMap varList w) with
  | none => rw [hv] at hes; cases hes
  | some val =>
    rw [hv] at hes
    have h0 := hunsat _ _ hv
    subst h0
    simp only [Option.some.injEq] at hes
    norm_num at hes
    subst hes
    subst hcol
    rfl

theorem weightedSum_zeros (v : Nat → α) : ∀ (cs : List ℚ) (n : Nat),
    (∀ c ∈ cs, c = 0) → weightedSum v n cs = 0
  | [], _, _ => rfl
  | c :: cs, n, h => by
    rw [weightedSum, h c (List.mem_cons_self _ _),
      weightedSum_zeros v cs (n + 1) (fun c' hc' => h c' (List.mem_cons_of_mem _ hc'))]
    simp

/-- In the program of `P(ψ)` for a formula `ψ` that is false under every valuation, with any
probability columns, no assignment with the slack variables `i(0)` and `i(1)` at 0
satisfies the rows `x + i(0) = 1` and `Σ ψ(w)·p(w) − x + i(1) = 0`. -/
theorem atom_rows_contradict (psi : CPLFormula)
    (hunsat : ∀ (val : BoolMap) (a : ℚ), evaluateCPL psi val = some a → a = 0)
    (varList : List String) (ws : List (String × List Bool)) (lp : LinearProgram)
    (hlp : addColumns (atomRoot psi) varList (atomRoot psi).lp ws = some lp)
    (v : Nat → α) (hfeas : lp.Feasible v) (hs1 : v 1 = 0) (hs2 : v 2 = 0) : False := by
  obtain ⟨_, _, _, c4, c5⟩ := addColumns_spec (α := α) (atomRoot psi) varList ws _ lp hlp
  have hcoef : ∀ r, r < 2 → weightedSum v (atomRoot psi).lp.varNames.length
      (ws.map fun c => colCoef (atomRoot psi) varList c.2 r) = 0 := by
    intro r hr
    refine weightedSum_zeros v _ _ ?_
    intro c hc
    obtain ⟨e, he, rfl⟩ := List.mem_map.mp hc
    simp only [colCoef, newColumn_atom psi hunsat varList e.2 (c4 e he), Option.map_some',
      Option.getD_some, coefAt_cons]
    rw [if_neg (by omega)]
    simp [coefAt]
  have hrow0 : RowIs (α := α) (atomRoot psi).lp 0 (some 1) (some 1) (fun v => v 0 + v 1) :=
    ⟨⟨some 1, [(0, 1), (1, 1)], some 1⟩, rfl, rfl, rfl, fun v => by simp [LPRow.value]⟩
  have hrow1 : RowIs (α := α) (atomRoot psi).lp 1 (some 0) (some 0) (fun v => -v 0 + v 2) :=
    ⟨⟨some 0, [(0, -1), (2, 1)], some 0⟩, rfl, rfl, rfl, fun v => by simp [LPRow.value]⟩
  obtain ⟨r0, g1, g2, g3, g4⟩ := c5 0 _ _ _ hrow0
  obtain ⟨r1, k1, k2, k3, k4⟩ := c5 1 _ _ _ hrow1
  have e0 := value_eq_of_sat g2 g3 (hfeas.2 r0 (List.getElem?_mem g1))
  have e1 := value_eq_of_sat k2 k3 (hfeas.2 r1 (List.getElem?_mem k1))
  simp only [g4 v, hcoef 0 (by decide), hs1, add_zero, Rat.cast_one] at e0
  simp only [k4 v, hcoef 1 (by decide), hs2, add_zero, Rat.cast_zero, neg_eq_zero] at e1
  rw [e1] at e0
  exact zero_ne_one e0

/-- The program of `P(ψ)` for a formula `ψ` that is false under every valuation has, with
any probability columns, no feasible assignment of objective value at most 0. -/
theorem atom_no_zero_cost (psi : CPLFormula)
    (hunsat : ∀ (val : BoolMap) (a : ℚ), evaluateCPL psi val = some a → a = 0)
    (varList : List String) (ws : List (String × List Bool)) (lp : LinearProgram)
    (hlp : addColumns (atomRoot psi) varList (atomRoot psi).lp ws = some lp)
    (v : Nat → α) (hfeas : lp.Feasible v) (hobj : lp.objective v ≤ 0) : False := by
  obtain ⟨c1, c2, _, _, _⟩ := addColumns_spec (α := α) (atomRoot psi) varList ws _ lp hlp
  have hok : lp.ColsOK := by
    refine ⟨by rw [c1, c2]; simp [atomRoot], ?_⟩
    intro c hc
    rw [c2] at hc
    rcases List.mem_append.mp hc with hc | hc
    · simp only [atomRoot, List.mem_cons, List.mem_singleton, List.not_mem_nil,
        or_false] at hc
      rcases hc with rfl | rfl | rfl | rfl <;> exact ⟨rfl, by norm_num⟩
    · rw [(List.mem_replicate.mp hc).2]
      exact ⟨rfl, le_refl _⟩
  exact atom_rows_contradict psi hunsat varList ws lp hlp v hfeas
    (@slack_zero _ _ lp hok v hfeas hobj 1 none (by rw [c2]; rfl))
    (@slack_zero _ _ lp hok v hfeas hobj 2 none (by rw [c2]; rfl))

theorem atom_no_zero_slack (psi : CPLFormula)
    (hunsat : ∀ (val : BoolMap) (a : ℚ), evaluateCPL psi val = some a → a = 0)
    (varList : List String) (ws : List (String × List Bool)) (lp : LinearProgram)
    (hlp : addColumns (atomRoot psi) varList (atomRoot psi).lp ws = some lp)
    (v : Nat → α) (hfeas : lp.Feasible v) (hfree : lp.SlackFree v) : False := by
  obtain ⟨c1, _, _, _, _⟩ := addColumns_spec (α := α) (atomRoot psi) varList ws _ lp hlp
  exact atom_rows_contradict psi hunsat varList ws lp hlp v hfeas
    (hfree 1 "i(0)" (by rw [c1]; rfl) (by decide))
    (hfree 2 "i(1)" (by rw [c1]; rfl) (by decide))

theorem addColumns_snoc (root : RootLP) (varList : List String) (name : String)
    (w : List Bool) (column : List (Nat × ℚ))
    (hcol : newColumn root varList w = some column) :
    ∀ (ws : List (String × List Bool)) (lp0 lp : LinearProgram),
      addColumns root varList lp0 ws = some lp →
      addColumns root varList lp0 (ws ++ [(name, w)]) = some (addColumn lp name column)
  | [], lp0, lp, h => by
    simp only [addColumns, Option.some.injEq] at h
    subst h
    simp [addColumns, hcol]
  | c :: ws, lp0, lp, h => by
    simp only [addColumns] at h
    cases hc : newColumn root varList c.2 with
    | none => rw [hc] at h; cases h
    | some col' =>
      rw [hc] at h
      simp only [List.cons_append, addColumns, hc]
      exact addColumns_snoc root varList name w column hcol ws _ lp h

theorem exhaustiveSearch_lp (root : RootLP) (varList : List String) (duals : Nat → ℚ) :
    ∀ (ws : List Nat) (st : EngineState) (res : Bool × EngineState),
      exhaustiveSearch root varList duals ws st = some res →
      res.2.lp = st.lp ∨ ∃ (name : String) (w : List Bool) (column : List (Nat × ℚ)),
        newColumn root varList w = some column ∧ res.2.lp = addColumn st.lp name column
  | [], st, res, h => by
    simp only [exhaustiveSearch, Option.some.injEq] at h
    subst h
    exact Or.inl rfl
  | w :: ws, st, res, h => by
    rw [exhaustiveSearch] at h
    by_cases hu : valuationOfMask varList.length w ∈ st.usedValuations
    · rw [if_pos hu] at h
      exact exhaustiveSearch_lp root varList duals ws st res h
    · rw [if_neg hu] at h
      cases hc : newColumn root varList (valuationOfMask varList.length w) with
      | none => rw [hc] at h; cases h
      | some column =>
        rw [hc] at h
        simp only at h
        by_cases hrc : (reducedCost duals column).isNegative = true
        · rw [if_pos hrc] at h
          simp only [Option.some.injEq] at h
          subst h
          exact Or.inr ⟨_, _, column, hc, rfl⟩
        · rw [if_neg hrc] at h
          have := exhaustiveSearch_lp root varList duals ws _ res h
          exact this

theorem pricing_lp (root : RootLP) (varList : List String)
    (findValuationPB : Option (List ℚ → List (List Bool) → Option (List Bool)))
    (duals : Nat → ℚ) (st : EngineState) (res : Bool × EngineState)
    (h : addNewProbabilisticCoherenceConstraint root varList findValuationPB duals st
      = some res) :
    res.2.lp = st.lp ∨ ∃ (name : String) (w : List Bool) (column : List (Nat × ℚ)),
      newColumn root varList w = some column ∧ res.2.lp = addColumn st.lp name column := by
  unfold addNewProbabilisticCoherenceConstraint at h
  by_cases hn : 32 ≤ varList.length
  · rw [if_pos hn] at h; cases h
  · rw [if_neg hn] at h
    cases findValuationPB with
    | none => exact exhaustiveSearch_lp root varList duals _ st res h
    | some oracle =>
      simp only at h
      cases ho : oracle (pricingWeights root duals) st.usedValuations with
      | none =>
        rw [ho] at h
        simp only [Option.some.injEq] at h
        subst h
        exact Or.inl rfl
      | some valuation =>
        rw [ho] at h
        simp only at h
        cases hc : newColumn root varList valuation with
        | none => rw [hc] at h; cases h
        | some column =>
          rw [hc] at h
          simp only [Option.some.injEq] at h
          subst h
          exact Or.inr ⟨_, _, column, hc, rfl⟩

/-- When the loop of `isFeasible` returns `true`, its program is the program it started from
with some columns added, and the LP solver has reported an objective value of at most 0 for
it. -/
theorem feasibilityLoop_accepts (root : RootLP) (varList : List String)
    (findValuationPB : Option (List ℚ → List (List Bool) → Option (List Bool)))
    (solver : Nat → LinearProgram → Option LPAnswer) (lp0 : LinearProgram) :
    ∀ (fuel iter calls : Nat) (st st' : EngineState) (calls' : Nat),
      (∃ ws, addColumns root varList lp0 ws = some st.lp) →
      feasibilityLoop root varList findValuationPB solver fuel iter calls st
        = .returned true st' calls' →
      ∃ ws iter' ans, addColumns root varList lp0 ws = some st'.lp ∧
        solver iter' st'.lp = some ans ∧ ans.obj ≤ 0
  | 0, _, _, _, _, _, _, h => by
    simp only [feasibilityLoop] at h
    cases h
  | fuel + 1, iter, calls, st, st', calls', hws, h => by
    rw [feasibilityLoop] at h
    cases hs : solver iter st.lp with
    | none =>
      rw [hs] at h
      cases h
    | some ans =>
      rw [hs] at h
      simp only at h
      by_cases hobj : ans.obj ≤ 0
      · rw [if_pos hobj] at h
        cases h
        obtain ⟨ws, hws⟩ := hws
        exact ⟨ws, iter, ans, hws, hs, hobj⟩
      · rw [if_neg hobj] at h
        cases hp : addNewProbabilisticCoherenceConstraint root varList findValuationPB
            ans.duals st with
        | none => rw [hp] at h; cases h
        | some res =>
          rw [hp] at h
          obtain ⟨b, st1⟩ := res
          cases b with
          | false => cases h
          | true =>
            simp only at h
            refine feasibilityLoop_accepts root varList findValuationPB solver lp0 fuel
              (iter + 1) (calls + 1) st1 st' calls' ?_ h
            obtain ⟨ws, hws⟩ := hws
            rcases pricing_lp root varList findValuationPB ans.duals st _ hp with
              he | ⟨name, w, column, hc, he⟩
            · exact ⟨ws, by rw [hws]; exact congrArg some he.symm⟩
            · refine ⟨ws ++ [(name, w)], ?_⟩
              rw [addColumns_snoc root varList name w column hc ws lp0 st.lp hws]
              exact congrArg some he.symm

/-- When `isFeasible` returns `true` on the program `lp`, the LP solver has reported an
objective value of at most 0 for `lp` with some columns added. -/
theorem isFeasible_accepts (root : RootLP) (varList : List String)
    (findValuationPB : Option (List ℚ → List (List Bool) → Option (List Bool)))
    (solver : Nat → LinearProgram → Option LPAnswer) (fuel : Nat) (lp : LinearProgram)
    (st : EngineState) (calls : Nat)
    (h : isFeasible root varList findValuationPB solver fuel lp = .returned true st calls) :
    ∃ ws iter ans, addColumns root varList lp ws = some st.lp ∧
      solver iter st.lp = some ans ∧ ans.obj ≤ 0 := by
  unfold isFeasible at h
  cases hst : engineStart root varList lp with
  | none => rw [hst] at h; cases h
  | some st0 =>
    rw [hst] at h
    simp only [engineStart, Option.map_eq_some'] at hst
    obtain ⟨column, hcol, rfl⟩ := hst
    refine feasibilityLoop_accepts root varList findValuationPB solver lp fuel 1 0 _ st calls
      ⟨[("p(0)", zeroValuation varList)], ?_⟩ h
    simp [addColumns, hcol]

theorem contradiction_unsat (val : BoolMap) (a : ℚ)
    (h : evaluateCPL (.binary .AND (.var "p") (.not (.var "p"))) val = some a) : a = 0 := by
  simp only [evaluateCPL] at h
  cases hb : val.at "p" with
  | none => rw [hb] at h; simp at h
  | some b =>
    rw [hb] at h
    cases b <;> simp at h <;> exact h.symm

/-- C30: an unsatisfiable atom is UNSAT. For every CPL formula `ψ` that is false under every
valuation, the program that `solve` builds for the single input line `P(ψ)` has, for any
probability columns, no feasible assignment with all slack variables at 0 and none of
objective value at most 0; hence `isFeasible`, with an LP solver that reports objective
values of feasible assignments, never returns `true` on it, with the exhaustive pricing it
returns `false`, and `solve` returns UNSAT. -/
theorem unsatisfiable_atom_is_unsat (psi : CPLFormula)
    (hunsat : ∀ (val : BoolMap) (a : ℚ), evaluateCPL psi val = some a → a = 0) :
    buildRootLP [.patom psi] = some (atomRoot psi) ∧
    (∀ (varList : List String) (ws : List (String × List Bool)) (lp : LinearProgram),
      addColumns (atomRoot psi) varList (atomRoot psi).lp ws = some lp →
      ∀ v : Nat → α, lp.Feasible v → ¬ lp.SlackFree v ∧ ¬ lp.objective v ≤ 0) ∧
    (∀ (varList : List String)
      (findValuationPB : Option (List ℚ → List (List Bool) → Option (List Bool)))
      (solver : Nat → LinearProgram → Option LPAnswer),
      (∀ iter lp ans, solver iter lp = some ans →
        ∃ v : Nat → α, lp.Feasible v ∧ lp.objective v = (ans.obj : α)) →
      (∀ fuel st calls,
        isFeasible (atomRoot psi) varList findValuationPB solver fuel (atomRoot psi).lp
          ≠ .returned true st calls) ∧
      (varList.length < 31 →
        (∀ w, w < 2 ^ varList.length →
          (newColumn (atomRoot psi) varList (valuationOfMask varList.length w)).isSome
            = true) →
        ∀ fuel, 2 ^ varList.length ≤ fuel → ∃ st calls,
          isFeasible (atomRoot psi) varList none solver fuel (atomRoot psi).lp
            = .returned false st calls)) ∧
    (∀ engine : LinearProgram → Bool, engine (atomRoot psi).lp = false →
      solve engine [.patom psi] = some false) := by
  have hnever : ∀ (varList : List String)
      (findValuationPB : Option (List ℚ → List (List Bool) → Option (List Bool)))
      (solver : Nat → LinearProgram → Option LPAnswer),
      (∀ iter lp ans, solver iter lp = some ans →
        ∃ v : Nat → α, lp.Feasible v ∧ lp.objective v = (ans.obj : α)) →
      ∀ fuel st calls,
        isFeasible (atomRoot psi) varList findValuationPB solver fuel (atomRoot psi).lp
          ≠ .returned true st calls := by
    intro varList pb solver hsound fuel st calls h
    obtain ⟨ws, iter, ans, hws, hs, hobj⟩ :=
      isFeasible_accepts (atomRoot psi) varList pb solver fuel _ st calls h
    obtain ⟨v, hfeas, hv⟩ := hsound iter st.lp ans hs
    refine atom_no_zero_cost psi hunsat varList ws st.lp hws v hfeas ?_
    rw [hv]
    exact_mod_cast hobj
  refine ⟨buildRootLP_atom psi, ?_, ?_, ?_⟩
  · intro varList ws lp hlp v hfeas
    exact ⟨fun hfree => atom_no_zero_slack psi hunsat varList ws lp hlp v hfeas hfree,
      fun hobj => atom_no_zero_cost psi hunsat varList ws lp hlp v hfeas hobj⟩
  · intro varList pb solver hsound
    refine ⟨hnever varList pb solver hsound, ?_⟩
    intro hn hcols fuel hfuel
    obtain ⟨st0, hst0, hinv0, hlen0⟩ :=
      engineStart_inv (atomRoot psi) varList (atomRoot psi).lp hcols
    obtain ⟨value, st, calls, hres, _, _⟩ :=
      feasibilityLoop_returns (atomRoot psi) varList solver hn hcols fuel 1 0 st0 hinv0
        (by omega) (by omega)
    have hret : isFeasible (atomRoot psi) varList none solver fuel (atomRoot psi).lp
        = .returned value st calls := by
      simp only [isFeasible, hst0]
      exact hres
    cases value with
    | false => exact ⟨st, calls, hret⟩
    | true => exact absurd hret (hnever varList none solver hsound fuel st calls)
  · intro engine he
    simp only [solve, buildRootLP_atom, solveFrom, he]
    rfl

/-- The hypothesis of `unsatisfiable_atom_is_unsat` holds for `ψ = p ∧ ¬p`: `solve` returns
UNSAT for the input line `P(p ∧ ¬p)` with an engine that rejects its root program. -/
theorem unsatisfiable_atom_is_unsat_witness :
    solve (fun _ => false) [.patom (.binary .AND (.var "p") (.not (.var "p")))]
      = some false :=
  (unsatisfiable_atom_is_unsat (α := ℚ) (.binary .AND (.var "p") (.not (.var "p")))
    contradiction_unsat).2.2.2 (fun _ => false) rfl

end UnsatAtom

/-! ## Theorems: the variable table -/

section VariableTable

theorem StrMap.mem_of_find : ∀ (m : StrMap) (v : String) (i : Nat),
    m.find v = some i → (v, i) ∈ m
  | [], _, _, h => by simp [StrMap.find] at h
  | (k, n) :: m, v, i, h => by
    simp only [StrMap.find] at h
    by_cases hk : k = v
    · rw [if_pos hk] at h
      cases h
      rw [hk]
      exact List.mem_cons_self _ _
    · rw [if_neg hk] at h
      exact List.mem_cons_of_mem _ (StrMap.mem_of_find m v i h)

theorem StrMap.find_of_mem : ∀ (m : StrMap) (v : String) (i : Nat),
    (m.map Prod.fst).Nodup → (v, i) ∈ m → m.find v = some i
  | [], _, _, _, h => by cases h
  | (k, n) :: m, v, i, hnd, h => by
    simp only [List.map_cons, List.nodup_cons] at hnd
    simp only [StrMap.find]
    rcases List.mem_cons.mp h with h | h
    · cases h
      rw [if_pos rfl]
    · have hk : k ≠ v := by
        intro hk
        apply hnd.1
        rw [hk]
        exact List.mem_map.mpr ⟨(v, i), h, rfl⟩
      rw [if_neg hk]
      exact StrMap.find_of_mem m v i hnd.2 h

theorem StrMap.count_iff_mem : ∀ (m : StrMap) (v : String),
    m.count v = true ↔ v ∈ m.map Prod.fst
  | [], v => by simp [StrMap.count, StrMap.find]
  | (k, n) :: m, v => by
    have ih := StrMap.count_iff_mem m v
    simp only [StrMap.count, StrMap.find] at ih ⊢
    by_cases hk : k = v
    · rw [if_pos hk]
      simp [hk]
    · rw [if_neg hk, ih]
      simp only [List.map_cons, List.mem_cons]
      constructor
      · exact Or.inr
      · rintro (h | h)
        · exact absurd h.symm hk
        · exact h

theorem TableInv.nil : TableInv [] [] :=
  ⟨rfl, List.nodup_nil, fun _ => Iff.rfl, fun v w i j h => by simp [StrMap.find] at h⟩

theorem TableInv.lt_length {m : StrMap} {seen : List String} (h : TableInv m seen)
    {v : String} {i : Nat} (hv : m.find v = some i) : i < m.length := by
  have hmem : i ∈ (m.map Prod.snd).reverse :=
    List.mem_reverse.mpr (List.mem_map.mpr ⟨(v, i), StrMap.mem_of_find m v i hv, rfl⟩)
  rw [h.1] at hmem
  exact List.mem_range.mp hmem

theorem TableInv.key_mem {m : StrMap} {seen : List String} (h : TableInv m seen)
    {v : String} {i : Nat} (hv : m.find v = some i) : v ∈ seen :=
  (h.2.2.1 v).mp (List.mem_map.mpr ⟨(v, i), StrMap.mem_of_find m v i hv, rfl⟩)

/-- Visiting one more name keeps the table invariant. -/
theorem TableInv.visit {m : StrMap} {seen : List String} (h : TableInv m seen)
    (x : String) : TableInv (m.visit x) (seen ++ [x]) := by
  obtain ⟨h1, h2, h3, h4⟩ := h
  have hinv : TableInv m seen := ⟨h1, h2, h3, h4⟩
  by_cases hx : m.count x = true
  · have hxs : x ∈ seen := (h3 x).mp ((StrMap.count_iff_mem m x).mp hx)
    have e : m.visit x = m := by simp [StrMap.visit, hx]
    rw [e]
    refine ⟨h1, h2, ?_, ?_⟩
    · intro v
      rw [h3 v]
      simp only [List.mem_append, List.mem_singleton]
      constructor
      · exact Or.inl
      · rintro (hv | hv)
        · exact hv
        · rw [hv]; exact hxs
    · intro v w i j hv hw
      rw [List.indexOf_append_of_mem (hinv.key_mem hv),
        List.indexOf_append_of_mem (hinv.key_mem hw)]
      exact h4 v w i j hv hw
  · have hx' : m.count x = false := by simpa using hx
    have hxs : x ∉ seen := fun hmem => hx ((StrMap.count_iff_mem m x).mpr ((h3 x).mpr hmem))
    have e : m.visit x = (x, m.length) :: m := by simp [StrMap.visit, hx', StrMap.insert]
    have hfind : ∀ v i, StrMap.find ((x, m.length) :: m) v = some i →
        (v = x ∧ i = m.length) ∨ (v ≠ x ∧ m.find v = some i) := by
      intro v i hv
      simp only [StrMap.find] at hv
      by_cases hk : x = v
      · rw [if_pos hk] at hv
        cases hv
        exact Or.inl ⟨hk.symm, rfl⟩
      · rw [if_neg hk] at hv
        exact Or.inr ⟨fun hh => hk hh.symm, hv⟩
    have hidx : ∀ v, v ∈ seen → (seen ++ [x]).indexOf v = seen.indexOf v ∧
        seen.indexOf v < seen.length := fun v hv =>
      ⟨List.indexOf_append_of_mem hv, List.indexOf_lt_length.mpr hv⟩
    have hix : (seen ++ [x]).indexOf x = seen.length := by
      rw [List.indexOf_append_of_not_mem hxs]
      simp
    rw [e]
    refine ⟨?_, ?_, ?_, ?_⟩
    · simp only [List.map_cons, List.reverse_cons, List.length_cons, h1]
      exact (List.range_succ _).symm
    · simp only [List.map_cons, List.nodup_cons]
      exact ⟨fun hmem => hxs ((h3 x).mp hmem), h2⟩
    · intro v
      rw [List.map_cons, List.mem_cons, List.mem_append, List.mem_singleton, h3 v]
      exact Or.comm
    · intro v w i j hv hw
      rcases hfind v i hv with ⟨rfl, rfl⟩ | ⟨_, hv'⟩
      · rcases hfind w j hw with ⟨rfl, rfl⟩ | ⟨_, hw'⟩
        · simp
        · have hj := hinv.lt_length hw'
          have hw2 := hidx w (hinv.key_mem hw')
          rw [hix, hw2.1]
          omega
      · have hi := hinv.lt_length hv'
        have hv2 := hidx v (hinv.key_mem hv')
        rcases hfind w j hw with ⟨rfl, rfl⟩ | ⟨_, hw'⟩
        · rw [hix, hv2.1]
          omega
        · have hw2 := hidx w (hinv.key_mem hw')
          rw [hv2.1, hw2.1]
          exact h4 v w i j hv' hw'

theorem TableInv.foldl : ∀ (occ : List String) (m : StrMap) (seen : List String),
    TableInv m seen → TableInv (occ.foldl StrMap.visit m) (seen ++ occ)
  | [], m, seen, h => by simpa using h
  | x :: occ, m, seen, h => by
    have := TableInv.foldl occ (m.visit x) (seen ++ [x]) (h.visit x)
    simpa using this

theorem CPLFormula.collectPropVars_eq : ∀ (f : CPLFormula) (m : StrMap),
    f.collectPropVars m = f.vars.foldl StrMap.visit m
  | .var name, m => by simp [CPLFormula.collectPropVars, CPLFormula.vars, StrMap.visit]
  | .not l, m => by
    simp [CPLFormula.collectPropVars, CPLFormula.vars, CPLFormula.collectPropVars_eq l]
  | .binary _ l r, m => by
    simp [CPLFormula.collectPropVars, CPLFormula.vars, CPLFormula.collectPropVars_eq l,
      CPLFormula.collectPropVars_eq r, List.foldl_append]

theorem ModalFormula.modalCollectPropVars_eq : ∀ (f : ModalFormula) (m : StrMap),
    f.collectPropVars m = f.vars.foldl StrMap.visit m
  | .patom phi, m => by
    simp [ModalFormula.collectPropVars, ModalFormula.vars, CPLFormula.collectPropVars_eq]
  | .not l, m => by
    simp [ModalFormula.collectPropVars, ModalFormula.vars,
      ModalFormula.modalCollectPropVars_eq l]
  | .binary _ l r, m => by
    simp [ModalFormula.collectPropVars, ModalFormula.vars,
      ModalFormula.modalCollectPropVars_eq l, ModalFormula.modalCollectPropVars_eq r,
      List.foldl_append]

theorem foldl_collectPropVars_eq : ∀ (formulas : List ModalFormula) (m : StrMap),
    formulas.foldl (fun m f => f.collectPropVars m) m
      = (allVars formulas).foldl StrMap.visit m
  | [], _ => rfl
  | f :: fs, m => by
    simp only [List.foldl_cons, allVars, List.foldl_append]
    rw [foldl_collectPropVars_eq fs, ModalFormula.modalCollectPropVars_eq]

theorem propVarTable_inv (formulas : List ModalFormula) :
    TableInv (propVarTable formulas) (allVars formulas) := by
  have h := TableInv.foldl (allVars formulas) [] [] TableInv.nil
  rw [propVarTable, foldl_collectPropVars_eq]
  simpa using h

theorem foldl_set_length : ∀ (l : List (String × Nat)) (vl : List String),
    (l.foldl (fun vl e => vl.set e.2 e.1) vl).length = vl.length
  | [], _ => rfl
  | e :: l, vl => by
    simp only [List.foldl_cons]
    rw [foldl_set_length l, List.length_set]

theorem foldl_set_untouched : ∀ (l : List (String × Nat)) (vl : List String) (i : Nat),
    i ∉ l.map Prod.snd → (l.foldl (fun vl e => vl.set e.2 e.1) vl)[i]? = vl[i]?
  | [], _, _, _ => rfl
  | e :: l, vl, i, h => by
    simp only [List.map_cons, List.mem_cons, not_or] at h
    simp only [List.foldl_cons]
    rw [foldl_set_untouched l _ i h.2, List.getElem?_set_ne (fun hh => h.1 hh.symm)]

theorem foldl_set_get : ∀ (l : List (String × Nat)) (vl : List String),
    (l.map Prod.snd).Nodup → (∀ e ∈ l, e.2 < vl.length) →
    ∀ e ∈ l, (l.foldl (fun vl e => vl.set e.2 e.1) vl)[e.2]? = some e.1
  | [], _, _, _, e, he => by cases he
  | a :: l, vl, hnd, hlt, e, he => by
    simp only [List.map_cons, List.nodup_cons] at hnd
    simp only [List.foldl_cons]
    rcases List.mem_cons.mp he with rfl | he
    · rw [foldl_set_untouched l _ _ hnd.1]
      exact List.getElem?_set_self (hlt _ (List.mem_cons_self _ _))
    · exact foldl_set_get l _ hnd.2
        (fun e' he' => by
          rw [List.length_set]
          exact hlt e' (List.mem_cons_of_mem _ he')) e he

/-- C17: the variable table. After `preprocess` has run `collectPropVars` over the input
formulas from an empty table, the keys of `propVarToId` are exactly the variable names that
occur in the input, no key is bound twice, the ids are exactly `0..n−1` where `n`, the size
of the table, is the number of distinct names, different names have different ids, a name
first seen earlier (formulas in input order, each tree left to right) has the smaller id,
`varList` has `n` entries and `varList[propVarToId[v]] = v` for every variable `v`. -/
theorem variable_table (formulas : List ModalFormula) :
    (∀ v, (propVarTable formulas).count v = true ↔ v ∈ allVars formulas) ∧
    ((propVarTable formulas).map Prod.fst).Nodup ∧
    (propVarTable formulas).length = (allVars formulas).dedup.length ∧
    (∀ v i, (propVarTable formulas).find v = some i → i < (propVarTable formulas).length) ∧
    (∀ i, i < (propVarTable formulas).length →
      ∃ v, (propVarTable formulas).find v = some i) ∧
    (∀ v w i, (propVarTable formulas).find v = some i →
      (propVarTable formulas).find w = some i → v = w) ∧
    (∀ v w i j, (propVarTable formulas).find v = some i →
      (propVarTable formulas).find w = some j →
      (i < j ↔ (allVars formulas).indexOf v < (allVars formulas).indexOf w)) ∧
    (varListOf (propVarTable formulas)).length = (propVarTable formulas).length ∧
    ∀ v i, (propVarTable formulas).find v = some i →
      (varListOf (propVarTable formulas))[i]? = some v := by
  have hinv := propVarTable_inv formulas
  obtain ⟨h1, h2, h3, h4⟩ := propVarTable_inv formulas
  have hsndNodup : ((propVarTable formulas).map Prod.snd).Nodup := by
    rw [← List.nodup_reverse, h1]
    exact List.nodup_range _
  refine ⟨?_, h2, ?_, ?_, ?_, ?_, h4, ?_, ?_⟩
  · intro v
    rw [StrMap.count_iff_mem, h3]
  · have e1 : ((propVarTable formulas).map Prod.fst).toFinset = (allVars formulas).toFinset := by
      ext v
      simp only [List.mem_toFinset]
      exact h3 v
    have e2 := List.toFinset_card_of_nodup h2
    rw [e1, List.card_toFinset, List.length_map] at e2
    exact e2.symm
  · intro v i hv
    exact hinv.lt_length hv
  · intro i hi
    have hmem : i ∈ ((propVarTable formulas).map Prod.snd).reverse := by
      rw [h1]
      exact List.mem_range.mpr hi
    obtain ⟨e, he, hei⟩ := List.mem_map.mp (List.mem_reverse.mp hmem)
    refine ⟨e.1, ?_⟩
    rw [← hei]
    exact StrMap.find_of_mem _ _ _ h2 he
  · intro v w i hv hw
    have hlt := h4 v w i i hv hw
    have hgt := h4 w v i i hw hv
    have heq : (allVars formulas).indexOf v = (allVars formulas).indexOf w := by omega
    exact (List.indexOf_inj (hinv.key_mem hv) (hinv.key_mem hw)).mp heq
  · rw [varListOf, foldl_set_length, List.length_replicate]
  · intro v i hv
    rw [varListOf]
    exact foldl_set_get (propVarTable formulas) _ hsndNodup
      (fun e he => by
        rw [List.length_replicate]
        exact hinv.lt_length (StrMap.find_of_mem _ _ _ h2 he))
      (v, i) (StrMap.mem_of_find _ _ _ hv)

end VariableTable

/-! ## Theorems: branch and bound -/

section BranchAndBound

theorem mem_insertName (name y : String) : ∀ (l : List String),
    y ∈ insertName name l ↔ y = name ∨ y ∈ l
  | [] => by simp [insertName]
  | x :: xs => by
    simp only [insertName]
    by_cases h1 : name.data < x.data
    · rw [if_pos h1]; simp
    · rw [if_neg h1]
      by_cases h2 : name = x
      · rw [if_pos h2]
        simp only [List.mem_cons, h2]
        tauto
      · rw [if_neg h2]
        simp only [List.mem_cons, mem_insertName name y xs]
        tauto

theorem sorted_insertName (name : String) : ∀ (l : List String),
    l.Sorted (fun a b : String => a.data < b.data) →
    (insertName name l).Sorted (fun a b : String => a.data < b.data)
  | [], _ => by simp [insertName]
  | x :: xs, h => by
    obtain ⟨hx, hxs⟩ := List.sorted_cons.mp h
    simp only [insertName]
    by_cases h1 : name.data < x.data
    · rw [if_pos h1]
      refine List.sorted_cons.mpr ⟨?_, h⟩
      intro b hb
      rcases List.mem_cons.mp hb with rfl | hb
      · exact h1
      · exact lt_trans h1 (hx b hb)
    · rw [if_neg h1]
      by_cases h2 : name = x
      · rw [if_pos h2]; exact h
      · rw [if_neg h2]
        refine List.sorted_cons.mpr ⟨?_, sorted_insertName name xs hxs⟩
        intro b hb
        rcases (mem_insertName name b xs).mp hb with rfl | hb
        · rcases lt_trichotomy b.data x.data with h' | h' | h'
          · exact absurd h' h1
          · exact absurd (String.ext h') h2
          · exact h'
        · exact hx b hb

theorem getBinaryVariableNames_spec (lp : LinearProgram) :
    lp.getBinaryVariableNames.Sorted (fun a b : String => a.data < b.data) ∧
    ∀ name, name ∈ lp.getBinaryVariableNames ↔
      isBinaryName name = true ∧ name ∈ lp.nameToIndex.map Prod.fst := by
  unfold LinearProgram.getBinaryVariableNames
  generalize lp.nameToIndex = m
  induction m with
  | nil => simp
  | cons e m ih =>
    simp only [List.foldr_cons, List.map_cons, List.mem_cons]
    by_cases hb : isBinaryName e.1 = true
    · rw [if_pos hb]
      refine ⟨sorted_insertName _ _ ih.1, ?_⟩
      intro name
      rw [mem_insertName, ih.2 name]
      constructor
      · rintro (rfl | ⟨h1, h2⟩)
        · exact ⟨hb, Or.inl rfl⟩
        · exact ⟨h1, Or.inr h2⟩
      · rintro ⟨h1, rfl | h2⟩
        · exact Or.inl rfl
        · exact Or.inr ⟨h1, h2⟩
    · rw [if_neg hb]
      refine ⟨ih.1, ?_⟩
      intro name
      rw [ih.2 name]
      constructor
      · rintro ⟨h1, h2⟩
        exact ⟨h1, Or.inr h2⟩
      · rintro ⟨h1, rfl | h2⟩
        · exact absurd h1 hb
        · exact ⟨h1, h2⟩

theorem fixBinary_nameToIndex {lp lp' : LinearProgram} {b : String} {val : Bool}
    (h : fixBinary lp b val = some lp') : lp'.nameToIndex = lp.nameToIndex := by
  simp only [fixBinary, Option.map_eq_some'] at h
  obtain ⟨i, _, rfl⟩ := h
  rfl

theorem fixBinary_isSome {lp : LinearProgram} {b : String} (val : Bool)
    (h : (lp.nameToIndex.find b).isSome = true) : ∃ lp', fixBinary lp b val = some lp' := by
  obtain ⟨i, hi⟩ := Option.isSome_iff_exists.mp h
  exact ⟨lp.addConstraint [(i, 1)] .EQ (if val then 1 else 0),
    by simp [fixBinary, LinearProgram.getVarIndex, hi]⟩

/-- The vector `next` holds, for every branch, the children `b = 0` and `b = 1` that the
engine accepts. -/
theorem nextBranches_spec (engine : LinearProgram → Bool) (b : String) (nti : StrMap)
    (hb : (nti.find b).isSome = true) : ∀ (brs : List Branch),
    (∀ br ∈ brs, br.lp.nameToIndex = nti) →
    ∃ next, nextBranches engine b brs = some next ∧
      (∀ c ∈ next, c.lp.nameToIndex = nti) ∧
      ∀ lp', (∃ c ∈ next, c.lp = lp') ↔
        ∃ br ∈ brs, ∃ val, fixBinary br.lp b val = some lp' ∧ engine lp' = true
  | [], _ => ⟨[], rfl, fun c hc => (by cases hc), fun lp' =>
      ⟨fun ⟨c, hc, _⟩ => (by cases hc), fun ⟨br, hbr, _⟩ => (by cases hbr)⟩⟩
  | br :: brs, hnti => by
    obtain ⟨rest, hrest, hr1, hr2⟩ := nextBranches_spec engine b nti hb brs
      (fun br' h' => hnti br' (List.mem_cons_of_mem _ h'))
    have hbr := hnti br (List.mem_cons_self _ _)
    obtain ⟨lp0, h0⟩ := @fixBinary_isSome br.lp b false (by rw [hbr]; exact hb)
    obtain ⟨lp1, h1⟩ := @fixBinary_isSome br.lp b true (by rw [hbr]; exact hb)
    have hn0 : lp0.nameToIndex = nti := by rw [fixBinary_nameToIndex h0, hbr]
    have hn1 : lp1.nameToIndex = nti := by rw [fixBinary_nameToIndex h1, hbr]
    refine ⟨((if engine lp0 then [⟨lp0, br.fixedBinaries ++ [(b, false)]⟩] else []) ++
        (if engine lp1 then [⟨lp1, br.fixedBinaries ++ [(b, true)]⟩] else [])) ++ rest,
      by simp only [nextBranches, branchChildren, h0, h1, hrest], ?_, ?_⟩
    · intro c hc
      simp only [List.mem_append] at hc
      rcases hc with (hc | hc) | hc
      · by_cases he : engine lp0 = true
        · rw [if_pos he, List.mem_singleton] at hc
          rw [hc]; exact hn0
        · rw [if_neg he] at hc; cases hc
      · by_cases he : engine lp1 = true
        · rw [if_pos he, List.mem_singleton] at hc
          rw [hc]; exact hn1
        · rw [if_neg he] at hc; cases hc
      · exact hr1 c hc
    · intro lp'
      constructor
      · rintro ⟨c, hc, rfl⟩
        simp only [List.mem_append] at hc
        rcases hc with (hc | hc) | hc
        · by_cases he : engine lp0 = true
          · rw [if_pos he, List.mem_singleton] at hc
            rw [hc]
            exact ⟨br, List.mem_cons_self _ _, false, h0, he⟩
          · rw [if_neg he] at hc; cases hc
        · by_cases he : engine lp1 = true
          · rw [if_pos he, List.mem_singleton] at hc
            rw [hc]
            exact ⟨br, List.mem_cons_self _ _, true, h1, he⟩
          · rw [if_neg he] at hc; cases hc
        · obtain ⟨br', hbr', val, hv, he⟩ := (hr2 c.lp).mp ⟨c, hc, rfl⟩
          exact ⟨br', List.mem_cons_of_mem _ hbr', val, hv, he⟩
      · rintro ⟨br', hbr', val, hv, he⟩
        rcases List.mem_cons.mp hbr' with rfl | hbr'
        · cases val with
          | false =>
            rw [h0] at hv
            cases hv
            exact ⟨⟨lp0, br'.fixedBinaries ++ [(b, false)]⟩, by simp [he], rfl⟩
          | true =>
            rw [h1] at hv
            cases hv
            exact ⟨⟨lp1, br'.fixedBinaries ++ [(b, true)]⟩, by simp [he], rfl⟩
        · obtain ⟨c, hc, hcl⟩ := (hr2 lp').mpr ⟨br', hbr', val, hv, he⟩
          exact ⟨c, List.mem_append_right _ hc, hcl⟩

theorem fixBinaries_cons (lp lp' : LinearProgram) (b : String) (val : Bool)
    (rest : List (String × Bool)) (h : fixBinary lp b val = some lp') :
    fixBinaries lp ((b, val) :: rest) = fixBinaries lp' rest := by
  simp only [fixBinaries, h]

/-- The branches left by the loop of `solve`: some branch is left if and only if some
branch has a 0/1 assignment to the binaries such that the engine accepts its program after
each of the fixings. -/
theorem branchLoop_spec (engine : LinearProgram → Bool) (nti : StrMap) :
    ∀ (bs : List String) (brs : List Branch),
    (∀ b ∈ bs, (nti.find b).isSome = true) → (∀ br ∈ brs, br.lp.nameToIndex = nti) →
    ∃ out, branchLoop engine bs brs = some out ∧
      (out ≠ [] ↔ ∃ br ∈ brs, ∃ σ : List Bool, σ.length = bs.length ∧
        ∀ k, 1 ≤ k → k ≤ bs.length →
          ∃ lp', fixBinaries br.lp ((bs.zip σ).take k) = some lp' ∧ engine lp' = true)
  | [], brs, _, _ => by
    refine ⟨brs, rfl, ?_⟩
    constructor
    · intro h
      obtain ⟨br, brs', rfl⟩ := List.exists_cons_of_ne_nil h
      exact ⟨br, List.mem_cons_self _ _, [], rfl, fun k h1 h2 => by
        simp only [List.length_nil] at h2; omega⟩
    · rintro ⟨br, hbr, _⟩ h
      rw [h] at hbr
      cases hbr
  | b :: bs, brs, hbs, hnti => by
    by_cases hbrs : brs = []
    · refine ⟨[], by rw [branchLoop, if_pos hbrs], ?_⟩
      constructor
      · intro h; exact absurd rfl h
      · rintro ⟨br, hbr, _⟩
        rw [hbrs] at hbr
        cases hbr
    · obtain ⟨next, hnext, hn1, hn2⟩ := nextBranches_spec engine b nti
        (hbs b (List.mem_cons_self _ _)) brs hnti
      obtain ⟨out, hout, hiff⟩ := branchLoop_spec engine nti bs next
        (fun b' hb' => hbs b' (List.mem_cons_of_mem _ hb')) hn1
      refine ⟨out, by rw [branchLoop, if_neg hbrs, hnext]; exact hout, ?_⟩
      rw [hiff]
      constructor
      · rintro ⟨c, hc, σ', hlen, hk⟩
        obtain ⟨br, hbr, val, hv, he⟩ := (hn2 c.lp).mp ⟨c, hc, rfl⟩
        refine ⟨br, hbr, val :: σ', by simp [hlen], ?_⟩
        intro k h1 h2
        obtain ⟨k', rfl⟩ : ∃ k', k = k' + 1 := ⟨k - 1, by omega⟩
        rw [List.zip_cons_cons, List.take_succ_cons, fixBinaries_cons _ _ _ _ _ hv]
        cases k' with
        | zero => exact ⟨c.lp, rfl, he⟩
        | succ k'' =>
          simp only [List.length_cons] at h2
          exact hk (k'' + 1) (by omega) (by omega)
      · rintro ⟨br, hbr, σ, hlen, hk⟩
        cases σ with
        | nil => simp at hlen
        | cons val σ' =>
          simp only [List.length_cons, Nat.add_right_cancel_iff] at hlen
          obtain ⟨lp1, hl1, he1⟩ := hk 1 (le_refl _) (by simp)
          obtain ⟨lpv, hv⟩ := @fixBinary_isSome br.lp b val
            (by rw [hnti br hbr]; exact hbs b (List.mem_cons_self _ _))
          rw [List.zip_cons_cons, List.take_succ_cons, fixBinaries_cons _ _ _ _ _ hv] at hl1
          simp only [List.take_zero, fixBinaries, Option.some.injEq] at hl1
          subst hl1
          obtain ⟨c, hc, hcl⟩ := (hn2 lpv).mpr ⟨br, hbr, val, hv, he1⟩
          refine ⟨c, hc, σ', hlen, ?_⟩
          intro k h1 h2
          obtain ⟨lp', hl', he'⟩ := hk (k + 1) (by omega) (by simp; omega)
          rw [List.zip_cons_cons, List.take_succ_cons, fixBinaries_cons _ _ _ _ _ hv] at hl'
          rw [hcl]
          exact ⟨lp', hl', he'⟩

end BranchAndBound

/-! ## Theorems: classical evaluation -/

section ClassicalEvaluation

theorem evaluateCPL_classical : ∀ (psi : CPLFormula) (val : BoolMap),
    (∀ name ∈ psi.vars, (val.at name).isSome = true) →
    evaluateCPL psi val = some (if psi.classical val.assignment then 1 else 0)
  | .var name, val, h => by
    obtain ⟨b, hb⟩ := Option.isSome_iff_exists.mp (h name (by simp [CPLFormula.vars]))
    simp [evaluateCPL, CPLFormula.classical, BoolMap.assignment, hb]
  | .not l, val, h => by
    have ih := evaluateCPL_classical l val h
    simp only [evaluateCPL, CPLFormula.classical, ih, Option.map_some']
    rcases Bool.eq_false_or_eq_true (l.classical val.assignment) with hb | hb <;> simp [hb]
  | .binary op l r, val, h => by
    have ihl := evaluateCPL_classical l val
      (fun name hn => h name (by simp [CPLFormula.vars, hn]))
    have ihr := evaluateCPL_classical r val
      (fun name hn => h name (by simp [CPLFormula.vars, hn]))
    simp only [evaluateCPL, CPLFormula.classical, ihl, ihr]
    cases op <;>
      rcases Bool.eq_false_or_eq_true (l.classical val.assignment) with hb | hb <;>
      rcases Bool.eq_false_or_eq_true (r.classical val.assignment) with hc | hc <;>
      simp [CPLBinary.truth, hb, hc]

theorem columnEntries_one (varList : List String) (w : List Bool) :
    ∀ (L : List (CPLFormula × Nat)) (es : List (Nat × ℚ)),
      columnEntries L varList w = some es → ∀ e ∈ es, e.2 = 1
  | [], es, h => by
    simp only [columnEntries, Option.some.injEq] at h
    subst h
    intro e he
    cases he
  | e :: L, es, h => by
    simp only [columnEntries] at h
    cases hv : evaluateCPL e.1 (valuationMap varList w) with
    | none => rw [hv] at h; cases h
    | some val =>
      cases hes : columnEntries L varList w with
      | none => rw [hv, hes] at h; cases h
      | some es' =>
        rw [hv, hes] at h
        simp only [Option.some.injEq] at h
        have ih := columnEntries_one varList w L es' hes
        rcases evaluateCPL_zero_one e.1 _ val hv with h0 | h1
        · rw [h0, if_neg (by norm_num)] at h
          subst h
          exact ih
        · rw [h1, if_pos (by norm_num)] at h
          subst h
          intro e' he'
          rcases List.mem_cons.mp he' with rfl | he'
          · rfl
          · exact ih e' he'

/-- The map that `evaluateCPL(f, varList, valuation)` builds binds every name of the
table. -/
theorem valuationMap_isSome (varList : List String) (w : List Bool)
    (hlen : varList.length ≤ w.length) (name : String) (h : name ∈ varList) :
    ((valuationMap varList w).at name).isSome = true := by
  have key : ∀ (m : BoolMap), name ∈ m.map Prod.fst → (m.at name).isSome = true := by
    intro m
    induction m with
    | nil => intro h; cases h
    | cons e m ih =>
      intro hm
      obtain ⟨k, b⟩ := e
      simp only [BoolMap.at]
      by_cases hk : k = name
      · rw [if_pos hk]; rfl
      · rw [if_neg hk]
        simp only [List.map_cons, List.mem_cons] at hm
        rcases hm with hm | hm
        · exact absurd hm.symm hk
        · exact ih hm
  apply key
  simp only [valuationMap, List.map_reverse, List.mem_reverse]
  rw [List.map_fst_zip _ _ hlen]
  exact h

/-- C33: classical evaluation. For every CPL formula `ψ` and every map `val` that binds all
variables of `ψ`, `evaluateCPL` returns 1 when `ψ` is classically true under the assignment
of `val` and 0 otherwise; the map that the engine builds from the variable table and a
valuation of its length binds every name of the table; and every coefficient that the engine
computes for a column is 0 or 1, the entries it stores being 1. -/
theorem classical_evaluation (psi : CPLFormula) (val : BoolMap)
    (hval : ∀ name ∈ psi.vars, (val.at name).isSome = true) :
    evaluateCPL psi val = some (if psi.classical val.assignment then 1 else 0) ∧
    (∀ (varList : List String) (w : List Bool), varList.length ≤ w.length →
      (∀ name ∈ psi.vars, name ∈ varList) →
      cplValue varList psi w
        = if psi.classical (valuationMap varList w).assignment then 1 else 0) ∧
    (∀ (varList : List String) (w : List Bool) (phi : CPLFormula),
      cplValue varList phi w = 0 ∨ cplValue varList phi w = 1) ∧
    (∀ (root : RootLP) (varList : List String) (w : List Bool) (column : List (Nat × ℚ)),
      newColumn root varList w = some column → ∀ e ∈ column, e.2 = 1) := by
  refine ⟨evaluateCPL_classical psi val hval, ?_, ?_, ?_⟩
  · intro varList w hlen hv
    unfold cplValue
    rw [evaluateCPL_classical psi _
      (fun name hn => valuationMap_isSome varList w hlen name (hv name hn))]
    rfl
  · intro varList w phi
    unfold cplValue
    cases h : evaluateCPL phi (valuationMap varList w) with
    | none => exact Or.inl rfl
    | some a => exact evaluateCPL_zero_one phi _ a h
  · intro root varList w column h
    simp only [newColumn, Option.map_eq_some'] at h
    obtain ⟨es, hes, rfl⟩ := h
    intro e he
    rcases List.mem_append.mp he with he | he
    · exact columnEntries_one varList w _ es hes e he
    · rw [List.mem_singleton.mp he]

/-- The hypothesis of `classical_evaluation` holds for `p → (q ↔ p)` and the map with
`p = 1`, `q = 0`, where the formula is false and `evaluateCPL` returns 0. -/
theorem classical_evaluation_witness :
    (∀ name ∈ CPLFormula.vars
        (.binary .IMPLIES (.var "p") (.binary .IFF (.var "q") (.var "p"))),
      (BoolMap.at [("q", false), ("p", true)] name).isSome = true) ∧
    evaluateCPL (.binary .IMPLIES (.var "p") (.binary .IFF (.var "q") (.var "p")))
      [("q", false), ("p", true)] = some 0 :=
  ⟨by decide,
    (classical_evaluation
      (.binary .IMPLIES (.var "p") (.binary .IFF (.var "q") (.var "p")))
      [("q", false), ("p", true)] (by decide)).1⟩

end ClassicalEvaluation

/-! ## Theorems: the exit codes of `main` -/

section ExitCodes

theorem isFlag_cases {arg : String} (h : isFlag arg = true) :
    arg = "--no-pb" ∨ arg = "--verbose" := by
  simpa [isFlag] using h

theorem takesValue_cases {arg : String} (h : takesValue arg = true) :
    arg = "-i" ∨ arg = "--input" ∨ arg = "--pbsolver" ∨ arg = "--pbarg" := by
  simpa [takesValue, or_assoc] using h

/-- A flag is consumed and leaves the input file as it is. -/
theorem argLoop_flag (arg : String) (rest : List String) (o : Options)
    (h : isFlag arg = true) :
    ∃ o', argLoop (arg :: rest) o = argLoop rest o' ∧ o'.inputFile = o.inputFile := by
  rcases isFlag_cases h with rfl | rfl
  · exact ⟨{ o with usePB := false }, by cases rest <;> simp [argLoop], rfl⟩
  · exact ⟨{ o with verbose := true }, by cases rest <;> simp [argLoop], rfl⟩

/-- An option with a value is consumed together with its value; only `-i` and `--input`
change the input file. -/
theorem argLoop_valued (arg value : String) (rest : List String) (o : Options)
    (h : takesValue arg = true) :
    ∃ o', argLoop (arg :: value :: rest) o = argLoop rest o' ∧
      o'.inputFile = if arg = "-i" ∨ arg = "--input" then value else o.inputFile := by
  rcases takesValue_cases h with rfl | rfl | rfl | rfl
  · exact ⟨{ o with inputFile := value }, by simp [argLoop], by simp⟩
  · exact ⟨{ o with inputFile := value }, by simp [argLoop], by simp⟩
  · exact ⟨{ o with pbsolverPath := value }, by simp [argLoop], by simp⟩
  · exact ⟨{ o with pbArguments := value }, by simp [argLoop], by simp⟩

theorem argLoop_help (rest : List String) (o : Options) :
    argLoop ("--help" :: rest) o = .help := by
  cases rest <;> simp [argLoop]

theorem argLoop_unrecognised (arg : String) (rest : List String) (o : Options)
    (h : Unrecognised arg rest) : argLoop (arg :: rest) o = .unknown arg := by
  obtain ⟨hf, hh, hv⟩ := h
  have h1 : arg ≠ "--no-pb" ∧ arg ≠ "--verbose" := by
    simpa [isFlag, not_or] using hf
  rcases hv with hv | hv
  · have h2 : arg ≠ "-i" ∧ arg ≠ "--input" ∧ arg ≠ "--pbsolver" ∧ arg ≠ "--pbarg" := by
      simpa [takesValue, not_or, and_assoc] using hv
    cases rest <;> simp [argLoop, h1.1, h1.2, h2.1, h2.2.1, h2.2.2.1, h2.2.2.2, hh]
  · subst hv
    simp [argLoop, h1.1, h1.2, hh]

/-- The loop runs through recognised arguments. -/
theorem argLoop_recognised {pre : List String} (h : Recognised pre) :
    ∀ (tail : List String) (o : Options),
      ∃ o', argLoop (pre ++ tail) o = argLoop tail o' := by
  induction h with
  | nil => exact fun tail o => ⟨o, rfl⟩
  | flag arg rest hf _ ih =>
    intro tail o
    obtain ⟨o1, h1, _⟩ := argLoop_flag arg (rest ++ tail) o hf
    obtain ⟨o2, h2⟩ := ih tail o1
    exact ⟨o2, by rw [List.cons_append, h1, h2]⟩
  | valued arg value rest hv _ ih =>
    intro tail o
    obtain ⟨o1, h1, _⟩ := argLoop_valued arg value (rest ++ tail) o hv
    obtain ⟨o2, h2⟩ := ih tail o1
    exact ⟨o2, by rw [List.cons_append, List.cons_append, h1, h2]⟩

/-- Recognised arguments without `-i` and `--input` leave the input file as it is. -/
theorem argLoop_inputFile {args : List String} (h : Recognised args) :
    "-i" ∉ args → "--input" ∉ args → ∀ o : Options,
      ∃ o', argLoop args o = .done o' ∧ o'.inputFile = o.inputFile := by
  induction h with
  | nil => exact fun _ _ o => ⟨o, rfl, rfl⟩
  | flag arg rest hf _ ih =>
    intro hi hinput o
    obtain ⟨o1, h1, e1⟩ := argLoop_flag arg rest o hf
    obtain ⟨o2, h2, e2⟩ := ih (fun hm => hi (List.mem_cons_of_mem _ hm))
      (fun hm => hinput (List.mem_cons_of_mem _ hm)) o1
    exact ⟨o2, by rw [h1, h2], by rw [e2, e1]⟩
  | valued arg value rest hv _ ih =>
    intro hi hinput o
    obtain ⟨o1, h1, e1⟩ := argLoop_valued arg value rest o hv
    have hne : ¬ (arg = "-i" ∨ arg = "--input") := by
      rintro (rfl | rfl)
      · exact hi (List.mem_cons_self _ _)
      · exact hinput (List.mem_cons_self _ _)
    rw [if_neg hne] at e1
    obtain ⟨o2, h2, e2⟩ := ih
      (fun hm => hi (List.mem_cons_of_mem _ (List.mem_cons_of_mem _ hm)))
      (fun hm => hinput (List.mem_cons_of_mem _ (List.mem_cons_of_mem _ hm))) o1
    exact ⟨o2, by rw [h1, h2], by rw [e2, e1]⟩

/-- Every argument vector is a sequence of recognised arguments, or such a sequence followed
by `--help` or by an argument that is not recognised. -/
theorem args_trichotomy : ∀ (n : Nat) (args : List String), args.length ≤ n →
    Recognised args ∨ ∃ pre arg rest, args = pre ++ arg :: rest ∧ Recognised pre ∧
      (arg = "--help" ∨ Unrecognised arg rest)
  | _, [], _ => Or.inl .nil
  | 0, _ :: _, h => by simp at h
  | n + 1, arg :: rest, h => by
    have hlen : rest.length ≤ n := by simpa using h
    by_cases hf : isFlag arg = true
    · rcases args_trichotomy n rest hlen with hr | ⟨pre, a, r, rfl, hpre, ha⟩
      · exact Or.inl (.flag arg rest hf hr)
      · exact Or.inr ⟨arg :: pre, a, r, rfl, .flag arg pre hf hpre, ha⟩
    · have hf' : isFlag arg = false := by
        cases h' : isFlag arg
        · rfl
        · exact absurd h' hf
      by_cases hh : arg = "--help"
      · exact Or.inr ⟨[], arg, rest, rfl, .nil, Or.inl hh⟩
      · by_cases hv : takesValue arg = true
        · cases rest with
          | nil => exact Or.inr ⟨[], arg, [], rfl, .nil, Or.inr ⟨hf', hh, Or.inr rfl⟩⟩
          | cons value rest' =>
            have hlen' : rest'.length ≤ n := by
              simp only [List.length_cons] at hlen
              omega
            rcases args_trichotomy n rest' hlen' with hr | ⟨pre, a, r, rfl, hpre, ha⟩
            · exact Or.inl (.valued arg value rest' hv hr)
            · exact Or.inr ⟨arg :: value :: pre, a, r, rfl, .valued arg value pre hv hpre, ha⟩
        · have hv' : takesValue arg = false := by
            cases h' : takesValue arg
            · rfl
            · exact absurd h' hv
          exact Or.inr ⟨[], arg, rest, rfl, .nil, Or.inr ⟨hf', hh, Or.inl hv'⟩⟩

/-- C32: exit codes. For every argument vector: if, after recognised arguments, `main` meets
an argument that it does not recognise, it returns 1 whatever loading and solving would do;
if it meets `--help` there, it returns 0; if all arguments are recognised, it returns 1 when
the input file is empty, as it is when neither `-i` nor `--input` occurs, and otherwise 1
when loading, parsing or solving raises an exception, 0 exactly when `solve()` returns
`true` and 2 exactly when it returns `false`; and every argument vector is of one of these
three kinds. -/
theorem exit_codes (run : Options → Option Bool) :
    (∀ (pre : List String) (arg : String) (rest : List String),
      Recognised pre → Unrecognised arg rest →
      ∀ run' : Options → Option Bool, main run' (pre ++ arg :: rest) = 1) ∧
    (∀ (pre rest : List String), Recognised pre → main run (pre ++ "--help" :: rest) = 0) ∧
    (∀ args : List String, Recognised args →
      ∃ o, argLoop args Options.initial = .done o ∧
        (o.inputFile = "" → main run args = 1) ∧
        (o.inputFile ≠ "" →
          (run o = none → main run args = 1) ∧
          (main run args = 0 ↔ run o = some true) ∧
          (main run args = 2 ↔ run o = some false))) ∧
    (∀ args : List String, Recognised args → "-i" ∉ args → "--input" ∉ args →
      main run args = 1) ∧
    (∀ args : List String,
      Recognised args ∨ ∃ pre arg rest, args = pre ++ arg :: rest ∧ Recognised pre ∧
        (arg = "--help" ∨ Unrecognised arg rest)) := by
  refine ⟨?_, ?_, ?_, ?_, fun args => args_trichotomy args.length args (le_refl _)⟩
  · intro pre arg rest hpre hun run'
    obtain ⟨o', h'⟩ := argLoop_recognised hpre (arg :: rest) Options.initial
    simp only [main, h', argLoop_unrecognised arg rest o' hun]
  · intro pre rest hpre
    obtain ⟨o', h'⟩ := argLoop_recognised hpre ("--help" :: rest) Options.initial
    simp only [main, h', argLoop_help]
  · intro args hargs
    obtain ⟨o, ho⟩ := argLoop_recognised hargs [] Options.initial
    rw [List.append_nil] at ho
    refine ⟨o, ho, ?_, ?_⟩
    · intro he
      simp only [main, ho, argLoop, if_pos he]
    · intro hne
      simp only [main, ho, argLoop, if_neg hne]
      cases hr : run o with
      | none => simp
      | some b => cases b <;> simp
  · intro args hargs hi hinput
    obtain ⟨o, ho, he⟩ := argLoop_inputFile hargs hi hinput Options.initial
    have he' : o.inputFile = "" := he
    simp only [main, ho, if_pos he']

end ExitCodes

/-! ## Theorems: the invariant of the branch-and-bound loop -/

section BranchingInvariant

theorem nextBranches_children (engine : LinearProgram → Bool) (b : String) :
    ∀ (brs next : List Branch), nextBranches engine b brs = some next →
      ∀ c ∈ next, ∃ br ∈ brs, ∃ val, c.fixedBinaries = br.fixedBinaries ++ [(b, val)] ∧
        fixBinary br.lp b val = some c.lp ∧ engine c.lp = true
  | [], next, h => by
    simp only [nextBranches, Option.some.injEq] at h
    subst h
    intro c hc
    cases hc
  | br :: brs, next, h => by
    simp only [nextBranches] at h
    cases hc : branchChildren engine b br with
    | none => rw [hc] at h; cases h
    | some cs =>
      cases hr : nextBranches engine b brs with
      | none => rw [hc, hr] at h; cases h
      | some rest =>
        rw [hc, hr] at h
        simp only [Option.some.injEq] at h
        subst h
        intro c hmem
        rcases List.mem_append.mp hmem with hmem | hmem
        · refine ⟨br, List.mem_cons_self _ _, ?_⟩
          unfold branchChildren at hc
          cases h0 : fixBinary br.lp b false with
          | none => rw [h0] at hc; cases hc
          | some lp0 =>
            cases h1 : fixBinary br.lp b true with
            | none => rw [h0, h1] at hc; cases hc
            | some lp1 =>
              rw [h0, h1] at hc
              simp only [Option.some.injEq] at hc
              subst hc
              rcases List.mem_append.mp hmem with hmem | hmem
              · by_cases he : engine lp0 = true
                · rw [if_pos he, List.mem_singleton] at hmem
                  subst hmem
                  exact ⟨false, rfl, h0, he⟩
                · rw [if_neg he] at hmem; cases hmem
              · by_cases he : engine lp1 = true
                · rw [if_pos he, List.mem_singleton] at hmem
                  subst hmem
                  exact ⟨true, rfl, h1, he⟩
                · rw [if_neg he] at hmem; cases hmem
        · obtain ⟨br', hbr', hrest⟩ := nextBranches_children engine b brs rest hr c hmem
          exact ⟨br', List.mem_cons_of_mem _ hbr', hrest⟩

theorem fixBinaries_snoc : ∀ (xs : List (String × Bool)) (lp lp1 lp2 : LinearProgram)
    (b : String) (val : Bool), fixBinaries lp xs = some lp1 → fixBinary lp1 b val = some lp2 →
    fixBinaries lp (xs ++ [(b, val)]) = some lp2
  | [], lp, lp1, lp2, b, val, h1, h2 => by
    simp only [fixBinaries, Option.some.injEq] at h1
    subst h1
    simp [fixBinaries, h2]
  | e :: xs, lp, lp1, lp2, b, val, h1, h2 => by
    simp only [fixBinaries] at h1
    cases he : fixBinary lp e.1 e.2 with
    | none => rw [he] at h1; cases h1
    | some lp' =>
      rw [he] at h1
      simp only [List.cons_append, fixBinaries, he]
      exact fixBinaries_snoc xs lp' lp1 lp2 b val h1 h2

/-- The program with the fixings `xs`: the rows `b = val` follow the rows of `lp`, one per
fixing and in their order, and nothing else changes. -/
theorem fixBinaries_rows : ∀ (xs : List (String × Bool)) (lp lp' : LinearProgram),
    fixBinaries lp xs = some lp' →
    lp'.rows = lp.rows ++ xs.map (fixingRow lp) ∧ lp'.cols = lp.cols ∧
      lp'.varNames = lp.varNames ∧ lp'.nameToIndex = lp.nameToIndex
  | [], lp, lp', h => by
    simp only [fixBinaries, Option.some.injEq] at h
    subst h
    simp
  | e :: xs, lp, lp', h => by
    simp only [fixBinaries] at h
    cases he : fixBinary lp e.1 e.2 with
    | none => rw [he] at h; cases h
    | some lp1 =>
      rw [he] at h
      obtain ⟨h1, h2, h3, h4⟩ := fixBinaries_rows xs lp1 lp' h
      simp only [fixBinary, Option.map_eq_some'] at he
      obtain ⟨i, hi, rfl⟩ := he
      have hrow : ∀ e' : String × Bool,
          fixingRow (lp.addConstraint [(i, 1)] .EQ (if e.2 then 1 else 0)) e'
            = fixingRow lp e' := fun _ => rfl
      refine ⟨?_, h2, h3, h4⟩
      rw [h1]
      simp only [LinearProgram.addConstraint, List.map_cons, List.append_assoc,
        List.singleton_append]
      congr 2
      simp only [fixingRow, hi, Option.getD_some]

/-- After at most `k` iterations of the loop of `solve`, started from branches that have
the fixings `done` of the program `lp0`: every branch has the fixings of the names `done`
followed by the next `k` binaries, and its program is `lp0` with these fixings. -/
theorem branchRounds_spec (engine : LinearProgram → Bool) (lp0 : LinearProgram) :
    ∀ (k : Nat) (bs : List String) (brs : List Branch) (done : List String),
    (∀ b ∈ bs, (lp0.nameToIndex.find b).isSome = true) →
    (∀ br ∈ brs, br.fixedBinaries.map Prod.fst = done ∧
      fixBinaries lp0 br.fixedBinaries = some br.lp) →
    ∃ bs' brs', branchRounds engine k bs brs = some (bs', brs') ∧
      (brs' = [] ∨ bs' = bs.drop k) ∧
      ∀ br ∈ brs', br.fixedBinaries.map Prod.fst = done ++ bs.take k ∧
        fixBinaries lp0 br.fixedBinaries = some br.lp
  | 0, bs, brs, done, _, hbrs =>
    ⟨bs, brs, rfl, Or.inr rfl, fun br hbr => by simpa using hbrs br hbr⟩
  | k + 1, [], brs, done, _, hbrs =>
    ⟨[], brs, rfl, Or.inr rfl, fun br hbr => by simpa using hbrs br hbr⟩
  | k + 1, b :: bs, brs, done, hbs, hbrs => by
    by_cases he : brs = []
    · refine ⟨b :: bs, [], by rw [branchRounds, if_pos he], Or.inl rfl, ?_⟩
      intro br hbr
      cases hbr
    · have hnti : ∀ br ∈ brs, br.lp.nameToIndex = lp0.nameToIndex :=
        fun br hbr => (fixBinaries_rows _ _ _ (hbrs br hbr).2).2.2.2
      obtain ⟨next, hnext, _, _⟩ := nextBranches_spec engine b lp0.nameToIndex
        (hbs b (List.mem_cons_self _ _)) brs hnti
      have hch := nextBranches_children engine b brs next hnext
      obtain ⟨bs', brs', hr, hd, hall⟩ := branchRounds_spec engine lp0 k bs next
        (done ++ [b]) (fun b' hb' => hbs b' (List.mem_cons_of_mem _ hb'))
        (fun c hc => by
          obtain ⟨br, hbr, val, hfix, hlp, _⟩ := hch c hc
          refine ⟨?_, ?_⟩
          · rw [hfix, List.map_append, (hbrs br hbr).1]
            rfl
          · rw [hfix]
            exact fixBinaries_snoc _ lp0 br.lp c.lp b val (hbrs br hbr).2 hlp)
      refine ⟨bs', brs', by rw [branchRounds, if_neg he, hnext]; exact hr, ?_, ?_⟩
      · simpa using hd
      · intro br hbr
        obtain ⟨h1, h2⟩ := hall br hbr
        exact ⟨by simpa using h1, h2⟩

/-- The loop of `solve` is its rounds run until the binaries are used up. -/
theorem branchLoop_eq_rounds (engine : LinearProgram → Bool) :
    ∀ (bs : List String) (brs : List Branch),
      branchLoop engine bs brs = (branchRounds engine bs.length bs brs).map fun r =>
        if r.2 = [] then [] else r.2
  | [], brs => by
    cases brs <;> simp [branchLoop, branchRounds]
  | b :: bs, brs => by
    by_cases he : brs = []
    · simp [branchLoop, branchRounds, he]
    · simp only [branchLoop, if_neg he, List.length_cons, branchRounds]
      cases hn : nextBranches engine b brs with
      | none => rfl
      | some next => exact branchLoop_eq_rounds engine bs next

/-- C36: the branching invariant. For a program `lp` (the root program of `solve`) with
binaries `b₁ < b₂ < …`, the names of `lp` that begin with `b(`: after `k` rounds of the
branch-and-bound loop every live branch has as keys of `fixedBinaries` exactly the `k`
smallest binaries, each with the value 0 or 1, the binaries left are the others, and its
program is `lp` followed by exactly one row `b = fixedBinaries[b]` per key, with the
columns and names of `lp`; hence when `solve` returns SAT every branch that is left, and so
the reported one, fixes every `b(·)` variable of the root program. -/
theorem branching_invariant (engine : LinearProgram → Bool) (lp : LinearProgram) :
    lp.getBinaryVariableNames.Sorted (fun a b : String => a.data < b.data) ∧
    (∀ name, name ∈ lp.getBinaryVariableNames ↔
      isBinaryName name = true ∧ name ∈ lp.nameToIndex.map Prod.fst) ∧
    (∀ k : Nat, ∃ binaries branches,
      branchRounds engine k lp.getBinaryVariableNames [⟨lp, []⟩] = some (binaries, branches) ∧
      (branches = [] ∨ binaries = lp.getBinaryVariableNames.drop k) ∧
      ∀ br ∈ branches,
        br.fixedBinaries.map Prod.fst = lp.getBinaryVariableNames.take k ∧
        (∀ a ∈ br.fixedBinaries.map Prod.fst, ∀ b ∈ lp.getBinaryVariableNames.drop k,
          a.data < b.data) ∧
        fixBinaries lp br.fixedBinaries = some br.lp ∧
        br.lp.rows = lp.rows ++ br.fixedBinaries.map (fixingRow lp) ∧
        br.lp.cols = lp.cols ∧ br.lp.varNames = lp.varNames ∧
        br.lp.nameToIndex = lp.nameToIndex) ∧
    (∀ (formulas : List ModalFormula) (root : RootLP), buildRootLP formulas = some root →
      root.lp = lp → solve engine formulas = some true →
      ∃ branches, branchLoop engine lp.getBinaryVariableNames [⟨lp, []⟩] = some branches ∧
        branches ≠ [] ∧
        ∀ br ∈ branches,
          (∀ name, name ∈ br.fixedBinaries.map Prod.fst ↔
            isBinaryName name = true ∧ name ∈ lp.nameToIndex.map Prod.fst) ∧
          (br.fixedBinaries.map Prod.fst).Nodup ∧
          br.lp.rows = lp.rows ++ br.fixedBinaries.map (fixingRow lp)) := by
  obtain ⟨hsorted, hmem⟩ := getBinaryVariableNames_spec lp
  have hbound : ∀ b ∈ lp.getBinaryVariableNames, (lp.nameToIndex.find b).isSome = true :=
    fun b hb => (StrMap.count_iff_mem _ _).mpr ((hmem b).mp hb).2
  have hround : ∀ k : Nat, ∃ binaries branches,
      branchRounds engine k lp.getBinaryVariableNames [⟨lp, []⟩] = some (binaries, branches) ∧
      (branches = [] ∨ binaries = lp.getBinaryVariableNames.drop k) ∧
      ∀ br ∈ branches,
        br.fixedBinaries.map Prod.fst = lp.getBinaryVariableNames.take k ∧
        fixBinaries lp br.fixedBinaries = some br.lp := by
    intro k
    obtain ⟨bs', brs', h1, h2, h3⟩ := branchRounds_spec engine lp k
      lp.getBinaryVariableNames [⟨lp, []⟩] [] hbound
      (fun br hbr => by rw [List.mem_singleton.mp hbr]; exact ⟨rfl, rfl⟩)
    exact ⟨bs', brs', h1, h2, fun br hbr => by simpa using h3 br hbr⟩
  refine ⟨hsorted, hmem, ?_, ?_⟩
  · intro k
    obtain ⟨binaries, branches, h1, h2, h3⟩ := hround k
    refine ⟨binaries, branches, h1, h2, ?_⟩
    intro br hbr
    obtain ⟨hk, hfix⟩ := h3 br hbr
    obtain ⟨r1, r2, r3, r4⟩ := fixBinaries_rows _ _ _ hfix
    refine ⟨hk, ?_, hfix, r1, r2, r3, r4⟩
    intro a ha b hb
    rw [hk] at ha
    have hs : (lp.getBinaryVariableNames.take k ++ lp.getBinaryVariableNames.drop k).Sorted
        (fun a b : String => a.data < b.data) := by
      rw [List.take_append_drop]; exact hsorted
    exact (List.pairwise_append.mp hs).2.2 a ha b hb
  · intro formulas root hroot hlp hsat
    subst hlp
    simp only [solve, hroot, solveFrom] at hsat
    by_cases he : engine root.lp = true
    · rw [if_pos he] at hsat
      simp only [Option.map_eq_some'] at hsat
      obtain ⟨branches, hloop, hne⟩ := hsat
      have hne' : branches ≠ [] := by
        intro h
        rw [h] at hne
        simp at hne
      refine ⟨branches, hloop, hne', ?_⟩
      rw [branchLoop_eq_rounds] at hloop
      obtain ⟨binaries, brs, h1, h2, h3⟩ := hround root.lp.getBinaryVariableNames.length
      rw [h1] at hloop
      simp only [Option.map_some', Option.some.injEq] at hloop
      have hbrs : brs = branches := by
        by_cases hb : brs = []
        · rw [if_pos hb] at hloop
          exact absurd hloop.symm hne'
        · rw [if_neg hb] at hloop
          exact hloop
      subst hbrs
      intro br hbr
      obtain ⟨hk, hfix⟩ := h3 br hbr
      rw [List.take_length] at hk
      refine ⟨fun name => by rw [hk]; exact hmem name, ?_, (fixBinaries_rows _ _ _ hfix).1⟩
      rw [hk]
      exact List.Pairwise.imp_of_mem (fun {a b} _ _ hab => fun h => by
        rw [h] at hab
        exact lt_irrefl _ hab) hsorted
    · rw [if_neg he] at hsat
      cases hsat

end BranchingInvariant

/-! ## Theorems: the restriction of a solution of the complete system -/

section Restriction

variable {α : Type} [LinearOrderedField α]

theorem ofConstraint_rowVec (terms : List (Nat × ℚ)) (sense : Sense) (rhs : ℚ) :
    (LPRow.ofConstraint terms sense rhs).rowVec = terms := by
  cases sense <;> rfl

theorem LinearProgram.InScope.mono {lp : LinearProgram} {m m' : Nat} (h : lp.InScope m)
    (hm : m ≤ m') : lp.InScope m' :=
  fun row hrow e he => lt_of_lt_of_le (h row hrow e he) hm

theorem LinearProgram.InScope.withConstraints {lp : LinearProgram} {m : Nat}
    (h : lp.InScope m) (cs : List Constraint) (hcs : ∀ c ∈ cs, ∀ e ∈ c.1, e.1 < m) :
    (lp.addConstraints cs).InScope m := by
  intro row hrow e he
  rw [LinearProgram.addConstraints_rows] at hrow
  rcases List.mem_append.mp hrow with hrow | hrow
  · exact h row hrow e he
  · obtain ⟨c, hc, rfl⟩ := List.mem_map.mp hrow
    rw [Constraint.row, ofConstraint_rowVec] at he
    exact hcs c hc e he

theorem binaryConstraints_scope (op : ModalBinary) (l r x b : Nat) :
    ∀ c ∈ binaryConstraints op l r x b, ∀ e ∈ c.1, e.1 = l ∨ e.1 = r ∨ e.1 = x ∨ e.1 = b := by
  intro c hc e he
  cases op <;>
    simp only [binaryConstraints, List.mem_cons, List.mem_singleton, List.not_mem_nil,
      or_false] at hc <;>
    rcases hc with rfl | rfl | rfl | rfl <;>
    simp only [List.mem_cons, List.mem_singleton, List.not_mem_nil, or_false] at he <;>
    rcases he with rfl | rfl | rfl | rfl <;> simp

/-- A state that extends a scoped state by new variables, none of them a slack variable, and
by new rows on the variables that exist, is scoped. -/
theorem EncState.Scoped.grow {st : EncState} (h : st.Scoped) (names : List String)
    (hn : ∀ name ∈ names, IsEncoderName name) (cs : List Constraint)
    (hcs : ∀ c ∈ cs, ∀ e ∈ c.1, e.1 < st.lp.varNames.length + names.length)
    (t : EncState) (hv : t.lp.varNames = st.lp.varNames ++ names)
    (hr : t.lp.rows = st.lp.rows ++ cs.map Constraint.row)
    (hx : ∀ (k : String) (i : Nat), t.xVars.find k = some i →
      st.xVars.find k = some i ∨ i < st.lp.varNames.length + names.length)
    (hnti : ∀ (name : String) (i : Nat), t.lp.nameToIndex.find name = some i →
      st.lp.nameToIndex.find name = some i ∨
        (i < st.lp.varNames.length + names.length ∧ name ∈ names)) :
    t.Scoped := by
  obtain ⟨h1, h2, h3, h4⟩ := h
  have hlen : t.lp.varNames.length = st.lp.varNames.length + names.length := by
    rw [hv, List.length_append]
  refine ⟨?_, ?_, ?_, ?_⟩
  · intro row hrow e he
    rw [hr] at hrow
    rw [hlen]
    rcases List.mem_append.mp hrow with hrow | hrow
    · exact lt_of_lt_of_le (h1 row hrow e he) (Nat.le_add_right _ _)
    · obtain ⟨c, hc, rfl⟩ := List.mem_map.mp hrow
      rw [Constraint.row, ofConstraint_rowVec] at he
      exact hcs c hc e he
  · intro k i hk
    rw [hlen]
    rcases hx k i hk with hk | hk
    · exact lt_of_lt_of_le (h2 k i hk) (Nat.le_add_right _ _)
    · exact hk
  · intro name i hk
    rw [hlen, hv]
    rcases hnti name i hk with hk | hk
    · exact ⟨lt_of_lt_of_le (h3 name i hk).1 (Nat.le_add_right _ _),
        List.mem_append_left _ (h3 name i hk).2⟩
    · exact ⟨hk.1, List.mem_append_right _ hk.2⟩
  · intro name hname
    rw [hv] at hname
    rcases List.mem_append.mp hname with hname | hname
    · exact h4 name hname
    · exact hn name hname

/-- One call of `encodeModalFormula` keeps the state scoped and removes no variable. -/
theorem encode_scoped : ∀ (f : ModalFormula) (st : EncState), st.Scoped →
    (encodeModalFormula f st).Scoped ∧
      st.lp.varNames.length ≤ (encodeModalFormula f st).lp.varNames.length := by
  intro f
  induction f with
  | patom phi =>
    intro st hs
    by_cases h : st.xVars.count (ModalFormula.patom phi).toString = true
    · rw [encode_hit _ _ h]
      exact ⟨hs, le_refl _⟩
    · have h' : st.xVars.count (ModalFormula.patom phi).toString = false := by simpa using h
      rw [encode_patom _ _ h']
      refine ⟨hs.grow ["x(" ++ (ModalFormula.patom phi).toString ++ ")"] ?_ [] ?_ _ rfl
        (by simp [LinearProgram.addVariable]) ?_ ?_, by simp [LinearProgram.addVariable]⟩
      · intro name hname
        rw [List.mem_singleton.mp hname]
        exact Or.inl ⟨_, rfl⟩
      · intro c hc
        cases hc
      · intro k i hk
        simp only [StrMap.find_insert] at hk
        by_cases hkk : (ModalFormula.patom phi).toString = k
        · rw [if_pos hkk] at hk
          cases hk
          exact Or.inr (by simp)
        · rw [if_neg hkk] at hk
          exact Or.inl hk
      · intro name i hk
        simp only [LinearProgram.addVariable, StrMap.find] at hk
        by_cases hkk : "x(" ++ (ModalFormula.patom phi).toString ++ ")" = name
        · rw [if_pos hkk] at hk
          cases hk
          exact Or.inr ⟨by simp, by simp [hkk]⟩
        · rw [if_neg hkk] at hk
          exact Or.inl hk
  | not l ih =>
    intro st hs
    by_cases h : st.xVars.count (ModalFormula.not l).toString = true
    · rw [encode_hit _ _ h]
      exact ⟨hs, le_refl _⟩
    · have h' : st.xVars.count (ModalFormula.not l).toString = false := by simpa using h
      obtain ⟨hs1, hle1⟩ := ih st hs
      obtain ⟨lx, hlx⟩ := Option.isSome_iff_exists.mp (encode_binds l st)
      have hlxlt := hs1.2.1 _ _ hlx
      rw [encode_not _ _ h', StrMap.index_of_find hlx]
      refine ⟨hs1.grow ["x(" ++ (ModalFormula.not l).toString ++ ")"] ?_
        (notConstraints lx (encodeModalFormula l st).lp.varNames.length) ?_ _
        (by rw [LinearProgram.addConstraints_varNames]; rfl)
        (by rw [LinearProgram.addConstraints_rows]; rfl) ?_ ?_, ?_⟩
      · intro name hname
        rw [List.mem_singleton.mp hname]
        exact Or.inl ⟨_, rfl⟩
      · intro c hc e he
        simp only [notConstraints, List.mem_singleton] at hc
        subst hc
        simp only [List.mem_cons, List.mem_singleton, List.not_mem_nil, or_false] at he
        rcases he with rfl | rfl
        · simp only [List.length_singleton]; omega
        · simp
      · intro k i hk
        simp only [StrMap.find_insert] at hk
        by_cases hkk : (ModalFormula.not l).toString = k
        · rw [if_pos hkk] at hk
          cases hk
          exact Or.inr (by simp)
        · rw [if_neg hkk] at hk
          exact Or.inl hk
      · intro name i hk
        rw [LinearProgram.addConstraints_nameToIndex] at hk
        simp only [LinearProgram.addVariable, StrMap.find] at hk
        by_cases hkk : "x(" ++ (ModalFormula.not l).toString ++ ")" = name
        · rw [if_pos hkk] at hk
          cases hk
          exact Or.inr ⟨by simp, by simp [hkk]⟩
        · rw [if_neg hkk] at hk
          exact Or.inl hk
      · rw [LinearProgram.addConstraints_varNames]
        simp only [LinearProgram.addVariable, List.length_append, List.length_singleton]
        omega
  | binary op l r ihl ihr =>
    intro st hs
    by_cases h : st.xVars.count (ModalFormula.binary op l r).toString = true
    · rw [encode_hit _ _ h]
      exact ⟨hs, le_refl _⟩
    · have h' : st.xVars.count (ModalFormula.binary op l r).toString = false := by
        simpa using h
      obtain ⟨hs1, hle1⟩ := ihl st hs
      obtain ⟨lx, hlx⟩ := Option.isSome_iff_exists.mp (encode_binds l st)
      have hlxlt := hs1.2.1 _ _ hlx
      have hst1 : ({ encodeModalFormula l st with
          xVars := ((encodeModalFormula l st).xVars.index l.toString).2 } : EncState)
          = encodeModalFormula l st := by
        rw [StrMap.index_of_find hlx]
      obtain ⟨hs2, hle2⟩ := ihr (encodeModalFormula l st) hs1
      obtain ⟨rx, hrx⟩ := Option.isSome_iff_exists.mp
        (encode_binds r (encodeModalFormula l st))
      have hrxlt := hs2.2.1 _ _ hrx
      rw [encode_binary _ _ _ _ h', hst1, StrMap.index_of_find hlx, StrMap.index_of_find hrx]
      refine ⟨hs2.grow ["x(" ++ (ModalFormula.binary op l r).toString ++ ")",
          "b(" ++ (ModalFormula.binary op l r).toString ++ ")"] ?_
        (binaryConstraints op lx rx
          (encodeModalFormula r (encodeModalFormula l st)).lp.varNames.length
          ((encodeModalFormula r (encodeModalFormula l st)).lp.varNames.length + 1)) ?_ _
        ?_ ?_ ?_ ?_, ?_⟩
      · intro name hname
        simp only [List.mem_cons, List.mem_singleton, List.not_mem_nil, or_false] at hname
        rcases hname with rfl | rfl
        · exact Or.inl ⟨_, rfl⟩
        · exact Or.inr ⟨_, rfl⟩
      · intro c hc e he
        simp only [List.length_cons, List.length_nil]
        rcases binaryConstraints_scope op _ _ _ _ c hc e he with h1 | h1 | h1 | h1 <;>
          rw [h1] <;> omega
      · rw [LinearProgram.addConstraints_varNames]
        simp [LinearProgram.addVariable]
      · rw [LinearProgram.addConstraints_rows]
        simp [LinearProgram.addVariable]
      · intro k i hk
        simp only [StrMap.find_insert] at hk
        by_cases hkk : (ModalFormula.binary op l r).toString = k
        · rw [if_pos hkk] at hk
          cases hk
          exact Or.inr (by simp)
        · rw [if_neg hkk] at hk
          exact Or.inl hk
      · intro name i hk
        rw [LinearProgram.addConstraints_nameToIndex] at hk
        simp only [LinearProgram.addVariable, StrMap.find, List.length_append,
          List.length_singleton] at hk
        by_cases hb : "b(" ++ (ModalFormula.binary op l r).toString ++ ")" = name
        · rw [if_pos hb] at hk
          cases hk
          exact Or.inr ⟨by simp, by simp [hb]⟩
        · rw [if_neg hb] at hk
          by_cases hxn : "x(" ++ (ModalFormula.binary op l r).toString ++ ")" = name
          · rw [if_pos hxn] at hk
            cases hk
            exact Or.inr ⟨by simp, by simp [hxn]⟩
          · rw [if_neg hxn] at hk
            exact Or.inl hk
      · rw [LinearProgram.addConstraints_varNames]
        simp only [LinearProgram.addVariable, List.length_append, List.length_singleton]
        omega

theorem encodeAll_scoped : ∀ (formulas : List ModalFormula) (st : EncState), st.Scoped →
    (encodeAll formulas st).Scoped
  | [], _, h => h
  | f :: fs, st, h => encodeAll_scoped fs (encodeModalFormula f st) (encode_scoped f st h).1

theorem scoped_empty : EncState.Scoped ⟨LinearProgram.empty, [], []⟩ := by
  refine ⟨?_, ?_, ?_, ?_⟩
  · intro row hrow
    cases hrow
  · intro k i h
    simp [StrMap.find] at h
  · intro name i h
    simp [LinearProgram.empty, StrMap.find] at h
  · intro name h
    cases h

theorem LinearProgram.InScope.withConstraint {lp : LinearProgram} {m : Nat}
    (h : lp.InScope m) (terms : List (Nat × ℚ)) (sense : Sense) (rhs : ℚ)
    (ht : ∀ e ∈ terms, e.1 < m) : (lp.addConstraint terms sense rhs).InScope m := by
  intro row hrow e he
  simp only [LinearProgram.addConstraint, List.mem_append, List.mem_singleton] at hrow
  rcases hrow with hrow | rfl
  · exact h row hrow e he
  · rw [ofConstraint_rowVec] at he
    exact ht e he

theorem addAssertions_inScope (m : Nat) : ∀ (formulas : List ModalFormula) (xVars : StrMap)
    (lp lp' : LinearProgram), (∀ (k : String) (i : Nat), xVars.find k = some i → i < m) →
    lp.InScope m → addAssertions formulas xVars lp = some lp' →
    lp'.InScope m ∧ lp'.nameToIndex = lp.nameToIndex
  | [], _, lp, lp', _, hl, h => by
    simp only [addAssertions, Option.some.injEq] at h
    subst h
    exact ⟨hl, rfl⟩
  | f :: fs, xVars, lp, lp', hx, hl, h => by
    simp only [addAssertions] at h
    cases hf : xVars.find f.toString with
    | none => rw [hf] at h; cases h
    | some i =>
      rw [hf] at h
      obtain ⟨r1, r2⟩ := addAssertions_inScope m fs xVars
        (lp.addConstraint [(i, 1)] .EQ 1) lp' hx
        (hl.withConstraint _ _ _ (fun e he => by
          rw [List.mem_singleton.mp he]
          show i < m
          exact hx _ _ hf)) h
      exact ⟨r1, r2⟩

theorem addSeedRows_inScope (m : Nat) : ∀ (psis : List CPLFormula) (xVars : StrMap)
    (acc res : LinearProgram × List Nat),
    (∀ (k : String) (i : Nat), xVars.find k = some i → i < m) →
    acc.1.InScope m → addSeedRows psis xVars acc = some res →
    res.1.InScope m ∧ res.1.nameToIndex = acc.1.nameToIndex
  | [], _, acc, res, _, hl, h => by
    simp only [addSeedRows, Option.some.injEq] at h
    subst h
    exact ⟨hl, rfl⟩
  | psi :: psis, xVars, acc, res, hx, hl, h => by
    simp only [addSeedRows] at h
    cases hf : xVars.find (ModalFormula.patom psi).toString with
    | none => rw [hf] at h; cases h
    | some i =>
      rw [hf] at h
      obtain ⟨r1, r2⟩ := addSeedRows_inScope m psis xVars
        (acc.1.addConstraint [(i, -1)] .EQ 0,
          acc.2 ++ [(acc.1.addConstraint [(i, -1)] .EQ 0).numRows - 1]) res hx
        (hl.withConstraint _ _ _ (fun e he => by
          rw [List.mem_singleton.mp he]
          show i < m
          exact hx _ _ hf)) h
      exact ⟨r1, r2⟩

/-- The root program is a program `P` on the variables of the encoder, all its rows on
these variables, followed by one slack variable per row; the coherence rows and the
normalization row are rows of `P`. -/
theorem buildRootLP_scope (formulas : List ModalFormula) (root : RootLP)
    (h : buildRootLP formulas = some root) :
    ∃ P : LinearProgram, root.lp = addSlacks P P.rows.length ∧
      P.InScope P.varNames.length ∧ P.cols.length = P.varNames.length ∧
      (∀ (name : String) (i : Nat),
        P.nameToIndex.find name = some i → i < P.varNames.length) ∧
      (∀ name ∈ P.varNames, isSlackName name = false) ∧
      (∀ r ∈ root.probConstraintRows, r < P.rows.length) ∧
      root.sumProbRow < P.rows.length ∧
      (∀ (name : String) (i : Nat), P.nameToIndex.find name = some i → name ∈ P.varNames) ∧
      ∀ name ∈ P.varNames, IsEncoderName name := by
  unfold buildRootLP at h
  cases hst : encodeAndAssert formulas with
  | none => rw [hst] at h; cases h
  | some st =>
    rw [hst] at h
    have hcols := (encodeAndAssert_colsOK formulas st hst).1
    simp only [encodeAndAssert, Option.map_eq_some'] at hst
    obtain ⟨lp1, hlp1, rfl⟩ := hst
    have hE := encodeAll_scoped formulas ⟨LinearProgram.empty, [], []⟩ scoped_empty
    obtain ⟨e1, e2, e3, e4⟩ := hE
    obtain ⟨a1, a2⟩ := addAssertions_inScope _ formulas _ _ lp1 e2 e1 hlp1
    obtain ⟨a3, a4⟩ := addAssertions_cols _ _ _ _ hlp1
    unfold finishRootLP at h
    simp only at h
    cases hacc : addSeedRows (collectAllPatoms formulas)
        (encodeAll formulas ⟨LinearProgram.empty, [], []⟩).xVars (lp1, []) with
    | none => rw [hacc] at h; cases h
    | some acc =>
      rw [hacc] at h
      simp only [Option.some.injEq] at h
      obtain ⟨s1, s2⟩ := addSeedRows_inScope _ _ _ (lp1, []) acc e2 a1 hacc
      obtain ⟨c1, c2, _, c4, c5, _⟩ := addSeedRows_spec (α := ℚ) _ _ lp1 [] acc hacc
      have hvn : (acc.1.addConstraint [] .EQ 1).varNames
          = (encodeAll formulas ⟨LinearProgram.empty, [], []⟩).lp.varNames := by
        show acc.1.varNames = _
        rw [c2, a4]
      have hrl : (acc.1.addConstraint [] .EQ 1).rows.length
          = lp1.rows.length + (collectAllPatoms formulas).length + 1 := by
        simp [LinearProgram.addConstraint, c4]
      refine ⟨acc.1.addConstraint [] .EQ 1, ?_, ?_, ?_, ?_, ?_, ?_, ?_, ?_, ?_⟩
      · rw [← h]
        rfl
      · rw [hvn]
        exact s1.withConstraint _ _ _ (fun e he => by cases he)
      · rw [hvn]
        show acc.1.cols.length = _
        rw [c1]
        have hcols' : lp1.cols.length = lp1.varNames.length := hcols
        rw [a4] at hcols'
        exact hcols'
      · intro name i hfind
        rw [hvn]
        have hfind' : acc.1.nameToIndex.find name = some i := hfind
        rw [s2, a2] at hfind'
        exact (e3 name i hfind').1
      · intro name hname
        rw [hvn] at hname
        rcases e4 name hname with ⟨k, rfl⟩ | ⟨k, rfl⟩
        · exact isSlackName_x k
        · exact isSlackName_b k
      · intro r hr
        rw [← h] at hr
        simp only [c5, List.nil_append, List.mem_range'_1] at hr
        rw [hrl]
        omega
      · rw [← h]
        simp only [LinearProgram.numRows]
        rw [hrl]
        omega
      · intro name i hfind
        rw [hvn]
        have hfind' : acc.1.nameToIndex.find name = some i := hfind
        rw [s2, a2] at hfind'
        exact (e3 name i hfind').2
      · intro name hname
        rw [hvn] at hname
        exact e4 name hname

theorem addSlacks_find (lp : LinearProgram) (name : String)
    (hname : isSlackName name = false) : ∀ n : Nat,
    (addSlacks lp n).nameToIndex.find name = lp.nameToIndex.find name
  | 0 => by simp [addSlacks]
  | n + 1 => by
    rw [addSlacks_succ]
    have h : (addSlack (addSlacks lp n) n).nameToIndex
        = ("i(" ++ toString n ++ ")", (addSlacks lp n).varNames.length)
          :: (addSlacks lp n).nameToIndex := rfl
    rw [h, StrMap.find, if_neg, addSlacks_find lp name hname n]
    intro he
    rw [← he, isSlackName_slack] at hname
    cases hname

theorem fixBinaries_bound : ∀ (xs : List (String × Bool)) (lp lp' : LinearProgram),
    fixBinaries lp xs = some lp' → ∀ e ∈ xs, ∃ i, lp.nameToIndex.find e.1 = some i
  | [], _, _, _, e, he => by cases he
  | x :: xs, lp, lp', h, e, he => by
    simp only [fixBinaries] at h
    cases hx : fixBinary lp x.1 x.2 with
    | none => rw [hx] at h; cases h
    | some lp1 =>
      rw [hx] at h
      rcases List.mem_cons.mp he with rfl | he
      · simp only [fixBinary, LinearProgram.getVarIndex, Option.map_eq_some'] at hx
        obtain ⟨i, hi, _⟩ := hx
        exact ⟨i, hi⟩
      · rw [← fixBinary_nameToIndex hx]
        exact fixBinaries_bound xs lp1 lp' h e he

theorem value_localTo (row : LPRow) (m : Nat) (h : ∀ e ∈ row.rowVec, e.1 < m) :
    LocalTo (α := α) (fun v => row.value v) m := by
  intro v v' hv
  simp only [LPRow.value]
  congr 1
  apply List.map_congr_left
  intro t ht
  rw [hv t.1 (h t ht)]

theorem isSlackName_of_isBinaryName {name : String} (h : isBinaryName name = true) :
    isSlackName name = false := by
  unfold isBinaryName at h
  unfold isSlackName
  cases hd : name.data with
  | nil => rw [hd] at h; simp [List.isPrefixOf] at h
  | cons c cs =>
    rw [hd] at h
    have hc : c = 'b' := by
      have h' : ("b(".data.isPrefixOf (c :: cs)) = true := h
      have hb : "b(".data = 'b' :: ['('] := by decide
      rw [hb] at h'
      simp only [List.isPrefixOf, Bool.and_eq_true, beq_iff_eq] at h'
      exact h'.1.symm
    subst hc
    have hi : "i(".data = 'i' :: ['('] := by decide
    rw [hi]
    simp [List.isPrefixOf]

/-- The rows of the program of a branch: with `m0` variables of the encoder and `nR` rows in
the root program, the row `r < nR` is a linear form on the variables of the encoder plus the
slack variable `m0 + r`, and every later row, the fixing of a binary, is a linear form on
the variables of the encoder. -/
theorem branch_rows (formulas : List ModalFormula) (root : RootLP)
    (hroot : buildRootLP formulas = some root) (fixings : List (String × Bool))
    (hbin : ∀ e ∈ fixings, isBinaryName e.1 = true) (base : LinearProgram)
    (hbase : fixBinaries root.lp fixings = some base) :
    ∃ m0 nR : Nat, base.varNames.length = m0 + nR ∧
      (∃ pc : List LPCol, pc.length = m0 ∧
        base.cols = pc ++ List.replicate nR ⟨1, none, some 0⟩) ∧
      (∀ name ∈ base.varNames.take m0, isSlackName name = false) ∧
      (∀ r, r < nR → base.varNames[m0 + r]? = some ("i(" ++ toString r ++ ")")) ∧
      (∀ r ∈ root.probConstraintRows, r < nR) ∧ root.sumProbRow < nR ∧
      ∀ r, r < base.rows.length → ∃ (lo hi : Option ℚ) (F : (Nat → α) → α),
        RowIs base r lo hi (fun v => F v + if r < nR then v (m0 + r) else 0) ∧
        LocalTo F m0 := by
  obtain ⟨P, hP, p1, p2, p3, p4, p5, p6, _, _⟩ := buildRootLP_scope formulas root hroot
  obtain ⟨s1, s2, s3, s4⟩ := addSlacks_spec (α := α) P p2 P.rows.length
  rw [← hP] at s1 s2 s3 s4
  obtain ⟨f1, f2, f3, f4⟩ := fixBinaries_rows fixings root.lp base hbase
  refine ⟨P.varNames.length, P.rows.length, ?_, ⟨P.cols, p2, ?_⟩, ?_, ?_, p5, p6, ?_⟩
  · rw [f3, s1]
    simp
  · rw [f2, s2]
  · intro name hname
    rw [f3, s1, List.take_left' rfl] at hname
    exact p4 name hname
  · intro r hr
    rw [f3, s1, getElem?_append_add, List.getElem?_map,
      List.getElem?_eq_getElem (by simpa using hr)]
    simp
  · intro r hr
    by_cases hlt : r < P.rows.length
    · refine ⟨P.rows[r].lhs, P.rows[r].rhs, fun v => P.rows[r].value v, ?_,
        value_localTo _ _ (p1 _ (List.getElem_mem hlt))⟩
      have h0 : RowIs (α := α) P r P.rows[r].lhs P.rows[r].rhs
          (fun v => P.rows[r].value v) :=
        ⟨P.rows[r], List.getElem?_eq_getElem hlt, rfl, rfl, fun _ => rfl⟩
      have h1 := s4 r _ _ _ h0
      have hpre : root.lp.rows <+: base.rows := by
        rw [f1]
        exact List.prefix_append _ _
      exact h1.ofRowsPrefixed hpre
    · have hge : P.rows.length ≤ r := Nat.le_of_not_lt hlt
      rw [f1, List.length_append, List.length_map, s3] at hr
      have hidx : r - P.rows.length < fixings.length := by omega
      have hrow : base.rows[r]? = some (fixingRow root.lp fixings[r - P.rows.length]) := by
        rw [f1, List.getElem?_append_right (by rw [s3]; exact hge), s3,
          List.getElem?_map, List.getElem?_eq_getElem hidx]
        rfl
      have hmem : fixings[r - P.rows.length] ∈ fixings := List.getElem_mem hidx
      obtain ⟨i, hi⟩ := fixBinaries_bound fixings root.lp base hbase _ hmem
      have hi' : P.nameToIndex.find (fixings[r - P.rows.length]).1 = some i := by
        rw [hP, addSlacks_find P _ (isSlackName_of_isBinaryName (hbin _ hmem))] at hi
        exact hi
      refine ⟨(fixingRow root.lp fixings[r - P.rows.length]).lhs,
        (fixingRow root.lp fixings[r - P.rows.length]).rhs,
        fun v => (fixingRow root.lp fixings[r - P.rows.length]).value v, ?_,
        value_localTo _ _ ?_⟩
      · refine ⟨_, hrow, rfl, rfl, fun v => ?_⟩
        simp only [if_neg hlt, add_zero]
      · intro e he
        simp only [fixingRow, ofConstraint_rowVec, LinearProgram.getVarIndex, hi,
          Option.getD_some, List.mem_singleton] at he
        rw [he]
        exact p3 _ _ hi'

theorem weightedSum_map (c : Nat → ℚ) (g : Nat → α) :
    ∀ (K : List Nat) (n : Nat) (u : Nat → α),
      (∀ (j : Nat) (h : j < K.length), u (n + j) = g K[j]) →
      weightedSum u n (K.map c) = (K.map fun k => (c k : α) * g k).sum
  | [], _, _, _ => rfl
  | k :: K, n, u, h => by
    simp only [List.map_cons, weightedSum, List.sum_cons]
    rw [weightedSum_map c g K (n + 1) u (fun j hj => by
      have := h (j + 1) (by simp only [List.length_cons]; omega)
      rw [show n + 1 + j = n + (j + 1) by omega]
      simpa using this)]
    have h0 := h 0 (by simp)
    simp only [Nat.add_zero, List.getElem_cons_zero] at h0
    rw [h0]

theorem sum_split (h : Nat → α) (M : Nat) (K : List Nat) (hK : K.Nodup)
    (hlt : ∀ k ∈ K, k < M) :
    ((List.range M).map h).sum
      = (K.map h).sum + (((List.range M).filter fun k => decide (k ∉ K)).map h).sum := by
  have hperm : (List.range M).Perm (K ++ (List.range M).filter fun k => decide (k ∉ K)) := by
    apply (List.perm_ext_iff_of_nodup (List.nodup_range M) ?_).mpr
    · intro a
      simp only [List.mem_range, List.mem_append, List.mem_filter, decide_eq_true_eq]
      constructor
      · intro ha
        by_cases hk : a ∈ K
        · exact Or.inl hk
        · exact Or.inr ⟨ha, hk⟩
      · rintro (hk | ⟨ha, _⟩)
        · exact hlt a hk
        · exact ha
    · refine List.Nodup.append hK ((List.nodup_range M).filter _) ?_
      intro a ha hb
      simp only [List.mem_filter, decide_eq_true_eq] at hb
      exact hb.2 ha
  rw [(hperm.map h).sum_eq, List.map_append, List.sum_append]

theorem columnEntries_rows (varList : List String) (w : List Bool) :
    ∀ (L : List (CPLFormula × Nat)) (es : List (Nat × ℚ)),
      columnEntries L varList w = some es → ∀ e ∈ es, e.1 ∈ L.map Prod.snd
  | [], es, h => by
    simp only [columnEntries, Option.some.injEq] at h
    subst h
    intro e he
    cases he
  | x :: L, es, h => by
    simp only [columnEntries] at h
    cases hv : evaluateCPL x.1 (valuationMap varList w) with
    | none => rw [hv] at h; cases h
    | some val =>
      cases hes : columnEntries L varList w with
      | none => rw [hv, hes] at h; cases h
      | some es' =>
        rw [hv, hes] at h
        simp only [Option.some.injEq] at h
        have ih := columnEntries_rows varList w L es' hes
        intro e he
        rw [← h] at he
        by_cases hc : |val| > 1 / 100000000
        · rw [if_pos hc] at he
          rcases List.mem_cons.mp he with rfl | he
          · simp
          · exact List.mem_cons_of_mem _ (ih e he)
        · rw [if_neg hc] at he
          exact List.mem_cons_of_mem _ (ih e he)

/-- A coefficient of a column is not negative. -/
theorem colCoef_nonneg (root : RootLP) (varList : List String) (w : List Bool) (r : Nat) :
    0 ≤ colCoef root varList w r := by
  unfold colCoef
  cases hcol : newColumn root varList w with
  | none => simp
  | some col =>
    simp only [Option.map_some', Option.getD_some, coefAt]
    apply List.sum_nonneg
    intro x hx
    obtain ⟨e, he, rfl⟩ := List.mem_map.mp hx
    have h1 : e.2 = 1 := by
      simp only [newColumn, Option.map_eq_some'] at hcol
      obtain ⟨es, hes, rfl⟩ := hcol
      rcases List.mem_append.mp he with he | he
      · exact columnEntries_one varList w _ es hes e he
      · rw [List.mem_singleton.mp he]
    by_cases hr : e.1 = r
    · rw [if_pos hr, h1]
      norm_num
    · rw [if_neg hr]

/-- A column has no entry outside the coherence rows and the normalization row. -/
theorem colCoef_zero (root : RootLP) (varList : List String) (w : List Bool) (r : Nat)
    (h1 : r ∉ root.probConstraintRows) (h2 : r ≠ root.sumProbRow) :
    colCoef root varList w r = 0 := by
  unfold colCoef
  cases hcol : newColumn root varList w with
  | none => simp
  | some col =>
    simp only [Option.map_some', Option.getD_some, coefAt]
    apply List.sum_eq_zero
    intro x hx
    obtain ⟨e, he, rfl⟩ := List.mem_map.mp hx
    rw [if_neg]
    intro her
    simp only [newColumn, Option.map_eq_some'] at hcol
    obtain ⟨es, hes, rfl⟩ := hcol
    rcases List.mem_append.mp he with he | he
    · have hm := columnEntries_rows varList w _ es hes e he
      obtain ⟨x', hx', hx2⟩ := List.mem_map.mp hm
      apply h1
      rw [← her, ← hx2]
      exact (List.of_mem_zip hx').2
    · rw [List.mem_singleton.mp he] at her
      exact h2 her.symm

theorem sat_of_value {row row' : LPRow} {u v : Nat → α} (hl : row.lhs = row'.lhs)
    (hr : row.rhs = row'.rhs) (hv : row.value u = row'.value v) (h : row'.sat v) :
    row.sat u := by
  unfold LPRow.sat at h ⊢
  rw [hl, hr, hv]
  exact h

/-- The restriction of a feasible assignment of the complete system of a branch to the
columns of the bitmasks `K` is feasible for the program with these columns only. -/
theorem restrictTo_feasible (formulas : List ModalFormula) (root : RootLP)
    (hroot : buildRootLP formulas = some root) (varList : List String)
    (fixings : List (String × Bool)) (hbin : ∀ e ∈ fixings, isBinaryName e.1 = true)
    (base : LinearProgram) (hbase : fixBinaries root.lp fixings = some base)
    (cols : List (String × Nat)) (hnd : (cols.map Prod.snd).Nodup)
    (hlt : ∀ c ∈ cols, c.2 < 2 ^ varList.length)
    (restricted full : LinearProgram)
    (hres : addColumns root varList base
      (cols.map fun c => (c.1, valuationOfMask varList.length c.2)) = some restricted)
    (hfull : addColumns root varList base (allColumns varList.length) = some full)
    (v : Nat → α) (hfeas : full.Feasible v) :
    ∃ (m0 : Nat) (u : Nat → α), restricted.Feasible u ∧ m0 ≤ base.varNames.length ∧
      (∀ i, i < m0 → u i = v i) ∧
      (∀ i, m0 ≤ i → i < restricted.varNames.length → 0 ≤ u i) ∧
      (∀ (i : Nat) (name : String), base.varNames[i]? = some name →
        isSlackName name = false → i < m0) ∧
      (∀ (i : Nat) (name : String), i < m0 → base.varNames[i]? = some name →
        isSlackName name = false) ∧
      (∀ (j : Nat) (c : String × Nat), cols[j]? = some c →
        u (base.varNames.length + j) = v (base.varNames.length + c.2)) := by
  obtain ⟨m0, nR, hN0, ⟨pc, hpc, hbc⟩, hnames, hslk, hpcr, hsum, hrows⟩ :=
    branch_rows (α := α) formulas root hroot fixings hbin base hbase
  obtain ⟨r1, r2, r3, _, r5⟩ := addColumns_spec (α := α) root varList _ base restricted hres
  obtain ⟨g1, g2, g3, _, g5⟩ := addColumns_spec (α := α) root varList _ base full hfull
  have hKlt : ∀ k ∈ cols.map Prod.snd, k < 2 ^ varList.length := by
    intro k hk
    obtain ⟨c, hc, rfl⟩ := List.mem_map.mp hk
    exact hlt c hc
  have hclen : base.cols.length = base.varNames.length := by
    rw [hbc, hN0, List.length_append, List.length_replicate, hpc]
  have hall : (allColumns varList.length).length = 2 ^ varList.length := by
    simp [allColumns]
  -- the values of the complete system on its columns
  have hvp : ∀ k, k < 2 ^ varList.length →
      0 ≤ v (base.varNames.length + k) ∧ v (base.varNames.length + k) ≤ 1 := by
    intro k hk
    have hc : full.cols[base.varNames.length + k]? = some ⟨0, some 1, some 0⟩ := by
      rw [g2, ← hclen, getElem?_append_add, List.getElem?_replicate, if_pos (by omega)]
    have hb := hfeas.1 _ _ hc
    simp only [LPCol.inBounds, Rat.cast_zero, Rat.cast_one] at hb
    exact hb
  have hmiss : ∀ r, 0 ≤ missingMass root varList base.varNames.length
      (cols.map Prod.snd) v r := by
    intro r
    unfold missingMass
    apply List.sum_nonneg
    intro x hx
    obtain ⟨k, hk, rfl⟩ := List.mem_map.mp hx
    have hk' : k < 2 ^ varList.length := List.mem_range.mp (List.mem_filter.mp hk).1
    exact mul_nonneg (by exact_mod_cast colCoef_nonneg root varList _ r) (hvp k hk').1
  have hu1 : ∀ i, i < m0 →
      restrictTo root varList m0 base.varNames.length (cols.map Prod.snd) v i = v i := by
    intro i hi
    simp only [restrictTo, if_pos hi]
  have hu2 : ∀ r, r < nR →
      restrictTo root varList m0 base.varNames.length (cols.map Prod.snd) v (m0 + r)
        = v (m0 + r) + missingMass root varList base.varNames.length
            (cols.map Prod.snd) v r := by
    intro r hr
    simp only [restrictTo, if_neg (show ¬ m0 + r < m0 by omega),
      if_pos (show m0 + r < base.varNames.length by omega), Nat.add_sub_cancel_left]
  have hu3 : ∀ (j : Nat) (hj : j < (cols.map Prod.snd).length),
      restrictTo root varList m0 base.varNames.length (cols.map Prod.snd) v
          (base.varNames.length + j)
        = v (base.varNames.length + (cols.map Prod.snd)[j]) := by
    intro j hj
    simp only [restrictTo, if_neg (show ¬ base.varNames.length + j < m0 by omega),
      if_neg (show ¬ base.varNames.length + j < base.varNames.length by omega),
      Nat.add_sub_cancel_left, List.getD_eq_getElem?_getD, List.getElem?_eq_getElem hj,
      Option.getD_some]
  have hfeasR : restricted.Feasible
      (restrictTo root varList m0 base.varNames.length (cols.map Prod.snd) v) := by
    constructor
    · intro i c hc
      rw [r2, hbc] at hc
      by_cases h1 : i < m0
      · rw [List.append_assoc, List.getElem?_append_left (by omega)] at hc
        have hc' : full.cols[i]? = some c := by
          rw [g2, hbc, List.append_assoc, List.getElem?_append_left (by omega)]
          exact hc
        rw [hu1 i h1]
        exact hfeas.1 i c hc'
      · by_cases h2 : i < base.varNames.length
        · have hi : i = m0 + (i - m0) := by omega
          rw [List.getElem?_append_left (by simp; omega),
            List.getElem?_append_right (by omega), List.getElem?_replicate,
            if_pos (by omega)] at hc
          cases hc
          have hc' : full.cols[i]? = some ⟨1, none, some 0⟩ := by
            rw [g2, hbc, List.getElem?_append_left (by simp; omega),
              List.getElem?_append_right (by omega), List.getElem?_replicate,
              if_pos (by omega)]
          have hb := hfeas.1 i _ hc'
          simp only [LPCol.inBounds, Rat.cast_zero, and_true] at hb
          rw [hi, hu2 (i - m0) (by omega), ← hi]
          simp only [LPCol.inBounds, Rat.cast_zero, and_true]
          exact add_nonneg hb (hmiss _)
        · have hlen : (pc ++ List.replicate nR (⟨1, none, some 0⟩ : LPCol)).length
              = base.varNames.length := by
            simp [hpc, hN0]
          rw [List.getElem?_append_right (by rw [hlen]; omega), hlen,
            List.getElem?_replicate] at hc
          by_cases h3 : i - base.varNames.length
              < (cols.map fun c => (c.1, valuationOfMask varList.length c.2)).length
          · rw [if_pos h3] at hc
            cases hc
            have hj : i - base.varNames.length < (cols.map Prod.snd).length := by
              simpa using h3
            have hi : i = base.varNames.length + (i - base.varNames.length) := by omega
            rw [hi, hu3 _ hj]
            have := hvp _ (hKlt _ (List.getElem_mem hj))
            simp only [LPCol.inBounds, Rat.cast_zero, Rat.cast_one]
            exact this
          · rw [if_neg h3] at hc
            cases hc
    · intro row hrow
      obtain ⟨r, hr⟩ := List.mem_iff_getElem?.mp hrow
      have hrlt : r < base.rows.length := by
        rw [← r3]
        exact (List.getElem?_eq_some.mp hr).1
      obtain ⟨lo, hi, F, hRow, hloc⟩ := hrows r hrlt
      obtain ⟨rowR, hR1, hR2, hR3, hR4⟩ := r5 r lo hi _ hRow
      obtain ⟨rowF, hF1, hF2, hF3, hF4⟩ := g5 r lo hi _ hRow
      rw [hr] at hR1
      cases hR1
      refine sat_of_value (hR2.trans hF2.symm) (hR3.trans hF3.symm) ?_
        (hfeas.2 rowF (List.getElem?_mem hF1))
      rw [hR4, hF4]
      beta_reduce
      have e1 : ((cols.map fun c => (c.1, valuationOfMask varList.length c.2)).map
          fun c => colCoef root varList c.2 r)
          = (cols.map Prod.snd).map
            fun k => colCoef root varList (valuationOfMask varList.length k) r := by
        simp [List.map_map, Function.comp]
      have e2 : ((allColumns varList.length).map fun c => colCoef root varList c.2 r)
          = (List.range (2 ^ varList.length)).map
            fun k => colCoef root varList (valuationOfMask varList.length k) r := by
        simp [allColumns, List.map_map, Function.comp]
      rw [e1, e2,
        weightedSum_map _ (fun k => v (base.varNames.length + k)) (cols.map Prod.snd) _ _ hu3,
        weightedSum_map _ (fun k => v (base.varNames.length + k))
          (List.range (2 ^ varList.length)) _ v (fun j hj => by simp),
        sum_split (fun k => (colCoef root varList (valuationOfMask varList.length k) r : α)
          * v (base.varNames.length + k)) _ _ hnd hKlt,
        hloc _ v hu1]
      by_cases hlt' : r < nR
      · rw [if_pos hlt', if_pos hlt', hu2 r hlt']
        unfold missingMass
        ring
      · rw [if_neg hlt', if_neg hlt']
        have hz : ∀ k, colCoef root varList (valuationOfMask varList.length k) r = 0 :=
          fun k => colCoef_zero root varList _ r (fun hm => hlt' (hpcr r hm))
            (fun he => hlt' (by rw [he]; exact hsum))
        simp [hz]
  refine ⟨m0, _, hfeasR, by omega, hu1, ?_, ?_, ?_, ?_⟩
  · intro i h1 h2
    have hcl : i < restricted.cols.length := by
      rw [r2, List.length_append, List.length_replicate, hclen]
      rw [r1, List.length_append, List.length_map] at h2
      simpa using h2
    obtain ⟨c, hc⟩ : ∃ c, restricted.cols[i]? = some c :=
      ⟨_, List.getElem?_eq_getElem hcl⟩
    have hlow : c.lower = some 0 := by
      have hidx := hc
      rw [r2, hbc, List.append_assoc, List.getElem?_append_right (by omega)] at hidx
      have hm2 := List.getElem?_mem hidx
      rcases List.mem_append.mp hm2 with hm2 | hm2
      · rw [(List.mem_replicate.mp hm2).2]
      · rw [(List.mem_replicate.mp hm2).2]
    have hb := hfeasR.1 i _ hc
    simp only [LPCol.inBounds, hlow, Rat.cast_zero] at hb
    exact hb.1
  · intro i name hi hs
    by_contra hge
    have hlt2 : i < base.varNames.length := (List.getElem?_eq_some.mp hi).1
    have hidx : i = m0 + (i - m0) := by omega
    rw [hidx, hslk (i - m0) (by omega)] at hi
    cases hi
    rw [isSlackName_slack] at hs
    cases hs
  · intro i name h1 hi
    apply hnames
    rw [← List.getElem?_take_of_lt h1] at hi
    exact List.getElem?_mem hi
  · intro j c hj
    have hjlt : j < (cols.map Prod.snd).length := by
      rw [List.length_map]
      exact (List.getElem?_eq_some.mp hj).1
    rw [hu3 j hjlt]
    congr 2
    have : (cols.map Prod.snd)[j]? = some c.2 := by
      rw [List.getElem?_map, hj]
      rfl
    rw [List.getElem?_eq_getElem hjlt] at this
    exact Option.some.inj this

/-- C37: rejecting on a program without a feasible point is sound. For the program `base`
of a branch (the root program of `solve` with rows that fix binaries), the complete system
`full` with the columns of all `2ⁿ` valuations and the program `restricted` with the columns
of any list of pairwise different bitmasks: every solution `v` of the complete system with
all slack variables at 0 restricts to a feasible assignment `u` of `restricted`, which has
the values of `v` on the `x` and `b` variables and on the columns present, and slack
variables that are not negative; hence if `restricted` has no feasible assignment, the
complete system has no solution. -/
theorem rejection_is_sound (formulas : List ModalFormula) (root : RootLP)
    (hroot : buildRootLP formulas = some root) (varList : List String)
    (fixings : List (String × Bool)) (hbin : ∀ e ∈ fixings, isBinaryName e.1 = true)
    (base : LinearProgram) (hbase : fixBinaries root.lp fixings = some base)
    (cols : List (String × Nat)) (hnd : (cols.map Prod.snd).Nodup)
    (hlt : ∀ c ∈ cols, c.2 < 2 ^ varList.length)
    (restricted full : LinearProgram)
    (hres : addColumns root varList base
      (cols.map fun c => (c.1, valuationOfMask varList.length c.2)) = some restricted)
    (hfull : addColumns root varList base (allColumns varList.length) = some full) :
    (∀ v : Nat → α, full.Feasible v → full.SlackFree v →
      ∃ u : Nat → α, restricted.Feasible u ∧
        (∀ (i : Nat) (name : String), restricted.varNames[i]? = some name →
          isSlackName name = true → 0 ≤ u i) ∧
        (∀ (i : Nat) (name : String), base.varNames[i]? = some name →
          isSlackName name = false → u i = v i) ∧
        (∀ (j : Nat) (c : String × Nat), cols[j]? = some c →
          u (base.varNames.length + j) = v (base.varNames.length + c.2))) ∧
    ((¬ ∃ u : Nat → α, restricted.Feasible u) →
      ¬ ∃ v : Nat → α, full.Feasible v ∧ full.SlackFree v) := by
  have key : ∀ v : Nat → α, full.Feasible v →
      ∃ u : Nat → α, restricted.Feasible u ∧
        (∀ (i : Nat) (name : String), restricted.varNames[i]? = some name →
          isSlackName name = true → 0 ≤ u i) ∧
        (∀ (i : Nat) (name : String), base.varNames[i]? = some name →
          isSlackName name = false → u i = v i) ∧
        (∀ (j : Nat) (c : String × Nat), cols[j]? = some c →
          u (base.varNames.length + j) = v (base.varNames.length + c.2)) := by
    intro v hfeas
    obtain ⟨m0, u, h1, h2, h3, h4, h5, h6, h7⟩ := restrictTo_feasible formulas root hroot
      varList fixings hbin base hbase cols hnd hlt restricted full hres hfull v hfeas
    obtain ⟨r1, _, _, _, _⟩ := addColumns_spec (α := α) root varList _ base restricted hres
    refine ⟨u, h1, ?_, fun i name hi hs => h3 i (h5 i name hi hs), h7⟩
    intro i name hi hs
    have hil : i < restricted.varNames.length := (List.getElem?_eq_some.mp hi).1
    by_cases hm : i < m0
    · have hi' : base.varNames[i]? = some name := by
        rw [r1, List.getElem?_append_left (by omega)] at hi
        exact hi
      rw [h6 i name hm hi'] at hs
      cases hs
    · exact h4 i (Nat.le_of_not_lt hm) hil
  refine ⟨fun v hfeas _ => key v hfeas, ?_⟩
  rintro hno ⟨v, hfeas, _⟩
  obtain ⟨u, hu, _⟩ := key v hfeas
  exact hno ⟨u, hu⟩

/-- The hypotheses of `rejection_is_sound` hold for the input `¬P(p)`, the root program
without fixings and the column of the valuation `p = 0`. -/
theorem rejection_is_sound_witness :
    buildRootLP negatedAtom = some exampleRoot ∧
    (∀ e ∈ ([] : List (String × Bool)), isBinaryName e.1 = true) ∧
    fixBinaries exampleRoot.lp [] = some exampleRoot.lp ∧
    (([("p(0)", 0)] : List (String × Nat)).map Prod.snd).Nodup ∧
    (∀ c ∈ ([("p(0)", 0)] : List (String × Nat)), c.2 < 2 ^ ["p"].length) ∧
    addColumns exampleRoot ["p"] exampleRoot.lp
      (([("p(0)", 0)] : List (String × Nat)).map
        fun c => (c.1, valuationOfMask ["p"].length c.2)) = some exampleRestricted ∧
    addColumns exampleRoot ["p"] exampleRoot.lp (allColumns ["p"].length)
      = some exampleFull ∧
    ((¬ ∃ u : Nat → ℚ, exampleRestricted.Feasible u) →
      ¬ ∃ v : Nat → ℚ, exampleFull.Feasible v ∧ exampleFull.SlackFree v) :=
  ⟨by with_unfolding_all decide, by decide, rfl, by decide, by decide,
    by with_unfolding_all decide, by with_unfolding_all decide,
    (rejection_is_sound (α := ℚ) negatedAtom exampleRoot (by with_unfolding_all decide) ["p"]
      [] (by decide) exampleRoot.lp rfl [("p(0)", 0)] (by decide) (by decide)
      exampleRestricted exampleFull (by with_unfolding_all decide)
      (by with_unfolding_all decide)).2⟩

end Restriction

/-! ## Theorems: the reference of the branch-and-bound -/

section BranchReference

theorem LinearProgram.NamesPoint.withVariable {lp : LinearProgram} (h : lp.NamesPoint)
    (name : String) (lb ub : Option ℚ) : (lp.addVariable name lb ub).1.NamesPoint := by
  intro name' i hfind
  simp only [LinearProgram.addVariable, StrMap.find] at hfind ⊢
  by_cases hn : name = name'
  · rw [if_pos hn] at hfind
    cases hfind
    rw [List.getElem?_append_right (le_refl _)]
    simp [hn]
  · rw [if_neg hn] at hfind
    have := h name' i hfind
    rw [List.getElem?_append_left (List.getElem?_eq_some.mp this).1]
    exact this

theorem LinearProgram.NamesPoint.transfer {lp lp' : LinearProgram} (h : lp.NamesPoint)
    (h1 : lp'.varNames = lp.varNames) (h2 : lp'.nameToIndex = lp.nameToIndex) :
    lp'.NamesPoint := by
  intro name i hfind
  rw [h1]
  rw [h2] at hfind
  exact h name i hfind

theorem encode_namesPoint : ∀ (f : ModalFormula) (st : EncState), st.lp.NamesPoint →
    (encodeModalFormula f st).lp.NamesPoint := by
  intro f
  induction f with
  | patom phi =>
    intro st hs
    by_cases h : st.xVars.count (ModalFormula.patom phi).toString = true
    · rw [encode_hit _ _ h]
      exact hs
    · have h' : st.xVars.count (ModalFormula.patom phi).toString = false := by simpa using h
      rw [encode_patom _ _ h']
      exact hs.withVariable _ _ _
  | not l ih =>
    intro st hs
    by_cases h : st.xVars.count (ModalFormula.not l).toString = true
    · rw [encode_hit _ _ h]
      exact hs
    · have h' : st.xVars.count (ModalFormula.not l).toString = false := by simpa using h
      rw [encode_not _ _ h']
      exact ((ih st hs).withVariable _ _ _).transfer
        (LinearProgram.addConstraints_varNames _ _)
        (LinearProgram.addConstraints_nameToIndex _ _)
  | binary op l r ihl ihr =>
    intro st hs
    by_cases h : st.xVars.count (ModalFormula.binary op l r).toString = true
    · rw [encode_hit _ _ h]
      exact hs
    · have h' : st.xVars.count (ModalFormula.binary op l r).toString = false := by
        simpa using h
      rw [encode_binary _ _ _ _ h']
      have h2 := ihr { encodeModalFormula l st with
        xVars := ((encodeModalFormula l st).xVars.index l.toString).2 } (ihl st hs)
      exact ((h2.withVariable _ _ _).withVariable _ _ _).transfer
        (LinearProgram.addConstraints_varNames _ _)
        (LinearProgram.addConstraints_nameToIndex _ _)

theorem encodeAll_namesPoint : ∀ (formulas : List ModalFormula) (st : EncState),
    st.lp.NamesPoint → (encodeAll formulas st).lp.NamesPoint
  | [], _, h => h
  | f :: fs, st, h => encodeAll_namesPoint fs (encodeModalFormula f st)
      (encode_namesPoint f st h)

theorem addSlacks_namesPoint (lp : LinearProgram) (h : lp.NamesPoint) : ∀ n : Nat,
    (addSlacks lp n).NamesPoint
  | 0 => by simpa [addSlacks] using h
  | n + 1 => by
    rw [addSlacks_succ]
    exact ((addSlacks_namesPoint lp h n).withVariable ("i(" ++ toString n ++ ")")
      (some 0) none).transfer rfl rfl

/-- In the root program every name of the name table is the name of the variable that it
points at. -/
theorem buildRootLP_namesPoint (formulas : List ModalFormula) (root : RootLP)
    (h : buildRootLP formulas = some root) : root.lp.NamesPoint := by
  unfold buildRootLP at h
  cases hst : encodeAndAssert formulas with
  | none => rw [hst] at h; cases h
  | some st =>
    rw [hst] at h
    simp only [encodeAndAssert, Option.map_eq_some'] at hst
    obtain ⟨lp1, hlp1, rfl⟩ := hst
    have hE : (encodeAll formulas ⟨LinearProgram.empty, [], []⟩).lp.NamesPoint :=
      encodeAll_namesPoint formulas _ (fun name i hf => by
        simp [LinearProgram.empty, StrMap.find] at hf)
    have hx : ∀ (k : String) (i : Nat),
        (encodeAll formulas ⟨LinearProgram.empty, [], []⟩).xVars.find k = some i →
          i < (encodeAll formulas ⟨LinearProgram.empty, [], []⟩).lp.varNames.length :=
      (encodeAll_scoped formulas _ scoped_empty).2.1
    obtain ⟨_, a2⟩ := addAssertions_inScope _ formulas _ _ lp1 hx
      (encodeAll_scoped formulas _ scoped_empty).1 hlp1
    obtain ⟨_, a4⟩ := addAssertions_cols _ _ _ _ hlp1
    unfold finishRootLP at h
    simp only at h
    cases hacc : addSeedRows (collectAllPatoms formulas)
        (encodeAll formulas ⟨LinearProgram.empty, [], []⟩).xVars (lp1, []) with
    | none => rw [hacc] at h; cases h
    | some acc =>
      rw [hacc] at h
      simp only [Option.some.injEq] at h
      have hl1 : lp1.InScope
          (encodeAll formulas ⟨LinearProgram.empty, [], []⟩).lp.varNames.length :=
        (addAssertions_inScope _ formulas _ _ lp1 hx
          (encodeAll_scoped formulas _ scoped_empty).1 hlp1).1
      obtain ⟨_, s2⟩ := addSeedRows_inScope _ _ _ (lp1, []) acc hx hl1 hacc
      obtain ⟨_, c2, _⟩ := addSeedRows_spec (α := ℚ) _ _ lp1 [] acc hacc
      rw [← h]
      refine addSlacks_namesPoint _ ?_ _
      refine hE.transfer ?_ ?_
      · show acc.1.varNames = _
        rw [c2, a4]
      · show acc.1.nameToIndex = _
        rw [s2, a2]

theorem fixBinaries_reference : ∀ (xs : List (String × Bool)) (lp : LinearProgram),
    (∀ e ∈ xs, (lp.nameToIndex.find e.1).isSome = true) →
    fixBinaries lp xs = some (referenceProgram lp xs)
  | [], lp, _ => by
    simp [fixBinaries, referenceProgram]
  | e :: xs, lp, h => by
    obtain ⟨i, hi⟩ := Option.isSome_iff_exists.mp (h e (List.mem_cons_self _ _))
    have he : fixBinary lp e.1 e.2
        = some (lp.addConstraint [(i, 1)] .EQ (if e.2 then 1 else 0)) := by
      simp [fixBinary, LinearProgram.getVarIndex, hi]
    have ih := fixBinaries_reference xs
      (lp.addConstraint [(i, 1)] .EQ (if e.2 then 1 else 0))
      (fun e' he' => h e' (List.mem_cons_of_mem _ he'))
    rw [fixBinaries, he]
    simp only
    rw [ih]
    simp [referenceProgram, LinearProgram.addConstraint, LinearProgram.getVarIndex, hi,
      LPRow.ofConstraint]

/-- C25: branch-and-bound equals its reference. With the feasibility engine an arbitrary
predicate on programs, `solve` returns SAT if and only if the engine accepts the root
program and there is a 0/1 assignment `σ` to the `b(·)` variables of the root program such
that, with the binaries taken in increasing name order, the engine accepts, for every `k`
from 1 to the number of binaries, the root program extended by the rows `1·b = σ(b)` of the
first `k` binaries; otherwise it returns UNSAT. The binaries are the names of the name table
that begin with `b(`, in increasing order, and each of them stands for a variable of that
name. -/
theorem branch_and_bound_reference (engine : LinearProgram → Bool)
    (formulas : List ModalFormula) (root : RootLP)
    (hroot : buildRootLP formulas = some root) :
    root.lp.getBinaryVariableNames.Sorted (fun a b : String => a.data < b.data) ∧
    (∀ name, name ∈ root.lp.getBinaryVariableNames ↔
      isBinaryName name = true ∧ name ∈ root.lp.nameToIndex.map Prod.fst) ∧
    (∀ b ∈ root.lp.getBinaryVariableNames, ∃ i,
      root.lp.getVarIndex b = some i ∧ root.lp.varNames[i]? = some b) ∧
    ∃ result, solve engine formulas = some result ∧
      (result = true ↔ engine root.lp = true ∧
        ∃ σ : List Bool, σ.length = root.lp.getBinaryVariableNames.length ∧
          ∀ k, 1 ≤ k → k ≤ root.lp.getBinaryVariableNames.length →
            engine
              { cols := root.lp.cols
                rows := root.lp.rows ++
                  ((root.lp.getBinaryVariableNames.zip σ).take k).map fun e =>
                    { lhs := some (if e.2 then 1 else 0)
                      rowVec := [((root.lp.getVarIndex e.1).getD 0, 1)]
                      rhs := some (if e.2 then 1 else 0) }
                varNames := root.lp.varNames
                nameToIndex := root.lp.nameToIndex } = true) := by
  obtain ⟨hsorted, hmem⟩ := getBinaryVariableNames_spec root.lp
  have hbound : ∀ b ∈ root.lp.getBinaryVariableNames,
      (root.lp.nameToIndex.find b).isSome = true :=
    fun b hb => (StrMap.count_iff_mem _ _).mpr ((hmem b).mp hb).2
  refine ⟨hsorted, hmem, ?_, ?_⟩
  · intro b hb
    obtain ⟨i, hi⟩ := Option.isSome_iff_exists.mp (hbound b hb)
    exact ⟨i, hi, buildRootLP_namesPoint formulas root hroot b i hi⟩
  obtain ⟨out, hout, hiff⟩ := branchLoop_spec engine root.lp.nameToIndex
    root.lp.getBinaryVariableNames [⟨root.lp, []⟩] hbound
    (fun br hbr => by rw [List.mem_singleton.mp hbr])
  have href : ∀ (σ : List Bool) (k : Nat),
      fixBinaries root.lp ((root.lp.getBinaryVariableNames.zip σ).take k)
        = some (referenceProgram root.lp ((root.lp.getBinaryVariableNames.zip σ).take k)) := by
    intro σ k
    refine fixBinaries_reference _ _ (fun e he => hbound e.1 ?_)
    exact (List.of_mem_zip (List.mem_of_mem_take he)).1
  simp only [solve, hroot, solveFrom]
  by_cases he : engine root.lp = true
  · rw [if_pos he, hout]
    refine ⟨!out.isEmpty, rfl, ?_⟩
    have hne : (!out.isEmpty) = true ↔ out ≠ [] := by
      cases out <;> simp
    rw [hne, hiff]
    constructor
    · rintro ⟨br, hbr, σ, hlen, hk⟩
      rw [List.mem_singleton.mp hbr] at hk
      refine ⟨he, σ, hlen, fun k h1 h2 => ?_⟩
      obtain ⟨lp', hl', he'⟩ := hk k h1 h2
      rw [href σ k] at hl'
      cases hl'
      exact he'
    · rintro ⟨_, σ, hlen, hk⟩
      exact ⟨⟨root.lp, []⟩, List.mem_singleton_self _, σ, hlen,
        fun k h1 h2 => ⟨_, href σ k, hk k h1 h2⟩⟩
  · rw [if_neg he]
    refine ⟨false, rfl, ?_⟩
    constructor
    · intro h; cases h
    · rintro ⟨h, _⟩; exact absurd h he

/-- The hypothesis of `branch_and_bound_reference` holds for the input `P(p) ⊕ P(p)`, whose
root program has the one binary `b((P(p) ⊕ P(p)))`: with an engine that accepts every
program `solve` branches on it and returns SAT. -/
theorem branch_and_bound_reference_witness :
    buildRootLP repeatedAtom = some repeatedRoot ∧
    repeatedRoot.lp.getBinaryVariableNames = ["b((P(p) ⊕ P(p)))"] ∧
    solve (fun _ => true) repeatedAtom = some true ∧
    ∃ result, solve (fun _ => true) repeatedAtom = some result ∧
      (result = true ↔ (fun _ : LinearProgram => true) repeatedRoot.lp = true ∧
        ∃ σ : List Bool, σ.length = repeatedRoot.lp.getBinaryVariableNames.length ∧
          ∀ k, 1 ≤ k → k ≤ repeatedRoot.lp.getBinaryVariableNames.length →
            (fun _ : LinearProgram => true)
              { cols := repeatedRoot.lp.cols
                rows := repeatedRoot.lp.rows ++
                  ((repeatedRoot.lp.getBinaryVariableNames.zip σ).take k).map fun e =>
                    { lhs := some (if e.2 then 1 else 0)
                      rowVec := [((repeatedRoot.lp.getVarIndex e.1).getD 0, 1)]
                      rhs := some (if e.2 then 1 else 0) }
                varNames := repeatedRoot.lp.varNames
                nameToIndex := repeatedRoot.lp.nameToIndex } = true) :=
  ⟨rfl, rfl, rfl,
    (branch_and_bound_reference (fun _ => true) repeatedAtom repeatedRoot rfl).2.2.2⟩

end BranchReference

/-! ## Theorems: the slack variables and the Phase-I equivalence -/

section PhaseOneEquivalence

variable {α : Type} [LinearOrderedField α]

theorem weightedSum_congr (v v' : Nat → α) : ∀ (cs : List ℚ) (n : Nat),
    (∀ j, j < cs.length → v (n + j) = v' (n + j)) →
    weightedSum v n cs = weightedSum v' n cs
  | [], _, _ => rfl
  | c :: cs, n, h => by
    have h0 := h 0 (by simp)
    rw [Nat.add_zero] at h0
    rw [weightedSum, weightedSum, h0,
      weightedSum_congr v v' cs (n + 1) (fun j hj => by
        have := h (j + 1) (by simp only [List.length_cons]; omega)
        rw [show n + 1 + j = n + (j + 1) by omega]
        exact this)]

/-- The slack variables of a program of `solve`: with `m0` variables of the encoder, the
variable `m0 + r` is the slack `i(r)` of the initial row `r`, with objective coefficient 1
and bounds `[0, +∞)`; it enters the row `r` with coefficient 1, and no other slack variable
enters that row. -/
theorem slack_rows (formulas : List ModalFormula) (root : RootLP)
    (hroot : buildRootLP formulas = some root) (varList : List String)
    (extra : List Constraint) (ws : List (Nat × List Bool)) (lp : LinearProgram)
    (hlp : addColumns root varList (root.lp.addConstraints extra)
      (ws.map fun c => (columnName c.1, c.2)) = some lp) :
    0 < root.lp.rows.length ∧
    ∃ m0 : Nat,
      (∀ i, lp.isSlackIndex i = true ↔ m0 ≤ i ∧ i < m0 + root.lp.rows.length) ∧
      ∀ r, r < root.lp.rows.length →
        lp.varNames[m0 + r]? = some ("i(" ++ toString r ++ ")") ∧
        lp.cols[m0 + r]? = some ⟨1, none, some 0⟩ ∧
        ∃ (lo hi : Option ℚ) (F : (Nat → α) → α),
          RowIs lp r lo hi (fun v => F v + v (m0 + r)) ∧
          ∀ v v' : Nat → α, (∀ i, lp.isSlackIndex i = false → v i = v' i) → F v = F v' := by
  obtain ⟨P, hP, p1, p2, _, p4, _, p6, _, _⟩ := buildRootLP_scope formulas root hroot
  obtain ⟨s1, s2, s3, s4⟩ := addSlacks_spec (α := α) P p2 P.rows.length
  rw [← hP] at s1 s2 s3 s4
  obtain ⟨c1, c2, _, _, c5⟩ := addColumns_spec (α := α) root varList _ _ lp hlp
  rw [LinearProgram.addConstraints_varNames, s1] at c1
  rw [LinearProgram.addConstraints_cols, s2] at c2
  rw [LinearProgram.addConstraints_varNames, s1] at c5
  have hname : ∀ i, lp.varNames[i]? =
      if i < P.varNames.length then P.varNames[i]?
      else if i < P.varNames.length + P.rows.length then
        some ("i(" ++ toString (i - P.varNames.length) ++ ")")
      else (ws.map fun c => columnName c.1)[i - (P.varNames.length + P.rows.length)]? := by
    intro i
    rw [c1]
    by_cases h1 : i < P.varNames.length
    · rw [if_pos h1, List.append_assoc, List.getElem?_append_left h1]
    · rw [if_neg h1]
      by_cases h2 : i < P.varNames.length + P.rows.length
      · rw [if_pos h2, List.getElem?_append_left (by simp; omega),
          List.getElem?_append_right (by omega), List.getElem?_map,
          List.getElem?_range (by omega)]
        rfl
      · rw [if_neg h2, List.getElem?_append_right (by simp; omega), List.map_map]
        simp only [List.length_append, List.length_map, List.length_range]
        rfl
  have hslack : ∀ i, lp.isSlackIndex i = true ↔
      P.varNames.length ≤ i ∧ i < P.varNames.length + P.rows.length := by
    intro i
    simp only [LinearProgram.isSlackIndex, hname i]
    by_cases h1 : i < P.varNames.length
    · rw [if_pos h1, List.getElem?_eq_getElem h1]
      simp only [p4 _ (List.getElem_mem h1)]
      constructor
      · intro h; cases h
      · intro h; omega
    · rw [if_neg h1]
      by_cases h2 : i < P.varNames.length + P.rows.length
      · rw [if_pos h2]
        simp only [isSlackName_slack]
        exact ⟨fun _ => ⟨by omega, h2⟩, fun _ => trivial⟩
      · rw [if_neg h2]
        constructor
        · intro h
          cases hc : (ws.map fun c => columnName c.1)[i - (P.varNames.length + P.rows.length)]?
            with
          | none => rw [hc] at h; cases h
          | some name =>
            rw [hc] at h
            obtain ⟨c, _, hcn⟩ := List.mem_map.mp (List.getElem?_mem hc)
            rw [← hcn] at h
            simp only [isSlackName_columnName] at h
            cases h
        · intro h; omega
  refine ⟨by rw [s3]; omega, P.varNames.length, ?_, ?_⟩
  · intro i
    rw [s3]
    exact hslack i
  · intro r hr
    rw [s3] at hr
    refine ⟨?_, ?_, ?_⟩
    · rw [hname, if_neg (by omega), if_pos (by omega)]
      simp
    · rw [c2, List.getElem?_append_left (by simp; omega),
        List.getElem?_append_right (by omega), ← p2]
      simp [hr]
    · have h0 : RowIs (α := α) P r P.rows[r].lhs P.rows[r].rhs
          (fun v => P.rows[r].value v) :=
        ⟨P.rows[r], List.getElem?_eq_getElem hr, rfl, rfl, fun _ => rfl⟩
      have h1 := s4 r _ _ _ h0
      have hpre : root.lp.rows <+: (root.lp.addConstraints extra).rows := by
        rw [LinearProgram.addConstraints_rows]
        exact List.prefix_append _ _
      have h2 := c5 r _ _ _ (h1.ofRowsPrefixed hpre)
      refine ⟨P.rows[r].lhs, P.rows[r].rhs,
        fun v => P.rows[r].value v
          + weightedSum v (P.varNames.length + P.rows.length)
              ((ws.map fun c => (columnName c.1, c.2)).map
                fun c => colCoef root varList c.2 r), ?_, ?_⟩
      · refine h2.congr (fun v => ?_)
        simp only [if_pos hr, List.length_append, List.length_map, List.length_range]
        ring
      · intro v v' hv
        have hloc := value_localTo (α := α) P.rows[r] P.varNames.length
          (p1 _ (List.getElem_mem hr))
        have e1 : P.rows[r].value v = P.rows[r].value v' := by
          refine hloc v v' (fun i hi => hv i ?_)
          cases hs : lp.isSlackIndex i with
          | false => rfl
          | true =>
            have := (hslack i).mp hs
            omega
        have e2 := weightedSum_congr v v'
          ((ws.map fun c => (columnName c.1, c.2)).map fun c => colCoef root varList c.2 r)
          (P.varNames.length + P.rows.length) (fun j _ => hv _ (by
            cases hs : lp.isSlackIndex (P.varNames.length + P.rows.length + j) with
            | false => rfl
            | true =>
              have := (hslack _).mp hs
              omega))
        show P.rows[r].value v + _ = P.rows[r].value v' + _
        rw [e1, e2]

/-- C24: the Phase-I equivalence. In the program that `solve` builds for well-formed input,
with any further rows and any probability columns `p(k)`, every initial row `r` has its own
slack variable `i(r)`, the variable `m0 + r` after the `m0` variables of the encoder; it has
the objective coefficient 1 and the bounds `[0, +∞)`, enters the row `r` with coefficient 1
next to a linear form of the other variables, and these are all the slack variables. Every
other variable has the objective coefficient 0, so the objective is the sum of the slacks;
and the minimum of the objective over the feasible assignments is 0 if and only if the same
rows without the slack variables have a solution within the variable bounds. -/
theorem phase_one_equivalence (formulas : List ModalFormula)
    (hwf : ∀ f ∈ formulas, f.wellFormed = true) (root : RootLP)
    (hroot : buildRootLP formulas = some root) (varList : List String)
    (extra : List Constraint) (ws : List (Nat × List Bool)) (lp : LinearProgram)
    (hlp : addColumns root varList (root.lp.addConstraints extra)
      (ws.map fun c => (columnName c.1, c.2)) = some lp) :
    lp.SlackShape ∧ (∀ v : Nat → α, lp.objective v = lp.slackSum v) ∧
    (0 < root.lp.rows.length ∧
      ∃ m0 : Nat,
        (∀ i, lp.isSlackIndex i = true ↔ m0 ≤ i ∧ i < m0 + root.lp.rows.length) ∧
        ∀ r, r < root.lp.rows.length →
          lp.varNames[m0 + r]? = some ("i(" ++ toString r ++ ")") ∧
          lp.cols[m0 + r]? = some ⟨1, none, some 0⟩ ∧
          ∃ (lo hi : Option ℚ) (F : (Nat → α) → α),
            RowIs lp r lo hi (fun v => F v + v (m0 + r)) ∧
            ∀ v v' : Nat → α, (∀ i, lp.isSlackIndex i = false → v i = v' i) →
              F v = F v') ∧
    ((∃ v : Nat → α, lp.Feasible v ∧ lp.slackSum v = 0 ∧
        ∀ v' : Nat → α, lp.Feasible v' → lp.slackSum v ≤ lp.slackSum v') ↔
      ∃ u : Nat → α, lp.withoutSlacks.Feasible u) := by
  have hshape := solve_slackShape formulas hwf root hroot varList extra ws lp hlp
  refine ⟨hshape, hshape.objective_eq,
    slack_rows formulas root hroot varList extra ws lp hlp, ?_⟩
  rw [← phase_one (α := α) lp hshape]
  constructor
  · rintro ⟨v, h1, h2, h3⟩
    refine ⟨v, h1, by rw [hshape.objective_eq, h2], fun v' hv' => ?_⟩
    rw [hshape.objective_eq, hshape.objective_eq]
    exact h3 v' hv'
  · rintro ⟨v, h1, h2, h3⟩
    refine ⟨v, h1, by rw [← hshape.objective_eq, h2], fun v' hv' => ?_⟩
    rw [← hshape.objective_eq, ← hshape.objective_eq]
    exact h3 v' hv'

/-- The hypotheses of `phase_one_equivalence` hold for the input `¬P(p)` with the columns
of the valuations `p = 0` and `p = 1`: the program has the slack variables `i(0)`, … , `i(3)`
of its four initial rows. -/
theorem phase_one_equivalence_witness :
    (∀ f ∈ negatedAtom, f.wellFormed = true) ∧
    buildRootLP negatedAtom = some exampleRoot ∧
    addColumns exampleRoot ["p"] (exampleRoot.lp.addConstraints [])
      ([(0, zeroValuation ["p"]), (1, [true])].map fun c => (columnName c.1, c.2))
        = some exampleEngineLP ∧
    exampleRoot.lp.rows.length = 4 ∧
    (0 < exampleRoot.lp.rows.length ∧
      ∃ m0 : Nat,
        (∀ i, exampleEngineLP.isSlackIndex i = true ↔
          m0 ≤ i ∧ i < m0 + exampleRoot.lp.rows.length) ∧
        ∀ r, r < exampleRoot.lp.rows.length →
          exampleEngineLP.varNames[m0 + r]? = some ("i(" ++ toString r ++ ")") ∧
          exampleEngineLP.cols[m0 + r]? = some ⟨1, none, some 0⟩ ∧
          ∃ (lo hi : Option ℚ) (F : (Nat → ℚ) → ℚ),
            RowIs exampleEngineLP r lo hi (fun v => F v + v (m0 + r)) ∧
            ∀ v v' : Nat → ℚ, (∀ i, exampleEngineLP.isSlackIndex i = false → v i = v' i) →
              F v = F v') ∧
    ((∃ v : Nat → ℚ, exampleEngineLP.Feasible v ∧ exampleEngineLP.slackSum v = 0 ∧
        ∀ v' : Nat → ℚ, exampleEngineLP.Feasible v' →
          exampleEngineLP.slackSum v ≤ exampleEngineLP.slackSum v') ↔
      ∃ u : Nat → ℚ, exampleEngineLP.withoutSlacks.Feasible u) :=
  ⟨by decide, by with_unfolding_all decide, by with_unfolding_all decide,
    by with_unfolding_all decide,
    (phase_one_equivalence negatedAtom (by decide) exampleRoot (by with_unfolding_all decide)
      ["p"] [] [(0, zeroValuation ["p"]), (1, [true])] exampleEngineLP
      (by with_unfolding_all decide)).2.2⟩

end PhaseOneEquivalence

/-! ## Theorems: the reported columns -/

section ReportedColumns

theorem digitChar_value : ∀ k, k < 10 → (Nat.digitChar k).toNat - '0'.toNat = k := by
  decide

theorem decimal_append (ds : List Char) (d : Char) :
    decimal (ds ++ [d]) = 10 * decimal ds + (d.toNat - '0'.toNat) := by
  simp [decimal, List.foldl_append]

/-- The digits that `to_string` writes for `n` in front of `ds` have the value `n`. -/
theorem toDigitsCore_decimal : ∀ (fuel n : Nat) (ds : List Char), n < fuel →
    ∃ pre, Nat.toDigitsCore 10 fuel n ds = pre ++ ds ∧ decimal pre = n
  | 0, _, _, h => by omega
  | fuel + 1, n, ds, h => by
    rw [Nat.toDigitsCore]
    by_cases h0 : n / 10 = 0
    · simp only [h0, if_pos]
      refine ⟨[Nat.digitChar (n % 10)], rfl, ?_⟩
      have hn : n < 10 := by omega
      simp only [decimal, List.foldl_cons, List.foldl_nil, Nat.mul_zero, Nat.zero_add]
      rw [digitChar_value _ (Nat.mod_lt _ (by decide))]
      exact Nat.mod_eq_of_lt hn
    · simp only [h0, if_false]
      obtain ⟨pre, hpre, hdec⟩ := toDigitsCore_decimal fuel (n / 10)
        (Nat.digitChar (n % 10) :: ds) (by omega)
      refine ⟨pre ++ [Nat.digitChar (n % 10)], by rw [hpre]; simp, ?_⟩
      rw [decimal_append, hdec, digitChar_value _ (Nat.mod_lt _ (by decide))]
      omega

theorem toString_nat_inj {a b : Nat} (h : toString a = toString b) : a = b := by
  have h' : (Nat.toDigits 10 a).asString = (Nat.toDigits 10 b).asString := h
  have h2 : Nat.toDigits 10 a = Nat.toDigits 10 b := by
    have := congrArg String.data h'
    exact this
  obtain ⟨pa, ha, hda⟩ := toDigitsCore_decimal (a + 1) a [] (Nat.lt_succ_self a)
  obtain ⟨pb, hb, hdb⟩ := toDigitsCore_decimal (b + 1) b [] (Nat.lt_succ_self b)
  unfold Nat.toDigits at h2
  rw [ha, hb, List.append_nil, List.append_nil] at h2
  rw [← hda, ← hdb, h2]

theorem columnName_inj {a b : Nat} (h : columnName a = columnName b) : a = b := by
  have h' := congrArg String.data h
  simp only [columnName, String.data_append] at h'
  exact toString_nat_inj (String.ext (List.append_cancel_left (List.append_cancel_right h')))

theorem columnName_data (t : Nat) :
    (columnName t).data = 'p' :: '(' :: ((toString t).data ++ [')']) := by
  simp [columnName, String.data_append]

theorem columnName_not_encoderName (t : Nat) : ¬ IsEncoderName (columnName t) := by
  rintro (⟨k, h⟩ | ⟨k, h⟩)
  · have h' := congrArg String.data h
    rw [columnName_data] at h'
    simp [String.data_append] at h'
  · have h' := congrArg String.data h
    rw [columnName_data] at h'
    simp [String.data_append] at h'

/-- The programs on which `solve` runs the engine, the root program and the programs of the
branches, have no variable named `p(t)`. -/
theorem solve_programs_columnFree (formulas : List ModalFormula) (root : RootLP)
    (hroot : buildRootLP formulas = some root) (fixings : List (String × Bool))
    (base : LinearProgram) (hbase : fixBinaries root.lp fixings = some base) (t : Nat) :
    base.getVarIndex (columnName t) = none := by
  obtain ⟨P, hP, _, _, _, _, _, _, p7, p8⟩ := buildRootLP_scope formulas root hroot
  unfold LinearProgram.getVarIndex
  rw [(fixBinaries_rows fixings root.lp base hbase).2.2.2, hP,
    addSlacks_find P _ (isSlackName_columnName t)]
  cases hf : P.nameToIndex.find (columnName t) with
  | none => rfl
  | some i => exact absurd (p8 _ (p7 _ i hf)) (columnName_not_encoderName t)

theorem columnTable_snoc (N : Nat) (ks : List Nat) (w : Nat) :
    columnTable N (ks ++ [w])
      = (columnName w, N + (columnTable N ks).length) :: columnTable N ks := by
  simp [columnTable, List.foldl_append]

theorem columnTable_length (N : Nat) (ks : List Nat) : (columnTable N ks).length = ks.length := by
  induction ks using List.reverseRecOn with
  | nil => rfl
  | append_singleton ks w ih => rw [columnTable_snoc]; simp [ih]

/-- A name `p(t)` of a bitmask that is not in `ks` is not bound by the table of `ks`. -/
theorem find_columnTable_none (N : Nat) (m : StrMap) (t : Nat) : ∀ (ks : List Nat), t ∉ ks →
    StrMap.find (columnTable N ks ++ m) (columnName t) = m.find (columnName t) := by
  intro ks
  induction ks using List.reverseRecOn with
  | nil => intro _; rfl
  | append_singleton ks w ih =>
    intro ht
    have hw : w ≠ t := fun h => ht (by simp [h])
    have hks : t ∉ ks := fun h => ht (List.mem_append_left _ h)
    rw [columnTable_snoc, List.cons_append, StrMap.find,
      if_neg (fun h => hw (columnName_inj h)), ih hks]

/-- The name `p(k)` of the `i`-th bitmask is bound to the `i`-th new variable. -/
theorem find_columnTable_some (N : Nat) (m : StrMap) : ∀ (ks : List Nat), ks.Nodup →
    ∀ (i k : Nat), ks[i]? = some k →
      StrMap.find (columnTable N ks ++ m) (columnName k) = some (N + i) := by
  intro ks
  induction ks using List.reverseRecOn with
  | nil => intro _ i k h; simp at h
  | append_singleton ks w ih =>
    intro hnd i k h
    have hnd' := List.nodup_append.mp hnd
    rw [columnTable_snoc, List.cons_append, StrMap.find, columnTable_length]
    by_cases hi : i < ks.length
    · rw [List.getElem?_append_left hi] at h
      have hk : k ∈ ks := List.getElem?_mem h
      have hne : w ≠ k := by
        intro he
        exact hnd'.2.2 hk (by simp [he])
      rw [if_neg (fun he => hne (columnName_inj he))]
      exact ih hnd'.1 i k h
    · have hlen := (List.getElem?_eq_some.mp h).1
      simp only [List.length_append, List.length_singleton] at hlen
      have hi' : i = ks.length := by omega
      subst hi'
      rw [List.getElem?_append_right (Nat.le_refl _), Nat.sub_self,
        List.getElem?_cons_zero] at h
      cases h
      rw [if_pos rfl]

theorem foldl_addCoefficient_nameToIndex (idx : Nat) : ∀ (col : List (Nat × ℚ))
    (lp : LinearProgram),
    (col.foldl (fun q e => q.addCoefficientToRow e.1 idx e.2) lp).nameToIndex
      = lp.nameToIndex
  | [], _ => rfl
  | e :: col, lp => by
    rw [List.foldl_cons, foldl_addCoefficient_nameToIndex idx col]
    rfl

theorem addColumn_nameToIndex (lp : LinearProgram) (name : String) (col : List (Nat × ℚ)) :
    (addColumn lp name col).nameToIndex = (name, lp.varNames.length) :: lp.nameToIndex := by
  unfold addColumn
  rw [foldl_addCoefficient_nameToIndex]
  rfl

/-- A successful run of the exhaustive search adds the column of a bitmask `w` whose
valuation was not used on entry, and marks as used every bitmask that it has passed. -/
theorem exhaustiveSearch_added (root : RootLP) (varList : List String) (duals : Nat → ℚ) :
    ∀ (ws : List Nat) (st st' : EngineState),
      exhaustiveSearch root varList duals ws st = some (true, st') →
      ∃ (pre : List Nat) (w : Nat) (post : List Nat) (column : List (Nat × ℚ)),
        ws = pre ++ w :: post ∧
        valuationOfMask varList.length w ∉ st.usedValuations ∧
        st'.lp = addColumn st.lp (columnName w) column ∧
        st'.lastValuationsLocal
          = st.lastValuationsLocal ++ [valuationOfMask varList.length w] ∧
        (∀ v ∈ st.usedValuations, v ∈ st'.usedValuations) ∧
        (∀ w' ∈ pre, valuationOfMask varList.length w' ∈ st'.usedValuations) ∧
        valuationOfMask varList.length w ∈ st'.usedValuations
  | [], st, st', h => by
    simp only [exhaustiveSearch, Option.some.injEq, Prod.mk.injEq] at h
    exact absurd h.1 (by decide)
  | w :: ws, st, st', h => by
    by_cases hu : valuationOfMask varList.length w ∈ st.usedValuations
    · rw [exhaustiveSearch_skip root varList duals w ws st hu] at h
      obtain ⟨pre, w2, post, column, h1, h2, h3, h4, h5, h6, h7⟩ :=
        exhaustiveSearch_added root varList duals ws st st' h
      refine ⟨w :: pre, w2, post, column, by rw [h1]; rfl, h2, h3, h4, h5, ?_, h7⟩
      intro w' hw'
      rcases List.mem_cons.mp hw' with rfl | hw'
      · exact h5 _ hu
      · exact h6 w' hw'
    · cases hc : newColumn root varList (valuationOfMask varList.length w) with
      | none =>
        rw [exhaustiveSearch, if_neg hu, hc] at h
        cases h
      | some column =>
        by_cases hrc : (reducedCost duals column).isNegative = true
        · rw [exhaustiveSearch_hit root varList duals w ws st column hu hc hrc] at h
          simp only [Option.some.injEq, Prod.mk.injEq, true_and] at h
          subst h
          refine ⟨[], w, ws, column, rfl, hu, rfl, rfl, ?_, ?_, ?_⟩
          · intro v hv
            exact List.mem_append_left _ hv
          · intro w' hw'
            cases hw'
          · exact List.mem_append_right _ (List.mem_singleton_self _)
        · rw [exhaustiveSearch_miss root varList duals w ws st column hu hc hrc] at h
          obtain ⟨pre, w2, post, col2, h1, h2, h3, h4, h5, h6, h7⟩ :=
            exhaustiveSearch_added root varList duals ws _ st' h
          refine ⟨w :: pre, w2, post, col2, by rw [h1]; rfl, ?_, h3, h4, ?_, ?_, h7⟩
          · intro hm
            exact h2 (List.mem_append_left _ hm)
          · intro v hv
            exact h5 v (List.mem_append_left _ hv)
          · intro w' hw'
            rcases List.mem_cons.mp hw' with rfl | hw'
            · exact h5 _ (List.mem_append_right _ (List.mem_singleton_self _))
            · exact h6 w' hw'

/-- A successful call of the exhaustive pricing adds the column of a bitmask above all the
bitmasks of the columns present. -/
theorem OrderedColumns.afterPricing {root : RootLP} {varList : List String} {lp0 : LinearProgram}
    {st st' : EngineState} {ks : List Nat} (h : OrderedColumns varList lp0 st ks)
    {duals : Nat → ℚ}
    (hp : addNewProbabilisticCoherenceConstraint root varList none duals st
      = some (true, st')) :
    ∃ w, OrderedColumns varList lp0 st' (ks ++ [w]) := by
  obtain ⟨k1, k2, k3, k4, k5, k6, k7⟩ := h
  unfold addNewProbabilisticCoherenceConstraint at hp
  by_cases hn : 32 ≤ varList.length
  · rw [if_pos hn] at hp
    cases hp
  · rw [if_neg hn] at hp
    obtain ⟨pre, w, post, column, h1, h2, h3, h4, h5, h6, h7⟩ :=
      exhaustiveSearch_added root varList duals _ st st' hp
    obtain ⟨hwN', hpre⟩ := range_split h1
    have hwN : w < 2 ^ varList.length := by
      rw [shiftLeftOne_toNat _ (by omega)] at hwN'
      by_cases h31 : varList.length < 31
      · rw [if_pos h31] at hwN'
        exact hwN'
      · rw [if_neg h31] at hwN'
        omega
    have habove : ∀ a ∈ ks, a < w := by
      intro a ha
      by_contra hle
      exact h2 (k7 w ⟨a, ha, Nat.le_of_not_lt hle⟩)
    refine ⟨w, ?_, ?_, ?_, ?_, ?_, ?_, ?_⟩
    · exact List.pairwise_append.mpr ⟨k1, List.pairwise_singleton _ _,
        fun a ha b hb => by rw [List.mem_singleton.mp hb]; exact habove a ha⟩
    · intro k hk
      rcases List.mem_append.mp hk with hk | hk
      · exact k2 k hk
      · rw [List.mem_singleton.mp hk]
        exact hwN
    · cases ks with
      | nil => simp at k3
      | cons a ks' => simpa using k3
    · rw [h4, k4, List.map_append, List.map_singleton]
    · rw [h3, (addColumn_spec (α := ℚ) st.lp (columnName w) column).1, k5,
        List.map_append, List.map_singleton, List.append_assoc]
    · rw [h3, addColumn_nameToIndex, k6, k5, columnTable_snoc, columnTable_length,
        List.length_append, List.length_map]
      rfl
    · rintro w' ⟨k, hk, hle⟩
      rcases List.mem_append.mp hk with hk | hk
      · exact h5 _ (k7 w' ⟨k, hk, hle⟩)
      · rw [List.mem_singleton.mp hk] at hle
        rcases Nat.lt_or_eq_of_le hle with hlt | heq
        · exact h6 w' (hpre w' hlt)
        · rw [heq]
          exact h7

theorem columnName_zero : columnName 0 = "p(0)" := by decide

/-- When `isFeasible` enters its loop, the program holds the column of the bitmask 0. -/
theorem engineStart_ordered (root : RootLP) (varList : List String) (lp0 : LinearProgram)
    (st : EngineState) (h : engineStart root varList lp0 = some st) :
    OrderedColumns varList lp0 st [0] := by
  simp only [engineStart, Option.map_eq_some'] at h
  obtain ⟨column, _, rfl⟩ := h
  have hz : zeroValuation varList = valuationOfMask varList.length 0 := by
    rw [valuationOfMask_zero]; rfl
  refine ⟨List.sorted_singleton 0, ?_, rfl, ?_, ?_, ?_, ?_⟩
  · intro k hk
    rw [List.mem_singleton.mp hk]
    exact Nat.pow_pos (by decide)
  · simp only [List.map_singleton, hz]
  · rw [(addColumn_spec (α := ℚ) lp0 "p(0)" column).1, List.map_singleton, columnName_zero]
  · rw [addColumn_nameToIndex]
    simp [columnTable, columnName_zero]
  · rintro w ⟨k, hk, hle⟩
    rw [List.mem_singleton.mp hk] at hle
    have hw : w = 0 := by omega
    subst hw
    rw [← hz]
    simp [insertValuation]

/-- When the loop of `isFeasible` with the exhaustive pricing accepts, its program holds the
columns of a strictly increasing list of bitmasks. -/
theorem feasibilityLoop_ordered (root : RootLP) (varList : List String)
    (solver : Nat → LinearProgram → Option LPAnswer) (lp0 : LinearProgram) :
    ∀ (fuel iter calls : Nat) (st st' : EngineState) (calls' : Nat) (ks : List Nat),
      OrderedColumns varList lp0 st ks →
      feasibilityLoop root varList none solver fuel iter calls st
        = .returned true st' calls' →
      ∃ ks', OrderedColumns varList lp0 st' ks'
  | 0, _, _, _, _, _, _, _, h => by
    simp only [feasibilityLoop] at h
    cases h
  | fuel + 1, iter, calls, st, st', calls', ks, hord, h => by
    rw [feasibilityLoop] at h
    cases hs : solver iter st.lp with
    | none =>
      rw [hs] at h
      cases h
    | some ans =>
      rw [hs] at h
      simp only at h
      by_cases hobj : ans.obj ≤ 0
      · rw [if_pos hobj] at h
        cases h
        exact ⟨ks, hord⟩
      · rw [if_neg hobj] at h
        cases hp : addNewProbabilisticCoherenceConstraint root varList none ans.duals st with
        | none =>
          rw [hp] at h
          cases h
        | some res =>
          obtain ⟨b, st2⟩ := res
          rw [hp] at h
          cases b with
          | false => cases h
          | true =>
            obtain ⟨w, hord2⟩ := hord.afterPricing hp
            exact feasibilityLoop_ordered root varList solver lp0 fuel (iter + 1)
              (calls + 1) st2 st' calls' _ hord2 h

/-- The search for the next variable `p(t)` passes the values of the counter without such a
variable and stops at the first value with one. -/
theorem nextColumn_skip (lp : LinearProgram) : ∀ (d fuel t idx : Nat), d < fuel →
    (∀ t', t ≤ t' → t' < t + d → lp.getVarIndex (columnName t') = none) →
    lp.getVarIndex (columnName (t + d)) = some idx →
    nextColumn lp fuel t = some (idx, t + d + 1)
  | 0, 0, _, _, hf, _, _ => by omega
  | 0, fuel + 1, t, idx, _, _, hfound => by
    rw [Nat.add_zero] at hfound
    simp only [nextColumn, hfound, Nat.add_zero]
  | d + 1, 0, _, _, hf, _, _ => by omega
  | d + 1, fuel + 1, t, idx, hf, hnone, hfound => by
    rw [nextColumn, hnone t (Nat.le_refl _) (by omega)]
    simp only
    rw [nextColumn_skip lp d fuel (t + 1) idx (by omega)
      (fun t' h1 h2 => hnone t' (by omega) (by omega))
      (by rw [show t + 1 + d = t + (d + 1) by omega]; exact hfound)]
    rw [show t + 1 + d + 1 = t + (d + 1) + 1 by omega]

/-- The loop that fills `lastProbDistribution` reads the variables `p(k)` of the bitmasks
`rest` in increasing order when these are the only variables `p(t)` from the counter on. -/
theorem probDistribution_spec (lp : LinearProgram) (value : Nat → ℚ) :
    ∀ (rest : List Nat) (t : Nat), rest.Sorted (fun a b => a < b) →
    (∀ k ∈ rest, t ≤ k ∧ k < 2 ^ 31) →
    (∀ t', t ≤ t' → t' ∉ rest → lp.getVarIndex (columnName t') = none) →
    (∀ k ∈ rest, (lp.getVarIndex (columnName k)).isSome = true) →
    probDistribution lp value rest.length t
      = some (rest.map fun k => value ((lp.getVarIndex (columnName k)).getD 0))
  | [], _, _, _, _, _ => rfl
  | k :: rest, t, hs, hb, hnone, hsome => by
    obtain ⟨idx, hidx⟩ := Option.isSome_iff_exists.mp (hsome k (List.mem_cons_self _ _))
    obtain ⟨hk1, hk2⟩ := hb k (List.mem_cons_self _ _)
    obtain ⟨hhead, htail⟩ := List.sorted_cons.mp hs
    have hnext : nextColumn lp (2 ^ 31 - t) t = some (idx, k + 1) := by
      have h := nextColumn_skip lp (k - t) (2 ^ 31 - t) t idx (by omega)
        (fun t' h1 h2 => hnone t' h1 (by
          intro hm
          rcases List.mem_cons.mp hm with rfl | hm
          · omega
          · have := hhead t' hm
            omega))
        (by rw [show t + (k - t) = k by omega]; exact hidx)
      rw [h, show t + (k - t) + 1 = k + 1 by omega]
    have ih := probDistribution_spec lp value rest (k + 1) htail
      (fun k' hk' => ⟨hhead k' hk', (hb k' (List.mem_cons_of_mem _ hk')).2⟩)
      (fun t' h1 h2 => hnone t' (by omega) (by
        intro hm
        rcases List.mem_cons.mp hm with rfl | hm
        · omega
        · exact h2 hm))
      (fun k' hk' => hsome k' (List.mem_cons_of_mem _ hk'))
    simp only [List.length_cons, probDistribution, hnext, ih, Option.map_some', List.map_cons,
      hidx, Option.getD_some]

theorem mask_step (k m : Nat) :
    (k % 2 ^ m) ||| (if (k >>> m) % 2 = 1 then 1 <<< m else 0) = k % 2 ^ (m + 1) := by
  rw [Nat.mod_pow_succ, Nat.shiftRight_eq_div_pow, Nat.one_shiftLeft]
  have hlt : k % 2 ^ m < 2 ^ m := Nat.mod_lt _ (Nat.pow_pos (by decide))
  rcases Nat.mod_two_eq_zero_or_one (k / 2 ^ m) with h | h
  · rw [h]; simp
  · rw [h, if_pos rfl, Nat.lor_comm]
    have := Nat.mul_add_lt_is_or hlt 1
    rw [Nat.mul_one] at this
    rw [← this]
    omega

theorem maskOf_loop (n k : Nat) : ∀ m, m ≤ n →
    (List.range m).foldl (fun w j =>
      if (valuationOfMask n k).getD j false then w ||| (1 <<< j) else w) 0 = k % 2 ^ m
  | 0, _ => by simp [Nat.mod_one]
  | m + 1, hm => by
    rw [List.range_succ, List.foldl_append, maskOf_loop n k m (by omega)]
    have hget : (valuationOfMask n k).getD m false = decide ((k >>> m) % 2 = 1) := by
      simp only [valuationOfMask, List.getD_eq_getElem?_getD, List.getElem?_map,
        List.getElem?_range (show m < n by omega), Option.map_some', Option.getD_some]
    simp only [List.foldl_cons, List.foldl_nil, hget, decide_eq_true_eq]
    rw [← mask_step k m]
    by_cases h : (k >>> m) % 2 = 1
    · rw [if_pos h, if_pos h]
    · rw [if_neg h, if_neg h]
      simp

/-- The index that the reporter computes from the valuation of a bitmask is the bitmask. -/
theorem maskOf_valuationOfMask (n k : Nat) (hk : k < 2 ^ n) :
    maskOf n (valuationOfMask n k) = k := by
  unfold maskOf
  rw [maskOf_loop n k n (Nat.le_refl _), Nat.mod_eq_of_lt hk]

theorem engineStart_empty :
    engineStart emptyRoot [] emptyRoot.lp = some ⟨emptyEngineLP, [[]], [[]], []⟩ := by
  with_unfolding_all decide

/-- For the empty input, `isFeasible` accepts in its first iteration when the LP solver
reports an objective value of at most 0. -/
theorem isFeasible_empty
    (findValuationPB : Option (List ℚ → List (List Bool) → Option (List Bool)))
    (solver : Nat → LinearProgram → Option LPAnswer) (ans : LPAnswer)
    (hs : solver 1 emptyEngineLP = some ans) (hobj : ans.obj ≤ 0) (fuel : Nat) :
    isFeasible emptyRoot [] findValuationPB solver (fuel + 1) emptyRoot.lp
      = .returned true ⟨emptyEngineLP, [[]], [[]], []⟩ 0 := by
  simp only [isFeasible, engineStart_empty, feasibilityLoop, hs, if_pos hobj]

/-- C34: the reported columns match their valuations under exhaustive pricing. When a call
of `isFeasible` with the exhaustive pricing, on a program without variables named `p(t)`,
accepts: the columns it has added are those of a strictly increasing list `ks` of bitmasks
below `2ⁿ` that begins with 0, named `p(k)` and added in this order, `lastValuations` holds
their valuations in this order, and for every `i` the `i`-th entry of
`lastProbDistribution` is the LP value of the variable `p(k)` for the bitmask `k` of the
`i`-th entry of `lastValuations`, which is also the index that the reporter prints. -/
theorem reported_columns (root : RootLP) (varList : List String)
    (hn : varList.length < 31) (solver : Nat → LinearProgram → Option LPAnswer) (fuel : Nat)
    (lp0 : LinearProgram) (hfree : ∀ t, lp0.getVarIndex (columnName t) = none)
    (st : EngineState) (calls : Nat)
    (hacc : isFeasible root varList none solver fuel lp0 = .returned true st calls) :
    ∃ ks : List Nat, ks.Sorted (fun a b => a < b) ∧ (∀ k ∈ ks, k < 2 ^ varList.length) ∧
      ks.head? = some 0 ∧
      st.lastValuationsLocal = ks.map (valuationOfMask varList.length) ∧
      st.lp.varNames = lp0.varNames ++ ks.map columnName ∧
      ∀ value : Nat → ℚ, ∃ w, acceptWitness root value st = some w ∧
        w.lastValuations = ks.map (valuationOfMask varList.length) ∧
        w.lastProbDistribution.length = ks.length ∧
        ∀ (i k : Nat), ks[i]? = some k →
          st.lp.getVarIndex (columnName k) = some (lp0.varNames.length + i) ∧
          st.lp.varNames[lp0.varNames.length + i]? = some (columnName k) ∧
          w.lastProbDistribution[i]? = some (value (lp0.varNames.length + i)) ∧
          ∃ val, w.lastValuations[i]? = some val ∧
            reportIndex false varList.length i val = k := by
  unfold isFeasible at hacc
  cases hst : engineStart root varList lp0 with
  | none => rw [hst] at hacc; cases hacc
  | some st0 =>
    rw [hst] at hacc
    obtain ⟨ks, hord⟩ := feasibilityLoop_ordered root varList solver lp0 fuel 1 0 st0 st
      calls [0] (engineStart_ordered root varList lp0 st0 hst) hacc
    obtain ⟨k1, k2, k3, k4, k5, k6, _⟩ := hord
    have hnd : ks.Nodup := List.Pairwise.imp_of_mem (fun {a b} _ _ hab => by omega) k1
    have hsome : ∀ (i k : Nat), ks[i]? = some k →
        st.lp.getVarIndex (columnName k) = some (lp0.varNames.length + i) := by
      intro i k hik
      unfold LinearProgram.getVarIndex
      rw [k6]
      exact find_columnTable_some _ _ ks hnd i k hik
    have hnone : ∀ t, t ∉ ks → st.lp.getVarIndex (columnName t) = none := by
      intro t ht
      unfold LinearProgram.getVarIndex
      rw [k6, find_columnTable_none _ _ t ks ht]
      exact hfree t
    have hpow : 2 ^ varList.length < 2 ^ 31 :=
      Nat.pow_lt_pow_right (by decide) hn
    refine ⟨ks, k1, k2, k3, k4, k5, ?_⟩
    intro value
    have hdist := probDistribution_spec st.lp value ks 0 k1
      (fun k hk => ⟨Nat.zero_le _, lt_trans (k2 k hk) hpow⟩)
      (fun t _ ht => hnone t ht)
      (fun k hk => by
        obtain ⟨i, hi⟩ := List.mem_iff_getElem?.mp hk
        rw [hsome i k hi]
        rfl)
    have hlen : st.lastValuationsLocal.length = ks.length := by
      rw [k4, List.length_map]
    refine ⟨⟨root.xVars.map fun e => (e.1, value e.2),
        ks.map fun k => value ((st.lp.getVarIndex (columnName k)).getD 0),
        st.lastValuationsLocal⟩,
      by simp only [acceptWitness, hlen, hdist, Option.map_some'], k4,
      by simp, ?_⟩
    intro i k hik
    refine ⟨hsome i k hik, ?_, ?_, ?_⟩
    · rw [k5, getElem?_append_add, List.getElem?_map, hik]
      rfl
    · simp only [List.getElem?_map, hik, Option.map_some', hsome i k hik, Option.getD_some]
    · refine ⟨valuationOfMask varList.length k, ?_, ?_⟩
      · rw [k4, List.getElem?_map, hik]
        rfl
      · simp only [reportIndex]
        exact maskOf_valuationOfMask _ k (k2 k (List.getElem?_mem hik))

/-- The hypotheses of `reported_columns` hold for the input `¬P(p)` and an LP solver that
reports the objective value 1 with all duals 1 in the first iteration and the objective
value 0 in the second: the engine adds the column `p(1)` and accepts. -/
theorem reported_columns_witness :
    ["p"].length < 31 ∧
    (∀ t, exampleRoot.lp.getVarIndex (columnName t) = none) ∧
    ∃ (st : EngineState) (calls : Nat),
      isFeasible exampleRoot ["p"] none
        (fun iter _ => if iter = 1 then some ⟨1, fun _ => 1⟩ else some ⟨0, fun _ => 0⟩) 2
        exampleRoot.lp = .returned true st calls ∧
      ∃ ks : List Nat, ks.Sorted (fun a b => a < b) ∧ (∀ k ∈ ks, k < 2 ^ ["p"].length) ∧
        ks.head? = some 0 ∧
        st.lastValuationsLocal = ks.map (valuationOfMask ["p"].length) ∧
        st.lp.varNames = exampleRoot.lp.varNames ++ ks.map columnName ∧
        ∀ value : Nat → ℚ, ∃ w, acceptWitness exampleRoot value st = some w ∧
          w.lastValuations = ks.map (valuationOfMask ["p"].length) ∧
          w.lastProbDistribution.length = ks.length ∧
          ∀ (i k : Nat), ks[i]? = some k →
            st.lp.getVarIndex (columnName k) = some (exampleRoot.lp.varNames.length + i) ∧
            st.lp.varNames[exampleRoot.lp.varNames.length + i]? = some (columnName k) ∧
            w.lastProbDistribution[i]? = some (value (exampleRoot.lp.varNames.length + i)) ∧
            ∃ val, w.lastValuations[i]? = some val ∧
              reportIndex false ["p"].length i val = k := by
  have hfree : ∀ t, exampleRoot.lp.getVarIndex (columnName t) = none :=
    solve_programs_columnFree negatedAtom exampleRoot (by with_unfolding_all decide) []
      exampleRoot.lp rfl
  obtain ⟨st0, hst0, _, _⟩ := engineStart_inv exampleRoot ["p"] exampleRoot.lp
    exampleRoot_columns
  have hused : st0.usedValuations = insertValuation (zeroValuation ["p"]) [] := by
    simp only [engineStart, Option.map_eq_some'] at hst0
    obtain ⟨column, _, rfl⟩ := hst0
    rfl
  have hcand : Candidate exampleRoot ["p"] (fun _ => 1) st0.usedValuations 1 := by
    rw [hused]
    exact ⟨by decide, by decide, by with_unfolding_all decide⟩
  obtain ⟨st1, hres⟩ := pricing_finds exampleRoot ["p"] (fun _ => 1) st0 (by decide)
    exampleRoot_columns 1 hcand
  have hacc : isFeasible exampleRoot ["p"] none
      (fun iter _ => if iter = 1 then some ⟨1, fun _ => 1⟩ else some ⟨0, fun _ => 0⟩) 2
      exampleRoot.lp = .returned true st1 1 := by
    simp only [isFeasible, hst0]
    rw [feasibilityLoop_price exampleRoot ["p"] none _ 1 1 0 st0 ⟨1, fun _ => 1⟩ rfl
      (by norm_num), hres]
    exact feasibilityLoop_accept exampleRoot ["p"] none _ 0 2 1 st1 ⟨0, fun _ => 0⟩ rfl
      (le_refl _)
  exact ⟨by decide, hfree, st1, 1, hacc,
    reported_columns exampleRoot ["p"] (by decide) _ 2 exampleRoot.lp hfree st1 1 hacc⟩

end ReportedColumns

/-! ## Theorems: the witness that `solve` reports -/

section StoredWitness

/-- A feasibility check that fails leaves the stored witness unchanged. -/
theorem isFeasibleStored_fail (root : RootLP) (varList : List String)
    (findValuationPB : Option (List ℚ → List (List Bool) → Option (List Bool)))
    (solver : Nat → LinearProgram → Option LPAnswer) (primal : LinearProgram → Nat → ℚ)
    (fuel : Nat) (lp : LinearProgram) (stored w : Witness)
    (h : isFeasibleStored root varList findValuationPB solver primal fuel lp stored
      = some (false, w)) : w = stored := by
  unfold isFeasibleStored at h
  cases hr : isFeasible root varList findValuationPB solver fuel lp with
  | threw => rw [hr] at h; cases h
  | outOfFuel => rw [hr] at h; cases h
  | returned value st calls =>
    rw [hr] at h
    cases value with
    | true =>
      simp only [Option.map_eq_some', Prod.mk.injEq] at h
      obtain ⟨_, _, hf, _⟩ := h
      cases hf
    | false =>
      simp only [Option.some.injEq, Prod.mk.injEq, true_and] at h
      exact h.symm

/-- The witness that a successful feasibility check stores does not depend on the witness
stored before it. -/
theorem isFeasibleStored_success (root : RootLP) (varList : List String)
    (findValuationPB : Option (List ℚ → List (List Bool) → Option (List Bool)))
    (solver : Nat → LinearProgram → Option LPAnswer) (primal : LinearProgram → Nat → ℚ)
    (fuel : Nat) (lp : LinearProgram) (stored w : Witness)
    (h : isFeasibleStored root varList findValuationPB solver primal fuel lp stored
      = some (true, w)) (stored' : Witness) :
    isFeasibleStored root varList findValuationPB solver primal fuel lp stored'
      = some (true, w) := by
  unfold isFeasibleStored at h ⊢
  cases hr : isFeasible root varList findValuationPB solver fuel lp with
  | threw => rw [hr] at h; cases h
  | outOfFuel => rw [hr] at h; cases h
  | returned value st calls =>
    rw [hr] at h
    cases value with
    | true => exact h
    | false =>
      simp only [Option.some.injEq, Prod.mk.injEq] at h
      exact absurd h.1 (by decide)

theorem branchChildrenStored_last
    (check : LinearProgram → Witness → Option (Bool × Witness))
    (hfail : ∀ lp stored w, check lp stored = some (false, w) → w = stored)
    (hsucc : ∀ lp stored w, check lp stored = some (true, w) →
      ∀ stored', check lp stored' = some (true, w))
    (b : String) (br : Branch) (stored : Witness) (cs : List Branch) (w : Witness)
    (h : branchChildrenStored check b br stored = some (cs, w)) :
    (cs = [] ∧ w = stored) ∨ (cs ≠ [] ∧ LastWitness check cs w) := by
  unfold branchChildrenStored at h
  cases h0 : fixBinary br.lp b false with
  | none => rw [h0] at h; cases h
  | some lp0 =>
    rw [h0] at h
    simp only at h
    cases c0 : check lp0 stored with
    | none => rw [c0] at h; cases h
    | some r0 =>
      rw [c0] at h
      simp only at h
      cases h1 : fixBinary br.lp b true with
      | none => rw [h1] at h; cases h
      | some lp1 =>
        rw [h1] at h
        simp only at h
        cases c1 : check lp1 r0.2 with
        | none => rw [c1] at h; cases h
        | some r1 =>
          rw [c1] at h
          simp only [Option.some.injEq, Prod.mk.injEq] at h
          obtain ⟨hcs, hw⟩ := h
          obtain ⟨ok0, w0⟩ := r0
          obtain ⟨ok1, w1⟩ := r1
          simp only at hcs hw c1
          subst hw
          cases ok1 with
          | true =>
            right
            rw [← hcs]
            refine ⟨by simp, ⟨lp1, br.fixedBinaries ++ [(b, true)]⟩, by simp, ?_⟩
            exact hsucc lp1 w0 w1 c1
          | false =>
            have hw1 : w1 = w0 := hfail lp1 w0 w1 c1
            subst hw1
            cases ok0 with
            | true =>
              right
              rw [← hcs]
              refine ⟨by simp, ⟨lp0, br.fixedBinaries ++ [(b, false)]⟩, by simp, ?_⟩
              exact hsucc lp0 stored w1 c0
            | false =>
              left
              rw [← hcs]
              exact ⟨by simp, hfail lp0 stored w1 c0⟩

theorem nextBranchesStored_last
    (check : LinearProgram → Witness → Option (Bool × Witness))
    (hfail : ∀ lp stored w, check lp stored = some (false, w) → w = stored)
    (hsucc : ∀ lp stored w, check lp stored = some (true, w) →
      ∀ stored', check lp stored' = some (true, w))
    (b : String) : ∀ (brs : List Branch) (stored : Witness) (next : List Branch)
      (w : Witness), nextBranchesStored check b brs stored = some (next, w) →
      (next = [] ∧ w = stored) ∨ (next ≠ [] ∧ LastWitness check next w)
  | [], stored, next, w, h => by
    simp only [nextBranchesStored, Option.some.injEq, Prod.mk.injEq] at h
    exact Or.inl ⟨h.1.symm, h.2.symm⟩
  | br :: brs, stored, next, w, h => by
    simp only [nextBranchesStored] at h
    cases hc : branchChildrenStored check b br stored with
    | none => rw [hc] at h; cases h
    | some cs =>
      rw [hc] at h
      simp only at h
      cases hr : nextBranchesStored check b brs cs.2 with
      | none => rw [hr] at h; cases h
      | some rest =>
        rw [hr] at h
        simp only [Option.some.injEq, Prod.mk.injEq] at h
        obtain ⟨hnext, hw⟩ := h
        subst hnext
        subst hw
        have h1 := branchChildrenStored_last check hfail hsucc b br stored cs.1 cs.2 hc
        have h2 := nextBranchesStored_last check hfail hsucc b brs cs.2 rest.1 rest.2 hr
        rcases h2 with ⟨e2, w2⟩ | ⟨n2, last, hl, hlast⟩
        · rw [e2, w2, List.append_nil]
          exact h1
        · right
          refine ⟨by simp [n2], last, ?_, hlast⟩
          rw [List.getLast?_append, hl]
          rfl

/-- The loop of `solve`: when branches are left after it, the stored witness is the one of
the feasibility check of the last of them, provided this held on entry; after at least one
round it holds whatever was stored on entry. -/
theorem branchLoopStored_last
    (check : LinearProgram → Witness → Option (Bool × Witness))
    (hfail : ∀ lp stored w, check lp stored = some (false, w) → w = stored)
    (hsucc : ∀ lp stored w, check lp stored = some (true, w) →
      ∀ stored', check lp stored' = some (true, w)) :
    ∀ (binaries : List String) (branches : List Branch) (stored : Witness)
      (out : List Branch) (w : Witness),
      branchLoopStored check binaries branches stored = some (out, w) →
      (binaries = [] → LastWitness check branches stored) → out ≠ [] →
      LastWitness check out w
  | [], branches, stored, out, w, h, hinit, _ => by
    simp only [branchLoopStored, Option.some.injEq, Prod.mk.injEq] at h
    rw [← h.1, ← h.2]
    exact hinit rfl
  | b :: binaries, branches, stored, out, w, h, _, hout => by
    rw [branchLoopStored] at h
    by_cases he : branches = []
    · rw [if_pos he] at h
      simp only [Option.some.injEq, Prod.mk.injEq] at h
      exact absurd h.1.symm hout
    · rw [if_neg he] at h
      cases hn : nextBranchesStored check b branches stored with
      | none => rw [hn] at h; cases h
      | some next =>
        rw [hn] at h
        simp only at h
        rcases nextBranchesStored_last check hfail hsucc b branches stored next.1 next.2 hn
          with ⟨e, _⟩ | ⟨_, hlast⟩
        · rw [e] at h
          cases binaries with
          | nil =>
            simp only [branchLoopStored, Option.some.injEq, Prod.mk.injEq] at h
            exact absurd h.1.symm hout
          | cons b' bs' =>
            simp only [branchLoopStored, if_pos, Option.some.injEq, Prod.mk.injEq] at h
            exact absurd h.1.symm hout
        · exact branchLoopStored_last check hfail hsucc binaries next.1 next.2 out w h
            (fun _ => hlast) hout

/-- C35: the witness of the last open branch. A feasibility check that fails leaves the
stored witness unchanged, and the witness that a successful one stores does not depend on
what was stored before; when the branch-and-bound loop of `solve` has run for at least one
binary and leaves branches, the stored witness, which `solve` reports, is the one that the
feasibility check of the last element of the final branch list has stored; and whenever
`solve` returns SAT, the witness it reports is the one of the feasibility check of the last
element of its final branch list. -/
theorem witness_of_last_branch (root : RootLP) (varList : List String)
    (findValuationPB : Option (List ℚ → List (List Bool) → Option (List Bool)))
    (solver : Nat → LinearProgram → Option LPAnswer) (primal : LinearProgram → Nat → ℚ)
    (fuel : Nat) :
    (∀ (lp : LinearProgram) (stored w : Witness),
      isFeasibleStored root varList findValuationPB solver primal fuel lp stored
        = some (false, w) → w = stored) ∧
    (∀ (lp : LinearProgram) (stored w : Witness),
      isFeasibleStored root varList findValuationPB solver primal fuel lp stored
        = some (true, w) →
      ∀ stored', isFeasibleStored root varList findValuationPB solver primal fuel lp stored'
        = some (true, w)) ∧
    (∀ (binaries : List String) (branches : List Branch) (stored : Witness)
      (out : List Branch) (w : Witness), binaries ≠ [] →
      branchLoopStored (isFeasibleStored root varList findValuationPB solver primal fuel)
        binaries branches stored = some (out, w) →
      out ≠ [] →
      ∃ last, out.getLast? = some last ∧
        ∀ stored', isFeasibleStored root varList findValuationPB solver primal fuel
          last.lp stored' = some (true, w)) ∧
    (∀ (lp : LinearProgram) (stored : Witness) (outcome : SolveOutcome),
      solveStoredFrom (isFeasibleStored root varList findValuationPB solver primal fuel)
        lp stored = some outcome →
      outcome.sat = true →
      ∃ last, outcome.branches.getLast? = some last ∧
        ∀ stored', isFeasibleStored root varList findValuationPB solver primal fuel
          last.lp stored' = some (true, outcome.witness)) := by
  have hfail := isFeasibleStored_fail root varList findValuationPB solver primal fuel
  have hsucc := isFeasibleStored_success root varList findValuationPB solver primal fuel
  refine ⟨hfail, hsucc, ?_, ?_⟩
  · intro binaries branches stored out w hb h hout
    exact branchLoopStored_last _ hfail hsucc binaries branches stored out w h
      (fun he => absurd he hb) hout
  · intro lp stored outcome h hsat
    unfold solveStoredFrom at h
    cases hc : isFeasibleStored root varList findValuationPB solver primal fuel lp stored with
    | none => rw [hc] at h; cases h
    | some r =>
      rw [hc] at h
      obtain ⟨ok, w0⟩ := r
      cases ok with
      | false =>
        simp only [Bool.false_eq_true, if_false, Option.some.injEq] at h
        rw [← h] at hsat
        cases hsat
      | true =>
        simp only [if_true, Option.map_eq_some'] at h
        obtain ⟨out, hloop, rfl⟩ := h
        have hout : out.1 ≠ [] := by
          intro he
          simp only [he] at hsat
          cases hsat
        exact branchLoopStored_last _ hfail hsucc _ _ w0 out.1 out.2 hloop
          (fun _ => ⟨⟨lp, []⟩, rfl, fun stored' => hsucc lp stored w0 hc stored'⟩) hout

theorem branchChildrenStored_fst
    (check : LinearProgram → Witness → Option (Bool × Witness)) (engine : LinearProgram → Bool)
    (hcheck : ∀ lp stored, ∃ w, check lp stored = some (engine lp, w))
    (b : String) (br : Branch) (stored : Witness) :
    (branchChildrenStored check b br stored).map Prod.fst = branchChildren engine b br := by
  unfold branchChildrenStored branchChildren
  cases h0 : fixBinary br.lp b false with
  | none => rfl
  | some lp0 =>
    obtain ⟨w0, c0⟩ := hcheck lp0 stored
    simp only [c0]
    cases h1 : fixBinary br.lp b true with
    | none => rfl
    | some lp1 =>
      obtain ⟨w1, c1⟩ := hcheck lp1 w0
      simp only [c1, Option.map_some']

theorem nextBranchesStored_fst
    (check : LinearProgram → Witness → Option (Bool × Witness)) (engine : LinearProgram → Bool)
    (hcheck : ∀ lp stored, ∃ w, check lp stored = some (engine lp, w)) (b : String) :
    ∀ (brs : List Branch) (stored : Witness),
      (nextBranchesStored check b brs stored).map Prod.fst = nextBranches engine b brs
  | [], _ => rfl
  | br :: brs, stored => by
    have h1 := branchChildrenStored_fst check engine hcheck b br stored
    simp only [nextBranchesStored, nextBranches]
    cases hc : branchChildrenStored check b br stored with
    | none =>
      rw [hc] at h1
      rw [← h1]
      rfl
    | some cs =>
      rw [hc] at h1
      have h2 := nextBranchesStored_fst check engine hcheck b brs cs.2
      rw [← h1]
      simp only [Option.map_some']
      cases hr : nextBranchesStored check b brs cs.2 with
      | none =>
        rw [hr] at h2
        rw [← h2]
        rfl
      | some rest =>
        rw [hr] at h2
        rw [← h2]
        rfl

theorem branchLoopStored_fst
    (check : LinearProgram → Witness → Option (Bool × Witness)) (engine : LinearProgram → Bool)
    (hcheck : ∀ lp stored, ∃ w, check lp stored = some (engine lp, w)) :
    ∀ (binaries : List String) (branches : List Branch) (stored : Witness),
      (branchLoopStored check binaries branches stored).map Prod.fst
        = branchLoop engine binaries branches
  | [], _, _ => rfl
  | b :: binaries, branches, stored => by
    rw [branchLoopStored, branchLoop]
    by_cases he : branches = []
    · rw [if_pos he, if_pos he]
      rfl
    · rw [if_neg he, if_neg he]
      have h1 := nextBranchesStored_fst check engine hcheck b branches stored
      cases hn : nextBranchesStored check b branches stored with
      | none =>
        rw [hn] at h1
        rw [← h1]
        rfl
      | some next =>
        rw [hn] at h1
        rw [← h1]
        exact branchLoopStored_fst check engine hcheck binaries next.1 next.2

/-- The value that `solve` returns does not depend on the stored witness: with a check that
returns the value `engine lp` on the program `lp`, it is the value of the model `solveFrom`
of the branch-and-bound loop. -/
theorem solveStoredFrom_sat
    (check : LinearProgram → Witness → Option (Bool × Witness)) (engine : LinearProgram → Bool)
    (hcheck : ∀ lp stored, ∃ w, check lp stored = some (engine lp, w))
    (lp : LinearProgram) (stored : Witness) :
    (solveStoredFrom check lp stored).map (fun o => o.sat) = solveFrom engine lp := by
  unfold solveStoredFrom solveFrom
  obtain ⟨w, c⟩ := hcheck lp stored
  simp only [c]
  by_cases he : engine lp = true
  · rw [if_pos he, if_pos he,
      ← branchLoopStored_fst check engine hcheck lp.getBinaryVariableNames [⟨lp, []⟩] w]
    simp only [Option.map_map]
    rfl
  · rw [if_neg he, if_neg he]
    rfl

theorem empty_feasible (v : Nat → ℚ) :
    emptyEngineLP.Feasible v ↔ 0 ≤ v 0 ∧ (0 ≤ v 1 ∧ v 1 ≤ 1) ∧ v 0 + v 1 = 1 := by
  constructor
  · rintro ⟨hc, hr⟩
    have h0 := hc 0 ⟨1, none, some 0⟩ rfl
    have h1 := hc 1 ⟨0, some 1, some 0⟩ rfl
    have h2 := hr ⟨some 1, [(0, 1), (1, 1)], some 1⟩ (List.mem_singleton_self _)
    simp only [LPCol.inBounds, Rat.cast_zero, Rat.cast_one, and_true] at h0 h1
    simp only [LPRow.sat, LPRow.value, List.map_cons, List.map_nil, List.sum_cons,
      List.sum_nil, Rat.cast_one, one_mul, add_zero] at h2
    exact ⟨h0, h1, le_antisymm h2.2 h2.1⟩
  · rintro ⟨h0, h1, h2⟩
    constructor
    · intro i c hc
      rcases i with _ | _ | i
      · simp only [emptyEngineLP, List.getElem?_cons_zero, Option.some.injEq] at hc
        subst hc
        simp only [LPCol.inBounds, Rat.cast_zero, and_true]
        exact h0
      · simp only [emptyEngineLP, List.getElem?_cons_succ, List.getElem?_cons_zero,
          Option.some.injEq] at hc
        subst hc
        simp only [LPCol.inBounds, Rat.cast_zero, Rat.cast_one]
        exact h1
      · simp [emptyEngineLP] at hc
    · intro row hrow
      simp only [emptyEngineLP, List.mem_singleton] at hrow
      subst hrow
      simp only [LPRow.sat, LPRow.value, List.map_cons, List.map_nil, List.sum_cons,
        List.sum_nil, Rat.cast_one, one_mul, add_zero]
      exact ⟨le_of_eq h2.symm, le_of_eq h2⟩

theorem empty_objective (v : Nat → ℚ) : emptyEngineLP.objective v = v 0 := by
  simp [LinearProgram.objective, objectiveFrom, emptyEngineLP]

theorem acceptWitness_empty (value : Nat → ℚ) :
    acceptWitness emptyRoot value ⟨emptyEngineLP, [[]], [[]], []⟩
      = some ⟨[], [value 1], [[]]⟩ := by
  have hnext : nextColumn emptyEngineLP (2 ^ 31 - 0) 0 = some (1, 1) :=
    nextColumn_skip emptyEngineLP 0 (2 ^ 31 - 0) 0 1 (by norm_num) (fun t' h1 h2 => by omega)
      (by decide)
  simp only [acceptWitness, List.length_singleton, probDistribution, hnext, Option.map_some']
  rfl

/-- C31: the empty input is SAT. For the empty list of formulas `solve` builds a program
whose only row is the normalization row, with its slack variable `i(0)`; the engine adds the
column `p(0)` of the empty valuation and, with an LP solver that answers with an optimal
point of this program, finds the objective value 0, the slack at 0 and `p(0) = 1`, and
accepts in its first iteration without a pricing call; there is no binary to branch on, and
`solve` returns SAT with the one valuation of probability 1. -/
theorem empty_input_is_sat
    (findValuationPB : Option (List ℚ → List (List Bool) → Option (List Bool)))
    (solver : Nat → LinearProgram → Option LPAnswer) (primal : LinearProgram → Nat → ℚ)
    (ans : LPAnswer) (hs : solver 1 emptyEngineLP = some ans)
    (hfeas : emptyEngineLP.Feasible (primal emptyEngineLP))
    (hobj : ans.obj = emptyEngineLP.objective (primal emptyEngineLP))
    (hmin : ∀ v : Nat → ℚ, emptyEngineLP.Feasible v → ans.obj ≤ emptyEngineLP.objective v)
    (fuel : Nat) (stored : Witness) :
    buildRootLP [] = some emptyRoot ∧
    emptyRoot.lp.rows = [⟨some 1, [(0, 1)], some 1⟩] ∧ emptyRoot.sumProbRow = 0 ∧
    emptyRoot.lp.varNames = ["i(0)"] ∧
    varListOf (propVarTable []) = [] ∧
    engineStart emptyRoot [] emptyRoot.lp = some ⟨emptyEngineLP, [[]], [[]], []⟩ ∧
    emptyEngineLP.getVarIndex "p(0)" = some 1 ∧
    ans.obj = 0 ∧ primal emptyEngineLP 0 = 0 ∧ primal emptyEngineLP 1 = 1 ∧
    isFeasible emptyRoot [] findValuationPB solver (fuel + 1) emptyRoot.lp
      = .returned true ⟨emptyEngineLP, [[]], [[]], []⟩ 0 ∧
    emptyRoot.lp.getBinaryVariableNames = [] ∧
    solveStored (isFeasibleStored emptyRoot [] findValuationPB solver primal (fuel + 1)) []
      stored = some ⟨true, ⟨[], [1], [[]]⟩, [⟨emptyRoot.lp, []⟩]⟩ := by
  have hbuild : buildRootLP [] = some emptyRoot := by with_unfolding_all decide
  have hbin : emptyRoot.lp.getBinaryVariableNames = [] := by decide
  have hstar : emptyEngineLP.Feasible (fun i : Nat => if i = 1 then (1 : ℚ) else 0) :=
    (empty_feasible _).mpr ⟨by norm_num, by norm_num, by norm_num⟩
  have hle : ans.obj ≤ 0 := by
    have := hmin _ hstar
    rw [empty_objective] at this
    simpa using this
  obtain ⟨f0, _, f2⟩ := (empty_feasible _).mp hfeas
  rw [empty_objective] at hobj
  have hp0 : primal emptyEngineLP 0 = 0 := le_antisymm (by rw [← hobj]; exact hle) f0
  have hp1 : primal emptyEngineLP 1 = 1 := by
    rw [hp0] at f2
    linarith
  have hacc := isFeasible_empty findValuationPB solver ans hs hle fuel
  refine ⟨hbuild, rfl, rfl, rfl, by decide, engineStart_empty, by decide, by rw [hobj, hp0],
    hp0, hp1, hacc, hbin, ?_⟩
  simp only [solveStored, hbuild, solveStoredFrom, isFeasibleStored, hacc,
    acceptWitness_empty, Option.map_some', if_true, hbin, branchLoopStored, hp1]
  rfl

/-- The hypotheses of `empty_input_is_sat` hold for the LP solver that answers with the
point `i(0) = 0`, `p(0) = 1` of objective value 0. -/
theorem empty_input_is_sat_witness :
    emptyEngineLP.Feasible (fun i : Nat => if i = 1 then (1 : ℚ) else 0) ∧
    (∀ v : Nat → ℚ, emptyEngineLP.Feasible v → (0 : ℚ) ≤ emptyEngineLP.objective v) ∧
    solveStored
      (isFeasibleStored emptyRoot [] none (fun _ _ => some ⟨0, fun _ => 0⟩)
        (fun _ i => if i = 1 then 1 else 0) 1) [] Witness.empty
      = some ⟨true, ⟨[], [1], [[]]⟩, [⟨emptyRoot.lp, []⟩]⟩ :=
  have hstar : emptyEngineLP.Feasible (fun i : Nat => if i = 1 then (1 : ℚ) else 0) :=
    (empty_feasible _).mpr ⟨by norm_num, by norm_num, by norm_num⟩
  have hmin : ∀ v : Nat → ℚ, emptyEngineLP.Feasible v →
      (0 : ℚ) ≤ emptyEngineLP.objective v := fun v hv => by
    rw [empty_objective]
    exact ((empty_feasible v).mp hv).1
  ⟨hstar, hmin,
    (empty_input_is_sat none (fun _ _ => some ⟨0, fun _ => 0⟩)
      (fun _ i => if i = 1 then 1 else 0) ⟨0, fun _ => 0⟩ rfl hstar
      (by rw [empty_objective]; norm_num) hmin 0 Witness.empty).2.2.2.2.2.2.2.2.2.2.2.2⟩

end StoredWitness

/-! ## Theorems: the string cache and `clone` -/

section Cache

theorem cacheHolds_iff (c : Option String) (s : String) :
    cacheHolds c s = true ↔ ∀ s' ∈ c, s' = s := by
  cases c <;> simp [cacheHolds]

theorem CPLNode.tree_clone : ∀ t : CPLNode, t.clone.tree = t.tree
  | .var _ _ => rfl
  | .not _ l => by simp [CPLNode.clone, CPLNode.tree, CPLNode.tree_clone l]
  | .binary _ _ l r => by
    simp [CPLNode.clone, CPLNode.tree, CPLNode.tree_clone l, CPLNode.tree_clone r]

theorem ModalNode.modalTree_clone : ∀ t : ModalNode, t.clone.tree = t.tree
  | .patom _ a => by simp [ModalNode.clone, ModalNode.tree, CPLNode.tree_clone a]
  | .not _ l => by simp [ModalNode.clone, ModalNode.tree, ModalNode.modalTree_clone l]
  | .binary _ _ l r => by
    simp [ModalNode.clone, ModalNode.tree, ModalNode.modalTree_clone l,
      ModalNode.modalTree_clone r]

theorem CPLNode.consistent_clone : ∀ t : CPLNode, t.clone.consistent = true
  | .var _ _ => rfl
  | .not _ l => by
    simp [CPLNode.clone, CPLNode.consistent, cacheHolds, CPLNode.consistent_clone l]
  | .binary _ _ l r => by
    simp [CPLNode.clone, CPLNode.consistent, cacheHolds, CPLNode.consistent_clone l,
      CPLNode.consistent_clone r]

theorem ModalNode.modalConsistent_clone : ∀ t : ModalNode, t.clone.consistent = true
  | .patom _ a => by
    simp [ModalNode.clone, ModalNode.consistent, cacheHolds, CPLNode.consistent_clone a]
  | .not _ l => by
    simp [ModalNode.clone, ModalNode.consistent, cacheHolds,
      ModalNode.modalConsistent_clone l]
  | .binary _ _ l r => by
    simp [ModalNode.clone, ModalNode.consistent, cacheHolds,
      ModalNode.modalConsistent_clone l, ModalNode.modalConsistent_clone r]

/-- A call of `toString` on a consistent node returns the canonical string of its tree,
leaves the tree as it is, keeps the node consistent and sets the cache to the result. -/
theorem CPLNode.toString_spec : ∀ t : CPLNode, t.consistent = true →
    t.toString.1 = t.tree.toString ∧ t.toString.2.tree = t.tree ∧
      t.toString.2.consistent = true ∧ t.toString.2.cache = some t.toString.1
  | .var (some s) name, h => by
    have hs : s = name := by simpa [CPLNode.consistent, cacheHolds] using h
    subst hs
    exact ⟨rfl, rfl, h, rfl⟩
  | .var none name, _ => by
    simp [CPLNode.toString, CPLNode.tree, CPLFormula.toString, CPLNode.consistent,
      cacheHolds, CPLNode.cache]
  | .not (some s) l, h => by
    have hs : s = (CPLFormula.not l.tree).toString := by
      simp only [CPLNode.consistent, cacheHolds, Bool.and_eq_true, beq_iff_eq] at h
      exact h.1
    subst hs
    exact ⟨rfl, rfl, h, rfl⟩
  | .not none l, h => by
    have hl : l.consistent = true := by
      simpa [CPLNode.consistent, cacheHolds] using h
    obtain ⟨h1, h2, h3, _⟩ := CPLNode.toString_spec l hl
    simp [CPLNode.toString, CPLNode.tree, CPLFormula.toString, CPLNode.consistent,
      cacheHolds, CPLNode.cache, h1, h2, h3]
  | .binary (some s) op l r, h => by
    have hs : s = (CPLFormula.binary op l.tree r.tree).toString := by
      simp only [CPLNode.consistent, cacheHolds, Bool.and_eq_true, beq_iff_eq] at h
      exact h.1.1
    subst hs
    exact ⟨rfl, rfl, h, rfl⟩
  | .binary none op l r, h => by
    have hlr : l.consistent = true ∧ r.consistent = true := by
      simpa [CPLNode.consistent, cacheHolds] using h
    obtain ⟨h1, h2, h3, _⟩ := CPLNode.toString_spec l hlr.1
    obtain ⟨k1, k2, k3, _⟩ := CPLNode.toString_spec r hlr.2
    simp [CPLNode.toString, CPLNode.tree, CPLFormula.toString, CPLNode.consistent,
      cacheHolds, CPLNode.cache, h1, h2, h3, k1, k2, k3]

/-- A call of `toString` on a consistent node returns the canonical string of its tree,
leaves the tree as it is, keeps the node consistent and sets the cache to the result. -/
theorem ModalNode.modalToString_spec : ∀ t : ModalNode, t.consistent = true →
    t.toString.1 = t.tree.toString ∧ t.toString.2.tree = t.tree ∧
      t.toString.2.consistent = true ∧ t.toString.2.cache = some t.toString.1
  | .patom (some s) a, h => by
    have hs : s = (ModalFormula.patom a.tree).toString := by
      simp only [ModalNode.consistent, cacheHolds, Bool.and_eq_true, beq_iff_eq] at h
      exact h.1
    subst hs
    exact ⟨rfl, rfl, h, rfl⟩
  | .patom none a, h => by
    have ha : a.consistent = true := by
      simpa [ModalNode.consistent, cacheHolds] using h
    obtain ⟨h1, h2, h3, _⟩ := CPLNode.toString_spec a ha
    simp [ModalNode.toString, ModalNode.tree, ModalFormula.toString, ModalNode.consistent,
      cacheHolds, ModalNode.cache, h1, h2, h3]
  | .not (some s) l, h => by
    have hs : s = (ModalFormula.not l.tree).toString := by
      simp only [ModalNode.consistent, cacheHolds, Bool.and_eq_true, beq_iff_eq] at h
      exact h.1
    subst hs
    exact ⟨rfl, rfl, h, rfl⟩
  | .not none l, h => by
    have hl : l.consistent = true := by
      simpa [ModalNode.consistent, cacheHolds] using h
    obtain ⟨h1, h2, h3, _⟩ := ModalNode.modalToString_spec l hl
    simp [ModalNode.toString, ModalNode.tree, ModalFormula.toString, ModalNode.consistent,
      cacheHolds, ModalNode.cache, h1, h2, h3]
  | .binary (some s) op l r, h => by
    have hs : s = (ModalFormula.binary op l.tree r.tree).toString := by
      simp only [ModalNode.consistent, cacheHolds, Bool.and_eq_true, beq_iff_eq] at h
      exact h.1.1
    subst hs
    exact ⟨rfl, rfl, h, rfl⟩
  | .binary none op l r, h => by
    have hlr : l.consistent = true ∧ r.consistent = true := by
      simpa [ModalNode.consistent, cacheHolds] using h
    obtain ⟨h1, h2, h3, _⟩ := ModalNode.modalToString_spec l hlr.1
    obtain ⟨k1, k2, k3, _⟩ := ModalNode.modalToString_spec r hlr.2
    simp [ModalNode.toString, ModalNode.tree, ModalFormula.toString, ModalNode.consistent,
      cacheHolds, ModalNode.cache, h1, h2, h3, k1, k2, k3]

/-- A node whose cache is set returns the cached string and does not change. -/
theorem CPLNode.toString_cached : ∀ (t : CPLNode) (s : String), t.cache = some s →
    t.toString = (s, t)
  | .var (some _) _, s, h => by cases h; rfl
  | .not (some _) _, s, h => by cases h; rfl
  | .binary (some _) _ _ _, s, h => by cases h; rfl

/-- A node whose cache is set returns the cached string and does not change. -/
theorem ModalNode.modalToString_cached : ∀ (t : ModalNode) (s : String), t.cache = some s →
    t.toString = (s, t)
  | .patom (some _) _, s, h => by cases h; rfl
  | .not (some _) _, s, h => by cases h; rfl
  | .binary (some _) _ _ _, s, h => by cases h; rfl

/-- The nodes that the constructors build are consistent and have the tree they were built
for. -/
theorem CPLNode.ofTree_spec : ∀ f : CPLFormula,
    (CPLNode.ofTree f).consistent = true ∧ (CPLNode.ofTree f).tree = f
  | .var _ => ⟨rfl, rfl⟩
  | .not l => by
    simp [CPLNode.ofTree, CPLNode.consistent, cacheHolds, CPLNode.tree,
      CPLNode.ofTree_spec l]
  | .binary _ l r => by
    simp [CPLNode.ofTree, CPLNode.consistent, cacheHolds, CPLNode.tree,
      CPLNode.ofTree_spec l, CPLNode.ofTree_spec r]

/-- The nodes that the constructors build are consistent and have the tree they were built
for. -/
theorem ModalNode.modalOfTree_spec : ∀ f : ModalFormula,
    (ModalNode.ofTree f).consistent = true ∧ (ModalNode.ofTree f).tree = f
  | .patom phi => by
    simp [ModalNode.ofTree, ModalNode.consistent, cacheHolds, ModalNode.tree,
      CPLNode.consistent_clone, CPLNode.tree_clone, CPLNode.ofTree_spec phi]
  | .not l => by
    simp [ModalNode.ofTree, ModalNode.consistent, cacheHolds, ModalNode.tree,
      ModalNode.modalOfTree_spec l]
  | .binary _ l r => by
    simp [ModalNode.ofTree, ModalNode.consistent, cacheHolds, ModalNode.tree,
      ModalNode.modalOfTree_spec l, ModalNode.modalOfTree_spec r]

/-- C16: canonical-id stability. For every CPL node `t` and modal node `m` in a state the
program can reach (every cache that is set holds the canonical string of its node),
`clone` returns a node with the same tree, `toString` of the clone equals `toString` of the
node, a second call of `toString` on the same node (served from the cache) returns the same
string as the first, and that string is the canonical string of the tree. -/
theorem canonical_id_stability (t : CPLNode) (m : ModalNode)
    (ht : t.consistent = true) (hm : m.consistent = true) :
    (t.clone.tree = t.tree ∧ t.clone.toString.1 = t.toString.1 ∧
      t.toString.2.toString.1 = t.toString.1 ∧ t.toString.1 = t.tree.toString) ∧
    (m.clone.tree = m.tree ∧ m.clone.toString.1 = m.toString.1 ∧
      m.toString.2.toString.1 = m.toString.1 ∧ m.toString.1 = m.tree.toString) := by
  obtain ⟨h1, _, _, h4⟩ := CPLNode.toString_spec t ht
  obtain ⟨c1, _, _, _⟩ := CPLNode.toString_spec t.clone (CPLNode.consistent_clone t)
  obtain ⟨k1, _, _, k4⟩ := ModalNode.modalToString_spec m hm
  obtain ⟨d1, _, _, _⟩ :=
    ModalNode.modalToString_spec m.clone (ModalNode.modalConsistent_clone m)
  refine ⟨⟨CPLNode.tree_clone t, ?_, ?_, h1⟩, ⟨ModalNode.modalTree_clone m, ?_, ?_, k1⟩⟩
  · rw [c1, h1, CPLNode.tree_clone]
  · rw [CPLNode.toString_cached _ _ h4]
  · rw [d1, k1, ModalNode.modalTree_clone]
  · rw [ModalNode.modalToString_cached _ _ k4]

/-- The hypotheses of `canonical_id_stability` hold for the nodes of `p ∧ q` and
`¬P(p ∧ q)` as the constructors build them. -/
theorem canonical_id_stability_witness :
    ((CPLNode.ofTree (.binary .AND (.var "p") (.var "q"))).consistent = true ∧
      (ModalNode.ofTree (.not (.patom (.binary .AND (.var "p") (.var "q"))))).consistent
        = true) ∧
    (ModalNode.ofTree (.not (.patom (.binary .AND (.var "p") (.var "q"))))).clone.toString.1
      = (ModalNode.ofTree
          (.not (.patom (.binary .AND (.var "p") (.var "q"))))).toString.1 :=
  ⟨⟨by decide, by decide⟩,
    (canonical_id_stability (CPLNode.ofTree (.binary .AND (.var "p") (.var "q")))
      (ModalNode.ofTree (.not (.patom (.binary .AND (.var "p") (.var "q")))))
      (by decide) (by decide)).2.2.1⟩

end Cache

/-! ## Theorems: the complete system -/

section FullSystem

/-- C1 (the code departs from the claim): the input `¬¬P(p)` is satisfiable in FP(Ł) (put the
whole mass on the valuation `p = 1`), yet the complete system that `solve` builds for it has
no solution: the `NOT` rows read `x(¬P(p)) = 1 + x(P(p))` and
`x(¬¬P(p)) = 1 + x(¬P(p))`, so the assertion `x(¬¬P(p)) = 1` forces `x(P(p)) = −1`. -/
theorem full_system_rejects_double_negation :
    FPSatisfiable ℚ doubleNegation ∧
      ∃ lp, fullSystem doubleNegation = some lp ∧ ¬ ∃ v : Nat → ℚ, lp.Solution v := by
  refine ⟨⟨[0, 1], by with_unfolding_all decide, ?_, by norm_num, ?_⟩, ?_⟩
  · intro p hp
    simp only [List.mem_cons, List.mem_singleton, List.not_mem_nil, or_false] at hp
    rcases hp with hp | hp
    · rw [hp]
    · rw [hp]; norm_num
  · with_unfolding_all decide
  · refine ⟨_, rfl, ?_⟩
    rintro ⟨v, hfeas, _, hslack⟩
    have r0 := hfeas.2 ⟨some 1, [(0, -1), (1, 1), (3, 1)], some 1⟩ (by with_unfolding_all decide)
    have r1 := hfeas.2 ⟨some 1, [(1, -1), (2, 1), (4, 1)], some 1⟩ (by with_unfolding_all decide)
    have r2 := hfeas.2 ⟨some 1, [(2, 1), (5, 1)], some 1⟩ (by with_unfolding_all decide)
    have b0 := hfeas.1 0 ⟨0, some 1, some 0⟩ (by with_unfolding_all decide)
    have s3 := hslack 3 "i(0)" (by with_unfolding_all decide) (by with_unfolding_all decide)
    have s4 := hslack 4 "i(1)" (by with_unfolding_all decide) (by with_unfolding_all decide)
    have s5 := hslack 5 "i(2)" (by with_unfolding_all decide) (by with_unfolding_all decide)
    simp [LPRow.sat, LPRow.value, s3, s4, s5] at r0 r1 r2
    simp [LPCol.inBounds] at b0
    linarith [r0.1, r0.2, r1.1, r1.2, r2.1, r2.2, b0.1]

end FullSystem

end FPLSol
